import Mathlib

/-!
# Order book matching engine: embedding and verified properties

A shallow embedding of `Orderbook.cpp` / `Order.hpp` / `Usings.hpp`.

* `Price` is `std::int32_t`; the engine only compares prices, so it is an `Int`.
* `Quantity` is `std::uint32_t`; it is a `Nat` and every operation that can leave
  the range is reduced modulo `2^32` explicitly.
* `OrderId` is `std::uint64_t`; the engine only compares ids, so it is a `Nat`.
* A C++ exception or an undefined access is a `Fault` returned through `Except`.
* `std::map` ladders are key-ordered association lists, the unordered containers
  are association lists whose order is never observed by the engine.
* An `Order` object is shared (through `std::shared_ptr`) by its price level and by
  the id index.  The embedding keeps a copy in both places and writes every
  mutation of the object (`Fill`, `ToGoodTillCancel`) through to both.
-/

namespace TradingEngine

/-! ## Primitive types (`Usings.hpp`)

`Price` is written `Int`, `Quantity` and `OrderId` are written `Nat`. -/

abbrev OrderIds := List Nat

/-- Number of values of a `std::uint32_t`. -/
def quantityModulus : Nat := 4294967296

/-- Exceptions and undefined accesses of the C++ code. -/
inductive Fault where
  | overfill          -- `std::logic_error` of `Order::Fill`
  | notMarket         -- `std::logic_error` of `Order::ToGoodTillCancel`
  | outOfRange        -- `std::out_of_range` of `map::at`
  | emptyLevel        -- `front()` of an empty price level
  | danglingIterator  -- `list::erase` of an order that is not in the level
  | outOfFuel         -- the loop bound of the embedding was exhausted
  deriving DecidableEq, Repr

instance instDecidableEqExcept {ε α : Type} [DecidableEq ε] [DecidableEq α] :
    DecidableEq (Except ε α) := fun a b =>
  match a, b with
  | .ok x, .ok y =>
    if h : x = y then isTrue (by rw [h]) else isFalse (fun h1 => h (by cases h1; rfl))
  | .error x, .error y =>
    if h : x = y then isTrue (by rw [h]) else isFalse (fun h1 => h (by cases h1; rfl))
  | .ok _, .error _ => isFalse (fun h => by cases h)
  | .error _, .ok _ => isFalse (fun h => by cases h)

/-- Modelled from the spec: the enumeration `Side` of the missing `Side.hpp`
(spec section 3: Side is Buy or Sell). -/
inductive Side where
  | Buy
  | Sell
  deriving DecidableEq, Repr

/-- Modelled from the spec: the enumeration `OrderType` of the missing
`OrderType.hpp` (spec section 3). -/
inductive OrderType where
  | GoodTillCancel
  | GoodForDay
  | Market
  | FillAndKill
  | FillOrKill
  deriving DecidableEq, Repr

/-! ## Order record (`Order.hpp`) -/

structure Order where
  orderType_ : OrderType
  orderId_ : Nat
  side_ : Side
  price_ : Int
  initialQuantity_ : Nat
  remainingQuantity_ : Nat
  deriving DecidableEq, Repr

/-- The constructor `Order(orderType, orderId, side, price, quantity)`. -/
def Order.new (orderType : OrderType) (orderId : Nat) (side : Side) (price : Int)
    (quantity : Nat) : Order :=
  { orderType_ := orderType, orderId_ := orderId, side_ := side, price_ := price,
    initialQuantity_ := quantity, remainingQuantity_ := quantity }

def Order.GetOrderId (o : Order) : Nat := o.orderId_
def Order.GetSide (o : Order) : Side := o.side_
def Order.GetPrice (o : Order) : Int := o.price_
def Order.GetOrderType (o : Order) : OrderType := o.orderType_
def Order.GetInitialQuantity (o : Order) : Nat := o.initialQuantity_
def Order.GetRemainingQuantity (o : Order) : Nat := o.remainingQuantity_

/-- `GetFilledQuantity`: an unsigned 32-bit subtraction. -/
def Order.GetFilledQuantity (o : Order) : Nat :=
  (o.GetInitialQuantity + (quantityModulus - o.GetRemainingQuantity % quantityModulus))
    % quantityModulus

def Order.IsFilled (o : Order) : Bool := o.GetRemainingQuantity == 0

/-- `Order::Fill`: throws when asked for more than the remaining quantity. -/
def Order.Fill (o : Order) (quantity : Nat) : Except Fault Order :=
  if quantity > o.GetRemainingQuantity then .error Fault.overfill
  else .ok { o with remainingQuantity_ := o.remainingQuantity_ - quantity }

/-- `Order::ToGoodTillCancel`: throws unless the order is a market order. -/
def Order.ToGoodTillCancel (o : Order) (price : Int) : Except Fault Order :=
  if o.GetOrderType ≠ OrderType.Market then .error Fault.notMarket
  else .ok { o with price_ := price, orderType_ := OrderType.GoodTillCancel }

abbrev OrderPointer := Option Order
abbrev OrderPointers := List Order

/-- Modelled from the spec: `OrderModify` of the missing `OrderModify.hpp`
(spec section 4.1: Modify(id, new_side, new_price, new_quantity)). -/
structure OrderModify where
  orderId_ : Nat
  side_ : Side
  price_ : Int
  quantity_ : Nat
  deriving DecidableEq, Repr

def OrderModify.GetOrderId (m : OrderModify) : Nat := m.orderId_

/-- Modelled from the spec: `OrderModify::ToOrderPointer` of the missing
`OrderModify.hpp`; spec section 4.1: a new order with the same id, the
caller's side, price and quantity, and the given (original) type. -/
def OrderModify.ToOrderPointer (m : OrderModify) (type : OrderType) : Order :=
  Order.new type m.orderId_ m.side_ m.price_ m.quantity_

/-! ## Trades (shape used by `MatchOrders` and the tests) -/

/-- Modelled from the spec: `TradeInfo` of the missing `TradeInfo.hpp`
(spec section 3, trade record: order id, price, filled quantity). -/
structure TradeInfo where
  orderId_ : Nat
  price_ : Int
  quantity_ : Nat
  deriving DecidableEq, Repr

/-- Modelled from the spec: `Trade` of the missing `Trade.hpp`
(spec section 3: a bid side and an ask side). -/
structure Trade where
  bidTrade_ : TradeInfo
  askTrade_ : TradeInfo
  deriving DecidableEq, Repr

def Trade.GetBidTrade (t : Trade) : TradeInfo := t.bidTrade_
def Trade.GetAskTrade (t : Trade) : TradeInfo := t.askTrade_

abbrev Trades := List Trade

/-! ## Level information (`LevelInfo.hpp`) -/

structure LevelInfo where
  price_ : Int
  quantity_ : Nat
  deriving DecidableEq, Repr

abbrev LevelInfos := List LevelInfo

/-- Modelled from the spec: `OrderbookLevelInfos` of the missing
`OrderbookLevelInfos.hpp` (spec section 4.1: Snapshot returns the bid levels
and the ask levels). -/
structure OrderbookLevelInfos where
  bids_ : LevelInfos
  asks_ : LevelInfos
  deriving DecidableEq, Repr

def OrderbookLevelInfos.GetBids (i : OrderbookLevelInfos) : LevelInfos := i.bids_
def OrderbookLevelInfos.GetAsks (i : OrderbookLevelInfos) : LevelInfos := i.asks_

/-! ## Book state (`Orderbook.hpp` is not among the sources) -/

/-- Modelled from the spec: `LevelData::Action` of the missing `Orderbook.hpp`;
the three values used by `UpdateLevelData`. -/
inductive Action where
  | Add
  | Remove
  | Match
  deriving DecidableEq, Repr

/-- Modelled from the spec: `LevelData` of the missing `Orderbook.hpp`
(spec section 3: a mapping Price to {count, quantity}).  Both fields are taken
to be of type `Quantity`, an unsigned 32-bit integer. -/
structure LevelData where
  quantity_ : Nat
  count_ : Nat
  deriving DecidableEq, Repr

/-- A `std::map<Price, OrderPointers, Compare>`: the levels in iteration order. -/
abbrev Ladder := List (Int × OrderPointers)

/-- The `std::unordered_map<Price, LevelData>` of aggregate statistics. -/
abbrev LevelDataMap := List (Int × LevelData)

/-- The `std::unordered_map<OrderId, OrderEntry>`; the iterator of an entry is
implicit (the entry's order is looked up by id inside its level). -/
abbrev OrderIndex := List (Nat × Order)

/-- Modelled from the spec: the data members of `Orderbook` declared in the
missing `Orderbook.hpp` and used throughout `Orderbook.cpp` (spec section 3:
bid ladder descending, ask ladder ascending, id index, aggregate statistics,
day-order set). -/
structure Orderbook where
  data_ : LevelDataMap
  bids_ : Ladder
  asks_ : Ladder
  orders_ : OrderIndex
  goodForDayOrders_ : List Nat
  deriving DecidableEq, Repr

/-- The book right after construction. -/
def Orderbook.empty : Orderbook :=
  { data_ := [], bids_ := [], asks_ := [], orders_ := [], goodForDayOrders_ := [] }

/-! ### Container operations -/

/-- Key order of the bid ladder (`std::greater<Price>`). -/
def bidBefore (a b : Int) : Bool := decide (a > b)

/-- Key order of the ask ladder (`std::less<Price>`). -/
def askBefore (a b : Int) : Bool := decide (a < b)

/-- The statement pair `auto &orders = ladder[price]; orders.push_back(order);`. -/
def ladderPushBack (before : Int → Int → Bool) (price : Int) (order : Order) :
    Ladder → Ladder
  | [] => [(price, [order])]
  | (p, orders) :: rest =>
    if p = price then (p, orders ++ [order]) :: rest
    else if before price p then (price, [order]) :: (p, orders) :: rest
    else (p, orders) :: ladderPushBack before price order rest

/-- Lookup `ladder.find(price)`. -/
def ladderFind (price : Int) : Ladder → Option OrderPointers
  | [] => none
  | (p, orders) :: rest => if p = price then some orders else ladderFind price rest

/-- Erasure `ladder.erase(price)`. -/
def ladderErase (price : Int) : Ladder → Ladder
  | [] => []
  | (p, orders) :: rest =>
    if p = price then ladderErase price rest else (p, orders) :: ladderErase price rest

/-- Assignment to the level obtained by `ladder.at(price)`. -/
def ladderSet (price : Int) (orders : OrderPointers) : Ladder → Ladder
  | [] => []
  | (p, os) :: rest =>
    if p = price then (p, orders) :: rest else (p, os) :: ladderSet price orders rest

/-- The last key in iteration order, `ladder.rbegin()->first`. -/
def ladderLastPrice : Ladder → Option Int
  | [] => none
  | [(p, _)] => some p
  | _ :: rest => ladderLastPrice rest

/-- Removal of the list node of the order with the given id, `orders.erase(iterator)`. -/
def levelErase (orderId : Nat) : OrderPointers → OrderPointers
  | [] => []
  | o :: rest => if o.orderId_ = orderId then rest else o :: levelErase orderId rest

def levelContains (orderId : Nat) (orders : OrderPointers) : Bool :=
  orders.any (fun o => decide (o.orderId_ = orderId))

def indexFind (orderId : Nat) : OrderIndex → Option Order
  | [] => none
  | (k, o) :: rest => if k = orderId then some o else indexFind orderId rest

def indexErase (orderId : Nat) (m : OrderIndex) : OrderIndex :=
  m.filter (fun e => decide (e.1 ≠ orderId))

/-- Write-through of a mutated order object to the index entry that shares it. -/
def indexWrite (o : Order) (m : OrderIndex) : OrderIndex :=
  m.map (fun e => if e.1 = o.orderId_ then (e.1, o) else e)

def dataFind (price : Int) : LevelDataMap → Option LevelData
  | [] => none
  | (p, d) :: rest => if p = price then some d else dataFind price rest

def dataErase (price : Int) (m : LevelDataMap) : LevelDataMap :=
  m.filter (fun e => decide (e.1 ≠ price))

/-- Assignment through the reference returned by `data_[price]`. -/
def dataSet (price : Int) (d : LevelData) : LevelDataMap → LevelDataMap
  | [] => [(price, d)]
  | (p, x) :: rest => if p = price then (p, d) :: rest else (p, x) :: dataSet price d rest

def setInsert (orderId : Nat) (s : List Nat) : List Nat :=
  if orderId ∈ s then s else orderId :: s

def setErase (orderId : Nat) (s : List Nat) : List Nat :=
  s.filter (fun k => decide (k ≠ orderId))

/-! ### Aggregate statistics -/

/-- `Orderbook::UpdateLevelData` on the aggregate table. -/
def UpdateLevelData (data : LevelDataMap) (price : Int) (quantity : Nat)
    (action : Action) : LevelDataMap :=
  let d : LevelData := (dataFind price data).getD { quantity_ := 0, count_ := 0 }
  let count : Nat :=
    match action with
    | Action.Remove => (d.count_ + (quantityModulus - 1)) % quantityModulus
    | Action.Add => (d.count_ + 1) % quantityModulus
    | Action.Match => d.count_
  let qty : Nat :=
    if action = Action.Remove ∨ action = Action.Match then
      (d.quantity_ + (quantityModulus - quantity % quantityModulus)) % quantityModulus
    else (d.quantity_ + quantity) % quantityModulus
  if count = 0 then dataErase price data
  else dataSet price { quantity_ := qty, count_ := count } data

def OnOrderCancelled (data : LevelDataMap) (order : Order) : LevelDataMap :=
  UpdateLevelData data order.GetPrice order.GetRemainingQuantity Action.Remove

def OnOrderAdded (data : LevelDataMap) (order : Order) : LevelDataMap :=
  UpdateLevelData data order.GetPrice order.GetInitialQuantity Action.Add

def OnOrderMatched (data : LevelDataMap) (price : Int) (quantity : Nat)
    (isFullyFilled : Bool) : LevelDataMap :=
  UpdateLevelData data price quantity (if isFullyFilled then Action.Remove else Action.Match)

namespace Orderbook

/-- `Orderbook::CanMatch`. -/
def CanMatch (s : Orderbook) (side : Side) (price : Int) : Bool :=
  match side with
  | Side.Buy =>
    match s.asks_ with
    | [] => false
    | (bestAsk, _) :: _ => decide (price ≥ bestAsk)
  | Side.Sell =>
    match s.bids_ with
    | [] => false
    | (bestBid, _) :: _ => decide (price ≤ bestBid)

/-- The `for` loop of `Orderbook::CanFullyFill` over the aggregate table. -/
def canFullyFillLoop (side : Side) (price : Int) (threshold : Option Int) :
    LevelDataMap → Nat → Bool
  | [], _ => false
  | (levelPrice, levelData) :: rest, quantity =>
    match threshold with
    | some t =>
      if (side = Side.Buy ∧ t > levelPrice) ∨ (side = Side.Sell ∧ t < levelPrice) then
        canFullyFillLoop side price threshold rest quantity
      else if (side = Side.Buy ∧ levelPrice > price) ∨ (side = Side.Sell ∧ levelPrice < price) then
        canFullyFillLoop side price threshold rest quantity
      else if quantity ≤ levelData.quantity_ then true
      else canFullyFillLoop side price threshold rest (quantity - levelData.quantity_)
    | none =>
      if (side = Side.Buy ∧ levelPrice > price) ∨ (side = Side.Sell ∧ levelPrice < price) then
        canFullyFillLoop side price threshold rest quantity
      else if quantity ≤ levelData.quantity_ then true
      else canFullyFillLoop side price threshold rest (quantity - levelData.quantity_)

/-- `Orderbook::CanFullyFill`. -/
def CanFullyFill (s : Orderbook) (side : Side) (price : Int) (quantity : Nat) : Bool :=
  if ¬ s.CanMatch side price then false
  else
    let threshold : Option Int :=
      match side with
      | Side.Buy => s.asks_.head?.map Prod.fst
      | Side.Sell => s.bids_.head?.map Prod.fst
    canFullyFillLoop side price threshold s.data_ quantity

/-- The body of the side branch of `CancelOrderInternal`:
`auto &orders = ladder.at(price); orders.erase(iterator);
if (orders.empty()) ladder.erase(price);`. -/
def ladderCancel (ladder : Ladder) (price : Int) (orderId : Nat) : Except Fault Ladder :=
  match ladderFind price ladder with
  | none => .error Fault.outOfRange
  | some orders =>
    if levelContains orderId orders then
      let orders1 := levelErase orderId orders
      if orders1.isEmpty then .ok (ladderErase price ladder)
      else .ok (ladderSet price orders1 ladder)
    else .error Fault.danglingIterator

/-- `Orderbook::CancelOrderInternal`. -/
def CancelOrderInternal (s : Orderbook) (orderId : Nat) : Except Fault Orderbook :=
  match indexFind orderId s.orders_ with
  | none => .ok s
  | some order =>
    let orders1 := indexErase orderId s.orders_
    let gfd1 :=
      if order.GetOrderType = OrderType.GoodForDay then setErase orderId s.goodForDayOrders_
      else s.goodForDayOrders_
    if order.GetSide = Side.Sell then
      match ladderCancel s.asks_ order.GetPrice orderId with
      | .error e => .error e
      | .ok asks1 =>
        .ok { s with orders_ := orders1, goodForDayOrders_ := gfd1, asks_ := asks1,
                     data_ := OnOrderCancelled s.data_ order }
    else
      match ladderCancel s.bids_ order.GetPrice orderId with
      | .error e => .error e
      | .ok bids1 =>
        .ok { s with orders_ := orders1, goodForDayOrders_ := gfd1, bids_ := bids1,
                     data_ := OnOrderCancelled s.data_ order }

/-- `Orderbook::CancelOrders`: the loop over the given ids. -/
def CancelOrders (s : Orderbook) : OrderIds → Except Fault Orderbook
  | [] => .ok s
  | orderId :: rest =>
    match s.CancelOrderInternal orderId with
    | .error e => .error e
    | .ok s1 => CancelOrders s1 rest

/-- `Orderbook::CancelOrder`. -/
def CancelOrder (s : Orderbook) (orderId : Nat) : Except Fault Orderbook :=
  s.CancelOrderInternal orderId

/-- The state of the inner `while` loop of `MatchOrders`: the two price levels
referenced by `bids` and `asks`, the index, the aggregate table and the trades. -/
structure LevelMatch where
  bids : OrderPointers
  asks : OrderPointers
  orders_ : OrderIndex
  data_ : LevelDataMap
  trades : Trades
  deriving DecidableEq, Repr

/-- The inner loop `while (!bids.empty() && !asks.empty())` of `MatchOrders`.
The first argument bounds the number of iterations. -/
def matchLevel : Nat → LevelMatch → Except Fault LevelMatch
  | fuel, m =>
    match m.bids, m.asks with
    | [], _ => .ok m
    | _ :: _, [] => .ok m
    | bid0 :: bidsTail, ask0 :: asksTail =>
      match fuel with
      | 0 => .error Fault.outOfFuel
      | fuel1 + 1 =>
        let quantity : Nat := min bid0.GetRemainingQuantity ask0.GetRemainingQuantity
        match bid0.Fill quantity with
        | .error e => .error e
        | .ok bid =>
          match ask0.Fill quantity with
          | .error e => .error e
          | .ok ask =>
            -- the filled objects are shared with the level heads and the index
            let bids1 := if bid.IsFilled then bidsTail else bid :: bidsTail
            let orders1 :=
              if bid.IsFilled then indexErase bid.GetOrderId m.orders_
              else indexWrite bid m.orders_
            let asks1 := if ask.IsFilled then asksTail else ask :: asksTail
            let orders2 :=
              if ask.IsFilled then indexErase ask.GetOrderId orders1
              else indexWrite ask orders1
            let trades1 := m.trades ++
              [{ bidTrade_ := { orderId_ := bid.GetOrderId, price_ := bid.GetPrice,
                                quantity_ := quantity },
                 askTrade_ := { orderId_ := ask.GetOrderId, price_ := ask.GetPrice,
                                quantity_ := quantity } }]
            let data1 := OnOrderMatched m.data_ bid.GetPrice quantity bid.IsFilled
            let data2 := OnOrderMatched data1 ask.GetPrice quantity ask.IsFilled
            matchLevel fuel1
              { bids := bids1, asks := asks1, orders_ := orders2, data_ := data2,
                trades := trades1 }

/-- The outer loop `while (true)` of `MatchOrders`.  The first argument bounds the
number of iterations.  `bids_.erase(bidPrice)` erases the first level of the
ladder, because `bidPrice` is the key of `bids_.begin()` and keys are unique; the
following `data_.erase(bidPrice)` reads the key through a reference into the node
just erased and is taken to erase the entry of that same key. -/
def matchLoop : Nat → Orderbook → Trades → Except Fault (Orderbook × Trades)
  | fuel, s, trades =>
    match s.bids_, s.asks_ with
    | [], _ => .ok (s, trades)
    | _ :: _, [] => .ok (s, trades)
    | (bidPrice, bids) :: bidsRest, (askPrice, asks) :: asksRest =>
      if bidPrice < askPrice then .ok (s, trades)
      else
        match fuel with
        | 0 => .error Fault.outOfFuel
        | fuel1 + 1 =>
          match matchLevel (bids.length + asks.length)
              { bids := bids, asks := asks, orders_ := s.orders_, data_ := s.data_,
                trades := trades } with
          | .error e => .error e
          | .ok m =>
            let bids1 : Ladder := if m.bids.isEmpty then bidsRest else (bidPrice, m.bids) :: bidsRest
            let data1 := if m.bids.isEmpty then dataErase bidPrice m.data_ else m.data_
            let asks1 : Ladder := if m.asks.isEmpty then asksRest else (askPrice, m.asks) :: asksRest
            let data2 := if m.asks.isEmpty then dataErase askPrice data1 else data1
            matchLoop fuel1
              { s with bids_ := bids1, asks_ := asks1, orders_ := m.orders_, data_ := data2 }
              m.trades

/-- One of the two tail blocks of `MatchOrders`: when the ladder is not empty and
the order at the front of its first level is a FillAndKill order, cancel it. -/
def cancelFillAndKillHead (s : Orderbook) (ladder : Ladder) : Except Fault Orderbook :=
  match ladder with
  | [] => .ok s
  | (_, []) :: _ => .error Fault.emptyLevel
  | (_, order :: _) :: _ =>
    if order.GetOrderType = OrderType.FillAndKill then s.CancelOrderInternal order.GetOrderId
    else .ok s

/-- `Orderbook::MatchOrders`. -/
def MatchOrders (s : Orderbook) : Except Fault (Trades × Orderbook) :=
  match matchLoop (s.bids_.length + s.asks_.length) s [] with
  | .error e => .error e
  | .ok (s1, trades) =>
    match cancelFillAndKillHead s1 s1.bids_ with
    | .error e => .error e
    | .ok s2 =>
      match cancelFillAndKillHead s2 s2.asks_ with
      | .error e => .error e
      | .ok s3 => .ok (trades, s3)

/-- `Orderbook::AddOrder`.  A null pointer is `none`. -/
def AddOrder (s : Orderbook) (order : OrderPointer) : Except Fault (Trades × Orderbook) :=
  match order with
  | none => .ok ([], s)
  | some order0 =>
    if order0.GetInitialQuantity = 0 then .ok ([], s)
    else if order0.GetPrice < 0 ∨ order0.GetPrice > 1000000 then .ok ([], s)
    else
      match indexFind order0.GetOrderId s.orders_ with
      | some _ => .ok ([], s)
      | none =>
        let inserted : OrderIndex := (order0.GetOrderId, order0) :: s.orders_
        -- the Market branch; `none` stands for the rejecting `else`
        let promoted : Except Fault (Option Order) :=
          if order0.GetOrderType = OrderType.Market then
            if order0.GetSide = Side.Buy ∧ ¬ s.asks_ = [] then
              match ladderLastPrice s.asks_ with
              | some worstAsk => (order0.ToGoodTillCancel worstAsk).map some
              | none => .ok none
            else if order0.GetSide = Side.Sell ∧ ¬ s.bids_ = [] then
              match ladderLastPrice s.bids_ with
              | some worstBid => (order0.ToGoodTillCancel worstBid).map some
              | none => .ok none
            else .ok none
          else .ok (some order0)
        match promoted with
        | .error e => .error e
        | .ok none => .ok ([], { s with orders_ := indexErase order0.GetOrderId inserted })
        | .ok (some order1) =>
          let s1 : Orderbook := { s with orders_ := indexWrite order1 inserted }
          let s2 : Orderbook :=
            if order1.GetOrderType = OrderType.GoodForDay then
              { s1 with goodForDayOrders_ := setInsert order1.GetOrderId s1.goodForDayOrders_ }
            else s1
          if order1.GetOrderType = OrderType.FillAndKill
              ∧ ¬ s2.CanMatch order1.GetSide order1.GetPrice then
            .ok ([], { s2 with orders_ := indexErase order1.GetOrderId s2.orders_ })
          else if order1.GetOrderType = OrderType.FillOrKill
              ∧ ¬ s2.CanFullyFill order1.GetSide order1.GetPrice order1.GetInitialQuantity then
            .ok ([], { s2 with orders_ := indexErase order1.GetOrderId s2.orders_ })
          else
            let s3 : Orderbook :=
              if order1.GetSide = Side.Buy then
                { s2 with bids_ := ladderPushBack bidBefore order1.GetPrice order1 s2.bids_ }
              else
                { s2 with asks_ := ladderPushBack askBefore order1.GetPrice order1 s2.asks_ }
            MatchOrders { s3 with data_ := OnOrderAdded s3.data_ order1 }

/-- `Orderbook::ModifyOrder`. -/
def ModifyOrder (s : Orderbook) (order : OrderModify) : Except Fault (Trades × Orderbook) :=
  match indexFind order.GetOrderId s.orders_ with
  | none => .ok ([], s)
  | some existingOrder =>
    let orderType := existingOrder.GetOrderType
    match s.CancelOrder order.GetOrderId with
    | .error e => .error e
    | .ok s1 => s1.AddOrder (some (order.ToOrderPointer orderType))

/-- `Orderbook::OrderExists`. -/
def OrderExists (s : Orderbook) (orderId : Nat) : Bool :=
  (indexFind orderId s.orders_).isSome

/-- `Orderbook::Size`. -/
def Size (s : Orderbook) : Nat := s.orders_.length

/-- The lambda `CreateLevelInfos` of `GetOrderInfos`: a `Quantity` accumulator. -/
def CreateLevelInfos (price : Int) (orders : OrderPointers) : LevelInfo :=
  { price_ := price,
    quantity_ := orders.foldl
      (fun runningSum order => (runningSum + order.GetRemainingQuantity) % quantityModulus) 0 }

/-- `Orderbook::GetOrderInfos`. -/
def GetOrderInfos (s : Orderbook) : OrderbookLevelInfos :=
  { bids_ := s.bids_.map (fun l => CreateLevelInfos l.1 l.2),
    asks_ := s.asks_.map (fun l => CreateLevelInfos l.1 l.2) }

/-- The cancellation burst of `PruneGoodForDayOrders` after the timed wait:
`CancelOrders` on a copy of the day-order set. -/
def expireGoodForDay (s : Orderbook) : Except Fault Orderbook :=
  s.CancelOrders s.goodForDayOrders_

end Orderbook

/-! ## Reachable books and their invariant -/

/-- The orders of a ladder in priority order: best price level first and,
inside a level, in arrival order. -/
def ladderOrders : Ladder → List Order
  | [] => []
  | (_, orders) :: rest => orders ++ ladderOrders rest

/-- All resting orders: the bid ladder followed by the ask ladder. -/
def restingOrders (s : Orderbook) : List Order :=
  ladderOrders s.bids_ ++ ladderOrders s.asks_

/-- Sum of the remaining quantities of a list of orders (no wrap-around). -/
def totalRemaining (orders : List Order) : Nat :=
  (orders.map Order.remainingQuantity_).sum

/-- The contra ladder of an order. -/
def contraLadder (s : Orderbook) (side : Side) : Ladder :=
  match side with
  | Side.Buy => s.asks_
  | Side.Sell => s.bids_

/-- The ladder of an order's own side. -/
def ownLadder (s : Orderbook) (side : Side) : Ladder :=
  match side with
  | Side.Buy => s.bids_
  | Side.Sell => s.asks_

/-- The index entry that belongs to a resting order. -/
def indexEntry (o : Order) : Nat × Order := (o.orderId_, o)

/-- An order object as a caller hands it to `AddOrder`: fresh from the
constructor (nothing filled yet) with a quantity that fits `Quantity`. -/
def Order.IsNew (o : Order) : Prop :=
  o.remainingQuantity_ = o.initialQuantity_ ∧ o.initialQuantity_ < quantityModulus

instance (o : Order) : Decidable o.IsNew := by
  unfold Order.IsNew; exact inferInstance

/-- The books reachable from the empty book through the public operations and
the expiry burst. -/
inductive Reachable : Orderbook → Prop
  | empty : Reachable Orderbook.empty
  | add (s s1 : Orderbook) (o : Order) (trades : Trades) :
      Reachable s → o.IsNew → s.AddOrder (some o) = .ok (trades, s1) → Reachable s1
  | cancel (s s1 : Orderbook) (orderId : Nat) :
      Reachable s → s.CancelOrder orderId = .ok s1 → Reachable s1
  | modify (s s1 : Orderbook) (m : OrderModify) (trades : Trades) :
      Reachable s → m.quantity_ < quantityModulus →
      s.ModifyOrder m = .ok (trades, s1) → Reachable s1
  | expire (s s1 : Orderbook) :
      Reachable s → s.expireGoodForDay = .ok s1 → Reachable s1

/-- What holds of every resting order. -/
structure RestingOK (o : Order) : Prop where
  pos : 0 < o.remainingQuantity_
  le : o.remainingQuantity_ ≤ o.initialQuantity_
  fits : o.initialQuantity_ < quantityModulus
  notMarket : o.orderType_ ≠ OrderType.Market
  priceLo : 0 ≤ o.price_
  priceHi : o.price_ ≤ 1000000

/-- Well-formedness of one ladder: keys strictly ordered by the comparator, no
empty level, every order at the level of its price and on the side of the ladder. -/
structure LadderInv (side : Side) (before : Int → Int → Prop) (l : Ladder) : Prop where
  sorted : l.Pairwise (fun x y => before x.1 y.1)
  nonempty : ∀ lv ∈ l, lv.2 ≠ []
  orders : ∀ lv ∈ l, ∀ o ∈ lv.2, o.price_ = lv.1 ∧ o.side_ = side ∧ RestingOK o

/-- The structural invariant of the ladders and the index (the aggregate table
and the day-order set are not constrained by it). -/
structure Inv (s : Orderbook) : Prop where
  bids : LadderInv Side.Buy (fun a b => a > b) s.bids_
  asks : LadderInv Side.Sell (fun a b => a < b) s.asks_
  nocross : ∀ b ∈ s.bids_, ∀ a ∈ s.asks_, b.1 < a.1
  index : s.orders_.Perm ((restingOrders s).map indexEntry)
  ids : ((restingOrders s).map Order.orderId_).Nodup

/-- No FillAndKill order rests in the book. -/
def NoFillAndKill (s : Orderbook) : Prop :=
  ∀ o ∈ restingOrders s, o.orderType_ ≠ OrderType.FillAndKill

/-- The book after the admission steps of `AddOrder` for the (promoted) order
`o1`: index entry, day-order registration, push on its level, statistics. -/
def pushed (s : Orderbook) (o1 : Order) : Orderbook :=
  { data_ := OnOrderAdded s.data_ o1,
    bids_ := if o1.side_ = Side.Buy then ladderPushBack bidBefore o1.price_ o1 s.bids_
             else s.bids_,
    asks_ := if o1.side_ = Side.Buy then s.asks_
             else ladderPushBack askBefore o1.price_ o1 s.asks_,
    orders_ := (o1.orderId_, o1) :: s.orders_,
    goodForDayOrders_ :=
      if o1.orderType_ = OrderType.GoodForDay then setInsert o1.orderId_ s.goodForDayOrders_
      else s.goodForDayOrders_ }

/-- The admission decision of `AddOrder`: `none` when the order is rejected,
otherwise the order as it enters the book (a market order re-priced and promoted). -/
def admission (s : Orderbook) (o : Order) : Option Order :=
  if o.initialQuantity_ = 0 then none
  else if o.price_ < 0 ∨ o.price_ > 1000000 then none
  else if (indexFind o.orderId_ s.orders_).isSome then none
  else
    match o.orderType_ with
    | OrderType.Market =>
      (ladderLastPrice (contraLadder s o.side_)).map
        (fun w => { o with price_ := w, orderType_ := OrderType.GoodTillCancel })
    | OrderType.FillAndKill => if s.CanMatch o.side_ o.price_ then some o else none
    | OrderType.FillOrKill =>
      if s.CanFullyFill o.side_ o.price_ o.initialQuantity_ then some o else none
    | _ => some o

/-! ## Closed form of one sweep of the contra side -/

/-- The order object after a successful `Fill` of `q`. -/
def Order.filled (o : Order) (q : Nat) : Order :=
  { o with remainingQuantity_ := o.remainingQuantity_ - q }

/-- The index holds exactly the orders of `L`, each under its id, and no id twice. -/
def IndexSync (idx : OrderIndex) (L : List Order) : Prop :=
  idx.Perm (L.map indexEntry) ∧ (L.map Order.orderId_).Nodup

/-- The fills an incoming quantity `r` takes from a list of contra orders in
priority order: each order with the quantity taken from it. -/
def fillList : Nat → List Order → List (Order × Nat)
  | _, [] => []
  | r, a :: rest =>
    if r = 0 then []
    else if r < a.remainingQuantity_ then [(a, r)]
    else (a, a.remainingQuantity_) :: fillList (r - a.remainingQuantity_) rest

/-- The contra orders left in a level after an incoming quantity `r` swept it. -/
def restList : Nat → List Order → List Order
  | _, [] => []
  | r, a :: rest =>
    if r = 0 then a :: rest
    else if r < a.remainingQuantity_ then a.filled r :: rest
    else restList (r - a.remainingQuantity_) rest

/-- The fills an incoming quantity takes from a contra ladder, level by level,
as long as the level price is acceptable. -/
def fillLadder (accept : Int → Bool) : Nat → Ladder → List (Order × Nat)
  | _, [] => []
  | r, (p, orders) :: rest =>
    if r = 0 ∨ accept p = false then []
    else fillList r orders ++ fillLadder accept (r - totalRemaining orders) rest

/-- The contra ladder left after the sweep. -/
def restLadder (accept : Int → Bool) : Nat → Ladder → Ladder
  | _, [] => []
  | r, (p, orders) :: rest =>
    if r = 0 ∨ accept p = false then (p, orders) :: rest
    else if r < totalRemaining orders then (p, restList r orders) :: rest
    else restLadder accept (r - totalRemaining orders) rest

/-- The contra orders whose price is acceptable, in priority order. -/
def acceptableOrders (accept : Int → Bool) : Ladder → List Order
  | [] => []
  | (p, orders) :: rest =>
    if accept p = false then [] else orders ++ acceptableOrders accept rest

/-- The trade record of one fill of the incoming order `o` against `a`. -/
def mkTrade (o : Order) (f : Order × Nat) : Trade :=
  match o.side_ with
  | Side.Buy =>
    { bidTrade_ := { orderId_ := o.orderId_, price_ := o.price_, quantity_ := f.2 },
      askTrade_ := { orderId_ := f.1.orderId_, price_ := f.1.price_, quantity_ := f.2 } }
  | Side.Sell =>
    { bidTrade_ := { orderId_ := f.1.orderId_, price_ := f.1.price_, quantity_ := f.2 },
      askTrade_ := { orderId_ := o.orderId_, price_ := o.price_, quantity_ := f.2 } }

/-- Whether a contra level price is acceptable to an order. -/
def acceptsPrice (o : Order) (p : Int) : Bool :=
  match o.side_ with
  | Side.Buy => decide (p ≤ o.price_)
  | Side.Sell => decide (p ≥ o.price_)

/-- The key order of the ladder of the given side. -/
def sideBefore (side : Side) : Int → Int → Bool :=
  match side with
  | Side.Buy => bidBefore
  | Side.Sell => askBefore

/-- The half of a trade that belongs to the contra side of an incoming order of
the given side. -/
def contraTrade (side : Side) (t : Trade) : TradeInfo :=
  match side with
  | Side.Buy => t.askTrade_
  | Side.Sell => t.bidTrade_

/-- The half of a trade that belongs to the incoming order of the given side. -/
def ownTrade (side : Side) (t : Trade) : TradeInfo :=
  match side with
  | Side.Buy => t.bidTrade_
  | Side.Sell => t.askTrade_

/-- The price `w` is at least as bad, for an incoming order of the given side, as
the opposite price `p`: not below it for a buy, not above it for a sell. -/
def worstBound (side : Side) (w p : Int) : Prop :=
  match side with
  | Side.Buy => p ≤ w
  | Side.Sell => w ≤ p

/-- The id on the contra side of a trade of an incoming order of the given side. -/
def contraId (side : Side) (t : Trade) : Nat :=
  (contraTrade side t).orderId_

/-- The book after a sequence of `AddOrder` calls with fresh order objects (a
faulting call, which never happens, would leave the book as it is). -/
def afterAdds : Orderbook → List Order → Orderbook
  | s, [] => s
  | s, o :: rest =>
    match s.AddOrder (some o) with
    | .ok (_, s1) => afterAdds s1 rest
    | .error _ => afterAdds s rest

/-- Sum of the quantities of a list of trades (bid side; no wrap-around). -/
def tradedQuantity (trades : Trades) : Nat :=
  (trades.map (fun t => t.bidTrade_.quantity_)).sum

/-! ## Example books -/

/-- Scenario S1 of the specification: a resting buy of 1000 at 100, then a sell
of 500 at 100. -/
def bookS1 : Orderbook :=
  afterAdds Orderbook.empty
    [Order.new OrderType.GoodTillCancel 1 Side.Buy 100 1000,
     Order.new OrderType.GoodTillCancel 2 Side.Sell 100 500]

/-- A book with one bid at 100 and one ask at 110. -/
def bookSpread : Orderbook :=
  afterAdds Orderbook.empty
    [Order.new OrderType.GoodTillCancel 1 Side.Buy 100 1000,
     Order.new OrderType.GoodTillCancel 2 Side.Sell 110 500]

/-- The three resting bids of scenario S2. -/
def bookThreeBids : Orderbook :=
  afterAdds Orderbook.empty
    [Order.new OrderType.GoodTillCancel 1 Side.Buy 100 1000,
     Order.new OrderType.GoodTillCancel 2 Side.Buy 110 500,
     Order.new OrderType.GoodTillCancel 3 Side.Buy 90 800]

/-- The single resting ask of scenarios S3 and S4. -/
def bookOneAsk : Orderbook :=
  afterAdds Orderbook.empty [Order.new OrderType.GoodTillCancel 1 Side.Sell 200 300]

/-- The two resting asks of scenario S5. -/
def bookTwoAsks : Orderbook :=
  afterAdds Orderbook.empty
    [Order.new OrderType.GoodTillCancel 1 Side.Sell 200 500,
     Order.new OrderType.GoodTillCancel 2 Side.Sell 210 300]

/-- Scenario S3 of the specification followed by a new ask of 10 at 150. -/
def bookAfterS3 : Orderbook :=
  afterAdds Orderbook.empty
    [Order.new OrderType.GoodTillCancel 1 Side.Sell 200 300,
     Order.new OrderType.FillAndKill 2 Side.Buy 200 500,
     Order.new OrderType.GoodTillCancel 3 Side.Sell 150 10]

/-- The market buy of scenario S5 (its price field holds 0). -/
def marketBuyS5 : Order := Order.new OrderType.Market 3 Side.Buy 0 400

/-- A market buy whose price field holds -1. -/
def marketBuyNegative : Order := Order.new OrderType.Market 3 Side.Buy (-1) 400

/-! ## Cancellation, snapshot lookup and further example books -/

/-- A price level without the order of the given id (the other orders keep their
relative position). -/
def levelWithout (orderId : Nat) (orders : OrderPointers) : OrderPointers :=
  orders.filter (fun o => decide (o.orderId_ ≠ orderId))

/-- A ladder without the order of the given id: the order is taken out of every
level, and a level left empty is dropped. -/
def ladderWithout (orderId : Nat) (l : Ladder) : Ladder :=
  (l.map (fun lv => (lv.1, levelWithout orderId lv.2))).filter (fun lv => !lv.2.isEmpty)

/-- The quantity a list of snapshot entries reports for a price (0 when no entry
has that price). -/
def quantityAt (price : Int) : LevelInfos → Nat
  | [] => 0
  | i :: rest => if i.price_ = price then i.quantity_ else quantityAt price rest

/-- The snapshot entries of the side of an order. -/
def ownInfos (i : OrderbookLevelInfos) (side : Side) : LevelInfos :=
  match side with
  | Side.Buy => i.GetBids
  | Side.Sell => i.GetAsks

/-- The snapshot entries of the opposite side of an order. -/
def contraInfos (i : OrderbookLevelInfos) (side : Side) : LevelInfos :=
  match side with
  | Side.Buy => i.GetAsks
  | Side.Sell => i.GetBids

/-- Two buy orders of 2^31 units each at price 100. -/
def bookWrap : Orderbook :=
  afterAdds Orderbook.empty
    [Order.new OrderType.GoodTillCancel 1 Side.Buy 100 2147483648,
     Order.new OrderType.GoodTillCancel 2 Side.Buy 100 2147483648]

/-- One resting buy order of 2^32 - 1 units at price 100. -/
def bookFull : Orderbook :=
  afterAdds Orderbook.empty [Order.new OrderType.GoodTillCancel 1 Side.Buy 100 4294967295]

/-- The lone resting buy of scenario S6. -/
def bookLoneBuy : Orderbook :=
  afterAdds Orderbook.empty [Order.new OrderType.GoodTillCancel 1 Side.Buy 100 1000]

/-- Three buy orders at the same price (test `MultipleOrdersAtSamePrice`). -/
def bookSameLevel : Orderbook :=
  afterAdds Orderbook.empty
    [Order.new OrderType.GoodTillCancel 1 Side.Buy 100 500,
     Order.new OrderType.GoodTillCancel 2 Side.Buy 100 300,
     Order.new OrderType.GoodTillCancel 3 Side.Buy 100 200]

/-- A GoodTillCancel buy of 500 at 200 (it crosses the ask of `bookOneAsk`). -/
def buyCrossing : Order := Order.new OrderType.GoodTillCancel 2 Side.Buy 200 500

/-- The modification of scenario S6: order 1 to price 110 and quantity 500. -/
def modifyS6 : OrderModify := { orderId_ := 1, side_ := Side.Buy, price_ := 110, quantity_ := 500 }

/-! ## Order object steps, non-crossing sequences, the RPC handler, retyped books -/

/-- The object after a call of `Order::Fill`: the `throw` precedes the only
assignment, so a throwing call leaves every field as it was. -/
def Order.afterFill (o : Order) (quantity : Nat) : Order :=
  match o.Fill quantity with
  | .ok o1 => o1
  | .error _ => o

/-- The object after a sequence of `Fill` calls, throwing calls included. -/
def Order.afterFills : Order → List Nat → Order
  | o, [] => o
  | o, q :: rest => Order.afterFills (o.afterFill q) rest

/-- The sum of the quantities of the calls of a sequence of `Fill` calls that
did not throw. -/
def Order.successfulFills : Order → List Nat → Nat
  | _, [] => 0
  | o, q :: rest =>
    match o.Fill q with
    | .ok o1 => q + Order.successfulFills o1 rest
    | .error _ => Order.successfulFills o rest

/-- The object after a call of `Order::ToGoodTillCancel`: the `throw` precedes
the two assignments, so a throwing call leaves every field as it was. -/
def Order.afterToGoodTillCancel (o : Order) (price : Int) : Order :=
  match o.ToGoodTillCancel price with
  | .ok o1 => o1
  | .error _ => o

/-- A GoodForDay buy of 100 at 100 that a sell of 100 at 100 fills completely. -/
def bookDayFilled : Orderbook :=
  afterAdds Orderbook.empty
    [Order.new OrderType.GoodForDay 1 Side.Buy 100 100,
     Order.new OrderType.GoodTillCancel 2 Side.Sell 100 100]

/-- The book `bookDayFilled` followed by a GoodTillCancel buy of 50 at 90 that
carries the id 1 again. -/
def bookDayReused : Orderbook :=
  afterAdds Orderbook.empty
    [Order.new OrderType.GoodForDay 1 Side.Buy 100 100,
     Order.new OrderType.GoodTillCancel 2 Side.Sell 100 100,
     Order.new OrderType.GoodTillCancel 1 Side.Buy 90 50]

/-- The sum of the remaining quantities resting at a price of a ladder (0 when
the ladder has no level at that price; no wrap-around). -/
def levelTotal (price : Int) (l : Ladder) : Nat :=
  totalRemaining ((ladderFind price l).getD [])

/-- Whether each order of a sequence of `AddOrder` calls is a non-crossing order
at the moment it is added: it is not a market order and `CanMatch` is false for
its side and price on the book it is added to. -/
def nonCrossingSeq : Orderbook → List Order → Bool
  | _, [] => true
  | s, o :: rest =>
    decide (o.orderType_ ≠ OrderType.Market) && !(s.CanMatch o.side_ o.price_) &&
      match s.AddOrder (some o) with
      | .ok (_, s1) => nonCrossingSeq s1 rest
      | .error _ => false

/-- Modelled from the spec: the status values of an RPC response (spec section 6:
accepted, filled, rejected); the protocol definition is not among the sources and
the names are those used in `TradingEngineServer.cpp`. -/
inductive OrderStatus where
  | ACCEPTED
  | FILLED
  | REJECTED
  deriving DecidableEq, Repr

/-- Modelled from the spec: one trade record of a response, with the three fields
`TradingEngineServer.cpp` sets (order id, price, quantity). -/
structure TradeRecord where
  order_id : Nat
  price : Int
  quantity : Nat
  deriving DecidableEq, Repr

/-- Modelled from the spec: the response of the `AddOrder` and `ModifyOrder`
calls: a status and the repeated trade records. -/
structure TradeResponse where
  status : OrderStatus
  trades : List TradeRecord
  deriving DecidableEq, Repr

/-- Modelled from the spec: the request of the `AddOrder` call with the five
fields `TradingEngineServer.cpp` reads.  The order type and the side are held
after `ParseOrderType` and `ParseSide`, which map each known wire value to the
value of the same name (an unknown wire value throws before the engine is called). -/
structure OrderRequest where
  order_type : OrderType
  order_id : Nat
  side : Side
  price : Int
  quantity : Nat
  deriving DecidableEq, Repr

/-- The order `TradingEngineServer::AddOrder` builds from a request. -/
def OrderRequest.toOrder (request : OrderRequest) : Order :=
  Order.new request.order_type request.order_id request.side request.price request.quantity

/-- The record added for the bid side of a trade. -/
def bidRecord (trade : Trade) : TradeRecord :=
  { order_id := trade.GetBidTrade.orderId_, price := trade.GetBidTrade.price_,
    quantity := trade.GetBidTrade.quantity_ }

/-- The record added for the ask side of a trade. -/
def askRecord (trade : Trade) : TradeRecord :=
  { order_id := trade.GetAskTrade.orderId_, price := trade.GetAskTrade.price_,
    quantity := trade.GetAskTrade.quantity_ }

/-- The loop `for (const auto &trade : trades)` of the server: two records per
trade, appended in trade order. -/
def tradeRecords : Trades → List TradeRecord
  | [] => []
  | trade :: rest => bidRecord trade :: askRecord trade :: tradeRecords rest

namespace TradingEngineServer

/-- `TradingEngineServer::AddOrder`: the response and the book after the call. -/
def AddOrder (orderbook : Orderbook) (request : OrderRequest) :
    Except Fault (TradeResponse × Orderbook) :=
  match orderbook.AddOrder (some request.toOrder) with
  | .error e => .error e
  | .ok (trades, orderbook1) =>
    if trades.isEmpty then
      .ok ({ status := OrderStatus.ACCEPTED, trades := [] }, orderbook1)
    else
      .ok ({ status := OrderStatus.FILLED, trades := tradeRecords trades }, orderbook1)

end TradingEngineServer

/-- A request for a GoodTillCancel buy with quantity 0. -/
def requestZero : OrderRequest :=
  { order_type := OrderType.GoodTillCancel, order_id := 1, side := Side.Buy, price := 100,
    quantity := 0 }

/-- The second request of the test `AddOrderWithMatching`: a sell of 500 at 100. -/
def requestSell : OrderRequest :=
  { order_type := OrderType.GoodTillCancel, order_id := 2, side := Side.Sell, price := 100,
    quantity := 500 }

/-- The fills of an incoming order whose remaining quantity is `r` before the
first of them: each takes the minimum of what the incoming order and the resting
order have left, a strictly positive quantity. -/
def FillsFrom : Nat → List (Order × Nat) → Prop
  | _, [] => True
  | r, f :: rest => f.2 = min r f.1.remainingQuantity_ ∧ 0 < f.2 ∧ FillsFrom (r - f.2) rest

/-- The trades of an incoming order of the given side whose remaining quantity is
`r` before the first cross: the resting order of each trade is the order indexed
in `s` under the trade's contra id, and the traded quantity is the minimum of the
remaining quantities of the incoming and of the resting order just before that
cross. -/
def CrossesFrom (s : Orderbook) (side : Side) : Nat → Trades → Prop
  | _, [] => True
  | r, t :: rest =>
    (∃ a, indexFind (contraId side t) s.orders_ = some a ∧
      t.bidTrade_.quantity_ = min r a.remainingQuantity_) ∧
    CrossesFrom s side (r - t.bidTrade_.quantity_) rest

/-- The order with its type set to GoodForDay when it carries the given id. -/
def retypeDay (orderId : Nat) (o : Order) : Order :=
  if o.orderId_ = orderId then { o with orderType_ := OrderType.GoodForDay } else o

/-- The book in which every order object, in the ladders and in the index, is
replaced by its image under `f`, and the day-order set by `gfd`. -/
def mapOrders (f : Order → Order) (gfd : List Nat) (s : Orderbook) : Orderbook :=
  { data_ := s.data_,
    bids_ := s.bids_.map (fun lv => (lv.1, lv.2.map f)),
    asks_ := s.asks_.map (fun lv => (lv.1, lv.2.map f)),
    orders_ := s.orders_.map (fun e => (e.1, f e.2)),
    goodForDayOrders_ := gfd }

/-- The state of the inner matching loop with every order object replaced by its
image under `f`. -/
def mapLevelMatch (f : Order → Order) (m : Orderbook.LevelMatch) : Orderbook.LevelMatch :=
  { bids := m.bids.map f,
    asks := m.asks.map f,
    orders_ := m.orders_.map (fun e => (e.1, f e.2)),
    data_ := m.data_,
    trades := m.trades }

/-- A replacement of order objects that changes nothing but the stored type, and
never from or to FillAndKill. -/
structure TypeOnly (f : Order → Order) : Prop where
  orderId : ∀ x, (f x).orderId_ = x.orderId_
  price : ∀ x, (f x).price_ = x.price_
  remaining : ∀ x, (f x).remainingQuantity_ = x.remainingQuantity_
  filled : ∀ x q, f (x.filled q) = (f x).filled q
  fillAndKill : ∀ x, (f x).orderType_ = OrderType.FillAndKill →
    x.orderType_ = OrderType.FillAndKill

/-- Every resting GoodForDay order has its id in the day-order set. -/
def DayCovers (s : Orderbook) : Prop :=
  ∀ x ∈ restingOrders s, x.orderType_ = OrderType.GoodForDay → x.orderId_ ∈ s.goodForDayOrders_

/-- The modification of order 1 to quantity 0. -/
def modifyZero : OrderModify := { orderId_ := 1, side_ := Side.Buy, price_ := 100, quantity_ := 0 }

/-- A GoodTillCancel sell of 1200 at 95 with the id 4. -/
def sellSweep : Order := Order.new OrderType.GoodTillCancel 4 Side.Sell 95 1200

/-- The remaining quantity of the order indexed under an id (0 when the id is
not indexed). -/
def remainingIndexed (s : Orderbook) (orderId : Nat) : Nat :=
  match indexFind orderId s.orders_ with
  | some x => x.remainingQuantity_
  | none => 0

/-- The sum of the quantities of the trades of an incoming order of the given
side that name the given id on their other side. -/
def tradedWith (side : Side) (orderId : Nat) (trades : Trades) : Nat :=
  ((trades.filter (fun t => decide (contraId side t = orderId))).map
    (fun t => t.bidTrade_.quantity_)).sum

/-- The sum of the remaining quantities of the orders of a list selected by `P`. -/
def remainingWhere (P : Order → Bool) (L : List Order) : Nat :=
  ((L.filter P).map Order.remainingQuantity_).sum

/-- The sum of the quantities of the fills whose order is selected by `P`. -/
def takenWhere (P : Order → Bool) (fills : List (Order × Nat)) : Nat :=
  ((fills.filter (fun f => P f.1)).map Prod.snd).sum

/-! ## Critical sections of the public operations -/

/-- Where a thread inside `Orderbook::ModifyOrder` stands while it does not hold
`ordersMutex_`: before the block that looks the order up, between that block
and the call of `CancelOrder` (the type read from the index is kept in the local
`orderType`), between `CancelOrder` and `AddOrder`, and after the return. -/
inductive ModifyPoint where
  | start (order : OrderModify)
  | beforeCancel (order : OrderModify) (orderType : OrderType)
  | beforeAdd (order : OrderModify) (orderType : OrderType)
  | returned (trades : Trades)
  deriving DecidableEq, Repr

/-- One critical section of `Orderbook::ModifyOrder`: what the thread does from
one acquisition of `ordersMutex_` to its release (the lookup block, the call of
`CancelOrder`, the call of `AddOrder`). -/
def ModifyPoint.advance (s : Orderbook) : ModifyPoint → Except Fault (ModifyPoint × Orderbook)
  | .start order =>
    match indexFind order.GetOrderId s.orders_ with
    | none => .ok (.returned [], s)
    | some existingOrder => .ok (.beforeCancel order existingOrder.GetOrderType, s)
  | .beforeCancel order orderType =>
    match s.CancelOrder order.GetOrderId with
    | .error e => .error e
    | .ok s1 => .ok (.beforeAdd order orderType, s1)
  | .beforeAdd order orderType =>
    match s.AddOrder (some (order.ToOrderPointer orderType)) with
    | .error e => .error e
    | .ok (trades, s1) => .ok (.returned trades, s1)
  | .returned trades => .ok (.returned trades, s)

/-- Who takes `ordersMutex_` next: the thread inside `ModifyOrder` for its next
critical section, or another thread for a whole call of `AddOrder`,
`CancelOrder` or `Size` (each of them takes the mutex once). -/
inductive Turn where
  | modify
  | addOrder (order : Order)
  | cancelOrder (orderId : Nat)
  | size
  deriving DecidableEq, Repr

/-- A run of two kinds of threads over one book: the thread inside
`ModifyOrder`, the book, and what the calls of `Size` of the other threads
returned so far (latest first). -/
structure Interleaving where
  point : ModifyPoint
  book : Orderbook
  sizes : List Nat
  deriving DecidableEq, Repr

/-- One turn of a run. -/
def Interleaving.turn (r : Interleaving) : Turn → Except Fault Interleaving
  | .modify =>
    match r.point.advance r.book with
    | .error e => .error e
    | .ok (p, s1) => .ok { r with point := p, book := s1 }
  | .addOrder order =>
    match r.book.AddOrder (some order) with
    | .error e => .error e
    | .ok (_, s1) => .ok { r with book := s1 }
  | .cancelOrder orderId =>
    match r.book.CancelOrder orderId with
    | .error e => .error e
    | .ok s1 => .ok { r with book := s1 }
  | .size => .ok { r with sizes := r.book.Size :: r.sizes }

/-- A run of a list of turns, in order. -/
def Interleaving.run : Interleaving → List Turn → Except Fault Interleaving
  | r, [] => .ok r
  | r, t :: rest =>
    match r.turn t with
    | .error e => .error e
    | .ok r1 => r1.run rest

/-- A `ModifyOrder` call about to start on a book. -/
def Interleaving.ofModify (s : Orderbook) (order : OrderModify) : Interleaving :=
  { point := .start order, book := s, sizes := [] }

/-- `Orderbook::GetOrderInfos` takes no lock, so its first loop (over `bids_`) and
its second loop (over `asks_`) may see different books: the snapshot returned
when the first loop runs on the book `s` and the second on the book `s1`. -/
def GetOrderInfosAcross (s s1 : Orderbook) : OrderbookLevelInfos :=
  { bids_ := s.bids_.map (fun l => Orderbook.CreateLevelInfos l.1 l.2),
    asks_ := s1.asks_.map (fun l => Orderbook.CreateLevelInfos l.1 l.2) }

/-- The modification that a thread inside `ModifyOrder` still holds carries a
quantity that fits `Quantity`. -/
def ModifyPoint.Fits : ModifyPoint → Prop
  | .start order => order.quantity_ < quantityModulus
  | .beforeCancel order _ => order.quantity_ < quantityModulus
  | .beforeAdd order _ => order.quantity_ < quantityModulus
  | .returned _ => True

/-- A GoodTillCancel sell of 300 at 200 that reuses the id 1. -/
def sellReusingId : Order := Order.new OrderType.GoodTillCancel 1 Side.Sell 200 300

/-- A GoodTillCancel sell of 1500 at 100 with the id 2. -/
def sellThrough : Order := Order.new OrderType.GoodTillCancel 2 Side.Sell 100 1500

/-! ## Basic facts about orders and containers -/

open Orderbook

theorem Order.Fill_ok (o : Order) (q : Nat) (h : q ≤ o.remainingQuantity_) :
    o.Fill q = .ok (o.filled q) := by
  unfold Order.Fill Order.GetRemainingQuantity Order.filled
  rw [if_neg (by omega)]

theorem matchLevel_bids_nil (fuel : Nat) (m : LevelMatch) (h : m.bids = []) :
    matchLevel fuel m = .ok m := by
  cases fuel <;> (unfold matchLevel; simp [h])

theorem matchLevel_asks_nil (fuel : Nat) (m : LevelMatch) (h : m.asks = []) :
    matchLevel fuel m = .ok m := by
  cases fuel <;> (unfold matchLevel; cases hb : m.bids <;> simp [h])

/-- One iteration of the inner loop of `MatchOrders`, with the two `Fill` calls
resolved (they never throw, the quantity being the minimum of the two). -/
theorem matchLevel_step (fuel : Nat) (bid0 ask0 : Order) (bt at_ : List Order)
    (idx : OrderIndex) (data : LevelDataMap) (T : Trades) :
    matchLevel (fuel + 1)
      { bids := bid0 :: bt, asks := ask0 :: at_, orders_ := idx, data_ := data, trades := T } =
    (let quantity := min bid0.remainingQuantity_ ask0.remainingQuantity_
     let bid := bid0.filled quantity
     let ask := ask0.filled quantity
     let orders1 := if bid.IsFilled then indexErase bid.orderId_ idx else indexWrite bid idx
     matchLevel fuel
      { bids := if bid.IsFilled then bt else bid :: bt,
        asks := if ask.IsFilled then at_ else ask :: at_,
        orders_ := if ask.IsFilled then indexErase ask.orderId_ orders1 else indexWrite ask orders1,
        data_ := OnOrderMatched (OnOrderMatched data bid.price_ quantity bid.IsFilled)
          ask.price_ quantity ask.IsFilled,
        trades := T ++
          [{ bidTrade_ := { orderId_ := bid.orderId_, price_ := bid.price_, quantity_ := quantity },
             askTrade_ := { orderId_ := ask.orderId_, price_ := ask.price_,
                            quantity_ := quantity } }] }) := by
  conv => lhs; unfold matchLevel
  simp only [Order.GetRemainingQuantity]
  rw [Order.Fill_ok _ _ (Nat.min_le_left _ _), Order.Fill_ok _ _ (Nat.min_le_right _ _)]
  rfl

@[simp] theorem Order.filled_orderId (o : Order) (q : Nat) : (o.filled q).orderId_ = o.orderId_ := rfl
@[simp] theorem Order.filled_price (o : Order) (q : Nat) : (o.filled q).price_ = o.price_ := rfl
@[simp] theorem Order.filled_side (o : Order) (q : Nat) : (o.filled q).side_ = o.side_ := rfl
@[simp] theorem Order.filled_type (o : Order) (q : Nat) : (o.filled q).orderType_ = o.orderType_ := rfl
@[simp] theorem Order.filled_initial (o : Order) (q : Nat) :
    (o.filled q).initialQuantity_ = o.initialQuantity_ := rfl
@[simp] theorem Order.filled_remaining (o : Order) (q : Nat) :
    (o.filled q).remainingQuantity_ = o.remainingQuantity_ - q := rfl
@[simp] theorem Order.filled_zero (o : Order) : o.filled 0 = o := rfl
theorem Order.filled_filled (o : Order) (p q : Nat) : (o.filled p).filled q = o.filled (p + q) := by
  simp [Order.filled, Nat.sub_sub]
theorem Order.isFilled_iff (o : Order) : o.IsFilled = true ↔ o.remainingQuantity_ = 0 := by
  simp [Order.IsFilled, Order.GetRemainingQuantity]

theorem IndexSync.perm {idx : OrderIndex} {L L1 : List Order} (h : IndexSync idx L)
    (hp : L.Perm L1) : IndexSync idx L1 :=
  ⟨h.1.trans (hp.map _), (hp.map _).nodup_iff.mp h.2⟩

theorem indexErase_perm {idx : OrderIndex} {L : List Order} (id : Nat)
    (h : idx.Perm (L.map indexEntry)) :
    (indexErase id idx).Perm ((L.filter (fun o => decide (o.orderId_ ≠ id))).map indexEntry) := by
  unfold indexErase
  have := h.filter (fun e => decide (e.1 ≠ id))
  rw [List.filter_map] at this
  exact this

theorem indexWrite_perm {idx : OrderIndex} {L : List Order} (o1 : Order)
    (h : idx.Perm (L.map indexEntry)) :
    (indexWrite o1 idx).Perm
      ((L.map (fun o => if o.orderId_ = o1.orderId_ then o1 else o)).map indexEntry) := by
  unfold indexWrite
  have := h.map (fun e : Nat × Order => if e.1 = o1.orderId_ then (e.1, o1) else e)
  rw [List.map_map] at this
  rw [List.map_map]
  refine this.trans (List.Perm.of_eq ?_)
  apply List.map_congr_left
  intro o _
  simp only [Function.comp, indexEntry]
  split <;> simp_all

theorem IndexSync.erase_head {idx : OrderIndex} {x : Order} {L : List Order}
    (h : IndexSync idx (x :: L)) : IndexSync (indexErase x.orderId_ idx) L := by
  obtain ⟨hp, hn⟩ := h
  have hn1 := hn
  rw [List.map_cons, List.nodup_cons] at hn1
  refine ⟨?_, hn1.2⟩
  have := indexErase_perm x.orderId_ hp
  have hf : (x :: L).filter (fun o => decide (o.orderId_ ≠ x.orderId_)) = L := by
    rw [List.filter_cons_of_neg (by simp)]
    apply List.filter_eq_self.mpr
    intro o ho
    have : o.orderId_ ≠ x.orderId_ := fun he => hn1.1 (he ▸ List.mem_map_of_mem _ ho)
    simpa using this
  rwa [hf] at this

theorem IndexSync.write_head {idx : OrderIndex} {x x1 : Order} {L : List Order}
    (h : IndexSync idx (x :: L)) (hid : x1.orderId_ = x.orderId_) :
    IndexSync (indexWrite x1 idx) (x1 :: L) := by
  obtain ⟨hp, hn⟩ := h
  have hn1 := hn
  rw [List.map_cons, List.nodup_cons] at hn1
  refine ⟨?_, by rw [List.map_cons, List.nodup_cons, hid]; exact hn1⟩
  have := indexWrite_perm x1 hp
  have hf : (x :: L).map (fun o => if o.orderId_ = x1.orderId_ then x1 else o) = x1 :: L := by
    rw [List.map_cons, if_pos hid.symm]
    congr 1
    conv => rhs; rw [← List.map_id L]
    apply List.map_congr_left
    intro o ho
    have : o.orderId_ ≠ x1.orderId_ := fun he => hn1.1 (hid ▸ he ▸ List.mem_map_of_mem _ ho)
    simp [this]
  rwa [hf] at this

@[simp] theorem fillList_zero (l : List Order) : fillList 0 l = [] := by
  cases l <;> simp [fillList]

@[simp] theorem restList_zero (l : List Order) : restList 0 l = l := by
  cases l <;> simp [restList]

@[simp] theorem totalRemaining_nil : totalRemaining [] = 0 := rfl

@[simp] theorem totalRemaining_cons (a : Order) (l : List Order) :
    totalRemaining (a :: l) = a.remainingQuantity_ + totalRemaining l := by
  simp [totalRemaining]

theorem mkTrade_filled (b : Order) (q : Nat) : mkTrade (b.filled q) = mkTrade b := by
  funext f
  simp [mkTrade]

/-- The inner loop with a single (incoming) buy order on the bid level. -/
theorem matchLevel_bid_alone (X : List Order) :
    ∀ (l : List Order) (fuel : Nat) (b : Order) (idx : OrderIndex) (data : LevelDataMap)
      (T : Trades),
      l.length ≤ fuel → b.side_ = Side.Buy → 0 < b.remainingQuantity_ →
      (∀ a ∈ l, 0 < a.remainingQuantity_) →
      ∃ m1, matchLevel fuel { bids := [b], asks := l, orders_ := idx, data_ := data, trades := T }
          = .ok m1 ∧
        m1.trades = T ++ (fillList b.remainingQuantity_ l).map (mkTrade b) ∧
        m1.asks = restList b.remainingQuantity_ l ∧
        m1.bids = (if totalRemaining l < b.remainingQuantity_
                    then [b.filled (totalRemaining l)] else []) ∧
        (IndexSync idx (b :: l ++ X) → IndexSync m1.orders_ (m1.bids ++ m1.asks ++ X)) := by
  intro l
  induction l with
  | nil =>
    intro fuel b idx data T _ _ hb _
    refine ⟨_, matchLevel_asks_nil _ _ rfl, ?_, ?_, ?_, ?_⟩
    · simp [fillList]
    · simp [restList]
    · simp [hb]
    · simp
  | cons a l ih =>
    intro fuel b idx data T hfuel hside hb hl
    obtain ⟨fuel, rfl⟩ : ∃ f, fuel = f + 1 := ⟨fuel - 1, by simp at hfuel; omega⟩
    have ha : 0 < a.remainingQuantity_ := hl a (List.mem_cons_self _ _)
    have hl1 : ∀ x ∈ l, 0 < x.remainingQuantity_ := fun x hx => hl x (List.mem_cons_of_mem _ hx)
    rw [matchLevel_step]
    rcases Nat.lt_trichotomy b.remainingQuantity_ a.remainingQuantity_ with hlt | heq | hgt
    · -- the incoming order is filled, the ask keeps a remainder
      have hmin : min b.remainingQuantity_ a.remainingQuantity_ = b.remainingQuantity_ :=
        Nat.min_eq_left (Nat.le_of_lt hlt)
      have hbf : (b.filled b.remainingQuantity_).IsFilled = true := by
        simp [Order.isFilled_iff]
      have haf : (a.filled b.remainingQuantity_).IsFilled = false := by
        have := Order.isFilled_iff (a.filled b.remainingQuantity_)
        simp only [Order.filled_remaining] at this
        cases h : (a.filled b.remainingQuantity_).IsFilled
        · rfl
        · rw [h] at this; have := this.mp rfl; omega
      simp only [hmin, hbf, haf, if_true, Bool.false_eq_true, if_false]
      refine ⟨_, matchLevel_bids_nil _ _ rfl, ?_, ?_, ?_, ?_⟩
      · simp [fillList, Nat.ne_of_gt hb, hlt, mkTrade, hside]
      · simp [restList, Nat.ne_of_gt hb, hlt]
      · simp; omega
      · intro hs
        simp only [List.nil_append, List.cons_append]
        have h1 := hs.erase_head
        simp only [Order.filled_orderId]
        exact h1.write_head (by simp)
    · -- both orders are filled
      have hmin : min b.remainingQuantity_ a.remainingQuantity_ = b.remainingQuantity_ :=
        Nat.min_eq_left (Nat.le_of_eq heq)
      have hbf : (b.filled b.remainingQuantity_).IsFilled = true := by
        simp [Order.isFilled_iff]
      have haf : (a.filled b.remainingQuantity_).IsFilled = true := by
        simp [Order.isFilled_iff, heq]
      simp only [hmin, hbf, haf, if_true]
      refine ⟨_, matchLevel_bids_nil _ _ rfl, ?_, ?_, ?_, ?_⟩
      · simp [fillList, Nat.ne_of_gt hb, Nat.ne_of_gt ha, heq, mkTrade, hside]
      · simp [restList, Nat.ne_of_gt hb, Nat.ne_of_gt ha, heq]
      · simp; omega
      · intro hs
        simp only [List.nil_append, List.cons_append, Order.filled_orderId]
        exact hs.erase_head.erase_head
    · -- the ask is filled, the incoming order keeps a remainder
      have hmin : min b.remainingQuantity_ a.remainingQuantity_ = a.remainingQuantity_ :=
        Nat.min_eq_right (Nat.le_of_lt hgt)
      have haf : (a.filled a.remainingQuantity_).IsFilled = true := by
        simp [Order.isFilled_iff]
      have hbf : (b.filled a.remainingQuantity_).IsFilled = false := by
        have := Order.isFilled_iff (b.filled a.remainingQuantity_)
        simp only [Order.filled_remaining] at this
        cases h : (b.filled a.remainingQuantity_).IsFilled
        · rfl
        · rw [h] at this; have := this.mp rfl; omega
      simp only [hmin, hbf, haf, if_true, Bool.false_eq_true, if_false]
      obtain ⟨m1, hm, htr, hasks, hbids, hidx⟩ :=
        ih fuel (b.filled a.remainingQuantity_)
          (indexErase (a.filled a.remainingQuantity_).orderId_
            (indexWrite (b.filled a.remainingQuantity_) idx))
          (OnOrderMatched (OnOrderMatched data (b.filled a.remainingQuantity_).price_
            a.remainingQuantity_ false) (a.filled a.remainingQuantity_).price_
            a.remainingQuantity_ true)
          (T ++ [{ bidTrade_ := { orderId_ := (b.filled a.remainingQuantity_).orderId_,
                                  price_ := (b.filled a.remainingQuantity_).price_,
                                  quantity_ := a.remainingQuantity_ },
                   askTrade_ := { orderId_ := (a.filled a.remainingQuantity_).orderId_,
                                  price_ := (a.filled a.remainingQuantity_).price_,
                                  quantity_ := a.remainingQuantity_ } }])
          (by simp at hfuel; omega) (by simp [hside]) (by simp; omega) hl1
      refine ⟨m1, hm, ?_, ?_, ?_, ?_⟩
      · rw [htr]
        simp [fillList, Nat.ne_of_gt hb, Nat.not_lt.mpr (Nat.le_of_lt hgt), mkTrade_filled,
          mkTrade, hside]
      · rw [hasks]
        simp [restList, Nat.ne_of_gt hb, Nat.not_lt.mpr (Nat.le_of_lt hgt)]
      · rw [hbids]
        simp only [Order.filled_remaining, totalRemaining_cons, Order.filled_filled]
        by_cases h : totalRemaining l < b.remainingQuantity_ - a.remainingQuantity_
        · rw [if_pos h, if_pos (by omega)]
        · rw [if_neg h, if_neg (by omega)]
      · intro hs
        apply hidx
        have h1 : IndexSync (indexWrite (b.filled a.remainingQuantity_) idx)
            (b.filled a.remainingQuantity_ :: a :: (l ++ X)) := hs.write_head (by simp)
        have h2 := (h1.perm (List.Perm.swap _ _ _)).erase_head
        simpa using h2

theorem Order.isFilled_false_iff (o : Order) : o.IsFilled = false ↔ 0 < o.remainingQuantity_ := by
  simp [Order.IsFilled, Order.GetRemainingQuantity, Nat.pos_iff_ne_zero]

/-- The inner loop with a single (incoming) sell order on the ask level. -/
theorem matchLevel_ask_alone (X : List Order) :
    ∀ (l : List Order) (fuel : Nat) (a : Order) (idx : OrderIndex) (data : LevelDataMap)
      (T : Trades),
      l.length ≤ fuel → a.side_ = Side.Sell → 0 < a.remainingQuantity_ →
      (∀ b ∈ l, 0 < b.remainingQuantity_) →
      ∃ m1, matchLevel fuel { bids := l, asks := [a], orders_ := idx, data_ := data, trades := T }
          = .ok m1 ∧
        m1.trades = T ++ (fillList a.remainingQuantity_ l).map (mkTrade a) ∧
        m1.bids = restList a.remainingQuantity_ l ∧
        m1.asks = (if totalRemaining l < a.remainingQuantity_
                    then [a.filled (totalRemaining l)] else []) ∧
        (IndexSync idx (a :: l ++ X) → IndexSync m1.orders_ (m1.asks ++ m1.bids ++ X)) := by
  intro l
  induction l with
  | nil =>
    intro fuel a idx data T _ _ ha _
    refine ⟨_, matchLevel_bids_nil _ _ rfl, ?_, ?_, ?_, ?_⟩
    · simp [fillList]
    · simp [restList]
    · simp [ha]
    · simp
  | cons b l ih =>
    intro fuel a idx data T hfuel hside ha hl
    obtain ⟨fuel, rfl⟩ : ∃ f, fuel = f + 1 := ⟨fuel - 1, by simp at hfuel; omega⟩
    have hb : 0 < b.remainingQuantity_ := hl b (List.mem_cons_self _ _)
    have hl1 : ∀ x ∈ l, 0 < x.remainingQuantity_ := fun x hx => hl x (List.mem_cons_of_mem _ hx)
    rw [matchLevel_step]
    rcases Nat.lt_trichotomy a.remainingQuantity_ b.remainingQuantity_ with hlt | heq | hgt
    · -- the incoming order is filled, the bid keeps a remainder
      have hmin : min b.remainingQuantity_ a.remainingQuantity_ = a.remainingQuantity_ :=
        Nat.min_eq_right (Nat.le_of_lt hlt)
      have haf : (a.filled a.remainingQuantity_).IsFilled = true := by
        simp [Order.isFilled_iff]
      have hbf : (b.filled a.remainingQuantity_).IsFilled = false := by
        rw [Order.isFilled_false_iff]; simp; omega
      simp only [hmin, hbf, haf, if_true, Bool.false_eq_true, if_false]
      refine ⟨_, matchLevel_asks_nil _ _ rfl, ?_, ?_, ?_, ?_⟩
      · simp [fillList, Nat.ne_of_gt ha, hlt, mkTrade, hside]
      · simp [restList, Nat.ne_of_gt ha, hlt]
      · simp; omega
      · intro hs
        simp only [List.nil_append, List.cons_append, Order.filled_orderId]
        have h1 : IndexSync idx (b :: a :: (l ++ X)) := hs.perm (List.Perm.swap _ _ _)
        have h2 : IndexSync (indexWrite (b.filled a.remainingQuantity_) idx)
            (b.filled a.remainingQuantity_ :: a :: (l ++ X)) := h1.write_head (by simp)
        exact (h2.perm (List.Perm.swap _ _ _)).erase_head
    · -- both orders are filled
      have hmin : min b.remainingQuantity_ a.remainingQuantity_ = a.remainingQuantity_ :=
        Nat.min_eq_right (Nat.le_of_eq heq)
      have haf : (a.filled a.remainingQuantity_).IsFilled = true := by
        simp [Order.isFilled_iff]
      have hbf : (b.filled a.remainingQuantity_).IsFilled = true := by
        simp [Order.isFilled_iff, heq]
      simp only [hmin, hbf, haf, if_true]
      refine ⟨_, matchLevel_asks_nil _ _ rfl, ?_, ?_, ?_, ?_⟩
      · simp [fillList, Nat.ne_of_gt hb, Nat.ne_of_gt ha, heq, mkTrade, hside]
      · simp [restList, Nat.ne_of_gt hb, Nat.ne_of_gt ha, heq]
      · simp; omega
      · intro hs
        simp only [List.nil_append, List.cons_append, Order.filled_orderId]
        have h1 : IndexSync idx (b :: a :: (l ++ X)) := hs.perm (List.Perm.swap _ _ _)
        exact h1.erase_head.erase_head
    · -- the bid is filled, the incoming order keeps a remainder
      have hmin : min b.remainingQuantity_ a.remainingQuantity_ = b.remainingQuantity_ :=
        Nat.min_eq_left (Nat.le_of_lt hgt)
      have hbf : (b.filled b.remainingQuantity_).IsFilled = true := by
        simp [Order.isFilled_iff]
      have haf : (a.filled b.remainingQuantity_).IsFilled = false := by
        rw [Order.isFilled_false_iff]; simp; omega
      simp only [hmin, hbf, haf, if_true, Bool.false_eq_true, if_false]
      obtain ⟨m1, hm, htr, hbids, hasks, hidx⟩ :=
        ih fuel (a.filled b.remainingQuantity_)
          (indexWrite (a.filled b.remainingQuantity_)
            (indexErase (b.filled b.remainingQuantity_).orderId_ idx))
          (OnOrderMatched (OnOrderMatched data (b.filled b.remainingQuantity_).price_
            b.remainingQuantity_ true) (a.filled b.remainingQuantity_).price_
            b.remainingQuantity_ false)
          (T ++ [{ bidTrade_ := { orderId_ := (b.filled b.remainingQuantity_).orderId_,
                                  price_ := (b.filled b.remainingQuantity_).price_,
                                  quantity_ := b.remainingQuantity_ },
                   askTrade_ := { orderId_ := (a.filled b.remainingQuantity_).orderId_,
                                  price_ := (a.filled b.remainingQuantity_).price_,
                                  quantity_ := b.remainingQuantity_ } }])
          (by simp at hfuel; omega) (by simp [hside]) (by simp; omega) hl1
      refine ⟨m1, hm, ?_, ?_, ?_, ?_⟩
      · rw [htr]
        simp [fillList, Nat.ne_of_gt ha, Nat.not_lt.mpr (Nat.le_of_lt hgt), mkTrade_filled,
          mkTrade, hside]
      · rw [hbids]
        simp [restList, Nat.ne_of_gt ha, Nat.not_lt.mpr (Nat.le_of_lt hgt)]
      · rw [hasks]
        simp only [Order.filled_remaining, totalRemaining_cons, Order.filled_filled]
        by_cases h : totalRemaining l < a.remainingQuantity_ - b.remainingQuantity_
        · rw [if_pos h, if_pos (by omega)]
        · rw [if_neg h, if_neg (by omega)]
      · intro hs
        apply hidx
        have h1 : IndexSync idx (b :: a :: (l ++ X)) := hs.perm (List.Perm.swap _ _ _)
        have h2 := h1.erase_head
        have h3 := h2.write_head (show (a.filled b.remainingQuantity_).orderId_ = a.orderId_ by simp)
        simpa using h3

theorem matchLoop_bids_nil (fuel : Nat) (s : Orderbook) (T : Trades) (h : s.bids_ = []) :
    matchLoop fuel s T = .ok (s, T) := by
  cases fuel <;> (unfold matchLoop; simp [h])

theorem matchLoop_asks_nil (fuel : Nat) (s : Orderbook) (T : Trades) (h : s.asks_ = []) :
    matchLoop fuel s T = .ok (s, T) := by
  cases fuel <;> (unfold matchLoop; cases hb : s.bids_ <;> simp [h])

theorem matchLoop_nocross (fuel : Nat) (s : Orderbook) (T : Trades)
    (h : ∀ b ∈ s.bids_.head?, ∀ a ∈ s.asks_.head?, b.1 < a.1) :
    matchLoop fuel s T = .ok (s, T) := by
  cases hb : s.bids_ with
  | nil => exact matchLoop_bids_nil _ _ _ hb
  | cons b B =>
    cases ha : s.asks_ with
    | nil => exact matchLoop_asks_nil _ _ _ ha
    | cons a A =>
      have : b.1 < a.1 := h b (by simp [hb]) a (by simp [ha])
      cases fuel <;> (unfold matchLoop; simp [hb, ha, this])

theorem matchLoop_step (fuel : Nat) (s : Orderbook) (T : Trades) (bp ap : Int)
    (bl al : List Order) (B A : Ladder) (m : LevelMatch)
    (hb : s.bids_ = (bp, bl) :: B) (ha : s.asks_ = (ap, al) :: A) (hc : ¬ bp < ap)
    (hm : matchLevel (bl.length + al.length)
      { bids := bl, asks := al, orders_ := s.orders_, data_ := s.data_, trades := T } = .ok m) :
    matchLoop (fuel + 1) s T =
      matchLoop fuel
        { s with
          bids_ := if m.bids.isEmpty then B else (bp, m.bids) :: B,
          asks_ := if m.asks.isEmpty then A else (ap, m.asks) :: A,
          orders_ := m.orders_,
          data_ := if m.asks.isEmpty then
              dataErase ap (if m.bids.isEmpty then dataErase bp m.data_ else m.data_)
            else (if m.bids.isEmpty then dataErase bp m.data_ else m.data_) } m.trades := by
  conv => lhs; unfold matchLoop
  simp only [hb, ha, hc, if_false, hm]

@[simp] theorem fillLadder_zero (accept : Int → Bool) (A : Ladder) : fillLadder accept 0 A = [] := by
  cases A with
  | nil => rfl
  | cons lv A => obtain ⟨p, l⟩ := lv; simp [fillLadder]

@[simp] theorem restLadder_zero (accept : Int → Bool) (A : Ladder) : restLadder accept 0 A = A := by
  cases A with
  | nil => rfl
  | cons lv A => obtain ⟨p, l⟩ := lv; simp [restLadder]

theorem totalRemaining_pos {l : List Order} (hne : l ≠ [])
    (hl : ∀ a ∈ l, 0 < a.remainingQuantity_) : 0 < totalRemaining l := by
  cases l with
  | nil => exact absurd rfl hne
  | cons a l =>
    have := hl a (List.mem_cons_self _ _)
    simp; omega

theorem restList_eq_nil : ∀ (l : List Order) (r : Nat), (∀ a ∈ l, 0 < a.remainingQuantity_) →
    totalRemaining l ≤ r → restList r l = []
  | [], _, _, _ => by simp [restList]
  | a :: l, r, hl, hr => by
    have ha := hl a (List.mem_cons_self _ _)
    simp only [totalRemaining_cons] at hr
    have h1 : r ≠ 0 := by omega
    have h2 : ¬ r < a.remainingQuantity_ := by omega
    simp only [restList, h1, h2, if_false]
    exact restList_eq_nil l _ (fun x hx => hl x (List.mem_cons_of_mem _ hx)) (by omega)

theorem restList_ne_nil : ∀ (l : List Order) (r : Nat), r < totalRemaining l → restList r l ≠ []
  | [], _, h => by simp at h
  | a :: l, r, h => by
    simp only [totalRemaining_cons] at h
    simp only [restList]
    split
    · simp
    · split
      · simp
      · exact restList_ne_nil l _ (by omega)

/-- The outer loop with a single (incoming) buy order alone on the best bid level. -/
theorem matchLoop_bid_alone (X : List Order) (p : Int) (B : Ladder) (gfd : List Nat) :
    ∀ (A : Ladder) (fuel : Nat) (b : Order) (idx : OrderIndex) (data : LevelDataMap)
      (T : Trades),
      A.length ≤ fuel → b.side_ = Side.Buy → b.price_ = p → 0 < b.remainingQuantity_ →
      (∀ lv ∈ A, lv.2 ≠ [] ∧ ∀ a ∈ lv.2, 0 < a.remainingQuantity_) →
      (∀ lb ∈ B, ∀ la ∈ A, lb.1 < la.1) →
      ∃ s1 T1, matchLoop fuel { data_ := data, bids_ := (p, [b]) :: B, asks_ := A,
                                orders_ := idx, goodForDayOrders_ := gfd } T = .ok (s1, T1) ∧
        T1 = T ++ (fillLadder (acceptsPrice b) b.remainingQuantity_ A).map (mkTrade b) ∧
        s1.asks_ = restLadder (acceptsPrice b) b.remainingQuantity_ A ∧
        s1.bids_ = (if totalRemaining (acceptableOrders (acceptsPrice b) A) < b.remainingQuantity_
          then (p, [b.filled (totalRemaining (acceptableOrders (acceptsPrice b) A))]) :: B
          else B) ∧
        s1.goodForDayOrders_ = gfd ∧
        (IndexSync idx (b :: ladderOrders A ++ X) →
          IndexSync s1.orders_
            ((if totalRemaining (acceptableOrders (acceptsPrice b) A) < b.remainingQuantity_
              then [b.filled (totalRemaining (acceptableOrders (acceptsPrice b) A))] else [])
             ++ ladderOrders s1.asks_ ++ X)) := by
  intro A
  induction A with
  | nil =>
    intro fuel b idx data T _ _ _ hb _ _
    refine ⟨_, _, matchLoop_asks_nil _ _ _ rfl, ?_, ?_, ?_, rfl, ?_⟩
    · simp [fillLadder]
    · simp [restLadder]
    · simp [acceptableOrders, hb]
    · simp [acceptableOrders, hb, restLadder]
  | cons lv A ih =>
    obtain ⟨ap, l⟩ := lv
    intro fuel b idx data T hfuel hside hprice hb hA hcross
    have hr0 : b.remainingQuantity_ ≠ 0 := Nat.ne_of_gt hb
    by_cases hacc : p < ap
    · -- the best ask is above the limit: the loop stops at once
      have hacc1 : acceptsPrice b ap = false := by
        simp [acceptsPrice, hside, hprice, hacc]
      refine ⟨_, _, matchLoop_nocross _ _ _ (by simpa using hacc), ?_, ?_, ?_, rfl, ?_⟩
      · simp [fillLadder, hacc1]
      · simp [restLadder, hacc1]
      · simp [acceptableOrders, hacc1, hb]
      · simp [acceptableOrders, hacc1, hb, restLadder]
    · have hacc1 : acceptsPrice b ap = true := by
        simp [acceptsPrice, hside, hprice]; omega
      obtain ⟨fuel, rfl⟩ : ∃ f, fuel = f + 1 := ⟨fuel - 1, by simp at hfuel; omega⟩
      have hl := hA (ap, l) (List.mem_cons_self _ _)
      have hA1 : ∀ lv ∈ A, lv.2 ≠ [] ∧ ∀ a ∈ lv.2, 0 < a.remainingQuantity_ :=
        fun lv h => hA lv (List.mem_cons_of_mem _ h)
      obtain ⟨m1, hm, htr, hasks, hbids, hidx⟩ :=
        matchLevel_bid_alone (ladderOrders A ++ X) l ([b].length + l.length) b idx data T
          (by simp) hside hb hl.2
      rw [matchLoop_step fuel _ T p ap [b] l B A m1 rfl rfl hacc hm]
      by_cases hlt : totalRemaining l < b.remainingQuantity_
      · -- the level is consumed and the incoming order goes on to the next one
        rw [if_pos hlt] at hbids
        have hasks1 : m1.asks = [] := by
          rw [hasks]; exact restList_eq_nil l _ hl.2 (Nat.le_of_lt hlt)
        simp only [hbids, hasks1, List.isEmpty_cons, List.isEmpty_nil, if_true,
          Bool.false_eq_true, if_false]
        obtain ⟨s1, T1, hs1, hT1, ha1, hb1, hg1, hi1⟩ :=
          ih fuel (b.filled (totalRemaining l)) m1.orders_ (dataErase ap m1.data_) m1.trades
            (by simp at hfuel; omega) (by simp [hside]) (by simp [hprice]) (by simp; omega) hA1
            (fun lb hlb la hla => hcross lb hlb la (List.mem_cons_of_mem _ hla))
        have hacc2 : acceptsPrice (b.filled (totalRemaining l)) = acceptsPrice b := by
          funext x; simp [acceptsPrice]
        simp only [hacc2, Order.filled_remaining, Order.filled_filled, mkTrade_filled] at hT1 ha1 hb1 hi1
        have htot : totalRemaining (acceptableOrders (acceptsPrice b) ((ap, l) :: A))
            = totalRemaining l + totalRemaining (acceptableOrders (acceptsPrice b) A) := by
          simp [acceptableOrders, hacc1, totalRemaining]
        refine ⟨s1, T1, hs1, ?_, ?_, ?_, hg1, ?_⟩
        · rw [hT1, htr]
          simp [fillLadder, hr0, hacc1]
        · rw [ha1]
          simp [restLadder, hr0, hacc1, Nat.not_lt.mpr (Nat.le_of_lt hlt)]
        · rw [hb1, htot]
          by_cases h : totalRemaining (acceptableOrders (acceptsPrice b) A)
              < b.remainingQuantity_ - totalRemaining l
          · rw [if_pos h, if_pos (by omega)]
          · rw [if_neg h, if_neg (by omega)]
        · intro hs
          have h1 := hidx (by simpa [ladderOrders] using hs)
          rw [hbids, hasks1] at h1
          have h2 := hi1 (by simpa using h1)
          rw [htot]
          by_cases h : totalRemaining (acceptableOrders (acceptsPrice b) A)
              < b.remainingQuantity_ - totalRemaining l
          · rw [if_pos h] at h2; rw [if_pos (by omega)]; exact h2
          · rw [if_neg h] at h2; rw [if_neg (by omega)]; exact h2
      · -- the incoming order is filled inside this level
        rw [if_neg hlt] at hbids
        have htot : ¬ totalRemaining (acceptableOrders (acceptsPrice b) ((ap, l) :: A))
            < b.remainingQuantity_ := by
          simp [acceptableOrders, hacc1, totalRemaining] at hlt ⊢; omega
        simp only [hbids, List.isEmpty_nil, if_true]
        refine ⟨_, _, matchLoop_nocross _ _ _ ?_, ?_, ?_, ?_, rfl, ?_⟩
        · intro lb hlb la hla
          have hlb1 : lb ∈ B := List.mem_of_mem_head? hlb
          have : la.1 = ap ∨ la ∈ A := by
            simp only at hla
            split at hla
            · exact Or.inr (List.mem_of_mem_head? hla)
            · simp at hla; exact Or.inl (by rw [← hla])
          rcases this with h | h
          · rw [h]; exact hcross lb hlb1 _ (List.mem_cons_self _ _)
          · exact hcross lb hlb1 la (List.mem_cons_of_mem _ h)
        · rw [htr]
          have : b.remainingQuantity_ - totalRemaining l = 0 := by omega
          simp [fillLadder, hr0, hacc1, this]
        · simp only [restLadder, hr0, hacc1, false_or, Bool.true_eq_false, if_false]
          by_cases h : b.remainingQuantity_ < totalRemaining l
          · have := restList_ne_nil l _ h
            rw [← hasks] at this
            have hne : m1.asks.isEmpty = false := by
              cases hm1 : m1.asks with
              | nil => exact absurd hm1 this
              | cons _ _ => rfl
            rw [if_pos h, hne, ← hasks]
            simp
          · have h0 : b.remainingQuantity_ - totalRemaining l = 0 := by omega
            have := restList_eq_nil l _ hl.2 (Nat.not_lt.mp h)
            rw [← hasks] at this
            simp [h, this, h0]
        · rw [if_neg htot]
        · intro hs
          rw [if_neg htot]
          have h1 := hidx (by simpa [ladderOrders] using hs)
          rw [hbids] at h1
          simp only [List.nil_append] at h1 ⊢
          by_cases h : m1.asks = []
          · simp [h] at h1 ⊢; exact h1
          · simp [h, List.isEmpty_iff, ladderOrders] at h1 ⊢; exact h1

/-- The outer loop with a single (incoming) sell order alone on the best ask level. -/
theorem matchLoop_ask_alone (X : List Order) (p : Int) (A : Ladder) (gfd : List Nat) :
    ∀ (B : Ladder) (fuel : Nat) (a : Order) (idx : OrderIndex) (data : LevelDataMap)
      (T : Trades),
      B.length ≤ fuel → a.side_ = Side.Sell → a.price_ = p → 0 < a.remainingQuantity_ →
      (∀ lv ∈ B, lv.2 ≠ [] ∧ ∀ b ∈ lv.2, 0 < b.remainingQuantity_) →
      (∀ lb ∈ B, ∀ la ∈ A, lb.1 < la.1) →
      ∃ s1 T1, matchLoop fuel { data_ := data, bids_ := B, asks_ := (p, [a]) :: A,
                                orders_ := idx, goodForDayOrders_ := gfd } T = .ok (s1, T1) ∧
        T1 = T ++ (fillLadder (acceptsPrice a) a.remainingQuantity_ B).map (mkTrade a) ∧
        s1.bids_ = restLadder (acceptsPrice a) a.remainingQuantity_ B ∧
        s1.asks_ = (if totalRemaining (acceptableOrders (acceptsPrice a) B) < a.remainingQuantity_
          then (p, [a.filled (totalRemaining (acceptableOrders (acceptsPrice a) B))]) :: A
          else A) ∧
        s1.goodForDayOrders_ = gfd ∧
        (IndexSync idx (a :: ladderOrders B ++ X) →
          IndexSync s1.orders_
            ((if totalRemaining (acceptableOrders (acceptsPrice a) B) < a.remainingQuantity_
              then [a.filled (totalRemaining (acceptableOrders (acceptsPrice a) B))] else [])
             ++ ladderOrders s1.bids_ ++ X)) := by
  intro B
  induction B with
  | nil =>
    intro fuel a idx data T _ _ _ ha _ _
    refine ⟨_, _, matchLoop_bids_nil _ _ _ rfl, ?_, ?_, ?_, rfl, ?_⟩
    · simp [fillLadder]
    · simp [restLadder]
    · simp [acceptableOrders, ha]
    · simp [acceptableOrders, ha, restLadder]
  | cons lv B ih =>
    obtain ⟨bp, l⟩ := lv
    intro fuel a idx data T hfuel hside hprice ha hB hcross
    have hr0 : a.remainingQuantity_ ≠ 0 := Nat.ne_of_gt ha
    by_cases hacc : bp < p
    · -- the best bid is below the limit: the loop stops at once
      have hacc1 : acceptsPrice a bp = false := by
        simp [acceptsPrice, hside, hprice, hacc]
      refine ⟨_, _, matchLoop_nocross _ _ _ (by simpa using hacc), ?_, ?_, ?_, rfl, ?_⟩
      · simp [fillLadder, hacc1]
      · simp [restLadder, hacc1]
      · simp [acceptableOrders, hacc1, ha]
      · simp [acceptableOrders, hacc1, ha, restLadder]
    · have hacc1 : acceptsPrice a bp = true := by
        simp [acceptsPrice, hside, hprice]; omega
      obtain ⟨fuel, rfl⟩ : ∃ f, fuel = f + 1 := ⟨fuel - 1, by simp at hfuel; omega⟩
      have hl := hB (bp, l) (List.mem_cons_self _ _)
      have hB1 : ∀ lv ∈ B, lv.2 ≠ [] ∧ ∀ b ∈ lv.2, 0 < b.remainingQuantity_ :=
        fun lv h => hB lv (List.mem_cons_of_mem _ h)
      obtain ⟨m1, hm, htr, hbids, hasks, hidx⟩ :=
        matchLevel_ask_alone (ladderOrders B ++ X) l (l.length + [a].length) a idx data T
          (by simp) hside ha hl.2
      rw [matchLoop_step fuel _ T bp p l [a] B A m1 rfl rfl hacc hm]
      by_cases hlt : totalRemaining l < a.remainingQuantity_
      · -- the level is consumed and the incoming order goes on to the next one
        rw [if_pos hlt] at hasks
        have hbids1 : m1.bids = [] := by
          rw [hbids]; exact restList_eq_nil l _ hl.2 (Nat.le_of_lt hlt)
        simp only [hbids1, hasks, List.isEmpty_cons, List.isEmpty_nil, if_true,
          Bool.false_eq_true, if_false]
        obtain ⟨s1, T1, hs1, hT1, hb1, ha1, hg1, hi1⟩ :=
          ih fuel (a.filled (totalRemaining l)) m1.orders_ (dataErase bp m1.data_) m1.trades
            (by simp at hfuel; omega) (by simp [hside]) (by simp [hprice]) (by simp; omega) hB1
            (fun lb hlb la hla => hcross lb (List.mem_cons_of_mem _ hlb) la hla)
        have hacc2 : acceptsPrice (a.filled (totalRemaining l)) = acceptsPrice a := by
          funext x; simp [acceptsPrice]
        simp only [hacc2, Order.filled_remaining, Order.filled_filled, mkTrade_filled] at hT1 ha1 hb1 hi1
        have htot : totalRemaining (acceptableOrders (acceptsPrice a) ((bp, l) :: B))
            = totalRemaining l + totalRemaining (acceptableOrders (acceptsPrice a) B) := by
          simp [acceptableOrders, hacc1, totalRemaining]
        refine ⟨s1, T1, hs1, ?_, ?_, ?_, hg1, ?_⟩
        · rw [hT1, htr]
          simp [fillLadder, hr0, hacc1]
        · rw [hb1]
          simp [restLadder, hr0, hacc1, Nat.not_lt.mpr (Nat.le_of_lt hlt)]
        · rw [ha1, htot]
          by_cases h : totalRemaining (acceptableOrders (acceptsPrice a) B)
              < a.remainingQuantity_ - totalRemaining l
          · rw [if_pos h, if_pos (by omega)]
          · rw [if_neg h, if_neg (by omega)]
        · intro hs
          have h1 := hidx (by simpa [ladderOrders] using hs)
          rw [hbids1, hasks] at h1
          have h2 := hi1 (by simpa using h1)
          rw [htot]
          by_cases h : totalRemaining (acceptableOrders (acceptsPrice a) B)
              < a.remainingQuantity_ - totalRemaining l
          · rw [if_pos h] at h2; rw [if_pos (by omega)]; exact h2
          · rw [if_neg h] at h2; rw [if_neg (by omega)]; exact h2
      · -- the incoming order is filled inside this level
        rw [if_neg hlt] at hasks
        have htot : ¬ totalRemaining (acceptableOrders (acceptsPrice a) ((bp, l) :: B))
            < a.remainingQuantity_ := by
          simp [acceptableOrders, hacc1, totalRemaining] at hlt ⊢; omega
        simp only [hasks, List.isEmpty_nil, if_true]
        refine ⟨_, _, matchLoop_nocross _ _ _ ?_, ?_, ?_, ?_, rfl, ?_⟩
        · intro lb hlb la hla
          have hla1 : la ∈ A := List.mem_of_mem_head? hla
          have : lb.1 = bp ∨ lb ∈ B := by
            simp only at hlb
            split at hlb
            · exact Or.inr (List.mem_of_mem_head? hlb)
            · simp at hlb; exact Or.inl (by rw [← hlb])
          rcases this with h | h
          · rw [h]; exact hcross _ (List.mem_cons_self _ _) la hla1
          · exact hcross lb (List.mem_cons_of_mem _ h) la hla1
        · rw [htr]
          have : a.remainingQuantity_ - totalRemaining l = 0 := by omega
          simp [fillLadder, hr0, hacc1, this]
        · simp only [restLadder, hr0, hacc1, false_or, Bool.true_eq_false, if_false]
          by_cases h : a.remainingQuantity_ < totalRemaining l
          · have := restList_ne_nil l _ h
            rw [← hbids] at this
            have hne : m1.bids.isEmpty = false := by
              cases hm1 : m1.bids with
              | nil => exact absurd hm1 this
              | cons _ _ => rfl
            rw [if_pos h, hne, ← hbids]
            simp
          · have h0 : a.remainingQuantity_ - totalRemaining l = 0 := by omega
            have := restList_eq_nil l _ hl.2 (Nat.not_lt.mp h)
            rw [← hbids] at this
            simp [h, this, h0]
        · rw [if_neg htot]
        · intro hs
          rw [if_neg htot]
          have h1 := hidx (by simpa [ladderOrders] using hs)
          rw [hasks] at h1
          simp only [List.nil_append] at h1 ⊢
          by_cases h : m1.bids = []
          · simp [h] at h1 ⊢; exact h1
          · simp [h, List.isEmpty_iff, ladderOrders] at h1 ⊢; exact h1

theorem indexFind_eq_some_iff {idx : OrderIndex} (hn : (idx.map Prod.fst).Nodup) (id : Nat)
    (o : Order) : indexFind id idx = some o ↔ (id, o) ∈ idx := by
  induction idx with
  | nil => simp [indexFind]
  | cons e idx ih =>
    obtain ⟨k, x⟩ := e
    rw [List.map_cons, List.nodup_cons] at hn
    simp only [indexFind]
    by_cases hk : k = id
    · subst hk
      simp only [if_true, List.mem_cons, Prod.mk.injEq, true_and, Option.some.injEq]
      constructor
      · intro h; exact Or.inl h.symm
      · rintro (h | h)
        · exact h.symm
        · exact absurd (List.mem_map_of_mem Prod.fst h) hn.1
    · simp only [hk, if_false, List.mem_cons, Prod.mk.injEq]
      rw [ih hn.2]
      constructor
      · intro h; exact Or.inr h
      · rintro (h | h)
        · exact absurd h.1.symm hk
        · exact h

theorem indexFind_eq_none_iff (idx : OrderIndex) (id : Nat) :
    indexFind id idx = none ↔ id ∉ idx.map Prod.fst := by
  induction idx with
  | nil => simp [indexFind]
  | cons e idx ih =>
    obtain ⟨k, x⟩ := e
    simp only [indexFind, List.map_cons, List.mem_cons, not_or]
    by_cases hk : k = id
    · simp [hk]
    · simp only [hk, if_false, ih]
      constructor
      · intro h; exact ⟨fun h1 => hk h1.symm, h⟩
      · intro h; exact h.2

theorem IndexSync.keys {idx : OrderIndex} {L : List Order} (h : IndexSync idx L) :
    (idx.map Prod.fst).Perm (L.map Order.orderId_) := by
  have := h.1.map Prod.fst
  rw [List.map_map] at this
  exact this

theorem IndexSync.find_mem {idx : OrderIndex} {L : List Order} (h : IndexSync idx L)
    {o : Order} (ho : o ∈ L) : indexFind o.orderId_ idx = some o := by
  rw [indexFind_eq_some_iff (h.keys.nodup_iff.mpr h.2)]
  exact h.1.mem_iff.mpr (List.mem_map_of_mem indexEntry ho)

theorem IndexSync.mem_of_find {idx : OrderIndex} {L : List Order} (h : IndexSync idx L)
    {id : Nat} {o : Order} (ho : indexFind id idx = some o) : o ∈ L ∧ o.orderId_ = id := by
  rw [indexFind_eq_some_iff (h.keys.nodup_iff.mpr h.2)] at ho
  have := h.1.mem_iff.mp ho
  simp only [List.mem_map, indexEntry, Prod.mk.injEq] at this
  obtain ⟨x, hx, h1, h2⟩ := this
  subst h2
  exact ⟨hx, h1⟩

theorem IndexSync.find_none {idx : OrderIndex} {L : List Order} (h : IndexSync idx L)
    (id : Nat) : indexFind id idx = none ↔ ∀ o ∈ L, o.orderId_ ≠ id := by
  rw [indexFind_eq_none_iff, h.keys.mem_iff]
  simp

theorem IndexSync.cons_new {idx : OrderIndex} {L : List Order} (h : IndexSync idx L)
    (o : Order) (hfresh : indexFind o.orderId_ idx = none) :
    IndexSync ((o.orderId_, o) :: idx) (o :: L) := by
  refine ⟨by simpa [indexEntry] using h.1, ?_⟩
  rw [List.map_cons, List.nodup_cons]
  refine ⟨?_, h.2⟩
  have := (h.find_none o.orderId_).mp hfresh
  simpa using this

theorem indexErase_of_not_mem (idx : OrderIndex) (id : Nat) (h : indexFind id idx = none) :
    indexErase id idx = idx := by
  rw [indexFind_eq_none_iff] at h
  unfold indexErase
  apply List.filter_eq_self.mpr
  intro e he
  have : e.1 ≠ id := fun h1 => h (h1 ▸ List.mem_map_of_mem Prod.fst he)
  simpa using this

theorem indexWrite_of_not_mem (idx : OrderIndex) (o : Order)
    (h : indexFind o.orderId_ idx = none) : indexWrite o idx = idx := by
  rw [indexFind_eq_none_iff] at h
  unfold indexWrite
  conv => rhs; rw [← List.map_id idx]
  apply List.map_congr_left
  intro e he
  have : e.1 ≠ o.orderId_ := fun h1 => h (h1 ▸ List.mem_map_of_mem Prod.fst he)
  simp [this]

theorem Inv.indexSync {s : Orderbook} (h : Inv s) : IndexSync s.orders_ (restingOrders s) :=
  ⟨h.index, h.ids⟩

theorem mem_ladderOrders {l : Ladder} {o : Order} :
    o ∈ ladderOrders l ↔ ∃ lv ∈ l, o ∈ lv.2 := by
  induction l with
  | nil => simp [ladderOrders]
  | cons lv l ih =>
    obtain ⟨p, os⟩ := lv
    simp [ladderOrders, ih]

theorem LadderInv.nil (side : Side) (R : Int → Int → Prop) : LadderInv side R [] :=
  ⟨List.Pairwise.nil, by simp, by simp⟩

theorem LadderInv.tail {side : Side} {R : Int → Int → Prop} {lv : Int × OrderPointers}
    {l : Ladder} (h : LadderInv side R (lv :: l)) : LadderInv side R l :=
  ⟨(List.pairwise_cons.mp h.sorted).2, fun x hx => h.nonempty x (List.mem_cons_of_mem _ hx),
    fun x hx => h.orders x (List.mem_cons_of_mem _ hx)⟩

theorem LadderInv.head_before {side : Side} {R : Int → Int → Prop} {lv : Int × OrderPointers}
    {l : Ladder} (h : LadderInv side R (lv :: l)) : ∀ x ∈ l, R lv.1 x.1 :=
  (List.pairwise_cons.mp h.sorted).1

/-- A ladder invariant is kept when the first level is replaced by a non-empty
level of admissible orders under the same key, or under an earlier key. -/
theorem LadderInv.cons {side : Side} {R : Int → Int → Prop} {l : Ladder}
    (h : LadderInv side R l) (p : Int) (os : OrderPointers) (hne : os ≠ [])
    (hos : ∀ o ∈ os, o.price_ = p ∧ o.side_ = side ∧ RestingOK o)
    (hp : ∀ x ∈ l, R p x.1) : LadderInv side R ((p, os) :: l) := by
  refine ⟨List.pairwise_cons.mpr ⟨hp, h.sorted⟩, ?_, ?_⟩
  · intro lv hlv
    rcases List.mem_cons.mp hlv with rfl | h1
    · exact hne
    · exact h.nonempty lv h1
  · intro lv hlv
    rcases List.mem_cons.mp hlv with rfl | h1
    · exact hos
    · exact h.orders lv h1

theorem ladderFind_mem {R : Int → Int → Prop} (hirr : ∀ a, ¬ R a a) :
    ∀ {l : Ladder}, l.Pairwise (fun x y => R x.1 y.1) → ∀ {p : Int} {os : OrderPointers},
      (p, os) ∈ l → ladderFind p l = some os
  | [], _, _, _, h => by simp at h
  | (k, x) :: rest, hs, p, os, h => by
    rw [List.pairwise_cons] at hs
    rcases List.mem_cons.mp h with h1 | h1
    · simp only [Prod.mk.injEq] at h1
      simp [ladderFind, h1.1, h1.2]
    · have hk : k ≠ p := fun he => hirr p (he ▸ hs.1 _ h1)
      simp only [ladderFind, hk, if_false]
      exact ladderFind_mem hirr hs.2 h1

theorem ladderErase_of_not_mem : ∀ (l : Ladder) (p : Int), (∀ lv ∈ l, lv.1 ≠ p) →
    ladderErase p l = l
  | [], _, _ => rfl
  | (k, x) :: rest, p, h => by
    have hk : k ≠ p := h (k, x) (List.mem_cons_self _ _)
    simp only [ladderErase, hk, if_false]
    rw [ladderErase_of_not_mem rest p (fun lv hlv => h lv (List.mem_cons_of_mem _ hlv))]

theorem filter_id_of_not_mem (L : List Order) (id : Nat) (h : ∀ y ∈ L, y.orderId_ ≠ id) :
    L.filter (fun y => decide (y.orderId_ ≠ id)) = L := by
  apply List.filter_eq_self.mpr
  intro y hy
  simpa using h y hy

theorem levelErase_eq_filter : ∀ (os : List Order) (o : Order), o ∈ os →
    (os.map Order.orderId_).Nodup →
    levelErase o.orderId_ os = os.filter (fun y => decide (y.orderId_ ≠ o.orderId_))
  | [], _, h, _ => by simp at h
  | x :: rest, o, h, hn => by
    rw [List.map_cons, List.nodup_cons] at hn
    by_cases hx : x.orderId_ = o.orderId_
    · simp only [levelErase, hx, if_true]
      rw [List.filter_cons_of_neg (by simp [hx])]
      rw [filter_id_of_not_mem]
      intro y hy he
      exact hn.1 (hx ▸ he ▸ List.mem_map_of_mem _ hy)
    · have ho : o ∈ rest := by
        rcases List.mem_cons.mp h with h1 | h1
        · exact absurd (h1 ▸ rfl) hx
        · exact h1
      simp only [levelErase, hx, if_false]
      rw [List.filter_cons_of_pos (by simp [hx])]
      rw [levelErase_eq_filter rest o ho hn.2]

theorem levelContains_of_mem {os : List Order} {o : Order} (h : o ∈ os) :
    levelContains o.orderId_ os = true := by
  simp only [levelContains, List.any_eq_true, decide_eq_true_eq]
  exact ⟨o, h, rfl⟩

theorem ladderCancel_cons_ne (k : Int) (x : OrderPointers) (rest : Ladder) (p : Int) (id : Nat)
    (hk : k ≠ p) :
    ladderCancel ((k, x) :: rest) p id = (ladderCancel rest p id).map (fun l => (k, x) :: l) := by
  unfold ladderCancel
  simp only [ladderFind, hk, if_false]
  cases ladderFind p rest with
  | none => rfl
  | some orders =>
    simp only
    split
    · split
      · simp [ladderErase, hk, Except.map]
      · simp [ladderSet, hk, Except.map]
    · rfl

theorem ladderCancel_spec {side : Side} {R : Int → Int → Prop} (hirr : ∀ a, ¬ R a a) :
    ∀ (l : Ladder), LadderInv side R l → ((ladderOrders l).map Order.orderId_).Nodup →
      ∀ (o : Order), o ∈ ladderOrders l →
      ∃ l1, ladderCancel l o.price_ o.orderId_ = .ok l1 ∧ LadderInv side R l1 ∧
        ladderOrders l1 = (ladderOrders l).filter (fun y => decide (y.orderId_ ≠ o.orderId_)) ∧
        (∀ lv ∈ l1, ∃ lv0 ∈ l, lv.1 = lv0.1)
  | [], _, _, o, ho => by simp [ladderOrders] at ho
  | (k, x) :: rest, hinv, hn, o, ho => by
    simp only [ladderOrders, List.map_append] at hn ho
    have hn1 := List.nodup_append.mp hn
    by_cases hx : o ∈ x
    · -- the order sits in the first level
      have hp : o.price_ = k := (hinv.orders (k, x) (List.mem_cons_self _ _) o hx).1
      have hrest : ∀ y ∈ ladderOrders rest, y.orderId_ ≠ o.orderId_ := by
        intro y hy he
        exact hn1.2.2 (List.mem_map_of_mem _ hx) (he ▸ List.mem_map_of_mem _ hy)
      have hkeys : ∀ lv ∈ rest, lv.1 ≠ k := by
        intro lv hlv he
        exact hirr k (by have := hinv.head_before lv hlv; rwa [he] at this)
      have hfilter : (x ++ ladderOrders rest).filter (fun y => decide (y.orderId_ ≠ o.orderId_))
          = levelErase o.orderId_ x ++ ladderOrders rest := by
        rw [List.filter_append, filter_id_of_not_mem _ _ hrest,
          levelErase_eq_filter x o hx hn1.1]
      unfold ladderCancel
      simp only [ladderFind, hp, if_true, levelContains_of_mem hx]
      by_cases he : (levelErase o.orderId_ x).isEmpty = true
      · refine ⟨rest, ?_, hinv.tail, ?_, ?_⟩
        · simp [he, ladderErase, ladderErase_of_not_mem rest k hkeys]
        · simp only [ladderOrders]
          rw [hfilter, List.isEmpty_iff.mp he, List.nil_append]
        · intro lv hlv; exact ⟨lv, List.mem_cons_of_mem _ hlv, rfl⟩
      · refine ⟨(k, levelErase o.orderId_ x) :: rest, ?_, ?_, ?_, ?_⟩
        · simp [he, ladderSet]
        · refine hinv.tail.cons k _ (fun h => he (by simp [h])) ?_ hinv.head_before
          intro y hy
          rw [levelErase_eq_filter x o hx hn1.1] at hy
          exact hinv.orders (k, x) (List.mem_cons_self _ _) y (List.mem_of_mem_filter hy)
        · simp only [ladderOrders]
          rw [hfilter]
        · intro lv hlv
          rcases List.mem_cons.mp hlv with rfl | h1
          · exact ⟨(k, x), List.mem_cons_self _ _, rfl⟩
          · exact ⟨lv, List.mem_cons_of_mem _ h1, rfl⟩
    · -- the order sits further down
      have ho1 : o ∈ ladderOrders rest := by
        rcases List.mem_append.mp ho with h | h
        · exact absurd h hx
        · exact h
      obtain ⟨lv, hlv, holv⟩ := mem_ladderOrders.mp ho1
      have hp : o.price_ = lv.1 := (hinv.orders lv (List.mem_cons_of_mem _ hlv) o holv).1
      have hk : k ≠ o.price_ := by
        intro he
        have := hinv.head_before lv hlv
        rw [← hp, ← he] at this
        exact hirr k this
      obtain ⟨l1, hl1, hinv1, hord, hkeys⟩ :=
        ladderCancel_spec hirr rest hinv.tail hn1.2.1 o ho1
      have hxf : ∀ y ∈ x, y.orderId_ ≠ o.orderId_ := by
        intro y hy he
        exact hn1.2.2 (List.mem_map_of_mem _ hy) (he ▸ List.mem_map_of_mem _ ho1)
      refine ⟨(k, x) :: l1, ?_, ?_, ?_, ?_⟩
      · rw [ladderCancel_cons_ne k x rest _ _ hk, hl1]; rfl
      · refine hinv1.cons k x (hinv.nonempty (k, x) (List.mem_cons_self _ _))
          (hinv.orders (k, x) (List.mem_cons_self _ _)) ?_
        intro y hy
        obtain ⟨y0, hy0, he⟩ := hkeys y hy
        rw [he]
        exact hinv.head_before y0 hy0
      · simp only [ladderOrders]
        rw [List.filter_append, filter_id_of_not_mem _ _ hxf, hord]
      · intro y hy
        rcases List.mem_cons.mp hy with rfl | h1
        · exact ⟨(k, x), List.mem_cons_self _ _, rfl⟩
        · obtain ⟨y0, hy0, he⟩ := hkeys y h1
          exact ⟨y0, List.mem_cons_of_mem _ hy0, he⟩

theorem int_lt_irrefl : ∀ a : Int, ¬ a < a := fun a => lt_irrefl a
theorem int_gt_irrefl : ∀ a : Int, ¬ a > a := fun a => lt_irrefl a

theorem Inv.side_of_mem_bids {s : Orderbook} (h : Inv s) {o : Order}
    (ho : o ∈ ladderOrders s.bids_) : o.side_ = Side.Buy := by
  obtain ⟨lv, hlv, holv⟩ := mem_ladderOrders.mp ho
  exact (h.bids.orders lv hlv o holv).2.1

theorem Inv.side_of_mem_asks {s : Orderbook} (h : Inv s) {o : Order}
    (ho : o ∈ ladderOrders s.asks_) : o.side_ = Side.Sell := by
  obtain ⟨lv, hlv, holv⟩ := mem_ladderOrders.mp ho
  exact (h.asks.orders lv hlv o holv).2.1

/-- Cancelling in a book that satisfies the invariant: the order with the given
id, if any, is removed from its ladder and from the index; nothing else moves. -/
theorem CancelOrderInternal_spec (s : Orderbook) (hinv : Inv s) (id : Nat) :
    ∃ s1, s.CancelOrderInternal id = .ok s1 ∧ Inv s1 ∧
      ladderOrders s1.bids_ = (ladderOrders s.bids_).filter (fun y => decide (y.orderId_ ≠ id)) ∧
      ladderOrders s1.asks_ = (ladderOrders s.asks_).filter (fun y => decide (y.orderId_ ≠ id)) ∧
      s1.orders_ = indexErase id s.orders_ ∧
      (∀ lv ∈ s1.bids_, ∃ lv0 ∈ s.bids_, lv.1 = lv0.1) ∧
      (∀ lv ∈ s1.asks_, ∃ lv0 ∈ s.asks_, lv.1 = lv0.1) ∧
      (indexFind id s.orders_ = none → s1 = s) := by
  have hsync := hinv.indexSync
  have hnd := List.nodup_append.mp (by simpa [restingOrders] using hinv.ids :
    ((ladderOrders s.bids_).map Order.orderId_ ++ (ladderOrders s.asks_).map Order.orderId_).Nodup)
  cases hf : indexFind id s.orders_ with
  | none =>
    have hno := (hsync.find_none id).mp hf
    refine ⟨s, by simp [CancelOrderInternal, hf], hinv, ?_, ?_, ?_, ?_, ?_, fun _ => rfl⟩
    · rw [filter_id_of_not_mem]
      intro y hy; exact hno y (by simp [restingOrders, hy])
    · rw [filter_id_of_not_mem]
      intro y hy; exact hno y (by simp [restingOrders, hy])
    · rw [indexErase_of_not_mem _ _ hf]
    · intro lv hlv; exact ⟨lv, hlv, rfl⟩
    · intro lv hlv; exact ⟨lv, hlv, rfl⟩
  | some o =>
    obtain ⟨hoL, hoid⟩ := hsync.mem_of_find hf
    subst hoid
    have hidx1 : ∀ L1, (restingOrders s).filter (fun y => decide (y.orderId_ ≠ o.orderId_)) = L1 →
        IndexSync (indexErase o.orderId_ s.orders_) L1 := by
      intro L1 hL1
      subst hL1
      exact ⟨indexErase_perm _ hsync.1, (List.filter_sublist _).map _ |>.nodup hsync.2⟩
    simp only [restingOrders, List.mem_append] at hoL
    by_cases hside : o.side_ = Side.Sell
    · have hoA : o ∈ ladderOrders s.asks_ := by
        rcases hoL with h | h
        · have := hinv.side_of_mem_bids h; rw [hside] at this; cases this
        · exact h
      obtain ⟨l1, hl1, hinv1, hord, hkeys⟩ :=
        ladderCancel_spec int_lt_irrefl s.asks_ hinv.asks hnd.2.1 o hoA
      have hbf : (ladderOrders s.bids_).filter (fun y => decide (y.orderId_ ≠ o.orderId_))
          = ladderOrders s.bids_ := by
        rw [filter_id_of_not_mem]
        intro y hy he
        exact hnd.2.2 (List.mem_map_of_mem _ hy) (he ▸ List.mem_map_of_mem _ hoA)
      have hsync1 := hidx1 (ladderOrders s.bids_ ++ ladderOrders l1)
        (by simp only [restingOrders]; rw [List.filter_append, hbf, hord])
      have heq : s.CancelOrderInternal o.orderId_ = .ok
          { s with orders_ := indexErase o.orderId_ s.orders_,
                   goodForDayOrders_ :=
                     if o.GetOrderType = OrderType.GoodForDay
                     then setErase o.orderId_ s.goodForDayOrders_ else s.goodForDayOrders_,
                   asks_ := l1, data_ := OnOrderCancelled s.data_ o } := by
        simp only [CancelOrderInternal, hf, Order.GetSide, hside, if_true, Order.GetPrice, hl1]
      refine ⟨_, heq, ?_, ?_, ?_, rfl, ?_, ?_, ?_⟩
      · exact ⟨hinv.bids, hinv1, fun b hb a ha => by
          obtain ⟨a0, ha0, he⟩ := hkeys a ha
          rw [he]; exact hinv.nocross b hb a0 ha0, hsync1.1, hsync1.2⟩
      · exact hbf.symm
      · exact hord
      · intro lv hlv; exact ⟨lv, hlv, rfl⟩
      · exact hkeys
      · intro h; cases h
    · have hside1 : o.side_ = Side.Buy := by
        cases h : o.side_ with
        | Buy => rfl
        | Sell => exact absurd h hside
      have hoB : o ∈ ladderOrders s.bids_ := by
        rcases hoL with h | h
        · exact h
        · have := hinv.side_of_mem_asks h; rw [hside1] at this; cases this
      obtain ⟨l1, hl1, hinv1, hord, hkeys⟩ :=
        ladderCancel_spec int_gt_irrefl s.bids_ hinv.bids hnd.1 o hoB
      have haf : (ladderOrders s.asks_).filter (fun y => decide (y.orderId_ ≠ o.orderId_))
          = ladderOrders s.asks_ := by
        rw [filter_id_of_not_mem]
        intro y hy he
        exact hnd.2.2 (List.mem_map_of_mem _ hoB) (he ▸ List.mem_map_of_mem _ hy)
      have hsync1 := hidx1 (ladderOrders l1 ++ ladderOrders s.asks_)
        (by simp only [restingOrders]; rw [List.filter_append, haf, hord])
      have heq : s.CancelOrderInternal o.orderId_ = .ok
          { s with orders_ := indexErase o.orderId_ s.orders_,
                   goodForDayOrders_ :=
                     if o.GetOrderType = OrderType.GoodForDay
                     then setErase o.orderId_ s.goodForDayOrders_ else s.goodForDayOrders_,
                   bids_ := l1, data_ := OnOrderCancelled s.data_ o } := by
        simp only [CancelOrderInternal, hf, Order.GetSide, hside, if_false, Order.GetPrice, hl1]
      refine ⟨_, heq, ?_, ?_, ?_, rfl, ?_, ?_, ?_⟩
      · exact ⟨hinv1, hinv.asks, fun b hb a ha => by
          obtain ⟨b0, hb0, he⟩ := hkeys b hb
          rw [he]; exact hinv.nocross b0 hb0 a ha, hsync1.1, hsync1.2⟩
      · exact hord
      · exact haf.symm
      · exact hkeys
      · intro lv hlv; exact ⟨lv, hlv, rfl⟩
      · intro h; cases h

theorem RestingOK.filled {a : Order} (h : RestingOK a) {q : Nat} (hq : q < a.remainingQuantity_) :
    RestingOK (a.filled q) :=
  ⟨by simp; omega, by have := h.le; simp; omega, h.fits, h.notMarket, h.priceLo, h.priceHi⟩

theorem restList_mem : ∀ (l : List Order) (r : Nat) (x : Order), x ∈ restList r l →
    x ∈ l ∨ ∃ a ∈ l, ∃ q, q < a.remainingQuantity_ ∧ x = a.filled q
  | [], _, x, h => by simp [restList] at h
  | a :: l, r, x, h => by
    simp only [restList] at h
    split at h
    · exact Or.inl h
    · split at h
      · rcases List.mem_cons.mp h with h1 | h1
        · exact Or.inr ⟨a, List.mem_cons_self _ _, r, by assumption, h1⟩
        · exact Or.inl (List.mem_cons_of_mem _ h1)
      · rcases restList_mem l _ x h with h1 | ⟨b, hb, q, hq, hx⟩
        · exact Or.inl (List.mem_cons_of_mem _ h1)
        · exact Or.inr ⟨b, List.mem_cons_of_mem _ hb, q, hq, hx⟩

theorem restLadder_keys (accept : Int → Bool) : ∀ (A : Ladder) (r : Nat),
    ∀ lv ∈ restLadder accept r A, ∃ lv0 ∈ A, lv.1 = lv0.1
  | [], _, lv, h => by simp [restLadder] at h
  | (p, os) :: rest, r, lv, h => by
    simp only [restLadder] at h
    split at h
    · exact ⟨lv, h, rfl⟩
    · split at h
      · rcases List.mem_cons.mp h with rfl | h1
        · exact ⟨(p, os), List.mem_cons_self _ _, rfl⟩
        · exact ⟨lv, List.mem_cons_of_mem _ h1, rfl⟩
      · obtain ⟨lv0, h0, he⟩ := restLadder_keys accept rest _ lv h
        exact ⟨lv0, List.mem_cons_of_mem _ h0, he⟩

theorem LadderInv.restLadder {side : Side} {R : Int → Int → Prop} (accept : Int → Bool) :
    ∀ (A : Ladder) (r : Nat), LadderInv side R A → LadderInv side R (restLadder accept r A)
  | [], _, h => by simpa [TradingEngine.restLadder] using h
  | (p, os) :: rest, r, h => by
    simp only [TradingEngine.restLadder]
    split
    · exact h
    · split
      · rename_i hlt
        refine h.tail.cons p _ (restList_ne_nil os r hlt) ?_ h.head_before
        intro o ho
        have hos := h.orders (p, os) (List.mem_cons_self _ _)
        rcases restList_mem os r o ho with h1 | ⟨a, ha, q, hq, rfl⟩
        · exact hos o h1
        · exact ⟨(hos a ha).1, (hos a ha).2.1, (hos a ha).2.2.filled hq⟩
      · exact LadderInv.restLadder accept rest _ h.tail

/-- When the incoming quantity exceeds everything acceptable, only levels with an
unacceptable price are left; `accept` must be monotone along the ladder. -/
theorem restLadder_not_accept {R : Int → Int → Prop} (accept : Int → Bool)
    (hmono : ∀ a b, R a b → accept a = false → accept b = false) :
    ∀ (A : Ladder) (r : Nat), A.Pairwise (fun x y => R x.1 y.1) →
      totalRemaining (acceptableOrders accept A) < r →
      ∀ lv ∈ restLadder accept r A, accept lv.1 = false
  | [], _, _, _, lv, h => by simp [restLadder] at h
  | (p, os) :: rest, r, hs, ht, lv, h => by
    rw [List.pairwise_cons] at hs
    simp only [restLadder] at h
    by_cases hacc : accept p = false
    · simp only [hacc, or_true, if_true] at h
      rcases List.mem_cons.mp h with rfl | h1
      · exact hacc
      · exact hmono p lv.1 (hs.1 lv h1) hacc
    · have ht1 : totalRemaining os + totalRemaining (acceptableOrders accept rest) < r := by
        simpa [acceptableOrders, hacc, totalRemaining] using ht
      have hr0 : r ≠ 0 := by omega
      have hnlt : ¬ r < totalRemaining os := by omega
      simp only [hr0, hacc, or_self, if_false, hnlt] at h
      exact restLadder_not_accept accept hmono rest _ hs.2 (by omega) lv h

/-- When nothing is acceptable, nothing happens. -/
theorem restLadder_of_not_accept (accept : Int → Bool) (A : Ladder) (r : Nat)
    (h : ∀ lv ∈ A.head?, accept lv.1 = false) : restLadder accept r A = A := by
  cases A with
  | nil => rfl
  | cons lv A => obtain ⟨p, os⟩ := lv; simp [restLadder, h (p, os) (by simp)]

theorem fillLadder_of_not_accept (accept : Int → Bool) (A : Ladder) (r : Nat)
    (h : ∀ lv ∈ A.head?, accept lv.1 = false) : fillLadder accept r A = [] := by
  cases A with
  | nil => rfl
  | cons lv A => obtain ⟨p, os⟩ := lv; simp [fillLadder, h (p, os) (by simp)]

theorem acceptableOrders_of_not_accept (accept : Int → Bool) (A : Ladder)
    (h : ∀ lv ∈ A.head?, accept lv.1 = false) : acceptableOrders accept A = [] := by
  cases A with
  | nil => rfl
  | cons lv A => obtain ⟨p, os⟩ := lv; simp [acceptableOrders, h (p, os) (by simp)]

theorem ladderPushBack_keys {bf : Int → Int → Bool} (p : Int) (o : Order) : ∀ (l : Ladder),
    ∀ lv ∈ ladderPushBack bf p o l, lv.1 = p ∨ ∃ lv0 ∈ l, lv.1 = lv0.1
  | [], lv, h => by
    simp only [ladderPushBack, List.mem_singleton] at h
    exact Or.inl (by rw [h])
  | (k, x) :: rest, lv, h => by
    simp only [ladderPushBack] at h
    split at h
    · rcases List.mem_cons.mp h with rfl | h1
      · exact Or.inr ⟨(k, x), List.mem_cons_self _ _, rfl⟩
      · exact Or.inr ⟨lv, List.mem_cons_of_mem _ h1, rfl⟩
    · split at h
      · rcases List.mem_cons.mp h with rfl | h1
        · exact Or.inl rfl
        · exact Or.inr ⟨lv, h1, rfl⟩
      · rcases List.mem_cons.mp h with rfl | h1
        · exact Or.inr ⟨(k, x), List.mem_cons_self _ _, rfl⟩
        · rcases ladderPushBack_keys p o rest lv h1 with h2 | ⟨lv0, h0, he⟩
          · exact Or.inl h2
          · exact Or.inr ⟨lv0, List.mem_cons_of_mem _ h0, he⟩

theorem LadderInv.pushBack {side : Side} {R : Int → Int → Prop} {bf : Int → Int → Bool}
    (hbf : ∀ a b, bf a b = true ↔ R a b)
    (htri : ∀ a b, a ≠ b → ¬ R a b → R b a) (htrans : ∀ a b c, R a b → R b c → R a c)
    (p : Int) (o : Order) (hp : o.price_ = p) (hside : o.side_ = side) (hok : RestingOK o) :
    ∀ (l : Ladder), LadderInv side R l → LadderInv side R (ladderPushBack bf p o l)
  | [], _ => by
    simp only [ladderPushBack]
    refine (LadderInv.nil side R).cons p [o] (by simp) ?_ (by simp)
    intro y hy
    rw [List.mem_singleton] at hy
    subst hy
    exact ⟨hp, hside, hok⟩
  | (k, x) :: rest, h => by
    simp only [ladderPushBack]
    have hx := h.orders (k, x) (List.mem_cons_self _ _)
    split
    · rename_i hk
      refine h.tail.cons k _ (by simp) ?_ h.head_before
      intro y hy
      rcases List.mem_append.mp hy with h1 | h1
      · exact hx y h1
      · rw [List.mem_singleton] at h1
        subst h1
        exact ⟨hp.trans hk.symm, hside, hok⟩
    · split
      · rename_i hk hb
        have hR : R p k := (hbf p k).mp hb
        refine h.cons p [o] (by simp) ?_ ?_
        · intro y hy
          rw [List.mem_singleton] at hy
          subst hy
          exact ⟨hp, hside, hok⟩
        · intro y hy
          rcases List.mem_cons.mp hy with rfl | h1
          · exact hR
          · exact htrans _ _ _ hR (h.head_before y h1)
      · rename_i hk hb
        have hR : R k p := htri p k (fun he => hk he.symm) (fun h1 => hb ((hbf p k).mpr h1))
        refine (LadderInv.pushBack hbf htri htrans p o hp hside hok rest h.tail).cons k x
          (h.nonempty (k, x) (List.mem_cons_self _ _)) hx ?_
        intro y hy
        rcases ladderPushBack_keys p o rest y hy with h2 | ⟨lv0, h0, he⟩
        · rw [h2]; exact hR
        · rw [he]; exact h.head_before lv0 h0

theorem ladderOrders_pushBack_perm {bf : Int → Int → Bool} (p : Int) (o : Order) : ∀ (l : Ladder),
    (ladderOrders (ladderPushBack bf p o l)).Perm (o :: ladderOrders l)
  | [] => by simp [ladderPushBack, ladderOrders]
  | (k, x) :: rest => by
    simp only [ladderPushBack]
    split
    · simp only [ladderOrders, List.append_assoc, List.singleton_append]
      exact List.perm_middle
    · split
      · simp [ladderOrders]
      · simp only [ladderOrders]
        exact ((ladderOrders_pushBack_perm p o rest).append_left x).trans List.perm_middle

theorem ladderPushBack_head {R : Int → Int → Prop} {bf : Int → Int → Bool}
    (hbf : ∀ a b, bf a b = true ↔ R a b) (hirr : ∀ a, ¬ R a a)
    (p : Int) (o : Order) (l : Ladder) (h : ∀ lv ∈ l, R p lv.1) :
    ladderPushBack bf p o l = (p, [o]) :: l := by
  cases l with
  | nil => rfl
  | cons lv l =>
    obtain ⟨k, x⟩ := lv
    have hR : R p k := h (k, x) (List.mem_cons_self _ _)
    have hk : k ≠ p := fun he => hirr p (he ▸ hR)
    simp [ladderPushBack, hk, (hbf p k).mpr hR]

theorem ladderLastPrice_ne_none : ∀ (l : Ladder), l ≠ [] → ladderLastPrice l ≠ none
  | [], h => absurd rfl h
  | [(p, _)], _ => by simp [ladderLastPrice]
  | _ :: y :: rest, _ => by
    simp only [ladderLastPrice]
    exact ladderLastPrice_ne_none (y :: rest) (by simp)

theorem ladderLastPrice_nil_iff (l : Ladder) : ladderLastPrice l = none ↔ l = [] := by
  constructor
  · intro h
    by_contra hne
    exact ladderLastPrice_ne_none l hne h
  · rintro rfl; rfl

theorem indexErase_cons_self (id : Nat) (o : Order) (idx : OrderIndex)
    (hf : indexFind id idx = none) : indexErase id ((id, o) :: idx) = idx := by
  have := indexErase_of_not_mem _ _ hf
  unfold indexErase at this ⊢
  rw [List.filter_cons_of_neg (by simp)]
  exact this

theorem indexWrite_cons_self (o o1 : Order) (idx : OrderIndex) (h1 : o1.orderId_ = o.orderId_)
    (hf : indexFind o.orderId_ idx = none) :
    indexWrite o1 ((o.orderId_, o) :: idx) = (o1.orderId_, o1) :: idx := by
  have := indexWrite_of_not_mem idx o1 (by rw [h1]; exact hf)
  unfold indexWrite at this ⊢
  rw [List.map_cons, this]
  simp [h1]

/-- `AddOrder` is the admission decision followed by `MatchOrders` on the book
with the admitted order pushed. -/
theorem AddOrder_eq (s : Orderbook) (o : Order) :
    s.AddOrder (some o) =
      match admission s o with
      | none => .ok ([], s)
      | some o1 => MatchOrders (pushed s o1) := by
  obtain ⟨d, b, a, i, g⟩ := s
  unfold AddOrder admission
  simp only [Order.GetInitialQuantity, Order.GetPrice, Order.GetOrderId, Order.GetOrderType,
    Order.GetSide]
  by_cases hq : o.initialQuantity_ = 0
  · simp [hq]
  simp only [hq, if_false]
  by_cases hp : o.price_ < 0 ∨ o.price_ > 1000000
  · simp [hp]
  simp only [hp, if_false]
  cases hf : indexFind o.orderId_ i with
  | some x => simp
  | none =>
    simp only [Option.isSome_none, Bool.false_eq_true, if_false]
    have herase := indexErase_cons_self o.orderId_ o i hf
    cases ht : o.orderType_ with
    | Market =>
      simp only [if_true, Order.ToGoodTillCancel, Order.GetOrderType, ht, ne_eq,
        not_true_eq_false, if_false]
      cases hs : o.side_ with
      | Buy =>
        simp only [true_and, contraLadder]
        cases hl : ladderLastPrice a with
        | none =>
          have : a = [] := (ladderLastPrice_nil_iff _).mp hl
          simp [this, herase]
        | some w =>
          have : ¬ a = [] := fun h => by rw [h] at hl; cases hl
          simp only [this, not_false_eq_true, if_true, Except.map, Option.map_some']
          simp only [reduceCtorEq, if_false, false_and]
          rw [indexWrite_cons_self o ⟨OrderType.GoodTillCancel, o.orderId_, Side.Buy, w,
            o.initialQuantity_, o.remainingQuantity_⟩ i rfl hf]
          simp [pushed, hs]
      | Sell =>
        simp only [contraLadder, reduceCtorEq, false_and, if_false, true_and]
        cases hl : ladderLastPrice b with
        | none =>
          have : b = [] := (ladderLastPrice_nil_iff _).mp hl
          simp [this, herase]
        | some w =>
          have : ¬ b = [] := fun h => by rw [h] at hl; cases hl
          simp only [this, not_false_eq_true, if_true, Except.map, Option.map_some']
          simp only [reduceCtorEq, if_false, false_and]
          rw [indexWrite_cons_self o ⟨OrderType.GoodTillCancel, o.orderId_, Side.Sell, w,
            o.initialQuantity_, o.remainingQuantity_⟩ i rfl hf]
          simp [pushed, hs]
    | GoodTillCancel =>
      simp only [reduceCtorEq, if_false, false_and, ht]
      rw [indexWrite_cons_self o _ i rfl hf]
      cases hs : o.side_ <;> simp [pushed, hs, ht]
    | GoodForDay =>
      simp only [reduceCtorEq, if_false, false_and, ht, if_true]
      rw [indexWrite_cons_self o _ i rfl hf]
      cases hs : o.side_ <;> simp [pushed, hs, ht]
    | FillAndKill =>
      simp only [reduceCtorEq, if_false, false_and, ht, true_and]
      rw [indexWrite_cons_self o _ i rfl hf]
      cases hc : CanMatch ⟨d, b, a, i, g⟩ o.side_ o.price_ with
      | false =>
        have hc1 : ∀ i1 g1, CanMatch ⟨d, b, a, i1, g1⟩ o.side_ o.price_ = false := fun _ _ => hc
        simp [hc1, herase]
      | true =>
        have hc1 : ∀ i1 g1, CanMatch ⟨d, b, a, i1, g1⟩ o.side_ o.price_ = true := fun _ _ => hc
        simp only [hc1, not_true_eq_false, if_false, if_true]
        cases hs : o.side_ <;> simp [pushed, hs, ht]
    | FillOrKill =>
      simp only [reduceCtorEq, if_false, false_and, ht, true_and]
      rw [indexWrite_cons_self o _ i rfl hf]
      cases hc : CanFullyFill ⟨d, b, a, i, g⟩ o.side_ o.price_ o.initialQuantity_ with
      | false =>
        have hc1 : ∀ i1 g1, CanFullyFill ⟨d, b, a, i1, g1⟩ o.side_ o.price_ o.initialQuantity_
            = false := fun _ _ => hc
        simp [hc1, herase]
      | true =>
        have hc1 : ∀ i1 g1, CanFullyFill ⟨d, b, a, i1, g1⟩ o.side_ o.price_ o.initialQuantity_
            = true := fun _ _ => hc
        simp only [hc1, not_true_eq_false, if_false, if_true]
        cases hs : o.side_ <;> simp [pushed, hs, ht]

theorem bidBefore_iff (a b : Int) : bidBefore a b = true ↔ a > b := by simp [bidBefore]
theorem askBefore_iff (a b : Int) : askBefore a b = true ↔ a < b := by simp [askBefore]

theorem cancelFillAndKillHead_noop (s : Orderbook) (l : Ladder) (hne : ∀ lv ∈ l, lv.2 ≠ [])
    (hnf : ∀ o ∈ ladderOrders l, o.orderType_ ≠ OrderType.FillAndKill) :
    cancelFillAndKillHead s l = .ok s := by
  cases l with
  | nil => rfl
  | cons lv l =>
    obtain ⟨p, os⟩ := lv
    cases os with
    | nil => exact absurd rfl (hne (p, []) (List.mem_cons_self _ _))
    | cons o os =>
      have := hnf o (by simp [ladderOrders])
      simp [cancelFillAndKillHead, Order.GetOrderType, this]

theorem restLadder_orders (accept : Int → Bool) (A : Ladder) (r : Nat) :
    ∀ o ∈ ladderOrders (restLadder accept r A),
      ∃ a ∈ ladderOrders A, o.orderType_ = a.orderType_ ∧ o.orderId_ = a.orderId_ := by
  induction A generalizing r with
  | nil => intro o ho; simp [restLadder, ladderOrders] at ho
  | cons lv A ih =>
    obtain ⟨p, os⟩ := lv
    intro o ho
    simp only [restLadder] at ho
    split at ho
    · exact ⟨o, ho, rfl, rfl⟩
    · split at ho
      · simp only [ladderOrders, List.mem_append] at ho ⊢
        rcases ho with h | h
        · rcases restList_mem os r o h with h1 | ⟨a, ha, q, _, rfl⟩
          · exact ⟨o, Or.inl h1, rfl, rfl⟩
          · exact ⟨a, Or.inl ha, rfl, rfl⟩
        · exact ⟨o, Or.inr h, rfl, rfl⟩
      · obtain ⟨a, ha, h1⟩ := ih _ o ho
        exact ⟨a, by simp [ladderOrders, ha], h1⟩

theorem Inv.of_sync {s1 : Orderbook}
    (hb : LadderInv Side.Buy (fun a b => a > b) s1.bids_)
    (ha : LadderInv Side.Sell (fun a b => a < b) s1.asks_)
    (hc : ∀ b ∈ s1.bids_, ∀ a ∈ s1.asks_, b.1 < a.1)
    (L : List Order) (hs : IndexSync s1.orders_ L) (hp : L.Perm (restingOrders s1)) : Inv s1 :=
  ⟨hb, ha, hc, (hs.perm hp).1, (hs.perm hp).2⟩

theorem NoFillAndKill.bids {s : Orderbook} (h : NoFillAndKill s) :
    ∀ o ∈ ladderOrders s.bids_, o.orderType_ ≠ OrderType.FillAndKill :=
  fun o ho => h o (by simp [restingOrders, ho])

theorem NoFillAndKill.asks {s : Orderbook} (h : NoFillAndKill s) :
    ∀ o ∈ ladderOrders s.asks_, o.orderType_ ≠ OrderType.FillAndKill :=
  fun o ho => h o (by simp [restingOrders, ho])

/-- Tail pass on the remainder of an incoming FillAndKill buy order that is alone
on the first bid level. -/
theorem cancel_bid_remainder (s : Orderbook) (p : Int) (o : Order) (B : Ladder)
    (hb : s.bids_ = (p, [o]) :: B) (hp : o.price_ = p) (hside : o.side_ = Side.Buy)
    (ht : o.orderType_ = OrderType.FillAndKill) (hfind : indexFind o.orderId_ s.orders_ = some o)
    (hB : ∀ lv ∈ B, lv.1 ≠ p) :
    s.CancelOrderInternal o.orderId_ = .ok
      { s with orders_ := indexErase o.orderId_ s.orders_, bids_ := B,
               data_ := OnOrderCancelled s.data_ o } := by
  unfold CancelOrderInternal
  simp only [hfind, Order.GetOrderType, ht, reduceCtorEq, if_false, Order.GetSide, hside,
    Order.GetPrice, hp, hb]
  simp [ladderCancel, ladderFind, levelContains, levelErase, ladderErase,
    ladderErase_of_not_mem B p hB]

/-- Tail pass on the remainder of an incoming FillAndKill sell order that is alone
on the first ask level. -/
theorem cancel_ask_remainder (s : Orderbook) (p : Int) (o : Order) (A : Ladder)
    (ha : s.asks_ = (p, [o]) :: A) (hp : o.price_ = p) (hside : o.side_ = Side.Sell)
    (ht : o.orderType_ = OrderType.FillAndKill) (hfind : indexFind o.orderId_ s.orders_ = some o)
    (hA : ∀ lv ∈ A, lv.1 ≠ p) :
    s.CancelOrderInternal o.orderId_ = .ok
      { s with orders_ := indexErase o.orderId_ s.orders_, asks_ := A,
               data_ := OnOrderCancelled s.data_ o } := by
  unfold CancelOrderInternal
  simp only [hfind, Order.GetOrderType, ht, reduceCtorEq, if_false, Order.GetSide, hside,
    Order.GetPrice, hp, ha, if_true]
  simp [ladderCancel, ladderFind, levelContains, levelErase, ladderErase,
    ladderErase_of_not_mem A p hA]

theorem acceptsPrice_buy {o : Order} (h : o.side_ = Side.Buy) (x : Int) :
    acceptsPrice o x = decide (x ≤ o.price_) := by
  simp [acceptsPrice, h]

theorem acceptsPrice_sell {o : Order} (h : o.side_ = Side.Sell) (x : Int) :
    acceptsPrice o x = decide (x ≥ o.price_) := by
  simp [acceptsPrice, h]

theorem ladder_nonempty_pos {side : Side} {R : Int → Int → Prop} {l : Ladder}
    (h : LadderInv side R l) : ∀ lv ∈ l, lv.2 ≠ [] ∧ ∀ a ∈ lv.2, 0 < a.remainingQuantity_ :=
  fun lv hlv => ⟨h.nonempty lv hlv, fun a ha => (h.orders lv hlv a ha).2.2.pos⟩

/-- `MatchOrders` after a buy order that crosses the best ask was pushed. -/
theorem MatchOrders_pushed_buy_cross (s : Orderbook) (hinv : Inv s) (hnf : NoFillAndKill s)
    (o1 : Order) (hside : o1.side_ = Side.Buy)
    (hfresh : indexFind o1.orderId_ s.orders_ = none) (hok : RestingOK o1)
    (ap : Int) (l : OrderPointers) (A1 : Ladder) (hA : s.asks_ = (ap, l) :: A1)
    (hcross : ap ≤ o1.price_) :
    ∃ s1, MatchOrders (pushed s o1) =
        .ok ((fillLadder (acceptsPrice o1) o1.remainingQuantity_ s.asks_).map (mkTrade o1), s1) ∧
      Inv s1 ∧ NoFillAndKill s1 ∧
      s1.asks_ = restLadder (acceptsPrice o1) o1.remainingQuantity_ s.asks_ ∧
      s1.bids_ = (if totalRemaining (acceptableOrders (acceptsPrice o1) s.asks_)
            < o1.remainingQuantity_ ∧ o1.orderType_ ≠ OrderType.FillAndKill
          then (o1.price_, [o1.filled (totalRemaining (acceptableOrders (acceptsPrice o1) s.asks_))])
            :: s.bids_
          else s.bids_) ∧
      s1.goodForDayOrders_ = (pushed s o1).goodForDayOrders_ := by
  -- every resting bid is below the best ask, hence below the incoming price
  have hbelow : ∀ lv ∈ s.bids_, o1.price_ > lv.1 := by
    intro lv hlv
    have := hinv.nocross lv hlv (ap, l) (by rw [hA]; exact List.mem_cons_self _ _)
    simp only at this
    omega
  have hpush : ladderPushBack bidBefore o1.price_ o1 s.bids_ = (o1.price_, [o1]) :: s.bids_ :=
    ladderPushBack_head bidBefore_iff int_gt_irrefl _ _ _ hbelow
  have hsync0 : IndexSync ((o1.orderId_, o1) :: s.orders_)
      (o1 :: ladderOrders s.asks_ ++ ladderOrders s.bids_) := by
    have := hinv.indexSync.cons_new o1 hfresh
    refine this.perm ?_
    simp only [restingOrders, List.cons_append]
    exact List.Perm.cons _ List.perm_append_comm
  obtain ⟨s2, T2, hloop, hT2, hasks, hbids, hgfd, hidx⟩ :=
    matchLoop_bid_alone (ladderOrders s.bids_) o1.price_ s.bids_ (pushed s o1).goodForDayOrders_
      s.asks_ (((o1.price_, [o1]) :: s.bids_).length + s.asks_.length) o1
      ((o1.orderId_, o1) :: s.orders_) (OnOrderAdded s.data_ o1) [] (by simp) hside rfl hok.pos
      (ladder_nonempty_pos hinv.asks) hinv.nocross
  have hsync2 := hidx hsync0
  have hstate : pushed s o1 =
      { data_ := OnOrderAdded s.data_ o1,
        bids_ := (o1.price_, [o1]) :: s.bids_, asks_ := s.asks_,
        orders_ := (o1.orderId_, o1) :: s.orders_,
        goodForDayOrders_ := (pushed s o1).goodForDayOrders_ } := by
    simp [pushed, hside, hpush]
  have hmatch : matchLoop ((pushed s o1).bids_.length + (pushed s o1).asks_.length) (pushed s o1) []
      = .ok (s2, T2) := by
    rw [hstate]; exact hloop
  simp only [List.nil_append] at hT2
  subst hT2
  -- facts about the ask ladder after the sweep
  have hasksInv : LadderInv Side.Sell (fun a b => a < b) s2.asks_ := by
    rw [hasks]; exact hinv.asks.restLadder _ _ _
  have hasksNF : ∀ o ∈ ladderOrders s2.asks_, o.orderType_ ≠ OrderType.FillAndKill := by
    intro o ho
    rw [hasks] at ho
    obtain ⟨a, ha, h1, _⟩ := restLadder_orders _ _ _ o ho
    rw [h1]; exact hnf.asks a ha
  have hcrossB : ∀ b ∈ s.bids_, ∀ a ∈ s2.asks_, b.1 < a.1 := by
    intro b hb a ha
    rw [hasks] at ha
    obtain ⟨a0, ha0, he⟩ := restLadder_keys _ _ _ a ha
    rw [he]; exact hinv.nocross b hb a0 ha0
  have hBne : ∀ lv ∈ s.bids_, lv.1 ≠ o1.price_ := fun lv hlv => by
    have := hbelow lv hlv; omega
  unfold MatchOrders
  rw [hmatch]
  simp only
  by_cases hrem : totalRemaining (acceptableOrders (acceptsPrice o1) s.asks_)
      < o1.remainingQuantity_
  · -- the incoming order keeps a remainder
    rw [if_pos hrem] at hbids hsync2
    have hleft : ∀ lv ∈ s2.asks_, o1.price_ < lv.1 := by
      intro lv hlv
      rw [hasks] at hlv
      have := restLadder_not_accept (acceptsPrice o1)
        (fun a b hab ha => by
          rw [acceptsPrice_buy hside] at ha ⊢
          simp only [decide_eq_false_iff_not, not_le] at ha ⊢
          omega)
        s.asks_ _ hinv.asks.sorted hrem lv hlv
      rw [acceptsPrice_buy hside] at this
      simpa using this
    by_cases hfak : o1.orderType_ = OrderType.FillAndKill
    · -- a FillAndKill remainder is cancelled by the tail pass
      have hfind := hsync2.find_mem (List.mem_append_left _ (List.mem_append_left _
        (List.mem_singleton_self _)))
      have hcancel := cancel_bid_remainder s2 o1.price_ _ s.bids_ hbids rfl (by simp [hside])
        (by simp [hfak]) hfind hBne
      simp only [Order.filled_orderId] at hcancel hfind
      have h1 : cancelFillAndKillHead s2 s2.bids_ = .ok
          { s2 with orders_ := indexErase o1.orderId_ s2.orders_, bids_ := s.bids_,
                    data_ := OnOrderCancelled s2.data_
                      (o1.filled (totalRemaining (acceptableOrders (acceptsPrice o1) s.asks_))) } := by
        rw [hbids]
        simp only [cancelFillAndKillHead, Order.GetOrderType, Order.filled_type, hfak, if_true,
          Order.GetOrderId, Order.filled_orderId]
        exact hcancel
      rw [h1]
      simp only
      rw [cancelFillAndKillHead_noop _ s2.asks_ hasksInv.nonempty hasksNF]
      simp only
      refine ⟨_, rfl, ?_, ?_, hasks, ?_, hgfd⟩
      · refine Inv.of_sync hinv.bids hasksInv hcrossB (ladderOrders s2.asks_ ++ ladderOrders s.bids_)
          ?_ List.perm_append_comm
        have := hsync2.erase_head
        simpa using this
      · intro o ho
        simp only [restingOrders, List.mem_append] at ho
        rcases ho with h | h
        · exact hnf.bids o h
        · exact hasksNF o h
      · simp [hfak]
    · -- any other remainder rests
      have hbidsInv : LadderInv Side.Buy (fun a b => a > b) s2.bids_ := by
        rw [hbids]
        refine hinv.bids.cons _ _ (by simp) ?_ hbelow
        intro o ho
        rw [List.mem_singleton] at ho
        subst ho
        exact ⟨rfl, by simp [hside], hok.filled (by
          have := hok.pos; omega)⟩
      have hbidsNF : ∀ o ∈ ladderOrders s2.bids_, o.orderType_ ≠ OrderType.FillAndKill := by
        intro o ho
        rw [hbids] at ho
        simp only [ladderOrders, List.singleton_append, List.mem_cons] at ho
        rcases ho with rfl | h
        · simpa using hfak
        · exact hnf.bids o h
      rw [cancelFillAndKillHead_noop _ s2.bids_ hbidsInv.nonempty hbidsNF]
      simp only
      rw [cancelFillAndKillHead_noop _ s2.asks_ hasksInv.nonempty hasksNF]
      simp only
      refine ⟨_, rfl, ?_, ?_, hasks, ?_, hgfd⟩
      · refine Inv.of_sync hbidsInv hasksInv ?_ _ hsync2 ?_
        · intro b hb a ha
          rw [hbids] at hb
          rcases List.mem_cons.mp hb with rfl | h
          · exact hleft a ha
          · exact hcrossB b h a ha
        · simp only [restingOrders, hbids, ladderOrders, List.singleton_append, List.cons_append]
          exact List.Perm.cons _ List.perm_append_comm
      · intro o ho
        simp only [restingOrders, List.mem_append] at ho
        rcases ho with h | h
        · exact hbidsNF o h
        · exact hasksNF o h
      · rw [hbids]; simp [hrem, hfak]
  · -- the incoming order is completely filled
    rw [if_neg hrem] at hbids hsync2
    rw [hbids]
    rw [cancelFillAndKillHead_noop _ s.bids_ hinv.bids.nonempty hnf.bids]
    simp only
    rw [cancelFillAndKillHead_noop _ s2.asks_ hasksInv.nonempty hasksNF]
    simp only
    refine ⟨_, rfl, ?_, ?_, hasks, ?_, hgfd⟩
    · refine Inv.of_sync (by rw [hbids]; exact hinv.bids) hasksInv
        (by rw [hbids]; exact hcrossB) _ hsync2 ?_
      simp only [restingOrders, hbids, List.nil_append]
      exact List.perm_append_comm
    · intro o ho
      simp only [restingOrders, List.mem_append, hbids] at ho
      rcases ho with h | h
      · exact hnf.bids o h
      · exact hasksNF o h
    · rw [hbids]; simp [hrem]

theorem int_gt_tri : ∀ a b : Int, a ≠ b → ¬ a > b → b > a := fun a b h1 h2 => by omega
theorem int_lt_tri : ∀ a b : Int, a ≠ b → ¬ a < b → b < a := fun a b h1 h2 => by omega
theorem int_gt_trans : ∀ a b c : Int, a > b → b > c → a > c := fun a b c h1 h2 => by omega
theorem int_lt_trans : ∀ a b c : Int, a < b → b < c → a < c := fun a b c h1 h2 => by omega

theorem asks_head_le {l : Ladder} (h : l.Pairwise (fun x y => x.1 < y.1)) :
    ∀ hd ∈ l.head?, ∀ a ∈ l, hd.1 ≤ a.1 := by
  cases l with
  | nil => simp
  | cons x l =>
    intro hd hhd a ha
    simp only [List.head?_cons, Option.mem_def, Option.some.injEq] at hhd
    subst hhd
    rcases List.mem_cons.mp ha with rfl | h1
    · exact le_refl _
    · exact le_of_lt ((List.pairwise_cons.mp h).1 a h1)

theorem bids_head_ge {l : Ladder} (h : l.Pairwise (fun x y => x.1 > y.1)) :
    ∀ hd ∈ l.head?, ∀ a ∈ l, a.1 ≤ hd.1 := by
  cases l with
  | nil => simp
  | cons x l =>
    intro hd hhd a ha
    simp only [List.head?_cons, Option.mem_def, Option.some.injEq] at hhd
    subst hhd
    rcases List.mem_cons.mp ha with rfl | h1
    · exact le_refl _
    · exact le_of_lt ((List.pairwise_cons.mp h).1 a h1)

/-- `MatchOrders` after a buy order that does not cross was pushed: no trade, the
order rests where it was pushed. -/
theorem MatchOrders_pushed_buy_rest (s : Orderbook) (hinv : Inv s) (hnf : NoFillAndKill s)
    (o1 : Order) (hside : o1.side_ = Side.Buy)
    (hfresh : indexFind o1.orderId_ s.orders_ = none) (hok : RestingOK o1)
    (hnc : ∀ lv ∈ s.asks_.head?, o1.price_ < lv.1)
    (hfak : o1.orderType_ ≠ OrderType.FillAndKill) :
    MatchOrders (pushed s o1) = .ok ([], pushed s o1) ∧ Inv (pushed s o1) ∧
      NoFillAndKill (pushed s o1) := by
  have hb : (pushed s o1).bids_ = ladderPushBack bidBefore o1.price_ o1 s.bids_ := by
    simp [pushed, hside]
  have ha : (pushed s o1).asks_ = s.asks_ := by simp [pushed, hside]
  have hall : ∀ a ∈ s.asks_, o1.price_ < a.1 := by
    intro a haa
    cases hA : s.asks_ with
    | nil => rw [hA] at haa; simp at haa
    | cons x l =>
      have h1 := hnc x (by simp [hA])
      have h2 := asks_head_le hinv.asks.sorted x (by simp [hA]) a haa
      omega
  have hcross : ∀ b ∈ (pushed s o1).bids_, ∀ a ∈ (pushed s o1).asks_, b.1 < a.1 := by
    intro b hbb a haa
    rw [hb] at hbb
    rw [ha] at haa
    rcases ladderPushBack_keys _ _ _ b hbb with h | ⟨b0, hb0, he⟩
    · rw [h]; exact hall a haa
    · rw [he]; exact hinv.nocross b0 hb0 a haa
  have hbInv : LadderInv Side.Buy (fun a b => a > b) (pushed s o1).bids_ := by
    rw [hb]
    exact LadderInv.pushBack bidBefore_iff int_gt_tri int_gt_trans _ _ rfl hside hok _ hinv.bids
  have haInv : LadderInv Side.Sell (fun a b => a < b) (pushed s o1).asks_ := by
    rw [ha]; exact hinv.asks
  have hperm : (o1 :: restingOrders s).Perm (restingOrders (pushed s o1)) := by
    simp only [restingOrders, hb, ha]
    exact ((ladderOrders_pushBack_perm _ _ _).append_right _).symm
  have hInv : Inv (pushed s o1) :=
    Inv.of_sync hbInv haInv hcross _ (hinv.indexSync.cons_new o1 hfresh) hperm
  have hNF : NoFillAndKill (pushed s o1) := by
    intro o ho
    rcases List.mem_cons.mp (hperm.mem_iff.mpr ho) with rfl | h
    · exact hfak
    · exact hnf o h
  refine ⟨?_, hInv, hNF⟩
  unfold MatchOrders
  rw [matchLoop_nocross _ _ _ (fun b hbb a haa =>
    hcross b (List.mem_of_mem_head? hbb) a (List.mem_of_mem_head? haa))]
  simp only
  rw [cancelFillAndKillHead_noop _ _ hbInv.nonempty hNF.bids]
  simp only
  rw [cancelFillAndKillHead_noop _ _ haInv.nonempty hNF.asks]

/-- `MatchOrders` after an admitted buy order was pushed on a book that satisfies
the invariant: the closed form of the trades and of the two ladders. -/
theorem MatchOrders_pushed_buy (s : Orderbook) (hinv : Inv s) (hnf : NoFillAndKill s)
    (o1 : Order) (hside : o1.side_ = Side.Buy)
    (hfresh : indexFind o1.orderId_ s.orders_ = none) (hok : RestingOK o1)
    (hfak : o1.orderType_ = OrderType.FillAndKill → s.CanMatch Side.Buy o1.price_ = true) :
    ∃ s1, MatchOrders (pushed s o1) =
        .ok ((fillLadder (acceptsPrice o1) o1.remainingQuantity_ s.asks_).map (mkTrade o1), s1) ∧
      Inv s1 ∧ NoFillAndKill s1 ∧
      s1.asks_ = restLadder (acceptsPrice o1) o1.remainingQuantity_ s.asks_ ∧
      s1.bids_ = (if totalRemaining (acceptableOrders (acceptsPrice o1) s.asks_)
            < o1.remainingQuantity_ ∧ o1.orderType_ ≠ OrderType.FillAndKill
          then ladderPushBack bidBefore o1.price_
            (o1.filled (totalRemaining (acceptableOrders (acceptsPrice o1) s.asks_))) s.bids_
          else s.bids_) ∧
      s1.goodForDayOrders_ = (pushed s o1).goodForDayOrders_ := by
  by_cases hc : ∀ lv ∈ s.asks_.head?, o1.price_ < lv.1
  · -- no cross
    have hacc : ∀ lv ∈ s.asks_.head?, acceptsPrice o1 lv.1 = false := by
      intro lv hlv
      rw [acceptsPrice_buy hside]
      simpa using hc lv hlv
    have hfak1 : o1.orderType_ ≠ OrderType.FillAndKill := by
      intro h
      have := hfak h
      cases hA : s.asks_ with
      | nil => simp [CanMatch, hA] at this
      | cons x l =>
        have h1 := hc x (by simp [hA])
        obtain ⟨p, os⟩ := x
        simp only [CanMatch, hA, ge_iff_le, decide_eq_true_eq] at this
        simp only at h1
        omega
    obtain ⟨h1, h2, h3⟩ := MatchOrders_pushed_buy_rest s hinv hnf o1 hside hfresh hok hc hfak1
    refine ⟨pushed s o1, ?_, h2, h3, ?_, ?_, rfl⟩
    · rw [h1, fillLadder_of_not_accept _ _ _ hacc]; rfl
    · rw [restLadder_of_not_accept _ _ _ hacc]; simp [pushed, hside]
    · rw [acceptableOrders_of_not_accept _ _ hacc]
      simp [pushed, hside, hok.pos, hfak1]
  · -- cross
    cases hA : s.asks_ with
    | nil => simp [hA] at hc
    | cons x l =>
      obtain ⟨ap, os⟩ := x
      have hcr : ap ≤ o1.price_ := by
        simp only [hA, List.head?_cons, Option.mem_def, Option.some.injEq, forall_eq',
          not_lt] at hc
        exact hc
      obtain ⟨s1, h1, h2, h3, h4, h5, h6⟩ :=
        MatchOrders_pushed_buy_cross s hinv hnf o1 hside hfresh hok ap os l hA hcr
      have hbelow : ∀ lv ∈ s.bids_, o1.price_ > lv.1 := by
        intro lv hlv
        have := hinv.nocross lv hlv (ap, os) (by rw [hA]; exact List.mem_cons_self _ _)
        simp only at this
        omega
      refine ⟨s1, ?_, h2, h3, ?_, ?_, h6⟩
      · rw [h1, hA]
      · rw [h4, hA]
      · rw [h5, ← hA]
        rw [ladderPushBack_head bidBefore_iff int_gt_irrefl _ _ _ hbelow]

/-- `MatchOrders` after a sell order that crosses the best bid was pushed. -/
theorem MatchOrders_pushed_sell_cross (s : Orderbook) (hinv : Inv s) (hnf : NoFillAndKill s)
    (o1 : Order) (hside : o1.side_ = Side.Sell)
    (hfresh : indexFind o1.orderId_ s.orders_ = none) (hok : RestingOK o1)
    (bp : Int) (l : OrderPointers) (B1 : Ladder) (hB : s.bids_ = (bp, l) :: B1)
    (hcross : o1.price_ ≤ bp) :
    ∃ s1, MatchOrders (pushed s o1) =
        .ok ((fillLadder (acceptsPrice o1) o1.remainingQuantity_ s.bids_).map (mkTrade o1), s1) ∧
      Inv s1 ∧ NoFillAndKill s1 ∧
      s1.bids_ = restLadder (acceptsPrice o1) o1.remainingQuantity_ s.bids_ ∧
      s1.asks_ = (if totalRemaining (acceptableOrders (acceptsPrice o1) s.bids_)
            < o1.remainingQuantity_ ∧ o1.orderType_ ≠ OrderType.FillAndKill
          then (o1.price_, [o1.filled (totalRemaining (acceptableOrders (acceptsPrice o1) s.bids_))])
            :: s.asks_
          else s.asks_) ∧
      s1.goodForDayOrders_ = (pushed s o1).goodForDayOrders_ := by
  -- every resting ask is above the best bid, hence above the incoming price
  have habove : ∀ lv ∈ s.asks_, o1.price_ < lv.1 := by
    intro lv hlv
    have := hinv.nocross (bp, l) (by rw [hB]; exact List.mem_cons_self _ _) lv hlv
    simp only at this
    omega
  have hpush : ladderPushBack askBefore o1.price_ o1 s.asks_ = (o1.price_, [o1]) :: s.asks_ :=
    ladderPushBack_head askBefore_iff int_lt_irrefl _ _ _ habove
  have hsync0 : IndexSync ((o1.orderId_, o1) :: s.orders_)
      (o1 :: ladderOrders s.bids_ ++ ladderOrders s.asks_) := by
    have := hinv.indexSync.cons_new o1 hfresh
    simpa [restingOrders] using this
  obtain ⟨s2, T2, hloop, hT2, hbids, hasks, hgfd, hidx⟩ :=
    matchLoop_ask_alone (ladderOrders s.asks_) o1.price_ s.asks_ (pushed s o1).goodForDayOrders_
      s.bids_ (s.bids_.length + ((o1.price_, [o1]) :: s.asks_).length) o1
      ((o1.orderId_, o1) :: s.orders_) (OnOrderAdded s.data_ o1) [] (by simp) hside rfl hok.pos
      (ladder_nonempty_pos hinv.bids) hinv.nocross
  have hsync2 := hidx hsync0
  have hstate : pushed s o1 =
      { data_ := OnOrderAdded s.data_ o1,
        bids_ := s.bids_, asks_ := (o1.price_, [o1]) :: s.asks_,
        orders_ := (o1.orderId_, o1) :: s.orders_,
        goodForDayOrders_ := (pushed s o1).goodForDayOrders_ } := by
    simp [pushed, hside, hpush]
  have hmatch : matchLoop ((pushed s o1).bids_.length + (pushed s o1).asks_.length) (pushed s o1) []
      = .ok (s2, T2) := by
    rw [hstate]; exact hloop
  simp only [List.nil_append] at hT2
  subst hT2
  -- facts about the bid ladder after the sweep
  have hbidsInv : LadderInv Side.Buy (fun a b => a > b) s2.bids_ := by
    rw [hbids]; exact hinv.bids.restLadder _ _ _
  have hbidsNF : ∀ o ∈ ladderOrders s2.bids_, o.orderType_ ≠ OrderType.FillAndKill := by
    intro o ho
    rw [hbids] at ho
    obtain ⟨a, ha, h1, _⟩ := restLadder_orders _ _ _ o ho
    rw [h1]; exact hnf.bids a ha
  have hcrossA : ∀ b ∈ s2.bids_, ∀ a ∈ s.asks_, b.1 < a.1 := by
    intro b hb a ha
    rw [hbids] at hb
    obtain ⟨b0, hb0, he⟩ := restLadder_keys _ _ _ b hb
    rw [he]; exact hinv.nocross b0 hb0 a ha
  have hAne : ∀ lv ∈ s.asks_, lv.1 ≠ o1.price_ := fun lv hlv => by
    have := habove lv hlv; omega
  unfold MatchOrders
  rw [hmatch]
  simp only
  rw [cancelFillAndKillHead_noop _ s2.bids_ hbidsInv.nonempty hbidsNF]
  simp only
  by_cases hrem : totalRemaining (acceptableOrders (acceptsPrice o1) s.bids_)
      < o1.remainingQuantity_
  · -- the incoming order keeps a remainder
    rw [if_pos hrem] at hasks hsync2
    have hleft : ∀ lv ∈ s2.bids_, lv.1 < o1.price_ := by
      intro lv hlv
      rw [hbids] at hlv
      have := restLadder_not_accept (acceptsPrice o1)
        (fun a b hab ha => by
          rw [acceptsPrice_sell hside] at ha ⊢
          simp only [decide_eq_false_iff_not, not_le, ge_iff_le] at ha ⊢
          omega)
        s.bids_ _ hinv.bids.sorted hrem lv hlv
      rw [acceptsPrice_sell hside] at this
      simpa using this
    by_cases hfak : o1.orderType_ = OrderType.FillAndKill
    · -- a FillAndKill remainder is cancelled by the tail pass
      have hfind := hsync2.find_mem (List.mem_append_left _ (List.mem_append_left _
        (List.mem_singleton_self _)))
      have hcancel := cancel_ask_remainder s2 o1.price_ _ s.asks_ hasks rfl (by simp [hside])
        (by simp [hfak]) hfind hAne
      simp only [Order.filled_orderId] at hcancel hfind
      have h1 : cancelFillAndKillHead s2 s2.asks_ = .ok
          { s2 with orders_ := indexErase o1.orderId_ s2.orders_, asks_ := s.asks_,
                    data_ := OnOrderCancelled s2.data_
                      (o1.filled (totalRemaining (acceptableOrders (acceptsPrice o1) s.bids_))) } := by
        rw [hasks]
        simp only [cancelFillAndKillHead, Order.GetOrderType, Order.filled_type, hfak, if_true,
          Order.GetOrderId, Order.filled_orderId]
        exact hcancel
      rw [h1]
      simp only
      refine ⟨_, rfl, ?_, ?_, hbids, ?_, hgfd⟩
      · refine Inv.of_sync hbidsInv hinv.asks hcrossA (ladderOrders s2.bids_ ++ ladderOrders s.asks_)
          ?_ (List.Perm.refl _)
        have := hsync2.erase_head
        simpa using this
      · intro o ho
        simp only [restingOrders, List.mem_append] at ho
        rcases ho with h | h
        · exact hbidsNF o h
        · exact hnf.asks o h
      · simp [hfak]
    · -- any other remainder rests
      have hasksInv : LadderInv Side.Sell (fun a b => a < b) s2.asks_ := by
        rw [hasks]
        refine hinv.asks.cons _ _ (by simp) ?_ habove
        intro o ho
        rw [List.mem_singleton] at ho
        subst ho
        exact ⟨rfl, by simp [hside], hok.filled (by
          have := hok.pos; omega)⟩
      have hasksNF : ∀ o ∈ ladderOrders s2.asks_, o.orderType_ ≠ OrderType.FillAndKill := by
        intro o ho
        rw [hasks] at ho
        simp only [ladderOrders, List.singleton_append, List.mem_cons] at ho
        rcases ho with rfl | h
        · simpa using hfak
        · exact hnf.asks o h
      rw [cancelFillAndKillHead_noop _ s2.asks_ hasksInv.nonempty hasksNF]
      simp only
      refine ⟨_, rfl, ?_, ?_, hbids, ?_, hgfd⟩
      · refine Inv.of_sync hbidsInv hasksInv ?_ _ hsync2 ?_
        · intro b hb a ha
          rw [hasks] at ha
          rcases List.mem_cons.mp ha with rfl | h
          · exact hleft b hb
          · exact hcrossA b hb a h
        · simp only [restingOrders, hasks, ladderOrders, List.singleton_append, List.cons_append]
          exact List.perm_middle.symm
      · intro o ho
        simp only [restingOrders, List.mem_append] at ho
        rcases ho with h | h
        · exact hbidsNF o h
        · exact hasksNF o h
      · rw [hasks]; simp [hrem, hfak]
  · -- the incoming order is completely filled
    rw [if_neg hrem] at hasks hsync2
    rw [hasks]
    rw [cancelFillAndKillHead_noop _ s.asks_ hinv.asks.nonempty hnf.asks]
    simp only
    refine ⟨_, rfl, ?_, ?_, hbids, ?_, hgfd⟩
    · refine Inv.of_sync hbidsInv (by rw [hasks]; exact hinv.asks)
        (by rw [hasks]; exact hcrossA) _ hsync2 ?_
      simp only [restingOrders, hasks, List.nil_append]
      exact List.Perm.refl _
    · intro o ho
      simp only [restingOrders, List.mem_append, hasks] at ho
      rcases ho with h | h
      · exact hbidsNF o h
      · exact hnf.asks o h
    · rw [hasks]; simp [hrem]

/-- `MatchOrders` after a sell order that does not cross was pushed: no trade, the
order rests where it was pushed. -/
theorem MatchOrders_pushed_sell_rest (s : Orderbook) (hinv : Inv s) (hnf : NoFillAndKill s)
    (o1 : Order) (hside : o1.side_ = Side.Sell)
    (hfresh : indexFind o1.orderId_ s.orders_ = none) (hok : RestingOK o1)
    (hnc : ∀ lv ∈ s.bids_.head?, lv.1 < o1.price_)
    (hfak : o1.orderType_ ≠ OrderType.FillAndKill) :
    MatchOrders (pushed s o1) = .ok ([], pushed s o1) ∧ Inv (pushed s o1) ∧
      NoFillAndKill (pushed s o1) := by
  have ha : (pushed s o1).asks_ = ladderPushBack askBefore o1.price_ o1 s.asks_ := by
    simp [pushed, hside]
  have hb : (pushed s o1).bids_ = s.bids_ := by simp [pushed, hside]
  have hall : ∀ b ∈ s.bids_, b.1 < o1.price_ := by
    intro b hbb
    cases hB : s.bids_ with
    | nil => rw [hB] at hbb; simp at hbb
    | cons x l =>
      have h1 := hnc x (by simp [hB])
      have h2 := bids_head_ge hinv.bids.sorted x (by simp [hB]) b hbb
      omega
  have hcross : ∀ b ∈ (pushed s o1).bids_, ∀ a ∈ (pushed s o1).asks_, b.1 < a.1 := by
    intro b hbb a haa
    rw [hb] at hbb
    rw [ha] at haa
    rcases ladderPushBack_keys _ _ _ a haa with h | ⟨a0, ha0, he⟩
    · rw [h]; exact hall b hbb
    · rw [he]; exact hinv.nocross b hbb a0 ha0
  have haInv : LadderInv Side.Sell (fun a b => a < b) (pushed s o1).asks_ := by
    rw [ha]
    exact LadderInv.pushBack askBefore_iff int_lt_tri int_lt_trans _ _ rfl hside hok _ hinv.asks
  have hbInv : LadderInv Side.Buy (fun a b => a > b) (pushed s o1).bids_ := by
    rw [hb]; exact hinv.bids
  have hperm : (o1 :: restingOrders s).Perm (restingOrders (pushed s o1)) := by
    simp only [restingOrders, hb, ha]
    exact (((ladderOrders_pushBack_perm _ _ _).append_left _).trans List.perm_middle).symm
  have hInv : Inv (pushed s o1) :=
    Inv.of_sync hbInv haInv hcross _ (hinv.indexSync.cons_new o1 hfresh) hperm
  have hNF : NoFillAndKill (pushed s o1) := by
    intro o ho
    rcases List.mem_cons.mp (hperm.mem_iff.mpr ho) with rfl | h
    · exact hfak
    · exact hnf o h
  refine ⟨?_, hInv, hNF⟩
  unfold MatchOrders
  rw [matchLoop_nocross _ _ _ (fun b hbb a haa =>
    hcross b (List.mem_of_mem_head? hbb) a (List.mem_of_mem_head? haa))]
  simp only
  rw [cancelFillAndKillHead_noop _ _ hbInv.nonempty hNF.bids]
  simp only
  rw [cancelFillAndKillHead_noop _ _ haInv.nonempty hNF.asks]

/-- `MatchOrders` after an admitted sell order was pushed on a book that satisfies
the invariant: the closed form of the trades and of the two ladders. -/
theorem MatchOrders_pushed_sell (s : Orderbook) (hinv : Inv s) (hnf : NoFillAndKill s)
    (o1 : Order) (hside : o1.side_ = Side.Sell)
    (hfresh : indexFind o1.orderId_ s.orders_ = none) (hok : RestingOK o1)
    (hfak : o1.orderType_ = OrderType.FillAndKill → s.CanMatch Side.Sell o1.price_ = true) :
    ∃ s1, MatchOrders (pushed s o1) =
        .ok ((fillLadder (acceptsPrice o1) o1.remainingQuantity_ s.bids_).map (mkTrade o1), s1) ∧
      Inv s1 ∧ NoFillAndKill s1 ∧
      s1.bids_ = restLadder (acceptsPrice o1) o1.remainingQuantity_ s.bids_ ∧
      s1.asks_ = (if totalRemaining (acceptableOrders (acceptsPrice o1) s.bids_)
            < o1.remainingQuantity_ ∧ o1.orderType_ ≠ OrderType.FillAndKill
          then ladderPushBack askBefore o1.price_
            (o1.filled (totalRemaining (acceptableOrders (acceptsPrice o1) s.bids_))) s.asks_
          else s.asks_) ∧
      s1.goodForDayOrders_ = (pushed s o1).goodForDayOrders_ := by
  by_cases hc : ∀ lv ∈ s.bids_.head?, lv.1 < o1.price_
  · -- no cross
    have hacc : ∀ lv ∈ s.bids_.head?, acceptsPrice o1 lv.1 = false := by
      intro lv hlv
      rw [acceptsPrice_sell hside]
      simpa using hc lv hlv
    have hfak1 : o1.orderType_ ≠ OrderType.FillAndKill := by
      intro h
      have := hfak h
      cases hB : s.bids_ with
      | nil => simp [CanMatch, hB] at this
      | cons x l =>
        have h1 := hc x (by simp [hB])
        obtain ⟨p, os⟩ := x
        simp only [CanMatch, hB, decide_eq_true_eq] at this
        simp only at h1
        omega
    obtain ⟨h1, h2, h3⟩ := MatchOrders_pushed_sell_rest s hinv hnf o1 hside hfresh hok hc hfak1
    refine ⟨pushed s o1, ?_, h2, h3, ?_, ?_, rfl⟩
    · rw [h1, fillLadder_of_not_accept _ _ _ hacc]; rfl
    · rw [restLadder_of_not_accept _ _ _ hacc]; simp [pushed, hside]
    · rw [acceptableOrders_of_not_accept _ _ hacc]
      simp [pushed, hside, hok.pos, hfak1]
  · -- cross
    cases hB : s.bids_ with
    | nil => simp [hB] at hc
    | cons x l =>
      obtain ⟨bp, os⟩ := x
      have hcr : o1.price_ ≤ bp := by
        simp only [hB, List.head?_cons, Option.mem_def, Option.some.injEq, forall_eq',
          not_lt] at hc
        exact hc
      obtain ⟨s1, h1, h2, h3, h4, h5, h6⟩ :=
        MatchOrders_pushed_sell_cross s hinv hnf o1 hside hfresh hok bp os l hB hcr
      have habove : ∀ lv ∈ s.asks_, o1.price_ < lv.1 := by
        intro lv hlv
        have := hinv.nocross (bp, os) (by rw [hB]; exact List.mem_cons_self _ _) lv hlv
        simp only at this
        omega
      refine ⟨s1, ?_, h2, h3, ?_, ?_, h6⟩
      · rw [h1, hB]
      · rw [h4, hB]
      · rw [h5, ← hB]
        rw [ladderPushBack_head askBefore_iff int_lt_irrefl _ _ _ habove]

/-- `MatchOrders` after an admitted order was pushed on a book that satisfies the
invariant, for either side. -/
theorem MatchOrders_pushed (s : Orderbook) (hinv : Inv s) (hnf : NoFillAndKill s)
    (o1 : Order) (hfresh : indexFind o1.orderId_ s.orders_ = none) (hok : RestingOK o1)
    (hfak : o1.orderType_ = OrderType.FillAndKill → s.CanMatch o1.side_ o1.price_ = true) :
    ∃ s1, MatchOrders (pushed s o1) =
        .ok ((fillLadder (acceptsPrice o1) o1.remainingQuantity_
          (contraLadder s o1.side_)).map (mkTrade o1), s1) ∧
      Inv s1 ∧ NoFillAndKill s1 ∧
      contraLadder s1 o1.side_
        = restLadder (acceptsPrice o1) o1.remainingQuantity_ (contraLadder s o1.side_) ∧
      ownLadder s1 o1.side_ =
        (if totalRemaining (acceptableOrders (acceptsPrice o1) (contraLadder s o1.side_))
            < o1.remainingQuantity_ ∧ o1.orderType_ ≠ OrderType.FillAndKill
          then ladderPushBack (sideBefore o1.side_) o1.price_
            (o1.filled (totalRemaining (acceptableOrders (acceptsPrice o1)
              (contraLadder s o1.side_)))) (ownLadder s o1.side_)
          else ownLadder s o1.side_) ∧
      s1.goodForDayOrders_ = (pushed s o1).goodForDayOrders_ := by
  cases hside : o1.side_ with
  | Buy =>
    rw [hside] at hfak
    simpa only [contraLadder, ownLadder, sideBefore] using
      MatchOrders_pushed_buy s hinv hnf o1 hside hfresh hok hfak
  | Sell =>
    rw [hside] at hfak
    simpa only [contraLadder, ownLadder, sideBefore] using
      MatchOrders_pushed_sell s hinv hnf o1 hside hfresh hok hfak

/-- What the admission decision guarantees about the admitted order. -/
theorem admission_some {s : Orderbook} {o o1 : Order} (h : admission s o = some o1) :
    o.initialQuantity_ ≠ 0 ∧ 0 ≤ o.price_ ∧ o.price_ ≤ 1000000 ∧
    indexFind o.orderId_ s.orders_ = none ∧
    o1.orderId_ = o.orderId_ ∧ o1.side_ = o.side_ ∧
    o1.initialQuantity_ = o.initialQuantity_ ∧ o1.remainingQuantity_ = o.remainingQuantity_ ∧
    o1.orderType_ ≠ OrderType.Market ∧
    (o.orderType_ ≠ OrderType.Market → o1 = o) ∧
    (o.orderType_ = OrderType.Market →
      o1.orderType_ = OrderType.GoodTillCancel ∧
      ladderLastPrice (contraLadder s o.side_) = some o1.price_) ∧
    (o1.orderType_ = OrderType.FillAndKill → s.CanMatch o1.side_ o1.price_ = true) ∧
    (o1.orderType_ = OrderType.FillOrKill →
      s.CanFullyFill o1.side_ o1.price_ o1.initialQuantity_ = true) := by
  unfold admission at h
  by_cases hq : o.initialQuantity_ = 0
  · simp [hq] at h
  by_cases hp : o.price_ < 0 ∨ o.price_ > 1000000
  · simp [hq, hp] at h
  cases hf : indexFind o.orderId_ s.orders_ with
  | some x => simp [hq, hp, hf] at h
  | none =>
    simp only [hq, hp, hf, if_false, Option.isSome_none, Bool.false_eq_true] at h
    have hp1 : 0 ≤ o.price_ ∧ o.price_ ≤ 1000000 := by omega
    refine ⟨hq, hp1.1, hp1.2, rfl, ?_⟩
    cases ht : o.orderType_ with
    | Market =>
      simp only [ht] at h
      cases hl : ladderLastPrice (contraLadder s o.side_) with
      | none => simp [hl] at h
      | some w =>
        simp only [hl, Option.map_some', Option.some.injEq] at h
        subst h
        simp
    | GoodTillCancel =>
      simp only [ht, Option.some.injEq] at h
      subst h
      simp [ht]
    | GoodForDay =>
      simp only [ht, Option.some.injEq] at h
      subst h
      simp [ht]
    | FillAndKill =>
      simp only [ht] at h
      by_cases hc : s.CanMatch o.side_ o.price_ = true
      · simp only [hc, if_true, Option.some.injEq] at h
        subst h
        simp [ht, hc]
      · simp [hc] at h
    | FillOrKill =>
      simp only [ht] at h
      by_cases hc : s.CanFullyFill o.side_ o.price_ o.initialQuantity_ = true
      · simp only [hc, if_true, Option.some.injEq] at h
        subst h
        simp [ht, hc]
      · simp [hc] at h

theorem ladderLastPrice_mem : ∀ (l : Ladder) (w : Int), ladderLastPrice l = some w →
    ∃ lv ∈ l, lv.1 = w
  | [], w, h => by simp [ladderLastPrice] at h
  | [(p, os)], w, h => by
    simp only [ladderLastPrice, Option.some.injEq] at h
    exact ⟨(p, os), List.mem_singleton_self _, h⟩
  | x :: y :: rest, w, h => by
    simp only [ladderLastPrice] at h
    obtain ⟨lv, hlv, he⟩ := ladderLastPrice_mem (y :: rest) w h
    exact ⟨lv, List.mem_cons_of_mem _ hlv, he⟩

theorem Inv.contra_orders {s : Orderbook} (h : Inv s) (side : Side) :
    ∀ lv ∈ contraLadder s side, lv.2 ≠ [] ∧ ∀ a ∈ lv.2, a.price_ = lv.1 ∧ RestingOK a := by
  intro lv hlv
  cases side
  · exact ⟨h.asks.nonempty lv hlv, fun a ha =>
      ⟨(h.asks.orders lv hlv a ha).1, (h.asks.orders lv hlv a ha).2.2⟩⟩
  · exact ⟨h.bids.nonempty lv hlv, fun a ha =>
      ⟨(h.bids.orders lv hlv a ha).1, (h.bids.orders lv hlv a ha).2.2⟩⟩

/-- Every key of the contra ladder is the price of an order that passed validation. -/
theorem Inv.contra_key_bounds {s : Orderbook} (h : Inv s) (side : Side) :
    ∀ lv ∈ contraLadder s side, 0 ≤ lv.1 ∧ lv.1 ≤ 1000000 := by
  intro lv hlv
  obtain ⟨hne, hos⟩ := h.contra_orders side lv hlv
  cases hl : lv.2 with
  | nil => exact absurd hl hne
  | cons a os =>
    obtain ⟨hp, hok⟩ := hos a (by rw [hl]; exact List.mem_cons_self _ _)
    rw [← hp]
    exact ⟨hok.priceLo, hok.priceHi⟩

theorem admission_restingOK {s : Orderbook} (hinv : Inv s) {o o1 : Order} (hnew : o.IsNew)
    (h : admission s o = some o1) : RestingOK o1 := by
  obtain ⟨h1, hlo, hhi, _, _, _, h7, h8, h9, heq, hmk, _⟩ := admission_some h
  obtain ⟨hn1, hn2⟩ := hnew
  have hb : 0 ≤ o1.price_ ∧ o1.price_ ≤ 1000000 := by
    by_cases ht : o.orderType_ = OrderType.Market
    · obtain ⟨lv, hlv, he⟩ := ladderLastPrice_mem _ _ (hmk ht).2
      rw [← he]
      exact hinv.contra_key_bounds _ lv hlv
    · rw [heq ht]
      exact ⟨hlo, hhi⟩
  exact ⟨by rw [h8, hn1]; omega, by rw [h8, h7, hn1], by rw [h7]; exact hn2, h9, hb.1, hb.2⟩

/-- `AddOrder` on a book that satisfies the invariant: a rejected order leaves the
book as it is, an admitted order is swept against the contra ladder. -/
theorem AddOrder_spec (s : Orderbook) (hinv : Inv s) (hnf : NoFillAndKill s) (o : Order)
    (hnew : o.IsNew) :
    (admission s o = none ∧ s.AddOrder (some o) = .ok ([], s)) ∨
    ∃ o1 s1, admission s o = some o1 ∧
      s.AddOrder (some o) =
        .ok ((fillLadder (acceptsPrice o1) o1.remainingQuantity_
          (contraLadder s o1.side_)).map (mkTrade o1), s1) ∧
      Inv s1 ∧ NoFillAndKill s1 ∧
      contraLadder s1 o1.side_
        = restLadder (acceptsPrice o1) o1.remainingQuantity_ (contraLadder s o1.side_) ∧
      ownLadder s1 o1.side_ =
        (if totalRemaining (acceptableOrders (acceptsPrice o1) (contraLadder s o1.side_))
            < o1.remainingQuantity_ ∧ o1.orderType_ ≠ OrderType.FillAndKill
          then ladderPushBack (sideBefore o1.side_) o1.price_
            (o1.filled (totalRemaining (acceptableOrders (acceptsPrice o1)
              (contraLadder s o1.side_)))) (ownLadder s o1.side_)
          else ownLadder s o1.side_) ∧
      s1.goodForDayOrders_ = (pushed s o1).goodForDayOrders_ := by
  cases ha : admission s o with
  | none =>
    left
    exact ⟨rfl, by rw [AddOrder_eq, ha]⟩
  | some o1 =>
    right
    obtain ⟨_, _, _, hfresh, hid, _, _, _, _, _, _, hfak, _⟩ := admission_some ha
    obtain ⟨s1, h1, h2⟩ := MatchOrders_pushed s hinv hnf o1 (by rw [hid]; exact hfresh)
      (admission_restingOK hinv hnew ha) hfak
    exact ⟨o1, s1, rfl, by rw [AddOrder_eq, ha]; exact h1, h2⟩

theorem Inv.empty_book : Inv Orderbook.empty :=
  ⟨LadderInv.nil _ _, LadderInv.nil _ _, by simp [Orderbook.empty], by
    simp [Orderbook.empty, restingOrders, ladderOrders], by
    simp [Orderbook.empty, restingOrders, ladderOrders]⟩

theorem NoFillAndKill.empty_holds : NoFillAndKill Orderbook.empty := by
  intro o ho
  simp [Orderbook.empty, restingOrders, ladderOrders] at ho

theorem AddOrder_inv (s : Orderbook) (hinv : Inv s) (hnf : NoFillAndKill s) (o : Order)
    (hnew : o.IsNew) : ∃ trades s1, s.AddOrder (some o) = .ok (trades, s1) ∧
      Inv s1 ∧ NoFillAndKill s1 := by
  rcases AddOrder_spec s hinv hnf o hnew with ⟨_, h⟩ | ⟨o1, s1, _, h, h1, h2, _⟩
  · exact ⟨_, _, h, hinv, hnf⟩
  · exact ⟨_, _, h, h1, h2⟩

theorem CancelOrderInternal_inv (s : Orderbook) (hinv : Inv s) (hnf : NoFillAndKill s)
    (id : Nat) : ∃ s1, s.CancelOrderInternal id = .ok s1 ∧ Inv s1 ∧ NoFillAndKill s1 := by
  obtain ⟨s1, h, h1, hb, ha, _⟩ := CancelOrderInternal_spec s hinv id
  refine ⟨s1, h, h1, ?_⟩
  intro o ho
  simp only [restingOrders, hb, ha, List.mem_append, List.mem_filter] at ho
  rcases ho with h2 | h2
  · exact hnf.bids o h2.1
  · exact hnf.asks o h2.1

theorem CancelOrders_inv : ∀ (ids : List Nat) (s : Orderbook), Inv s → NoFillAndKill s →
    ∃ s1, s.CancelOrders ids = .ok s1 ∧ Inv s1 ∧ NoFillAndKill s1
  | [], s, hinv, hnf => ⟨s, rfl, hinv, hnf⟩
  | id :: ids, s, hinv, hnf => by
    obtain ⟨s1, h, h1, h2⟩ := CancelOrderInternal_inv s hinv hnf id
    obtain ⟨s2, h3, h4⟩ := CancelOrders_inv ids s1 h1 h2
    exact ⟨s2, by simp only [CancelOrders, h]; exact h3, h4⟩

theorem ModifyOrder_inv (s : Orderbook) (hinv : Inv s) (hnf : NoFillAndKill s)
    (m : OrderModify) (hq : m.quantity_ < quantityModulus) :
    ∃ trades s1, s.ModifyOrder m = .ok (trades, s1) ∧ Inv s1 ∧ NoFillAndKill s1 := by
  unfold ModifyOrder
  cases hf : indexFind m.GetOrderId s.orders_ with
  | none => exact ⟨_, _, rfl, hinv, hnf⟩
  | some ex =>
    obtain ⟨s1, h, h1, h2⟩ := CancelOrderInternal_inv s hinv hnf m.GetOrderId
    simp only [CancelOrder, h]
    exact AddOrder_inv s1 h1 h2 _ ⟨rfl, hq⟩

/-- Every reachable book satisfies the structural invariant and holds no
FillAndKill order. -/
theorem Reachable.inv {s : Orderbook} (h : Reachable s) : Inv s ∧ NoFillAndKill s := by
  induction h with
  | empty => exact ⟨Inv.empty_book, NoFillAndKill.empty_holds⟩
  | add s s1 o trades _ hnew hadd ih =>
    obtain ⟨t, s2, h, h1⟩ := AddOrder_inv s ih.1 ih.2 o hnew
    rw [hadd] at h
    cases h
    exact h1
  | cancel s s1 id _ hc ih =>
    obtain ⟨s2, h, h1⟩ := CancelOrderInternal_inv s ih.1 ih.2 id
    rw [CancelOrder] at hc
    rw [hc] at h
    cases h
    exact h1
  | modify s s1 m trades _ hq hm ih =>
    obtain ⟨t, s2, h, h1⟩ := ModifyOrder_inv s ih.1 ih.2 m hq
    rw [hm] at h
    cases h
    exact h1
  | expire s s1 _ he ih =>
    obtain ⟨s2, h, h1⟩ := CancelOrders_inv s.goodForDayOrders_ s ih.1 ih.2
    rw [expireGoodForDay] at he
    rw [he] at h
    cases h
    exact h1

theorem Reachable.afterAdds : ∀ (os : List Order) (s : Orderbook), Reachable s →
    (∀ o ∈ os, o.IsNew) → Reachable (afterAdds s os)
  | [], s, h, _ => h
  | o :: os, s, h, hn => by
    unfold TradingEngine.afterAdds
    cases ha : s.AddOrder (some o) with
    | error e =>
      exact Reachable.afterAdds os s h (fun x hx => hn x (List.mem_cons_of_mem _ hx))
    | ok r =>
      obtain ⟨t, s1⟩ := r
      exact Reachable.afterAdds os s1
        (Reachable.add s s1 o t h (hn o (List.mem_cons_self _ _)) ha)
        (fun x hx => hn x (List.mem_cons_of_mem _ hx))

/-- Sum of the quantities taken by a sweep of one level. -/
theorem fillList_sum : ∀ (l : List Order) (r : Nat),
    ((fillList r l).map Prod.snd).sum = min r (totalRemaining l)
  | [], r => by simp [fillList]
  | a :: l, r => by
    simp only [fillList, totalRemaining_cons]
    split
    · rename_i h; simp [h]
    · split
      · rename_i h1 h2
        simp only [List.map_cons, List.map_nil, List.sum_cons, List.sum_nil]
        omega
      · rename_i h1 h2
        simp only [List.map_cons, List.sum_cons, fillList_sum l]
        omega

/-- Sum of the quantities taken by a sweep of a ladder. -/
theorem fillLadder_sum (accept : Int → Bool) : ∀ (A : Ladder) (r : Nat),
    ((fillLadder accept r A).map Prod.snd).sum
      = min r (totalRemaining (acceptableOrders accept A))
  | [], r => by simp [fillLadder, acceptableOrders]
  | (p, os) :: A, r => by
    simp only [fillLadder, acceptableOrders]
    by_cases hr : r = 0
    · simp [hr]
    by_cases hacc : accept p = false
    · simp [hacc]
    have hacc1 : accept p = true := by simpa using hacc
    have : totalRemaining (os ++ acceptableOrders accept A)
        = totalRemaining os + totalRemaining (acceptableOrders accept A) := by
      simp [totalRemaining]
    simp only [hr, hacc1, Bool.true_eq_false, or_self, if_false, List.map_append,
      List.sum_append, fillList_sum, fillLadder_sum accept A, this]
    omega

theorem tradedQuantity_mkTrade (o : Order) (fills : List (Order × Nat)) :
    tradedQuantity (fills.map (mkTrade o)) = (fills.map Prod.snd).sum := by
  unfold tradedQuantity
  rw [List.map_map]
  congr 1
  apply List.map_congr_left
  intro f _
  cases h : o.side_ <;> simp [mkTrade, h]

theorem fillList_full : ∀ (l : List Order) (r : Nat), totalRemaining l < r →
    (fillList r l).map Prod.fst = l
  | [], _, _ => by simp [fillList]
  | a :: l, r, h => by
    simp only [totalRemaining_cons] at h
    have h1 : r ≠ 0 := by omega
    have h2 : ¬ r < a.remainingQuantity_ := by omega
    simp only [fillList, h1, h2, if_false, List.map_cons]
    rw [fillList_full l _ (by omega)]

theorem fillList_take : ∀ (l : List Order) (r : Nat),
    ∃ k, (fillList r l).map Prod.fst = l.take k
  | [], r => ⟨0, by simp [fillList]⟩
  | a :: l, r => by
    simp only [fillList]
    split
    · exact ⟨0, by simp⟩
    · split
      · exact ⟨1, by simp⟩
      · obtain ⟨k, hk⟩ := fillList_take l (r - a.remainingQuantity_)
        exact ⟨k + 1, by simp [hk]⟩

/-- The orders hit by a sweep are an initial segment of the ladder in priority order. -/
theorem fillLadder_take (accept : Int → Bool) : ∀ (A : Ladder) (r : Nat),
    ∃ k, (fillLadder accept r A).map Prod.fst = (ladderOrders A).take k
  | [], r => ⟨0, by simp [fillLadder]⟩
  | (p, os) :: A, r => by
    simp only [fillLadder, ladderOrders]
    split
    · exact ⟨0, by simp⟩
    · by_cases h : totalRemaining os < r
      · obtain ⟨k, hk⟩ := fillLadder_take accept A (r - totalRemaining os)
        refine ⟨os.length + k, ?_⟩
        rw [List.map_append, fillList_full os r h, hk, List.take_append]
      · obtain ⟨k, hk⟩ := fillList_take os r
        have h0 : r - totalRemaining os = 0 := by omega
        refine ⟨min k os.length, ?_⟩
        rw [h0, fillLadder_zero, List.append_nil, hk]
        rw [List.take_append_eq_append_take]
        have : min k os.length - os.length = 0 := by omega
        rw [this, List.take_zero, List.append_nil]
        rw [List.take_eq_take]
        simp

theorem take_length_self {α : Type} (l m : List α) (k : Nat) (h : m = l.take k) :
    m = l.take m.length := by
  subst h
  rw [List.length_take, List.take_eq_take]
  simp

/-- C1 (no-cross invariant): in every reachable book the bid ladder is empty, or
the ask ladder is empty, or the first bid level carries the highest bid price, the
first ask level the lowest ask price, and the former is strictly below the latter. -/
theorem no_cross_invariant (s : Orderbook) (h : Reachable s) :
    s.bids_ = [] ∨ s.asks_ = [] ∨
      ∃ bestBid bestAsk, s.bids_.head? = some bestBid ∧ s.asks_.head? = some bestAsk ∧
        (∀ lv ∈ s.bids_, lv.1 ≤ bestBid.1) ∧ (∀ lv ∈ s.asks_, bestAsk.1 ≤ lv.1) ∧
        bestBid.1 < bestAsk.1 := by
  have hinv := h.inv.1
  cases hb : s.bids_ with
  | nil => exact Or.inl rfl
  | cons b B =>
    cases ha : s.asks_ with
    | nil => exact Or.inr (Or.inl rfl)
    | cons a A =>
      refine Or.inr (Or.inr ⟨b, a, rfl, rfl, ?_, ?_, ?_⟩)
      · have := bids_head_ge hinv.bids.sorted b (by simp [hb])
        rwa [hb] at this
      · have := asks_head_le hinv.asks.sorted a (by simp [ha])
        rwa [ha] at this
      · exact hinv.nocross b (by simp [hb]) a (by simp [ha])

/-- C1 at the reachable book with one bid at 100 and one ask at 110. -/
theorem no_cross_invariant_witness :
    bookSpread.bids_ = [] ∨ bookSpread.asks_ = [] ∨
      ∃ bestBid bestAsk, bookSpread.bids_.head? = some bestBid ∧
        bookSpread.asks_.head? = some bestAsk ∧
        (∀ lv ∈ bookSpread.bids_, lv.1 ≤ bestBid.1) ∧
        (∀ lv ∈ bookSpread.asks_, bestAsk.1 ≤ lv.1) ∧
        bestBid.1 < bestAsk.1 :=
  no_cross_invariant bookSpread (Reachable.afterAdds _ _ Reachable.empty (by decide))

theorem contraId_mkTrade (o : Order) (f : Order × Nat) :
    contraId o.side_ (mkTrade o f) = f.1.orderId_ := by
  cases h : o.side_ <;> simp [contraId, contraTrade, mkTrade, h]

theorem Inv.contra_ids_nodup {s : Orderbook} (h : Inv s) (side : Side) :
    ((ladderOrders (contraLadder s side)).map Order.orderId_).Nodup := by
  have := List.nodup_append.mp (by simpa [restingOrders] using h.ids :
    ((ladderOrders s.bids_).map Order.orderId_ ++ (ladderOrders s.asks_).map Order.orderId_).Nodup)
  cases side
  · exact this.2.1
  · exact this.1

theorem Inv.contra {s : Orderbook} (h : Inv s) (side : Side) :
    ∀ lv ∈ contraLadder s side, lv.2 ≠ [] := by
  cases side
  · exact h.asks.nonempty
  · exact h.bids.nonempty

/-- C2 (price-time priority): from a reachable book, `AddOrder` of a fresh order
object returns trades whose contra-side ids are exactly the ids of the first
`trades.length` orders of the contra ladder enumerated best level first and FIFO
inside a level; no id occurs twice, and the first trade is against the head order
of the best contra level. -/
theorem price_time_priority (s : Orderbook) (h : Reachable s) (o : Order) (hnew : o.IsNew) :
    ∃ trades s1, s.AddOrder (some o) = .ok (trades, s1) ∧
      trades.map (contraId o.side_) =
        ((ladderOrders (contraLadder s o.side_)).take trades.length).map Order.orderId_ ∧
      (trades.map (contraId o.side_)).Nodup ∧
      (∀ t ∈ trades.head?, ∃ lv ∈ (contraLadder s o.side_).head?, ∃ a ∈ lv.2.head?,
        contraId o.side_ t = a.orderId_) := by
  obtain ⟨hinv, hnf⟩ := h.inv
  rcases AddOrder_spec s hinv hnf o hnew with ⟨_, hadd⟩ | ⟨o1, s1, hadm, hadd, _⟩
  · exact ⟨[], s, hadd, by simp, by simp, by simp⟩
  · obtain ⟨_, _, _, _, _, hside, _⟩ := admission_some hadm
    rw [hside] at hadd
    refine ⟨_, s1, hadd, ?_⟩
    obtain ⟨k, hk⟩ := fillLadder_take (acceptsPrice o1) (contraLadder s o.side_)
      o1.remainingQuantity_
    have hk1 := take_length_self _ _ k hk
    rw [List.length_map] at hk1
    have hids : ((fillLadder (acceptsPrice o1) o1.remainingQuantity_
        (contraLadder s o.side_)).map (mkTrade o1)).map (contraId o.side_)
        = ((ladderOrders (contraLadder s o.side_)).take
            ((fillLadder (acceptsPrice o1) o1.remainingQuantity_
              (contraLadder s o.side_)).map (mkTrade o1)).length).map Order.orderId_ := by
      rw [List.length_map, ← hk1, List.map_map, List.map_map]
      apply List.map_congr_left
      intro f _
      simp only [Function.comp]
      rw [← hside, contraId_mkTrade]
    refine ⟨hids, ?_, ?_⟩
    · rw [hids]
      exact ((List.take_sublist _ _).map _).nodup (hinv.contra_ids_nodup _)
    · intro t ht
      cases hf : fillLadder (acceptsPrice o1) o1.remainingQuantity_ (contraLadder s o.side_) with
      | nil => rw [hf] at ht; simp at ht
      | cons f fs =>
        rw [hf] at ht hk1
        simp only [List.map_cons, List.head?_cons, Option.mem_def, Option.some.injEq] at ht
        subst ht
        simp only [List.map_cons, List.length_cons] at hk1
        cases hA : contraLadder s o.side_ with
        | nil => rw [hA] at hk1; simp [ladderOrders] at hk1
        | cons lv A =>
          obtain ⟨p, os⟩ := lv
          have hne := hinv.contra o.side_ (p, os) (by rw [hA]; exact List.mem_cons_self _ _)
          cases os with
          | nil => exact absurd rfl hne
          | cons a os =>
            rw [hA] at hk1
            simp only [ladderOrders, List.cons_append, List.take_succ_cons,
              List.cons.injEq] at hk1
            refine ⟨(p, a :: os), by simp, a, by simp, ?_⟩
            rw [← hside, contraId_mkTrade, hk1.1]

/-- C2 at scenario S2: three resting bids and an incoming sell of 200 at 100. -/
theorem price_time_priority_witness :
    ∃ trades s1, bookThreeBids.AddOrder
        (some (Order.new OrderType.GoodTillCancel 4 Side.Sell 100 200)) = .ok (trades, s1) ∧
      trades.map (contraId (Order.new OrderType.GoodTillCancel 4 Side.Sell 100 200).side_) =
        ((ladderOrders (contraLadder bookThreeBids
            (Order.new OrderType.GoodTillCancel 4 Side.Sell 100 200).side_)).take
          trades.length).map Order.orderId_ ∧
      (trades.map (contraId (Order.new OrderType.GoodTillCancel 4 Side.Sell 100 200).side_)).Nodup ∧
      (∀ t ∈ trades.head?, ∃ lv ∈ (contraLadder bookThreeBids
          (Order.new OrderType.GoodTillCancel 4 Side.Sell 100 200).side_).head?,
        ∃ a ∈ lv.2.head?,
          contraId (Order.new OrderType.GoodTillCancel 4 Side.Sell 100 200).side_ t
            = a.orderId_) :=
  price_time_priority bookThreeBids (Reachable.afterAdds _ _ Reachable.empty (by decide))
    (Order.new OrderType.GoodTillCancel 4 Side.Sell 100 200) (by decide)

/-- Scenario S2 evaluated: the sell of 200 at 100 trades with order 2, the highest
bid, at its price 110. -/
theorem scenario_S2_trades :
    (bookThreeBids.AddOrder (some (Order.new OrderType.GoodTillCancel 4 Side.Sell 100 200))).map
        Prod.fst
      = .ok [{ bidTrade_ := { orderId_ := 2, price_ := 110, quantity_ := 200 },
               askTrade_ := { orderId_ := 4, price_ := 100, quantity_ := 200 } }] := by
  decide!

/-- C3, the code at the failing input: after scenario S1 order 1 rests with 500 at
100, so a FillOrKill sell of 500 at 100 can be filled in full (the acceptable bid
quantity is 500), yet `AddOrder` rejects it, because `MatchOrders` erased the
aggregate entry of price 100 when the ask level at 100 emptied. -/
theorem fill_or_kill_rejected_although_fillable :
    Reachable bookS1 ∧
    bookS1.OrderExists 3 = false ∧
    totalRemaining (acceptableOrders
      (acceptsPrice (Order.new OrderType.FillOrKill 3 Side.Sell 100 500)) bookS1.bids_) = 500 ∧
    bookS1.data_ = [] ∧
    bookS1.AddOrder (some (Order.new OrderType.FillOrKill 3 Side.Sell 100 500))
      = .ok ([], bookS1) :=
  ⟨Reachable.afterAdds _ _ Reachable.empty (by decide), by decide!, by decide!, by decide!,
    by decide!⟩

/-- C4, the code at the failing input: after scenario S3 the aggregate table keeps
a stale entry at price 200; with a new ask of 10 at 150 a FillOrKill buy of 100 at
200 is admitted although only 10 can be bought, trades 10 and then rests in the
book with 90 remaining. -/
theorem fill_or_kill_partially_filled_and_resting :
    Reachable bookAfterS3 ∧
    bookAfterS3.OrderExists 4 = false ∧
    bookAfterS3.data_ = [(200, { quantity_ := 4294967096, count_ := 4294967295 }),
                         (150, { quantity_ := 10, count_ := 1 })] ∧
    totalRemaining (acceptableOrders
      (acceptsPrice (Order.new OrderType.FillOrKill 4 Side.Buy 200 100)) bookAfterS3.asks_) = 10 ∧
    ∃ s1, bookAfterS3.AddOrder (some (Order.new OrderType.FillOrKill 4 Side.Buy 200 100))
        = .ok ([{ bidTrade_ := { orderId_ := 4, price_ := 200, quantity_ := 10 },
                  askTrade_ := { orderId_ := 3, price_ := 150, quantity_ := 10 } }], s1) ∧
      s1.OrderExists 4 = true ∧
      s1.bids_ = [(200, [{ orderType_ := OrderType.FillOrKill, orderId_ := 4, side_ := Side.Buy,
                           price_ := 200, initialQuantity_ := 100,
                           remainingQuantity_ := 90 }])] :=
  ⟨Reachable.afterAdds _ _ Reachable.empty (by decide), by decide!, by decide!, by decide!,
    ⟨afterAdds bookAfterS3 [Order.new OrderType.FillOrKill 4 Side.Buy 200 100],
      by decide!, by decide!, by decide!⟩⟩

/-- C6, the code at the failing input: after scenario S1 order 1 rests at price
100 with 500 remaining, but the aggregate table has no entry for price 100; after
scenario S3 nothing rests, but the table has an entry for price 200. -/
theorem aggregate_table_out_of_step :
    Reachable bookS1 ∧
    restingOrders bookS1 = [{ orderType_ := OrderType.GoodTillCancel, orderId_ := 1,
                              side_ := Side.Buy, price_ := 100, initialQuantity_ := 1000,
                              remainingQuantity_ := 500 }] ∧
    dataFind 100 bookS1.data_ = none ∧
    Reachable (afterAdds Orderbook.empty
      [Order.new OrderType.GoodTillCancel 1 Side.Sell 200 300,
       Order.new OrderType.FillAndKill 2 Side.Buy 200 500]) ∧
    restingOrders (afterAdds Orderbook.empty
      [Order.new OrderType.GoodTillCancel 1 Side.Sell 200 300,
       Order.new OrderType.FillAndKill 2 Side.Buy 200 500]) = [] ∧
    dataFind 200 (afterAdds Orderbook.empty
      [Order.new OrderType.GoodTillCancel 1 Side.Sell 200 300,
       Order.new OrderType.FillAndKill 2 Side.Buy 200 500]).data_
      = some { quantity_ := 4294967096, count_ := 4294967295 } :=
  ⟨Reachable.afterAdds _ _ Reachable.empty (by decide), by decide!, by decide!,
    Reachable.afterAdds _ _ Reachable.empty (by decide), by decide!, by decide!⟩

theorem mem_restingOrders_side (s : Orderbook) (side : Side) (x : Order) :
    x ∈ restingOrders s ↔
      x ∈ ladderOrders (ownLadder s side) ∨ x ∈ ladderOrders (contraLadder s side) := by
  cases side <;> simp [restingOrders, ownLadder, contraLadder, or_comm]

theorem OrderExists_eq_false_iff {s : Orderbook} (hinv : Inv s) (id : Nat) :
    s.OrderExists id = false ↔ ∀ x ∈ restingOrders s, x.orderId_ ≠ id := by
  unfold OrderExists
  rw [← hinv.indexSync.find_none id]
  cases indexFind id s.orders_ <;> simp

theorem OrderExists_eq_false_iff_find (s : Orderbook) (id : Nat) :
    s.OrderExists id = false ↔ indexFind id s.orders_ = none := by
  unfold OrderExists
  cases indexFind id s.orders_ <;> simp

/-- After an admitted order was swept, the orders with the id of the incoming
order are exactly its remainder, provided the id was fresh. -/
theorem AddOrder_resting_id {s s1 : Orderbook} {o1 : Order}
    (hfresh : ∀ x ∈ restingOrders s, x.orderId_ ≠ o1.orderId_)
    (hc : contraLadder s1 o1.side_
      = restLadder (acceptsPrice o1) o1.remainingQuantity_ (contraLadder s o1.side_))
    (ho : ownLadder s1 o1.side_ =
      (if totalRemaining (acceptableOrders (acceptsPrice o1) (contraLadder s o1.side_))
            < o1.remainingQuantity_ ∧ o1.orderType_ ≠ OrderType.FillAndKill
          then ladderPushBack (sideBefore o1.side_) o1.price_
            (o1.filled (totalRemaining (acceptableOrders (acceptsPrice o1)
              (contraLadder s o1.side_)))) (ownLadder s o1.side_)
          else ownLadder s o1.side_))
    (x : Order) (hx : x ∈ restingOrders s1) (hid : x.orderId_ = o1.orderId_) :
    totalRemaining (acceptableOrders (acceptsPrice o1) (contraLadder s o1.side_))
        < o1.remainingQuantity_ ∧ o1.orderType_ ≠ OrderType.FillAndKill ∧
      x = o1.filled (totalRemaining (acceptableOrders (acceptsPrice o1)
        (contraLadder s o1.side_))) := by
  rw [mem_restingOrders_side s1 o1.side_] at hx
  rcases hx with h | h
  · rw [ho] at h
    split at h
    · rename_i hcond
      rcases List.mem_cons.mp ((ladderOrders_pushBack_perm _ _ _).mem_iff.mp h) with h1 | h1
      · exact ⟨hcond.1, hcond.2, h1⟩
      · exact absurd hid (hfresh x ((mem_restingOrders_side s o1.side_ x).mpr (Or.inl h1)))
    · exact absurd hid (hfresh x ((mem_restingOrders_side s o1.side_ x).mpr (Or.inl h)))
  · rw [hc] at h
    obtain ⟨a, ha, _, h2⟩ := restLadder_orders _ _ _ x h
    exact absurd (h2 ▸ hid) (hfresh a ((mem_restingOrders_side s o1.side_ a).mpr (Or.inr ha)))

/-- Scenario S3 evaluated: one trade of 300, nothing rests afterwards. -/
theorem scenario_S3_result :
    (bookOneAsk.AddOrder (some (Order.new OrderType.FillAndKill 2 Side.Buy 200 500))).map
        Prod.fst
      = .ok [{ bidTrade_ := { orderId_ := 2, price_ := 200, quantity_ := 300 },
               askTrade_ := { orderId_ := 1, price_ := 200, quantity_ := 300 } }] ∧
    (bookOneAsk.AddOrder (some (Order.new OrderType.FillAndKill 2 Side.Buy 200 500))).map
        (fun r => r.2.Size) = .ok 0 := by
  decide!

theorem admission_none_of_rejected (s : Orderbook) (o : Order)
    (hrej : o.initialQuantity_ = 0 ∨ o.price_ < 0 ∨ o.price_ > 1000000 ∨
      s.OrderExists o.orderId_ = true ∨
      (o.orderType_ = OrderType.Market ∧ contraLadder s o.side_ = []) ∨
      (o.orderType_ = OrderType.FillAndKill ∧ s.CanMatch o.side_ o.price_ = false) ∨
      (o.orderType_ = OrderType.FillOrKill ∧
        s.CanFullyFill o.side_ o.price_ o.initialQuantity_ = false)) :
    admission s o = none := by
  unfold admission
  by_cases hq : o.initialQuantity_ = 0
  · simp [hq]
  by_cases hp : o.price_ < 0 ∨ o.price_ > 1000000
  · simp [hq, hp]
  by_cases hf : (indexFind o.orderId_ s.orders_).isSome = true
  · simp [hq, hp, hf]
  simp only [hq, hp, hf, if_false, Bool.false_eq_true]
  rcases hrej with h | h | h | h | h | h | h
  · exact absurd h hq
  · exact absurd (Or.inl h) hp
  · exact absurd (Or.inr h) hp
  · exact absurd h hf
  · simp [h.1, h.2, ladderLastPrice]
  · simp [h.1, h.2]
  · simp [h.1, h.2]

/-- C7 (rejection is atomic): for every book, when the order has zero quantity, a
price below 0 or above 1000000, an id that is indexed, is a Market order facing
an empty opposite ladder, a FillAndKill order for which `CanMatch` is false, or a
FillOrKill order for which `CanFullyFill` is false, `AddOrder` returns no trade and
the very same state (ladders, index, aggregate table and day-order set). -/
theorem rejection_is_atomic (s : Orderbook) (o : Order)
    (hrej : o.initialQuantity_ = 0 ∨ o.price_ < 0 ∨ o.price_ > 1000000 ∨
      s.OrderExists o.orderId_ = true ∨
      (o.orderType_ = OrderType.Market ∧ contraLadder s o.side_ = []) ∨
      (o.orderType_ = OrderType.FillAndKill ∧ s.CanMatch o.side_ o.price_ = false) ∨
      (o.orderType_ = OrderType.FillOrKill ∧
        s.CanFullyFill o.side_ o.price_ o.initialQuantity_ = false)) :
    s.AddOrder (some o) = .ok ([], s) := by
  rw [AddOrder_eq, admission_none_of_rejected s o hrej]

/-- C7 at scenario S4: a FillOrKill buy of 500 against a single ask of 300. -/
theorem rejection_is_atomic_witness :
    bookOneAsk.AddOrder (some (Order.new OrderType.FillOrKill 2 Side.Buy 200 500))
      = .ok ([], bookOneAsk) :=
  rejection_is_atomic bookOneAsk (Order.new OrderType.FillOrKill 2 Side.Buy 200 500)
    (Or.inr (Or.inr (Or.inr (Or.inr (Or.inr (Or.inr ⟨rfl, by decide!⟩))))))

theorem ladderLastPrice_worst {R : Int → Int → Prop} : ∀ (l : Ladder) (w : Int),
    l.Pairwise (fun x y => R x.1 y.1) → ladderLastPrice l = some w →
    ∀ lv ∈ l, lv.1 = w ∨ R lv.1 w
  | [], w, _, h => by simp [ladderLastPrice] at h
  | [(p, os)], w, _, h => by
    simp only [ladderLastPrice, Option.some.injEq] at h
    intro lv hlv
    rw [List.mem_singleton] at hlv
    subst hlv
    exact Or.inl h
  | x :: y :: rest, w, hs, h => by
    simp only [ladderLastPrice] at h
    rw [List.pairwise_cons] at hs
    intro lv hlv
    rcases List.mem_cons.mp hlv with rfl | h1
    · obtain ⟨z, hz, he⟩ := ladderLastPrice_mem (y :: rest) w h
      exact Or.inr (he ▸ hs.1 z hz)
    · exact ladderLastPrice_worst (y :: rest) w hs.2 h lv h1

theorem acceptableOrders_all (accept : Int → Bool) : ∀ (A : Ladder),
    (∀ lv ∈ A, accept lv.1 = true) → acceptableOrders accept A = ladderOrders A
  | [], _ => rfl
  | (p, os) :: A, h => by
    have h1 := h (p, os) (List.mem_cons_self _ _)
    simp only at h1
    simp only [acceptableOrders, h1, Bool.true_eq_false, if_false, ladderOrders]
    rw [acceptableOrders_all accept A (fun lv hlv => h lv (List.mem_cons_of_mem _ hlv))]

theorem restLadder_all (accept : Int → Bool) : ∀ (A : Ladder) (r : Nat),
    (∀ lv ∈ A, accept lv.1 = true) → totalRemaining (ladderOrders A) ≤ r →
    (∀ lv ∈ A, lv.2 ≠ [] ∧ ∀ a ∈ lv.2, 0 < a.remainingQuantity_) →
    restLadder accept r A = []
  | [], _, _, _, _ => rfl
  | (p, os) :: A, r, h, ht, hpos => by
    have h1 := h (p, os) (List.mem_cons_self _ _)
    have h2 := hpos (p, os) (List.mem_cons_self _ _)
    have h3 : 0 < totalRemaining os := totalRemaining_pos h2.1 h2.2
    simp only at h1
    have htot : totalRemaining os + totalRemaining (ladderOrders A) ≤ r := by
      simpa [ladderOrders, totalRemaining] using ht
    have hr : r ≠ 0 := by omega
    have hlt : ¬ r < totalRemaining os := by omega
    simp only [restLadder, hr, h1, Bool.true_eq_false, or_self, if_false, hlt]
    exact restLadder_all accept A _ (fun lv hlv => h lv (List.mem_cons_of_mem _ hlv))
      (by omega) (fun lv hlv => hpos lv (List.mem_cons_of_mem _ hlv))

theorem fillLadder_ne_nil (accept : Int → Bool) (A : Ladder) (r : Nat) (hr : r ≠ 0)
    (hA : A ≠ []) (hacc : ∀ lv ∈ A.head?, accept lv.1 = true)
    (hne : ∀ lv ∈ A, lv.2 ≠ []) : fillLadder accept r A ≠ [] := by
  cases A with
  | nil => exact absurd rfl hA
  | cons lv A =>
    obtain ⟨p, os⟩ := lv
    have h1 := hacc (p, os) (by simp)
    have h2 := hne (p, os) (List.mem_cons_self _ _)
    simp only at h1 h2
    cases os with
    | nil => exact absurd rfl h2
    | cons a os =>
      simp only [fillLadder, hr, h1, Bool.true_eq_false, or_self, if_false, fillList]
      split <;> simp

theorem ownTrade_mkTrade (o : Order) (f : Order × Nat) :
    ownTrade o.side_ (mkTrade o f)
      = { orderId_ := o.orderId_, price_ := o.price_, quantity_ := f.2 } := by
  cases h : o.side_ <;> simp [ownTrade, mkTrade, h]

theorem contraTrade_mkTrade (o : Order) (f : Order × Nat) :
    contraTrade o.side_ (mkTrade o f)
      = { orderId_ := f.1.orderId_, price_ := f.1.price_, quantity_ := f.2 } := by
  cases h : o.side_ <;> simp [contraTrade, mkTrade, h]

theorem fillLadder_mem (accept : Int → Bool) (A : Ladder) (r : Nat) (f : Order × Nat)
    (hf : f ∈ fillLadder accept r A) : f.1 ∈ ladderOrders A := by
  obtain ⟨k, hk⟩ := fillLadder_take accept A r
  have : f.1 ∈ (fillLadder accept r A).map Prod.fst := List.mem_map_of_mem _ hf
  rw [hk] at this
  exact List.mem_of_mem_take this

/-- The worst contra price is acceptable to every contra level. -/
theorem Inv.worst_accepts {s : Orderbook} (hinv : Inv s) (o1 : Order)
    (hw : ladderLastPrice (contraLadder s o1.side_) = some o1.price_) :
    ∀ lv ∈ contraLadder s o1.side_, acceptsPrice o1 lv.1 = true := by
  intro lv hlv
  cases hside : o1.side_ with
  | Buy =>
    rw [hside] at hw hlv
    simp only [contraLadder] at hw hlv
    rw [acceptsPrice_buy hside]
    rcases ladderLastPrice_worst _ _ hinv.asks.sorted hw lv hlv with h | h
    · simp [h]
    · simp only [decide_eq_true_eq]; omega
  | Sell =>
    rw [hside] at hw hlv
    simp only [contraLadder] at hw hlv
    rw [acceptsPrice_sell hside]
    rcases ladderLastPrice_worst _ _ hinv.bids.sorted hw lv hlv with h | h
    · simp [h]
    · simp only [decide_eq_true_eq, ge_iff_le]; omega

theorem Inv.contra_pos {s : Orderbook} (h : Inv s) (side : Side) :
    ∀ lv ∈ contraLadder s side, lv.2 ≠ [] ∧ ∀ a ∈ lv.2, 0 < a.remainingQuantity_ := by
  cases side
  · exact ladder_nonempty_pos h.asks
  · exact ladder_nonempty_pos h.bids

/-- A valid market order facing a non-empty opposite ladder is admitted, re-priced
to the last key of that ladder and promoted to GoodTillCancel. -/
theorem admission_market (s : Orderbook) (o : Order) (ht : o.orderType_ = OrderType.Market)
    (hq : o.initialQuantity_ ≠ 0) (hp : 0 ≤ o.price_ ∧ o.price_ ≤ 1000000)
    (hfresh : s.OrderExists o.orderId_ = false) (hne : contraLadder s o.side_ ≠ []) :
    ∃ w, ladderLastPrice (contraLadder s o.side_) = some w ∧
      admission s o = some { o with price_ := w, orderType_ := OrderType.GoodTillCancel } := by
  cases hl : ladderLastPrice (contraLadder s o.side_) with
  | none => exact absurd ((ladderLastPrice_nil_iff _).mp hl) hne
  | some w =>
    refine ⟨w, rfl, ?_⟩
    have hp1 : ¬ (o.price_ < 0 ∨ o.price_ > 1000000) := by omega
    have hf : indexFind o.orderId_ s.orders_ = none :=
      (OrderExists_eq_false_iff_find s _).mp hfresh
    unfold admission
    simp [hq, hp1, hf, ht, hl]

theorem worst_price_bound {s : Orderbook} (hinv : Inv s) (side : Side) (w : Int)
    (hw : ladderLastPrice (contraLadder s side) = some w) :
    ∀ lv ∈ contraLadder s side, worstBound side w lv.1 := by
  intro lv hlv
  cases side with
  | Buy =>
    simp only [contraLadder, worstBound] at hw hlv ⊢
    rcases ladderLastPrice_worst _ _ hinv.asks.sorted hw lv hlv with h | h
    · exact le_of_eq h
    · exact le_of_lt h
  | Sell =>
    simp only [contraLadder, worstBound] at hw hlv ⊢
    rcases ladderLastPrice_worst _ _ hinv.bids.sorted hw lv hlv with h | h
    · exact le_of_eq h.symm
    · exact le_of_lt h

/-- A valid order that is neither a market order nor FillAndKill nor FillOrKill is
admitted as it is. -/
theorem admission_plain (s : Orderbook) (o : Order) (hq : o.initialQuantity_ ≠ 0)
    (hp : 0 ≤ o.price_ ∧ o.price_ ≤ 1000000) (hfresh : s.OrderExists o.orderId_ = false)
    (ht : o.orderType_ = OrderType.GoodTillCancel ∨ o.orderType_ = OrderType.GoodForDay) :
    admission s o = some o := by
  have hp1 : ¬ (o.price_ < 0 ∨ o.price_ > 1000000) := by omega
  have hf : indexFind o.orderId_ s.orders_ = none :=
    (OrderExists_eq_false_iff_find s _).mp hfresh
  unfold admission
  rcases ht with h | h <;> simp [hq, hp1, hf, h]

/-- C8 (market promotion and trade price): from a reachable book whose opposite
ladder is not empty, `AddOrder` of a fresh Market order returns; with `w` the worst
opposite price (the last key of the opposite ladder: the highest ask for a buy,
the lowest bid for a sell), every trade carries the order's id and the price `w`
on the order's own side and, on the other side, the id and the own price of an
order that rested on the opposite ladder; a remainder that rests under the
order's id has price `w` and type GoodTillCancel; and a market order that passes
validation is handled exactly as the GoodTillCancel order of the same id, side
and quantity with price `w`. -/
theorem market_promotion_and_trade_price (s : Orderbook) (h : Reachable s) (o : Order)
    (hnew : o.IsNew) (ht : o.orderType_ = OrderType.Market)
    (hne : contraLadder s o.side_ ≠ []) :
    ∃ w trades s1,
      ladderLastPrice (contraLadder s o.side_) = some w ∧
      (∃ lv ∈ contraLadder s o.side_, lv.1 = w) ∧
      (∀ lv ∈ contraLadder s o.side_, worstBound o.side_ w lv.1) ∧
      s.AddOrder (some o) = .ok (trades, s1) ∧
      (∀ t ∈ trades,
        (ownTrade o.side_ t).orderId_ = o.orderId_ ∧ (ownTrade o.side_ t).price_ = w ∧
        ∃ a ∈ ladderOrders (contraLadder s o.side_),
          (contraTrade o.side_ t).orderId_ = a.orderId_ ∧
          (contraTrade o.side_ t).price_ = a.price_) ∧
      (s.OrderExists o.orderId_ = false → ∀ x ∈ restingOrders s1, x.orderId_ = o.orderId_ →
        x.price_ = w ∧ x.orderType_ = OrderType.GoodTillCancel) ∧
      (o.initialQuantity_ ≠ 0 → 0 ≤ o.price_ ∧ o.price_ ≤ 1000000 →
        s.OrderExists o.orderId_ = false →
        s.AddOrder (some o) = s.AddOrder
          (some { o with price_ := w, orderType_ := OrderType.GoodTillCancel })) := by
  obtain ⟨hinv, hnf⟩ := h.inv
  cases hl : ladderLastPrice (contraLadder s o.side_) with
  | none => exact absurd ((ladderLastPrice_nil_iff _).mp hl) hne
  | some w =>
    refine ⟨w, ?_⟩
    have hpromo : o.initialQuantity_ ≠ 0 → 0 ≤ o.price_ ∧ o.price_ ≤ 1000000 →
        s.OrderExists o.orderId_ = false →
        s.AddOrder (some o) = s.AddOrder
          (some { o with price_ := w, orderType_ := OrderType.GoodTillCancel }) := by
      intro hq hp hfresh
      obtain ⟨w1, hw1, hadm⟩ := admission_market s o ht hq hp hfresh hne
      rw [hl, Option.some.injEq] at hw1
      subst hw1
      obtain ⟨lv, hlv, he⟩ := ladderLastPrice_mem _ _ hl
      have hb := hinv.contra_key_bounds _ lv hlv
      rw [he] at hb
      rw [AddOrder_eq, AddOrder_eq, hadm,
        admission_plain s { o with price_ := w, orderType_ := OrderType.GoodTillCancel }
          hq hb hfresh (Or.inl rfl)]
    rcases AddOrder_spec s hinv hnf o hnew with ⟨_, hadd⟩ | ⟨o1, s1, hadm, hadd, _, _, hc, ho, _⟩
    · refine ⟨[], s, rfl, ladderLastPrice_mem _ _ hl, worst_price_bound hinv _ _ hl, hadd,
        by simp, ?_, hpromo⟩
      intro hfresh x hx hid
      exact absurd hid ((OrderExists_eq_false_iff hinv _).mp hfresh x hx)
    · obtain ⟨_, _, _, _, hid, hside, _, _, _, _, hmk, _⟩ := admission_some hadm
      obtain ⟨ht1, hw1⟩ := hmk ht
      rw [hl, Option.some.injEq] at hw1
      refine ⟨_, s1, rfl, ladderLastPrice_mem _ _ hl, worst_price_bound hinv _ _ hl, hadd,
        ?_, ?_, hpromo⟩
      · intro t htm
        obtain ⟨f, hf, rfl⟩ := List.mem_map.mp htm
        rw [← hside, ownTrade_mkTrade, contraTrade_mkTrade]
        exact ⟨hid, hw1.symm, f.1, fillLadder_mem _ _ _ f hf, rfl, rfl⟩
      · intro hfresh x hx hxid
        have hfresh1 : ∀ y ∈ restingOrders s, y.orderId_ ≠ o1.orderId_ := by
          rw [hid]; exact (OrderExists_eq_false_iff hinv _).mp hfresh
        obtain ⟨_, _, hx1⟩ := AddOrder_resting_id hfresh1 hc ho x hx (hxid.trans hid.symm)
        rw [hx1]
        exact ⟨hw1.symm, ht1⟩

/-- A valid market order facing a non-empty opposite ladder: the book after
`AddOrder` in terms of the admitted (re-priced) order. -/
theorem AddOrder_market (s : Orderbook) (h : Reachable s) (o : Order) (hnew : o.IsNew)
    (ht : o.orderType_ = OrderType.Market) (hq : o.initialQuantity_ ≠ 0)
    (hp : 0 ≤ o.price_ ∧ o.price_ ≤ 1000000) (hfresh : s.OrderExists o.orderId_ = false)
    (hne : contraLadder s o.side_ ≠ []) :
    ∃ o1 s1, o1.side_ = o.side_ ∧ o1.orderId_ = o.orderId_ ∧
      o1.remainingQuantity_ = o.initialQuantity_ ∧
      ladderLastPrice (contraLadder s o.side_) = some o1.price_ ∧
      (∀ lv ∈ contraLadder s o.side_, acceptsPrice o1 lv.1 = true) ∧
      s.AddOrder (some o) =
        .ok ((fillLadder (acceptsPrice o1) o.initialQuantity_
          (contraLadder s o.side_)).map (mkTrade o1), s1) ∧
      Inv s1 ∧
      contraLadder s1 o.side_
        = restLadder (acceptsPrice o1) o.initialQuantity_ (contraLadder s o.side_) ∧
      (∀ x ∈ restingOrders s1, x.orderId_ = o.orderId_ →
        totalRemaining (ladderOrders (contraLadder s o.side_)) < o.initialQuantity_) := by
  obtain ⟨hinv, hnf⟩ := h.inv
  obtain ⟨w, hw, hadm0⟩ := admission_market s o ht hq hp hfresh hne
  rcases AddOrder_spec s hinv hnf o hnew with ⟨hadm, _⟩ | ⟨o1, s1, hadm, hadd, hinv1, _, hc, ho, _⟩
  · rw [hadm0] at hadm; cases hadm
  · obtain ⟨_, _, _, _, hid, hside, _, hrem, _, _, hmk, _⟩ := admission_some hadm
    obtain ⟨_, hw1⟩ := hmk ht
    have hrem1 : o1.remainingQuantity_ = o.initialQuantity_ := hrem.trans hnew.1
    have hacc := hinv.worst_accepts o1 (by rw [hside]; exact hw1)
    rw [hside] at hacc
    have hall := acceptableOrders_all _ _ hacc
    rw [hside, hrem1] at hadd hc
    refine ⟨o1, s1, hside, hid, hrem1, hw1, hacc, hadd, hinv1, hc, ?_⟩
    intro x hx hxid
    have hfresh1 : ∀ y ∈ restingOrders s, y.orderId_ ≠ o1.orderId_ := by
      rw [hid]; exact (OrderExists_eq_false_iff hinv _).mp hfresh
    have := (AddOrder_resting_id hfresh1 (by rw [hside, hrem1]; exact hc) ho x hx
      (hxid.trans hid.symm)).1
    rw [hside, hall, hrem1] at this
    exact this

/-- C9 (market sweep): from a reachable book whose opposite ladder is not empty, a
fresh Market order that passes validation (positive quantity, price field within
the bounds, id not indexed) is swept: the traded quantity is the minimum of its
quantity and the total remaining quantity of the opposite ladder, and afterwards
either it is completely filled and not indexed, or the opposite ladder is empty. -/
theorem market_sweep (s : Orderbook) (h : Reachable s) (o : Order) (hnew : o.IsNew)
    (ht : o.orderType_ = OrderType.Market) (hq : o.initialQuantity_ ≠ 0)
    (hp : 0 ≤ o.price_ ∧ o.price_ ≤ 1000000) (hfresh : s.OrderExists o.orderId_ = false)
    (hne : contraLadder s o.side_ ≠ []) :
    ∃ trades s1, s.AddOrder (some o) = .ok (trades, s1) ∧
      tradedQuantity trades =
        min o.initialQuantity_ (totalRemaining (ladderOrders (contraLadder s o.side_))) ∧
      ((tradedQuantity trades = o.initialQuantity_ ∧ s1.OrderExists o.orderId_ = false) ∨
        contraLadder s1 o.side_ = []) := by
  obtain ⟨o1, s1, _, _, _, _, hacc, hadd, hinv1, hc, hrest⟩ :=
    AddOrder_market s h o hnew ht hq hp hfresh hne
  have hsum := (tradedQuantity_mkTrade o1 _).trans
    (fillLadder_sum (acceptsPrice o1) (contraLadder s o.side_) o.initialQuantity_)
  rw [acceptableOrders_all _ _ hacc] at hsum
  refine ⟨_, s1, hadd, hsum, ?_⟩
  by_cases hlt : totalRemaining (ladderOrders (contraLadder s o.side_)) < o.initialQuantity_
  · right
    rw [hc]
    exact restLadder_all _ _ _ hacc (Nat.le_of_lt hlt) (h.inv.1.contra_pos _)
  · left
    rw [hsum]
    refine ⟨by omega, ?_⟩
    rw [OrderExists_eq_false_iff hinv1]
    intro x hx hid
    exact hlt (hrest x hx hid)

/-- C10 as amended (the price bounds apply to market orders too): from a reachable
book whose opposite ladder is not empty, a fresh Market order with positive
quantity and an id that is not indexed is admitted, re-priced and matched with at
least one trade when its price field lies within 0 and 1000000, and is rejected
with the book unchanged when its price field lies outside. -/
theorem market_order_price_bounds (s : Orderbook) (h : Reachable s) (o : Order)
    (hnew : o.IsNew) (ht : o.orderType_ = OrderType.Market) (hq : o.initialQuantity_ ≠ 0)
    (hfresh : s.OrderExists o.orderId_ = false) (hne : contraLadder s o.side_ ≠ []) :
    (0 ≤ o.price_ ∧ o.price_ ≤ 1000000 →
      ∃ w trades s1, ladderLastPrice (contraLadder s o.side_) = some w ∧
        s.AddOrder (some o) = .ok (trades, s1) ∧ trades ≠ [] ∧
        ∀ t ∈ trades, (ownTrade o.side_ t).orderId_ = o.orderId_ ∧
          (ownTrade o.side_ t).price_ = w) ∧
    (o.price_ < 0 ∨ o.price_ > 1000000 → s.AddOrder (some o) = .ok ([], s)) := by
  constructor
  · intro hp
    obtain ⟨o1, s1, hside, hid, _, hw, hacc, hadd, _⟩ :=
      AddOrder_market s h o hnew ht hq hp hfresh hne
    refine ⟨o1.price_, _, s1, hw, hadd, ?_, ?_⟩
    · intro hnil
      exact fillLadder_ne_nil (acceptsPrice o1) (contraLadder s o.side_) o.initialQuantity_ hq
        hne (fun lv hlv => hacc lv (List.mem_of_mem_head? hlv)) (h.inv.1.contra _)
        (List.map_eq_nil_iff.mp hnil)
    · intro t htm
      obtain ⟨f, _, rfl⟩ := List.mem_map.mp htm
      rw [← hside, ownTrade_mkTrade]
      exact ⟨hid, rfl⟩
  · intro hp
    rw [AddOrder_eq, admission_none_of_rejected s o (by
      rcases hp with h1 | h1
      · exact Or.inr (Or.inl h1)
      · exact Or.inr (Or.inr (Or.inl h1)))]

/-- C8 at scenario S5: two resting asks and a market buy of 400. -/
theorem market_promotion_and_trade_price_witness :
    ∃ w trades s1,
      ladderLastPrice (contraLadder bookTwoAsks marketBuyS5.side_) = some w ∧
      (∃ lv ∈ contraLadder bookTwoAsks marketBuyS5.side_, lv.1 = w) ∧
      (∀ lv ∈ contraLadder bookTwoAsks marketBuyS5.side_,
        worstBound marketBuyS5.side_ w lv.1) ∧
      bookTwoAsks.AddOrder (some marketBuyS5) = .ok (trades, s1) ∧
      (∀ t ∈ trades,
        (ownTrade marketBuyS5.side_ t).orderId_ = marketBuyS5.orderId_ ∧
        (ownTrade marketBuyS5.side_ t).price_ = w ∧
        ∃ a ∈ ladderOrders (contraLadder bookTwoAsks marketBuyS5.side_),
          (contraTrade marketBuyS5.side_ t).orderId_ = a.orderId_ ∧
          (contraTrade marketBuyS5.side_ t).price_ = a.price_) ∧
      (bookTwoAsks.OrderExists marketBuyS5.orderId_ = false →
        ∀ x ∈ restingOrders s1, x.orderId_ = marketBuyS5.orderId_ →
          x.price_ = w ∧ x.orderType_ = OrderType.GoodTillCancel) ∧
      (marketBuyS5.initialQuantity_ ≠ 0 →
        0 ≤ marketBuyS5.price_ ∧ marketBuyS5.price_ ≤ 1000000 →
        bookTwoAsks.OrderExists marketBuyS5.orderId_ = false →
        bookTwoAsks.AddOrder (some marketBuyS5) = bookTwoAsks.AddOrder
          (some { marketBuyS5 with price_ := w, orderType_ := OrderType.GoodTillCancel })) :=
  market_promotion_and_trade_price bookTwoAsks
    (Reachable.afterAdds _ _ Reachable.empty (by decide)) marketBuyS5 (by decide) rfl
    (by decide!)

/-- Scenario S5 evaluated: one trade of 400 against order 1; the ask side carries
the resting price 200, the bid side the promoted price 210. -/
theorem scenario_S5_trades :
    (bookTwoAsks.AddOrder (some marketBuyS5)).map Prod.fst
      = .ok [{ bidTrade_ := { orderId_ := 3, price_ := 210, quantity_ := 400 },
               askTrade_ := { orderId_ := 1, price_ := 200, quantity_ := 400 } }] ∧
    (bookTwoAsks.AddOrder (some marketBuyS5)).map (fun r => r.2.Size) = .ok 2 := by
  decide!

/-- C9 at scenario S5: two resting asks and a market buy of 400. -/
theorem market_sweep_witness :
    ∃ trades s1, bookTwoAsks.AddOrder (some marketBuyS5) = .ok (trades, s1) ∧
      tradedQuantity trades =
        min marketBuyS5.initialQuantity_
          (totalRemaining (ladderOrders (contraLadder bookTwoAsks marketBuyS5.side_))) ∧
      ((tradedQuantity trades = marketBuyS5.initialQuantity_ ∧
          s1.OrderExists marketBuyS5.orderId_ = false) ∨
        contraLadder s1 marketBuyS5.side_ = []) :=
  market_sweep bookTwoAsks (Reachable.afterAdds _ _ Reachable.empty (by decide)) marketBuyS5
    (by decide) rfl (by decide) (by decide) (by decide!) (by decide!)

/-- C10 as amended, at scenario S5: two resting asks and a market buy of 400 whose
price field holds 0. -/
theorem market_order_price_bounds_witness :
    (0 ≤ marketBuyS5.price_ ∧ marketBuyS5.price_ ≤ 1000000 →
      ∃ w trades s1, ladderLastPrice (contraLadder bookTwoAsks marketBuyS5.side_) = some w ∧
        bookTwoAsks.AddOrder (some marketBuyS5) = .ok (trades, s1) ∧ trades ≠ [] ∧
        ∀ t ∈ trades, (ownTrade marketBuyS5.side_ t).orderId_ = marketBuyS5.orderId_ ∧
          (ownTrade marketBuyS5.side_ t).price_ = w) ∧
    (marketBuyS5.price_ < 0 ∨ marketBuyS5.price_ > 1000000 →
      bookTwoAsks.AddOrder (some marketBuyS5) = .ok ([], bookTwoAsks)) :=
  market_order_price_bounds bookTwoAsks (Reachable.afterAdds _ _ Reachable.empty (by decide))
    marketBuyS5 (by decide) rfl (by decide) (by decide!) (by decide!)

/-- C10 as stated fails: on the reachable book with two resting asks, the fresh
Market buy with positive quantity, an id that is not indexed and the price field
-1 is rejected: no trade, book unchanged. -/
theorem market_order_negative_price_rejected :
    Reachable bookTwoAsks ∧ contraLadder bookTwoAsks marketBuyNegative.side_ ≠ [] ∧
    marketBuyNegative.IsNew ∧ marketBuyNegative.orderType_ = OrderType.Market ∧
    marketBuyNegative.initialQuantity_ ≠ 0 ∧
    bookTwoAsks.OrderExists marketBuyNegative.orderId_ = false ∧
    bookTwoAsks.AddOrder (some marketBuyNegative) = .ok ([], bookTwoAsks) :=
  ⟨Reachable.afterAdds _ _ Reachable.empty (by decide), by decide!, by decide, rfl, by decide,
    by decide!, by decide!⟩

/-! ## Adding without a cross, cancelling, modifying, and the snapshot -/

theorem indexFind_indexErase_self (id : Nat) : ∀ (idx : OrderIndex),
    indexFind id (indexErase id idx) = none
  | [] => rfl
  | (k, o) :: rest => by
    by_cases hk : k = id
    · simp only [indexErase, List.filter, hk, ne_eq, not_true_eq_false, decide_False]
      exact indexFind_indexErase_self id rest
    · simp only [indexErase, List.filter, hk, ne_eq, not_false_eq_true, decide_True, indexFind,
        if_false]
      exact indexFind_indexErase_self id rest

theorem mem_ownLadder_of_resting {s : Orderbook} (hinv : Inv s) {o : Order}
    (ho : o ∈ restingOrders s) : ∃ lv ∈ ownLadder s o.side_, lv.1 = o.price_ ∧ o ∈ lv.2 := by
  rcases List.mem_append.mp ho with h | h
  · obtain ⟨lv, hlv, hm⟩ := mem_ladderOrders.mp h
    obtain ⟨hp, hs, _⟩ := hinv.bids.orders lv hlv o hm
    rw [hs]
    exact ⟨lv, hlv, hp.symm, hm⟩
  · obtain ⟨lv, hlv, hm⟩ := mem_ladderOrders.mp h
    obtain ⟨hp, hs, _⟩ := hinv.asks.orders lv hlv o hm
    rw [hs]
    exact ⟨lv, hlv, hp.symm, hm⟩

/-- C16 (modify on an unknown id): for every book, reachable or not, and every
modification whose id is not indexed, `ModifyOrder` returns an empty trade list
and the identical state; in particular the id is still not indexed. -/
theorem modify_unknown_id_is_noop (s : Orderbook) (m : OrderModify)
    (h : s.OrderExists m.orderId_ = false) :
    s.ModifyOrder m = .ok ([], s) ∧
      ∀ r, s.ModifyOrder m = .ok r → r.1 = [] ∧ r.2 = s ∧ r.2.OrderExists m.orderId_ = false := by
  have hf := (OrderExists_eq_false_iff_find s _).mp h
  have hm : s.ModifyOrder m = .ok ([], s) := by
    simp only [ModifyOrder, OrderModify.GetOrderId, hf]
  refine ⟨hm, ?_⟩
  intro r hr
  rw [hm] at hr
  cases hr
  exact ⟨rfl, rfl, h⟩

/-- C16 at the book with one bid and one ask and the unknown id 999. -/
theorem modify_unknown_id_is_noop_witness :
    bookSpread.ModifyOrder { orderId_ := 999, side_ := Side.Buy, price_ := 100, quantity_ := 1000 }
        = .ok ([], bookSpread) ∧
      ∀ r, bookSpread.ModifyOrder
          { orderId_ := 999, side_ := Side.Buy, price_ := 100, quantity_ := 1000 } = .ok r →
        r.1 = [] ∧ r.2 = bookSpread ∧ r.2.OrderExists 999 = false :=
  modify_unknown_id_is_noop bookSpread
    { orderId_ := 999, side_ := Side.Buy, price_ := 100, quantity_ := 1000 } (by decide!)

/-- C17 (index/ladder consistency): in every reachable book an id is indexed
exactly when an order found by walking the two ladders carries it; an indexed id
occurs exactly once among the ids of the resting orders; the order stored in the
index under an id carries that id and sits in the ladder of its side, in the level
keyed by its price; conversely every resting order is the index entry of its id;
`Size` is the number of resting orders and no two resting orders share an id. -/
theorem index_ladder_consistency (s : Orderbook) (h : Reachable s) :
    (∀ id, s.OrderExists id = true ↔ ∃ o ∈ restingOrders s, o.orderId_ = id) ∧
    (∀ id, s.OrderExists id = true → ((restingOrders s).map Order.orderId_).count id = 1) ∧
    (∀ id o, indexFind id s.orders_ = some o →
      o.orderId_ = id ∧ o ∈ restingOrders s ∧
      ∃ lv ∈ ownLadder s o.side_, lv.1 = o.price_ ∧ o ∈ lv.2) ∧
    (∀ o ∈ restingOrders s, indexFind o.orderId_ s.orders_ = some o) ∧
    (∀ o ∈ ladderOrders s.bids_, o.side_ = Side.Buy) ∧
    (∀ o ∈ ladderOrders s.asks_, o.side_ = Side.Sell) ∧
    s.Size = (restingOrders s).length ∧
    ((restingOrders s).map Order.orderId_).Nodup := by
  obtain ⟨hinv, _⟩ := h.inv
  have hsync := hinv.indexSync
  have hex : ∀ id, s.OrderExists id = true ↔ ∃ o ∈ restingOrders s, o.orderId_ = id := by
    intro id
    constructor
    · intro he
      cases hf : indexFind id s.orders_ with
      | none => simp [OrderExists, hf] at he
      | some o => exact ⟨o, (hsync.mem_of_find hf).1, (hsync.mem_of_find hf).2⟩
    · rintro ⟨o, ho, rfl⟩
      simp [OrderExists, hsync.find_mem ho]
  refine ⟨hex, ?_, ?_, fun o ho => hsync.find_mem ho, fun o ho => hinv.side_of_mem_bids ho,
    fun o ho => hinv.side_of_mem_asks ho, ?_, hinv.ids⟩
  · intro id he
    obtain ⟨o, ho, hid⟩ := (hex id).mp he
    exact List.count_eq_one_of_mem hinv.ids (hid ▸ List.mem_map_of_mem _ ho)
  · intro id o hf
    obtain ⟨hm, hid⟩ := hsync.mem_of_find hf
    exact ⟨hid, hm, mem_ownLadder_of_resting hinv hm⟩
  · have := hinv.index.length_eq
    simpa [Size] using this

/-- C17 at the book with one bid at 100 and one ask at 110. -/
theorem index_ladder_consistency_witness :
    (∀ id, bookSpread.OrderExists id = true ↔ ∃ o ∈ restingOrders bookSpread, o.orderId_ = id) ∧
    (∀ id, bookSpread.OrderExists id = true →
      ((restingOrders bookSpread).map Order.orderId_).count id = 1) ∧
    (∀ id o, indexFind id bookSpread.orders_ = some o →
      o.orderId_ = id ∧ o ∈ restingOrders bookSpread ∧
      ∃ lv ∈ ownLadder bookSpread o.side_, lv.1 = o.price_ ∧ o ∈ lv.2) ∧
    (∀ o ∈ restingOrders bookSpread, indexFind o.orderId_ bookSpread.orders_ = some o) ∧
    (∀ o ∈ ladderOrders bookSpread.bids_, o.side_ = Side.Buy) ∧
    (∀ o ∈ ladderOrders bookSpread.asks_, o.side_ = Side.Sell) ∧
    bookSpread.Size = (restingOrders bookSpread).length ∧
    ((restingOrders bookSpread).map Order.orderId_).Nodup :=
  index_ladder_consistency bookSpread (Reachable.afterAdds _ _ Reachable.empty (by decide))

/-- C18 (resting quantities): in every reachable book every order resting in
either ladder has a remaining quantity that is strictly positive and at most its
initial quantity. -/
theorem resting_quantity_bounds (s : Orderbook) (h : Reachable s) :
    (∀ o ∈ ladderOrders s.bids_, 0 < o.remainingQuantity_ ∧
      o.remainingQuantity_ ≤ o.initialQuantity_) ∧
    (∀ o ∈ ladderOrders s.asks_, 0 < o.remainingQuantity_ ∧
      o.remainingQuantity_ ≤ o.initialQuantity_) := by
  obtain ⟨hinv, _⟩ := h.inv
  constructor
  · intro o ho
    obtain ⟨lv, hlv, hm⟩ := mem_ladderOrders.mp ho
    have hok := (hinv.bids.orders lv hlv o hm).2.2
    exact ⟨hok.pos, hok.le⟩
  · intro o ho
    obtain ⟨lv, hlv, hm⟩ := mem_ladderOrders.mp ho
    have hok := (hinv.asks.orders lv hlv o hm).2.2
    exact ⟨hok.pos, hok.le⟩

/-- C18 at the book left by scenario S1 (order 1 rests with 500 of 1000). -/
theorem resting_quantity_bounds_witness :
    (∀ o ∈ ladderOrders bookS1.bids_, 0 < o.remainingQuantity_ ∧
      o.remainingQuantity_ ≤ o.initialQuantity_) ∧
    (∀ o ∈ ladderOrders bookS1.asks_, 0 < o.remainingQuantity_ ∧
      o.remainingQuantity_ ≤ o.initialQuantity_) :=
  resting_quantity_bounds bookS1 (Reachable.afterAdds _ _ Reachable.empty (by decide))

/-- C19 (snapshot ordering): for every reachable book the snapshot has one entry
per price level of each ladder, in ladder order and with the level's price; the
bid prices are strictly descending and the ask prices strictly ascending; the
snapshot of the empty book is two empty arrays. -/
theorem snapshot_ordering (s : Orderbook) (h : Reachable s) :
    s.GetOrderInfos.GetBids.map LevelInfo.price_ = s.bids_.map Prod.fst ∧
    s.GetOrderInfos.GetAsks.map LevelInfo.price_ = s.asks_.map Prod.fst ∧
    s.GetOrderInfos.GetBids.length = s.bids_.length ∧
    s.GetOrderInfos.GetAsks.length = s.asks_.length ∧
    (s.GetOrderInfos.GetBids.map LevelInfo.price_).Pairwise (fun a b => a > b) ∧
    (s.GetOrderInfos.GetAsks.map LevelInfo.price_).Pairwise (fun a b => a < b) ∧
    Orderbook.empty.GetOrderInfos = { bids_ := [], asks_ := [] } := by
  obtain ⟨hinv, _⟩ := h.inv
  have hb : s.GetOrderInfos.GetBids.map LevelInfo.price_ = s.bids_.map Prod.fst := by
    simp [GetOrderInfos, OrderbookLevelInfos.GetBids, CreateLevelInfos, List.map_map,
      Function.comp_def]
  have ha : s.GetOrderInfos.GetAsks.map LevelInfo.price_ = s.asks_.map Prod.fst := by
    simp [GetOrderInfos, OrderbookLevelInfos.GetAsks, CreateLevelInfos, List.map_map,
      Function.comp_def]
  refine ⟨hb, ha, by simp [GetOrderInfos, OrderbookLevelInfos.GetBids],
    by simp [GetOrderInfos, OrderbookLevelInfos.GetAsks], ?_, ?_, rfl⟩
  · rw [hb, List.pairwise_map]
    exact hinv.bids.sorted
  · rw [ha, List.pairwise_map]
    exact hinv.asks.sorted

/-- C19 at the book with three resting bids (scenario S2). -/
theorem snapshot_ordering_witness :
    bookThreeBids.GetOrderInfos.GetBids.map LevelInfo.price_ = bookThreeBids.bids_.map Prod.fst ∧
    bookThreeBids.GetOrderInfos.GetAsks.map LevelInfo.price_ = bookThreeBids.asks_.map Prod.fst ∧
    bookThreeBids.GetOrderInfos.GetBids.length = bookThreeBids.bids_.length ∧
    bookThreeBids.GetOrderInfos.GetAsks.length = bookThreeBids.asks_.length ∧
    (bookThreeBids.GetOrderInfos.GetBids.map LevelInfo.price_).Pairwise (fun a b => a > b) ∧
    (bookThreeBids.GetOrderInfos.GetAsks.map LevelInfo.price_).Pairwise (fun a b => a < b) ∧
    Orderbook.empty.GetOrderInfos = { bids_ := [], asks_ := [] } :=
  snapshot_ordering bookThreeBids (Reachable.afterAdds _ _ Reachable.empty (by decide))

/-- Scenario check: the snapshot of the three resting bids of scenario S2. -/
theorem scenario_S2_snapshot :
    bookThreeBids.GetOrderInfos =
      { bids_ := [{ price_ := 110, quantity_ := 500 }, { price_ := 100, quantity_ := 1000 },
                  { price_ := 90, quantity_ := 800 }],
        asks_ := [] } := by
  decide!

theorem ladderWithout_cons (id : Nat) (k : Int) (x : OrderPointers) (rest : Ladder) :
    ladderWithout id ((k, x) :: rest) =
      if levelWithout id x = [] then ladderWithout id rest
      else (k, levelWithout id x) :: ladderWithout id rest := by
  unfold ladderWithout
  rw [List.map_cons, List.filter_cons]
  by_cases h : levelWithout id x = []
  · simp [h]
  · simp [h]

theorem ladderWithout_of_not_mem (id : Nat) : ∀ (l : Ladder), (∀ lv ∈ l, lv.2 ≠ []) →
    (∀ y ∈ ladderOrders l, y.orderId_ ≠ id) → ladderWithout id l = l
  | [], _, _ => rfl
  | (k, x) :: rest, hne, hid => by
    have hx : levelWithout id x = x :=
      filter_id_of_not_mem x id (fun y hy => hid y (by simp [ladderOrders, hy]))
    rw [ladderWithout_cons, hx, if_neg (hne (k, x) (List.mem_cons_self _ _)),
      ladderWithout_of_not_mem id rest (fun lv hlv => hne lv (List.mem_cons_of_mem _ hlv))
        (fun y hy => hid y (by simp [ladderOrders, hy]))]

/-- The side branch of `CancelOrderInternal` on a well-formed ladder that holds
the order: the result is the ladder without it. -/
theorem ladderCancel_eq {side : Side} {R : Int → Int → Prop} (hirr : ∀ a, ¬ R a a) :
    ∀ (l : Ladder), LadderInv side R l → ((ladderOrders l).map Order.orderId_).Nodup →
      ∀ (o : Order), o ∈ ladderOrders l →
      ladderCancel l o.price_ o.orderId_ = .ok (ladderWithout o.orderId_ l)
  | [], _, _, o, ho => by simp [ladderOrders] at ho
  | (k, x) :: rest, hinv, hn, o, ho => by
    simp only [ladderOrders, List.map_append] at hn ho
    have hn1 := List.nodup_append.mp hn
    by_cases hx : o ∈ x
    · have hp : o.price_ = k := (hinv.orders (k, x) (List.mem_cons_self _ _) o hx).1
      have hrest : ∀ y ∈ ladderOrders rest, y.orderId_ ≠ o.orderId_ := by
        intro y hy he
        exact hn1.2.2 (List.mem_map_of_mem _ hx) (he ▸ List.mem_map_of_mem _ hy)
      have hkeys : ∀ lv ∈ rest, lv.1 ≠ k := by
        intro lv hlv he
        exact hirr k (by have := hinv.head_before lv hlv; rwa [he] at this)
      have hrest1 : ladderWithout o.orderId_ rest = rest :=
        ladderWithout_of_not_mem _ rest (fun lv hlv => hinv.nonempty lv (List.mem_cons_of_mem _ hlv))
          hrest
      have hle : levelErase o.orderId_ x = levelWithout o.orderId_ x :=
        levelErase_eq_filter x o hx hn1.1
      unfold ladderCancel
      simp only [ladderFind, hp, if_true, levelContains_of_mem hx]
      rw [ladderWithout_cons, hrest1, hle]
      by_cases he : levelWithout o.orderId_ x = []
      · simp [he, ladderErase, ladderErase_of_not_mem rest k hkeys]
      · simp [he, ladderSet]
    · have ho1 : o ∈ ladderOrders rest := by
        rcases List.mem_append.mp ho with h | h
        · exact absurd h hx
        · exact h
      obtain ⟨lv, hlv, holv⟩ := mem_ladderOrders.mp ho1
      have hp : o.price_ = lv.1 := (hinv.orders lv (List.mem_cons_of_mem _ hlv) o holv).1
      have hk : k ≠ o.price_ := by
        intro he
        have := hinv.head_before lv hlv
        rw [← hp, ← he] at this
        exact hirr k this
      have hxf : levelWithout o.orderId_ x = x := by
        refine filter_id_of_not_mem x _ ?_
        intro y hy he
        exact hn1.2.2 (List.mem_map_of_mem _ hy) (he ▸ List.mem_map_of_mem _ ho1)
      rw [ladderCancel_cons_ne k x rest _ _ hk,
        ladderCancel_eq hirr rest hinv.tail hn1.2.1 o ho1, ladderWithout_cons, hxf,
        if_neg (hinv.nonempty (k, x) (List.mem_cons_self _ _))]
      rfl

/-- `CancelOrderInternal` of an indexed id in a book that satisfies the
invariant, as an explicit state. -/
theorem CancelOrderInternal_eq (s : Orderbook) (hinv : Inv s) (id : Nat) (o : Order)
    (hf : indexFind id s.orders_ = some o) :
    s.CancelOrderInternal id = .ok
      { data_ := OnOrderCancelled s.data_ o,
        bids_ := ladderWithout id s.bids_,
        asks_ := ladderWithout id s.asks_,
        orders_ := indexErase id s.orders_,
        goodForDayOrders_ :=
          if o.orderType_ = OrderType.GoodForDay then setErase id s.goodForDayOrders_
          else s.goodForDayOrders_ } := by
  have hsync := hinv.indexSync
  have hnd := List.nodup_append.mp (by simpa [restingOrders] using hinv.ids :
    ((ladderOrders s.bids_).map Order.orderId_ ++ (ladderOrders s.asks_).map Order.orderId_).Nodup)
  obtain ⟨hoL, hoid⟩ := hsync.mem_of_find hf
  subst hoid
  simp only [restingOrders, List.mem_append] at hoL
  by_cases hside : o.side_ = Side.Sell
  · have hoA : o ∈ ladderOrders s.asks_ := by
      rcases hoL with h | h
      · have := hinv.side_of_mem_bids h; rw [hside] at this; cases this
      · exact h
    have hl1 := ladderCancel_eq int_lt_irrefl s.asks_ hinv.asks hnd.2.1 o hoA
    have hb : ladderWithout o.orderId_ s.bids_ = s.bids_ :=
      ladderWithout_of_not_mem _ _ hinv.bids.nonempty (fun y hy he =>
        hnd.2.2 (List.mem_map_of_mem _ hy) (he ▸ List.mem_map_of_mem _ hoA))
    simp only [CancelOrderInternal, hf, Order.GetSide, hside, if_true, Order.GetPrice, hl1, hb,
      Order.GetOrderType]
  · have hside1 : o.side_ = Side.Buy := by
      cases h : o.side_ with
      | Buy => rfl
      | Sell => exact absurd h hside
    have hoB : o ∈ ladderOrders s.bids_ := by
      rcases hoL with h | h
      · exact h
      · have := hinv.side_of_mem_asks h; rw [hside1] at this; cases this
    have hl1 := ladderCancel_eq int_gt_irrefl s.bids_ hinv.bids hnd.1 o hoB
    have ha : ladderWithout o.orderId_ s.asks_ = s.asks_ :=
      ladderWithout_of_not_mem _ _ hinv.asks.nonempty (fun y hy he =>
        hnd.2.2 (List.mem_map_of_mem _ hoB) (he ▸ List.mem_map_of_mem _ hy))
    simp only [CancelOrderInternal, hf, Order.GetSide, hside, if_false, Order.GetPrice, hl1, ha,
      Order.GetOrderType]

/-- C14 (idempotent cancel): for every reachable book and every id, `CancelOrder`
returns a state on which a second `CancelOrder` of the same id returns that very
state (all five components), so cancelling twice equals cancelling once and the
second call raises nothing. -/
theorem cancel_is_idempotent (s : Orderbook) (h : Reachable s) (id : Nat) :
    ∃ s1, s.CancelOrder id = .ok s1 ∧ s1.CancelOrder id = .ok s1 ∧
      (s.CancelOrder id >>= fun s2 => s2.CancelOrder id) = s.CancelOrder id := by
  obtain ⟨hinv, _⟩ := h.inv
  obtain ⟨s1, h1, _, _, _, hidx, _, _, _⟩ := CancelOrderInternal_spec s hinv id
  have h2 : s1.CancelOrder id = .ok s1 := by
    have hf : indexFind id s1.orders_ = none := by
      rw [hidx]; exact indexFind_indexErase_self id _
    simp only [CancelOrder, CancelOrderInternal, hf]
  refine ⟨s1, h1, h2, ?_⟩
  show (s.CancelOrderInternal id >>= fun s2 => s2.CancelOrder id) = s.CancelOrderInternal id
  rw [h1]
  exact h2

theorem ladderFind_some_mem : ∀ {l : Ladder} {p : Int} {level : OrderPointers},
    ladderFind p l = some level → (p, level) ∈ l
  | [], _, _, h => by simp [ladderFind] at h
  | (k, x) :: rest, p, level, h => by
    simp only [ladderFind] at h
    split at h
    · rename_i hk
      simp only [Option.some.injEq] at h
      rw [← hk, ← h]
      exact List.mem_cons_self _ _
    · exact List.mem_cons_of_mem _ (ladderFind_some_mem h)

theorem ladderFind_none_of_keys : ∀ (l : Ladder) (p : Int), (∀ lv ∈ l, lv.1 ≠ p) →
    ladderFind p l = none
  | [], _, _ => rfl
  | (k, x) :: rest, p, h => by
    have hk : k ≠ p := h (k, x) (List.mem_cons_self _ _)
    simp only [ladderFind, hk, if_false]
    exact ladderFind_none_of_keys rest p (fun lv hlv => h lv (List.mem_cons_of_mem _ hlv))

theorem ladderWithout_keys (id : Nat) (l : Ladder) :
    ∀ lv ∈ ladderWithout id l, ∃ lv0 ∈ l, lv.1 = lv0.1 := by
  intro lv hlv
  unfold ladderWithout at hlv
  obtain ⟨lv0, h0, he⟩ := List.mem_map.mp (List.mem_of_mem_filter hlv)
  exact ⟨lv0, h0, by rw [← he]⟩

/-- Lookup in a ladder without an order, for a ladder whose keys are distinct. -/
theorem ladderFind_ladderWithout (id : Nat) (p : Int) : ∀ (l : Ladder),
    l.Pairwise (fun x y => x.1 ≠ y.1) →
    ladderFind p (ladderWithout id l) =
      (ladderFind p l).bind (fun level =>
        if levelWithout id level = [] then none else some (levelWithout id level))
  | [], _ => rfl
  | (k, x) :: rest, hs => by
    rw [List.pairwise_cons] at hs
    rw [ladderWithout_cons]
    by_cases hk : k = p
    · have hnone : ladderFind p (ladderWithout id rest) = none := by
        refine ladderFind_none_of_keys _ _ ?_
        intro lv hlv he
        obtain ⟨lv0, h0, he0⟩ := ladderWithout_keys id rest lv hlv
        exact hs.1 lv0 h0 (by rw [hk, ← he0, he])
      by_cases hx : levelWithout id x = []
      · simp [ladderFind, hk, hx, hnone]
      · simp [ladderFind, hk, hx]
    · by_cases hx : levelWithout id x = []
      · simp only [hx, if_true, ladderFind, hk, if_false]
        exact ladderFind_ladderWithout id p rest hs.2
      · simp only [hx, if_false, ladderFind, hk]
        exact ladderFind_ladderWithout id p rest hs.2

theorem levelWithout_eq_nil_iff {level : OrderPointers} {o : Order} (ho : o ∈ level)
    (hn : (level.map Order.orderId_).Nodup) :
    levelWithout o.orderId_ level = [] ↔ level = [o] := by
  constructor
  · intro h
    have hall : ∀ y ∈ level, y.orderId_ = o.orderId_ := by
      intro y hy
      by_contra hne
      have : y ∈ levelWithout o.orderId_ level := List.mem_filter.mpr ⟨hy, by simpa using hne⟩
      rw [h] at this
      simp at this
    match level, ho, hn, hall with
    | [a], ho, _, _ =>
      rw [List.mem_singleton] at ho
      rw [ho]
    | a :: b :: rest, _, hn, hall =>
      exfalso
      have ha := hall a (by simp)
      have hb := hall b (by simp)
      simp only [List.map_cons, List.nodup_cons, List.mem_cons, not_or] at hn
      exact hn.1.1 (ha.trans hb.symm)
  · intro h
    rw [h]
    simp [levelWithout]

theorem filter_id_length : ∀ (L : List Order) (o : Order), o ∈ L →
    (L.map Order.orderId_).Nodup →
    (L.filter (fun y => decide (y.orderId_ ≠ o.orderId_))).length + 1 = L.length
  | [], _, h, _ => by simp at h
  | x :: rest, o, h, hn => by
    rw [← levelErase_eq_filter (x :: rest) o h hn]
    rw [List.map_cons, List.nodup_cons] at hn
    by_cases hx : x.orderId_ = o.orderId_
    · simp [levelErase, hx]
    · have ho : o ∈ rest := by
        rcases List.mem_cons.mp h with h1 | h1
        · exact absurd (by rw [h1]) hx
        · exact h1
      simp only [levelErase, hx, if_false, List.length_cons]
      rw [levelErase_eq_filter rest o ho hn.2, filter_id_length rest o ho hn.2]

/-- Lookup in a well-formed ladder after the order `o` was taken out of it. -/
theorem ladderWithout_find {side : Side} {R : Int → Int → Prop} (hirr : ∀ a, ¬ R a a)
    (l : Ladder) (hinv : LadderInv side R l) (hn : ((ladderOrders l).map Order.orderId_).Nodup)
    (o : Order) (ho : o ∈ ladderOrders l) :
    (∀ p, p ≠ o.price_ → ladderFind p (ladderWithout o.orderId_ l) = ladderFind p l) ∧
    ∃ level, ladderFind o.price_ l = some level ∧ o ∈ level ∧
      ladderFind o.price_ (ladderWithout o.orderId_ l) =
        (if level = [o] then none else some (levelWithout o.orderId_ level)) := by
  have hkeys : l.Pairwise (fun x y => x.1 ≠ y.1) := by
    refine hinv.sorted.imp ?_
    intro a b hr he
    rw [he] at hr
    exact hirr _ hr
  have hlevel : ∀ lv ∈ l, ((lv.2).map Order.orderId_).Nodup := by
    intro lv hlv
    refine List.Nodup.sublist ?_ hn
    refine List.Sublist.map _ ?_
    clear hinv hn ho hkeys
    induction l with
    | nil => simp at hlv
    | cons a rest ih =>
      rcases List.mem_cons.mp hlv with rfl | h1
      · exact List.sublist_append_left _ _
      · exact (ih h1).trans (List.sublist_append_right _ _)
  constructor
  · intro p hp
    rw [ladderFind_ladderWithout _ _ _ hkeys]
    cases hf : ladderFind p l with
    | none => rfl
    | some level =>
      have hm := ladderFind_some_mem hf
      have hw : levelWithout o.orderId_ level = level := by
        refine filter_id_of_not_mem level _ ?_
        intro y hy he
        have hy1 : y ∈ ladderOrders l := mem_ladderOrders.mpr ⟨_, hm, hy⟩
        have : y = o := by
          have h1 := List.inj_on_of_nodup_map hn hy1 ho he
          exact h1
        rw [this] at hy
        exact hp ((hinv.orders _ hm o hy).1).symm
      simp only [Option.bind, hw, hinv.nonempty _ hm, if_false]
  · obtain ⟨lv, hlv, hm⟩ := mem_ladderOrders.mp ho
    have hpk : o.price_ = lv.1 := (hinv.orders lv hlv o hm).1
    have hf : ladderFind o.price_ l = some lv.2 := by
      rw [hpk]; exact ladderFind_mem hirr hinv.sorted hlv
    refine ⟨lv.2, hf, hm, ?_⟩
    rw [ladderFind_ladderWithout _ _ _ hkeys, hf]
    simp only [Option.bind, levelWithout_eq_nil_iff hm (hlevel lv hlv)]

/-- C13 (cancel removes exactly one order): for every reachable book `CancelOrder`
returns (it raises nothing and produces no trade, having no result).  When the id
is not indexed the state is unchanged.  When the id is indexed with order `o`:
afterwards the id is not indexed and no resting order carries it, `Size` is one
less, each ladder is the former ladder without that order (every level keeps its
other orders, unchanged and in their relative position, and a level left empty is
dropped), the opposite ladder is identical, every level of the own ladder at
another price is identical, the level at the price of `o` is removed exactly
when it held only `o` and otherwise is the former level without `o`, and every
other resting order is still resting. -/
theorem cancel_removes_exactly_one (s : Orderbook) (h : Reachable s) (id : Nat) :
    ∃ s1, s.CancelOrder id = .ok s1 ∧
      (s.OrderExists id = false → s1 = s) ∧
      (∀ o, indexFind id s.orders_ = some o →
        s1.OrderExists id = false ∧
        (∀ x ∈ restingOrders s1, x.orderId_ ≠ id) ∧
        s1.Size + 1 = s.Size ∧
        s1.bids_ = ladderWithout id s.bids_ ∧ s1.asks_ = ladderWithout id s.asks_ ∧
        contraLadder s1 o.side_ = contraLadder s o.side_ ∧
        (∀ p, p ≠ o.price_ →
          ladderFind p (ownLadder s1 o.side_) = ladderFind p (ownLadder s o.side_)) ∧
        (∃ level, ladderFind o.price_ (ownLadder s o.side_) = some level ∧ o ∈ level ∧
          ladderFind o.price_ (ownLadder s1 o.side_) =
            (if level = [o] then none else some (levelWithout id level))) ∧
        restingOrders s1 = (restingOrders s).filter (fun y => decide (y.orderId_ ≠ id)) ∧
        (∀ x ∈ restingOrders s, x ≠ o → x ∈ restingOrders s1)) := by
  obtain ⟨hinv, _⟩ := h.inv
  have hsync := hinv.indexSync
  obtain ⟨s1, h1, _, hb, ha, hidx, _, _, hsame⟩ := CancelOrderInternal_spec s hinv id
  refine ⟨s1, h1, fun he => hsame ((OrderExists_eq_false_iff_find s id).mp he), ?_⟩
  intro o hf
  have heq := CancelOrderInternal_eq s hinv id o hf
  rw [h1, Except.ok.injEq] at heq
  obtain ⟨hoL, hoid⟩ := hsync.mem_of_find hf
  have hnd := List.nodup_append.mp (by simpa [restingOrders] using hinv.ids :
    ((ladderOrders s.bids_).map Order.orderId_ ++ (ladderOrders s.asks_).map Order.orderId_).Nodup)
  have hrest : restingOrders s1
      = (restingOrders s).filter (fun y => decide (y.orderId_ ≠ id)) := by
    simp only [restingOrders, List.filter_append, hb, ha]
  have hbids : s1.bids_ = ladderWithout id s.bids_ := by rw [heq]
  have hasks : s1.asks_ = ladderWithout id s.asks_ := by rw [heq]
  have hlen : s1.Size + 1 = s.Size := by
    have hp := (indexErase_perm id hsync.1).length_eq
    have hq := hsync.1.length_eq
    rw [List.length_map] at hp hq
    have := filter_id_length (restingOrders s) o hoL hsync.2
    rw [hoid] at this
    simp only [Size, hidx]
    omega
  refine ⟨?_, ?_, hlen, hbids, hasks, ?_, ?_, ?_, hrest, ?_⟩
  · rw [OrderExists_eq_false_iff_find, hidx]
    exact indexFind_indexErase_self id _
  · intro x hx
    rw [hrest] at hx
    simpa using (List.mem_filter.mp hx).2
  · -- the opposite ladder
    simp only [restingOrders, List.mem_append] at hoL
    cases hside : o.side_ with
    | Buy =>
      have hoB : o ∈ ladderOrders s.bids_ := by
        rcases hoL with h | h
        · exact h
        · have := hinv.side_of_mem_asks h; rw [hside] at this; cases this
      simp only [contraLadder, hasks]
      refine ladderWithout_of_not_mem _ _ hinv.asks.nonempty (fun y hy he => ?_)
      exact hnd.2.2 (List.mem_map_of_mem _ hoB) (hoid ▸ he ▸ List.mem_map_of_mem _ hy)
    | Sell =>
      have hoA : o ∈ ladderOrders s.asks_ := by
        rcases hoL with h | h
        · have := hinv.side_of_mem_bids h; rw [hside] at this; cases this
        · exact h
      simp only [contraLadder, hbids]
      refine ladderWithout_of_not_mem _ _ hinv.bids.nonempty (fun y hy he => ?_)
      exact hnd.2.2 (List.mem_map_of_mem _ hy)
        (by rw [he, ← hoid]; exact List.mem_map_of_mem _ hoA)
  · simp only [restingOrders, List.mem_append] at hoL
    cases hside : o.side_ with
    | Buy =>
      have hoB : o ∈ ladderOrders s.bids_ := by
        rcases hoL with h | h
        · exact h
        · have := hinv.side_of_mem_asks h; rw [hside] at this; cases this
      simp only [ownLadder, hbids, ← hoid]
      exact (ladderWithout_find int_gt_irrefl _ hinv.bids hnd.1 o hoB).1
    | Sell =>
      have hoA : o ∈ ladderOrders s.asks_ := by
        rcases hoL with h | h
        · have := hinv.side_of_mem_bids h; rw [hside] at this; cases this
        · exact h
      simp only [ownLadder, hasks, ← hoid]
      exact (ladderWithout_find int_lt_irrefl _ hinv.asks hnd.2.1 o hoA).1
  · simp only [restingOrders, List.mem_append] at hoL
    cases hside : o.side_ with
    | Buy =>
      have hoB : o ∈ ladderOrders s.bids_ := by
        rcases hoL with h | h
        · exact h
        · have := hinv.side_of_mem_asks h; rw [hside] at this; cases this
      simp only [ownLadder, hbids, ← hoid]
      exact (ladderWithout_find int_gt_irrefl _ hinv.bids hnd.1 o hoB).2
    | Sell =>
      have hoA : o ∈ ladderOrders s.asks_ := by
        rcases hoL with h | h
        · have := hinv.side_of_mem_bids h; rw [hside] at this; cases this
        · exact h
      simp only [ownLadder, hasks, ← hoid]
      exact (ladderWithout_find int_lt_irrefl _ hinv.asks hnd.2.1 o hoA).2
  · intro x hx hne
    rw [hrest]
    refine List.mem_filter.mpr ⟨hx, ?_⟩
    simp only [ne_eq, decide_eq_true_eq]
    intro he
    exact hne (List.inj_on_of_nodup_map hsync.2 hx hoL (he.trans hoid.symm))

/-- The accumulator of `CreateLevelInfos` started at `acc`. -/
theorem accumulate_eq : ∀ (orders : OrderPointers) (acc : Nat), acc < quantityModulus →
    orders.foldl (fun runningSum order =>
      (runningSum + order.GetRemainingQuantity) % quantityModulus) acc
      = (acc + totalRemaining orders) % quantityModulus
  | [], acc, h => by simp [Nat.mod_eq_of_lt h]
  | a :: rest, acc, _ => by
    rw [List.foldl_cons, accumulate_eq rest _ (Nat.mod_lt _ (by decide)), totalRemaining_cons,
      Nat.mod_add_mod, Order.GetRemainingQuantity, Nat.add_assoc]

theorem CreateLevelInfos_eq (price : Int) (orders : OrderPointers) :
    CreateLevelInfos price orders =
      { price_ := price, quantity_ := totalRemaining orders % quantityModulus } := by
  unfold CreateLevelInfos
  rw [accumulate_eq orders 0 (by decide), Nat.zero_add]

/-- C20 (snapshot level quantity, amended): for every book, reachable or not, the
snapshot entry of a price level carries the level's price and the sum of the
remaining quantities of the orders resting at that level reduced modulo 2^32; it
equals that sum whenever the sum is below 2^32. -/
theorem snapshot_level_quantity (s : Orderbook) :
    s.GetOrderInfos.GetBids = s.bids_.map (fun lv =>
      { price_ := lv.1, quantity_ := totalRemaining lv.2 % quantityModulus }) ∧
    s.GetOrderInfos.GetAsks = s.asks_.map (fun lv =>
      { price_ := lv.1, quantity_ := totalRemaining lv.2 % quantityModulus }) ∧
    (∀ lv ∈ s.bids_ ++ s.asks_, totalRemaining lv.2 < quantityModulus →
      (CreateLevelInfos lv.1 lv.2).quantity_ = totalRemaining lv.2) := by
  refine ⟨?_, ?_, ?_⟩
  · simp only [GetOrderInfos, OrderbookLevelInfos.GetBids, CreateLevelInfos_eq]
  · simp only [GetOrderInfos, OrderbookLevelInfos.GetAsks, CreateLevelInfos_eq]
  · intro lv _ hlt
    rw [CreateLevelInfos_eq]
    exact Nat.mod_eq_of_lt hlt

/-- C20 as stated fails: in the reachable book with two buy orders of 2^31 units
at price 100 the level holds 4294967296 units and the snapshot reports 0. -/
theorem snapshot_quantity_wraps :
    Reachable bookWrap ∧
    bookWrap.bids_ = [(100, [Order.new OrderType.GoodTillCancel 1 Side.Buy 100 2147483648,
                             Order.new OrderType.GoodTillCancel 2 Side.Buy 100 2147483648])] ∧
    bookWrap.GetOrderInfos.GetBids = [{ price_ := 100, quantity_ := 0 }] ∧
    (∃ lv ∈ bookWrap.bids_, totalRemaining lv.2 = 4294967296 ∧
      (CreateLevelInfos lv.1 lv.2).quantity_ ≠ totalRemaining lv.2) :=
  ⟨Reachable.afterAdds _ _ Reachable.empty (by decide), by decide!, by decide!, by decide!⟩

/-- The test `MultipleOrdersAtSamePrice`: three buys at 100 report 1000. -/
theorem scenario_same_price_snapshot :
    (afterAdds Orderbook.empty
      [Order.new OrderType.GoodTillCancel 1 Side.Buy 100 500,
       Order.new OrderType.GoodTillCancel 2 Side.Buy 100 300,
       Order.new OrderType.GoodTillCancel 3 Side.Buy 100 200]).GetOrderInfos
      = { bids_ := [{ price_ := 100, quantity_ := 1000 }], asks_ := [] } := by
  decide!

theorem ladderFind_pushBack_other {bf : Int → Int → Bool} (p : Int) (o : Order) (q : Int)
    (hq : q ≠ p) : ∀ (l : Ladder), ladderFind q (ladderPushBack bf p o l) = ladderFind q l
  | [] => by simp [ladderPushBack, ladderFind, hq.symm]
  | (k, x) :: rest => by
    simp only [ladderPushBack]
    split
    · rename_i hk
      have : k ≠ q := by rw [hk]; exact hq.symm
      simp [ladderFind, this]
    · split
      · simp only [ladderFind, hq.symm, if_false]
      · by_cases hkq : k = q
        · simp [ladderFind, hkq]
        · simp only [ladderFind, hkq, if_false]
          exact ladderFind_pushBack_other p o q hq rest

theorem ladderFind_pushBack_self {R : Int → Int → Prop} {bf : Int → Int → Bool}
    (hbf : ∀ a b, bf a b = true ↔ R a b) (hirr : ∀ a, ¬ R a a)
    (htrans : ∀ a b c, R a b → R b c → R a c) (p : Int) (o : Order) :
    ∀ (l : Ladder), l.Pairwise (fun x y => R x.1 y.1) →
      ladderFind p (ladderPushBack bf p o l) = some ((ladderFind p l).getD [] ++ [o])
  | [], _ => by simp [ladderPushBack, ladderFind]
  | (k, x) :: rest, hs => by
    rw [List.pairwise_cons] at hs
    simp only [ladderPushBack]
    split
    · rename_i hk
      simp [ladderFind, hk]
    · rename_i hk
      split
      · rename_i hb
        have hR : R p k := (hbf p k).mp hb
        have hnone : ladderFind p rest = none := by
          refine ladderFind_none_of_keys _ _ ?_
          intro lv hlv he
          have := htrans _ _ _ hR (hs.1 lv hlv)
          rw [he] at this
          exact hirr p this
        simp [ladderFind, hk, hnone]
      · simp only [ladderFind, hk, if_false]
        exact ladderFind_pushBack_self hbf hirr htrans p o rest hs.2

theorem quantityAt_snapshot (p : Int) : ∀ (l : Ladder),
    quantityAt p (l.map (fun lv => CreateLevelInfos lv.1 lv.2))
      = totalRemaining ((ladderFind p l).getD []) % quantityModulus
  | [] => by simp [quantityAt, ladderFind]
  | (k, x) :: rest => by
    simp only [List.map_cons, quantityAt, ladderFind]
    rw [CreateLevelInfos_eq]
    by_cases hk : k = p
    · simp [hk]
    · simp only [hk, if_false]
      exact quantityAt_snapshot p rest

theorem ownInfos_eq (s : Orderbook) (side : Side) :
    ownInfos s.GetOrderInfos side = (ownLadder s side).map (fun lv => CreateLevelInfos lv.1 lv.2) := by
  cases side <;> rfl

theorem contraInfos_eq (s : Orderbook) (side : Side) :
    contraInfos s.GetOrderInfos side
      = (contraLadder s side).map (fun lv => CreateLevelInfos lv.1 lv.2) := by
  cases side <;> rfl

theorem Inv.own_sorted {s : Orderbook} (h : Inv s) (side : Side) :
    ∃ R : Int → Int → Prop, (∀ a b, sideBefore side a b = true ↔ R a b) ∧ (∀ a, ¬ R a a) ∧
      (∀ a b c, R a b → R b c → R a c) ∧ (ownLadder s side).Pairwise (fun x y => R x.1 y.1) := by
  cases side with
  | Buy => exact ⟨_, bidBefore_iff, int_gt_irrefl, int_gt_trans, h.bids.sorted⟩
  | Sell => exact ⟨_, askBefore_iff, int_lt_irrefl, int_lt_trans, h.asks.sorted⟩

theorem restingOrders_perm_side (s : Orderbook) (side : Side) :
    (restingOrders s).Perm (ladderOrders (ownLadder s side) ++ ladderOrders (contraLadder s side)) := by
  cases side with
  | Buy => exact List.Perm.refl _
  | Sell => exact List.perm_append_comm

theorem canMatch_false_iff (s : Orderbook) (o : Order) :
    s.CanMatch o.side_ o.price_ = false ↔
      ∀ lv ∈ (contraLadder s o.side_).head?, acceptsPrice o lv.1 = false := by
  cases hside : o.side_ with
  | Buy =>
    simp only [CanMatch, contraLadder, acceptsPrice, hside]
    cases s.asks_ with
    | nil => simp
    | cons a rest => simp
  | Sell =>
    simp only [CanMatch, contraLadder, acceptsPrice, hside]
    cases s.bids_ with
    | nil => simp
    | cons a rest => simp

/-- `AddOrder` of an admitted order that does not cross and is not FillAndKill:
no trade, the order is pushed on its own ladder, the contra ladder is as before. -/
theorem AddOrder_not_crossing (s : Orderbook) (hinv : Inv s) (hnf : NoFillAndKill s) (o : Order)
    (hnew : o.IsNew) (hadm : admission s o = some o)
    (hfak : o.orderType_ ≠ OrderType.FillAndKill)
    (hnc : s.CanMatch o.side_ o.price_ = false) :
    ∃ s1, s.AddOrder (some o) = .ok ([], s1) ∧ Inv s1 ∧
      contraLadder s1 o.side_ = contraLadder s o.side_ ∧
      ownLadder s1 o.side_
        = ladderPushBack (sideBefore o.side_) o.price_ o (ownLadder s o.side_) := by
  have hacc := (canMatch_false_iff s o).mp hnc
  obtain ⟨hq, _, _, _, _, _, _, _, _, _, _, _, _⟩ := admission_some hadm
  rcases AddOrder_spec s hinv hnf o hnew with ⟨hn, _⟩ | ⟨o1, s1, hadm1, hadd, hinv1, _, hc, ho, _⟩
  · rw [hadm] at hn; cases hn
  · rw [hadm, Option.some.injEq] at hadm1
    subst hadm1
    rw [fillLadder_of_not_accept _ _ _ hacc] at hadd
    rw [restLadder_of_not_accept _ _ _ hacc] at hc
    rw [acceptableOrders_of_not_accept _ _ hacc] at ho
    have hpos : 0 < o.remainingQuantity_ := by
      rw [hnew.1]; exact Nat.pos_of_ne_zero hq
    simp only [totalRemaining_nil, hpos, ne_eq, hfak, not_false_eq_true, and_self, if_true,
      Order.filled_zero] at ho
    exact ⟨s1, hadd, hinv1, hc, ho⟩

/-- C12 (non-crossing add, amended): from a reachable book, `AddOrder` of a fresh
GoodTillCancel order with an id that is not indexed, a positive quantity and an
in-range price that cannot match (`CanMatch` is false: the opposite ladder is
empty or its best price is not reached) returns no trade; `Size` grows by one;
the order is appended at the tail of the level at its price on its own ladder
(a new level when there was none) and is indexed; every other level of that
ladder, the whole opposite ladder and every order that rested before are
unchanged; the snapshot quantity at its price on its side becomes the former
quantity plus its quantity reduced modulo 2^32, which is the former quantity plus
its quantity whenever the level total stays below 2^32; the snapshot quantity at
every other price and the opposite snapshot are unchanged. -/
theorem non_crossing_add (s : Orderbook) (h : Reachable s) (o : Order) (hnew : o.IsNew)
    (ht : o.orderType_ = OrderType.GoodTillCancel) (hq : o.initialQuantity_ ≠ 0)
    (hp : 0 ≤ o.price_ ∧ o.price_ ≤ 1000000) (hfresh : s.OrderExists o.orderId_ = false)
    (hnc : s.CanMatch o.side_ o.price_ = false) :
    ∃ s1, s.AddOrder (some o) = .ok ([], s1) ∧
      s1.Size = s.Size + 1 ∧
      indexFind o.orderId_ s1.orders_ = some o ∧
      ownLadder s1 o.side_
        = ladderPushBack (sideBefore o.side_) o.price_ o (ownLadder s o.side_) ∧
      ladderFind o.price_ (ownLadder s1 o.side_)
        = some ((ladderFind o.price_ (ownLadder s o.side_)).getD [] ++ [o]) ∧
      (∀ p, p ≠ o.price_ →
        ladderFind p (ownLadder s1 o.side_) = ladderFind p (ownLadder s o.side_)) ∧
      contraLadder s1 o.side_ = contraLadder s o.side_ ∧
      (restingOrders s1).Perm (o :: restingOrders s) ∧
      quantityAt o.price_ (ownInfos s1.GetOrderInfos o.side_)
        = (quantityAt o.price_ (ownInfos s.GetOrderInfos o.side_) + o.initialQuantity_)
            % quantityModulus ∧
      (totalRemaining ((ladderFind o.price_ (ownLadder s o.side_)).getD []) + o.initialQuantity_
          < quantityModulus →
        quantityAt o.price_ (ownInfos s1.GetOrderInfos o.side_)
          = quantityAt o.price_ (ownInfos s.GetOrderInfos o.side_) + o.initialQuantity_) ∧
      (∀ p, p ≠ o.price_ →
        quantityAt p (ownInfos s1.GetOrderInfos o.side_)
          = quantityAt p (ownInfos s.GetOrderInfos o.side_)) ∧
      contraInfos s1.GetOrderInfos o.side_ = contraInfos s.GetOrderInfos o.side_ := by
  obtain ⟨hinv, hnf⟩ := h.inv
  have hadm := admission_plain s o hq hp hfresh (Or.inl ht)
  obtain ⟨s1, hadd, hinv1, hc, ho⟩ :=
    AddOrder_not_crossing s hinv hnf o hnew hadm (by rw [ht]; simp) hnc
  obtain ⟨R, hbf, hirr, htrans, hsorted⟩ := hinv.own_sorted o.side_
  have hself : ladderFind o.price_ (ownLadder s1 o.side_)
      = some ((ladderFind o.price_ (ownLadder s o.side_)).getD [] ++ [o]) := by
    rw [ho]; exact ladderFind_pushBack_self hbf hirr htrans _ _ _ hsorted
  have hother : ∀ p, p ≠ o.price_ →
      ladderFind p (ownLadder s1 o.side_) = ladderFind p (ownLadder s o.side_) := by
    intro p hpne
    rw [ho]; exact ladderFind_pushBack_other _ _ _ hpne _
  have hperm : (restingOrders s1).Perm (o :: restingOrders s) := by
    refine (restingOrders_perm_side s1 o.side_).trans ?_
    rw [hc, ho]
    refine ((ladderOrders_pushBack_perm _ _ _).append_right _).trans ?_
    exact List.Perm.cons _ (restingOrders_perm_side s o.side_).symm
  have hsize : s1.Size = s.Size + 1 := by
    have h1 := hinv1.index.length_eq
    have h0 := hinv.index.length_eq
    have h2 := hperm.length_eq
    rw [List.length_map] at h1 h0
    simp only [List.length_cons] at h2
    simp only [Size]
    omega
  have hfind : indexFind o.orderId_ s1.orders_ = some o :=
    hinv1.indexSync.find_mem (hperm.mem_iff.mpr (List.mem_cons_self _ _))
  have hsnap : quantityAt o.price_ (ownInfos s1.GetOrderInfos o.side_)
      = (totalRemaining ((ladderFind o.price_ (ownLadder s o.side_)).getD [])
          + o.initialQuantity_) % quantityModulus := by
    rw [ownInfos_eq, quantityAt_snapshot, hself, Option.getD_some]
    have : totalRemaining ((ladderFind o.price_ (ownLadder s o.side_)).getD [] ++ [o])
        = totalRemaining ((ladderFind o.price_ (ownLadder s o.side_)).getD [])
          + o.initialQuantity_ := by
      simp [totalRemaining, hnew.1]
    rw [this]
  have hold : quantityAt o.price_ (ownInfos s.GetOrderInfos o.side_)
      = totalRemaining ((ladderFind o.price_ (ownLadder s o.side_)).getD [])
          % quantityModulus := by
    rw [ownInfos_eq, quantityAt_snapshot]
  refine ⟨s1, hadd, hsize, hfind, ho, hself, hother, hc, hperm, ?_, ?_, ?_, ?_⟩
  · rw [hsnap, hold, Nat.mod_add_mod]
  · intro hlt
    rw [hsnap, hold, Nat.mod_eq_of_lt hlt, Nat.mod_eq_of_lt (by omega)]
  · intro p hpne
    rw [ownInfos_eq, ownInfos_eq, quantityAt_snapshot, quantityAt_snapshot, hother p hpne]
  · rw [contraInfos_eq, contraInfos_eq, hc]

/-- C12 at the book with one bid at 100 and one ask at 110 and a new buy of 300
at 100, which joins the level of order 1. -/
theorem non_crossing_add_witness :
    ∃ s1, bookSpread.AddOrder (some (Order.new OrderType.GoodTillCancel 3 Side.Buy 100 300))
        = .ok ([], s1) ∧
      s1.Size = bookSpread.Size + 1 ∧
      indexFind (Order.new OrderType.GoodTillCancel 3 Side.Buy 100 300).orderId_ s1.orders_
        = some (Order.new OrderType.GoodTillCancel 3 Side.Buy 100 300) ∧
      ownLadder s1 (Order.new OrderType.GoodTillCancel 3 Side.Buy 100 300).side_
        = ladderPushBack (sideBefore (Order.new OrderType.GoodTillCancel 3 Side.Buy 100 300).side_)
            (Order.new OrderType.GoodTillCancel 3 Side.Buy 100 300).price_
            (Order.new OrderType.GoodTillCancel 3 Side.Buy 100 300)
            (ownLadder bookSpread (Order.new OrderType.GoodTillCancel 3 Side.Buy 100 300).side_) ∧
      ladderFind (Order.new OrderType.GoodTillCancel 3 Side.Buy 100 300).price_
          (ownLadder s1 (Order.new OrderType.GoodTillCancel 3 Side.Buy 100 300).side_)
        = some ((ladderFind (Order.new OrderType.GoodTillCancel 3 Side.Buy 100 300).price_
            (ownLadder bookSpread
              (Order.new OrderType.GoodTillCancel 3 Side.Buy 100 300).side_)).getD []
            ++ [Order.new OrderType.GoodTillCancel 3 Side.Buy 100 300]) ∧
      (∀ p, p ≠ (Order.new OrderType.GoodTillCancel 3 Side.Buy 100 300).price_ →
        ladderFind p (ownLadder s1 (Order.new OrderType.GoodTillCancel 3 Side.Buy 100 300).side_)
          = ladderFind p (ownLadder bookSpread
              (Order.new OrderType.GoodTillCancel 3 Side.Buy 100 300).side_)) ∧
      contraLadder s1 (Order.new OrderType.GoodTillCancel 3 Side.Buy 100 300).side_
        = contraLadder bookSpread (Order.new OrderType.GoodTillCancel 3 Side.Buy 100 300).side_ ∧
      (restingOrders s1).Perm
        (Order.new OrderType.GoodTillCancel 3 Side.Buy 100 300 :: restingOrders bookSpread) ∧
      quantityAt (Order.new OrderType.GoodTillCancel 3 Side.Buy 100 300).price_
          (ownInfos s1.GetOrderInfos (Order.new OrderType.GoodTillCancel 3 Side.Buy 100 300).side_)
        = (quantityAt (Order.new OrderType.GoodTillCancel 3 Side.Buy 100 300).price_
              (ownInfos bookSpread.GetOrderInfos
                (Order.new OrderType.GoodTillCancel 3 Side.Buy 100 300).side_)
            + (Order.new OrderType.GoodTillCancel 3 Side.Buy 100 300).initialQuantity_)
            % quantityModulus ∧
      (totalRemaining ((ladderFind (Order.new OrderType.GoodTillCancel 3 Side.Buy 100 300).price_
            (ownLadder bookSpread
              (Order.new OrderType.GoodTillCancel 3 Side.Buy 100 300).side_)).getD [])
          + (Order.new OrderType.GoodTillCancel 3 Side.Buy 100 300).initialQuantity_
          < quantityModulus →
        quantityAt (Order.new OrderType.GoodTillCancel 3 Side.Buy 100 300).price_
            (ownInfos s1.GetOrderInfos
              (Order.new OrderType.GoodTillCancel 3 Side.Buy 100 300).side_)
          = quantityAt (Order.new OrderType.GoodTillCancel 3 Side.Buy 100 300).price_
              (ownInfos bookSpread.GetOrderInfos
                (Order.new OrderType.GoodTillCancel 3 Side.Buy 100 300).side_)
            + (Order.new OrderType.GoodTillCancel 3 Side.Buy 100 300).initialQuantity_) ∧
      (∀ p, p ≠ (Order.new OrderType.GoodTillCancel 3 Side.Buy 100 300).price_ →
        quantityAt p (ownInfos s1.GetOrderInfos
            (Order.new OrderType.GoodTillCancel 3 Side.Buy 100 300).side_)
          = quantityAt p (ownInfos bookSpread.GetOrderInfos
              (Order.new OrderType.GoodTillCancel 3 Side.Buy 100 300).side_)) ∧
      contraInfos s1.GetOrderInfos (Order.new OrderType.GoodTillCancel 3 Side.Buy 100 300).side_
        = contraInfos bookSpread.GetOrderInfos
            (Order.new OrderType.GoodTillCancel 3 Side.Buy 100 300).side_ :=
  non_crossing_add bookSpread (Reachable.afterAdds _ _ Reachable.empty (by decide))
    (Order.new OrderType.GoodTillCancel 3 Side.Buy 100 300) (by decide) rfl (by decide)
    (by decide) (by decide!) (by decide!)

/-- C12 as stated fails: on the reachable book with one buy of 4294967295 units at
100, a fresh non-crossing GoodTillCancel buy of 1 unit at 100 is added without a
trade, and the snapshot quantity at 100 goes from 4294967295 to 0. -/
theorem added_order_snapshot_wraps :
    Reachable bookFull ∧
    (Order.new OrderType.GoodTillCancel 2 Side.Buy 100 1).IsNew ∧
    bookFull.OrderExists 2 = false ∧
    bookFull.CanMatch Side.Buy 100 = false ∧
    bookFull.GetOrderInfos.GetBids = [{ price_ := 100, quantity_ := 4294967295 }] ∧
    (bookFull.AddOrder (some (Order.new OrderType.GoodTillCancel 2 Side.Buy 100 1))).map
        Prod.fst = .ok [] ∧
    (bookFull.AddOrder (some (Order.new OrderType.GoodTillCancel 2 Side.Buy 100 1))).map
        (fun r => r.2.GetOrderInfos.GetBids) = .ok [{ price_ := 100, quantity_ := 0 }] :=
  ⟨Reachable.afterAdds _ _ Reachable.empty (by decide), by decide, by decide!, by decide!,
    by decide!, by decide!, by decide!⟩

/-- The tests `AddSingleBuyOrder` and `AddSingleSellOrder`. -/
theorem scenario_add_single :
    (Orderbook.empty.AddOrder (some (Order.new OrderType.GoodTillCancel 1 Side.Buy 100 1000))).map
        (fun r => (r.1, r.2.Size, r.2.GetOrderInfos))
      = .ok ([], 1, { bids_ := [{ price_ := 100, quantity_ := 1000 }], asks_ := [] }) ∧
    (Orderbook.empty.AddOrder (some (Order.new OrderType.GoodTillCancel 1 Side.Sell 200 500))).map
        (fun r => (r.1, r.2.Size, r.2.GetOrderInfos))
      = .ok ([], 1, { bids_ := [], asks_ := [{ price_ := 200, quantity_ := 500 }] }) := by
  decide!

/-- C11 (resting remainder of a GoodTillCancel order): from a reachable book,
`AddOrder` of a fresh GoodTillCancel order with an id that is not indexed, a
positive quantity and an in-range price returns; the sum of the trade quantities
is at most the initial quantity; afterwards the id is indexed exactly when that
sum is strictly less than the initial quantity, and then the indexed order is the
given order with remaining quantity = initial quantity minus the sum, it sits in
the level keyed by its price on the ladder of its side, and no other resting
order carries the id; when the sum equals the initial quantity the id is not
indexed and no resting order carries it. -/
theorem resting_remainder (s : Orderbook) (h : Reachable s) (o : Order) (hnew : o.IsNew)
    (ht : o.orderType_ = OrderType.GoodTillCancel) (hq : o.initialQuantity_ ≠ 0)
    (hp : 0 ≤ o.price_ ∧ o.price_ ≤ 1000000) (hfresh : s.OrderExists o.orderId_ = false) :
    ∃ trades s1, s.AddOrder (some o) = .ok (trades, s1) ∧
      tradedQuantity trades ≤ o.initialQuantity_ ∧
      (s1.OrderExists o.orderId_ = true ↔ tradedQuantity trades < o.initialQuantity_) ∧
      (tradedQuantity trades < o.initialQuantity_ →
        ∃ x, indexFind o.orderId_ s1.orders_ = some x ∧
          x = { o with remainingQuantity_ := o.initialQuantity_ - tradedQuantity trades } ∧
          (∃ lv ∈ ownLadder s1 o.side_, lv.1 = o.price_ ∧ x ∈ lv.2) ∧
          (∀ y ∈ restingOrders s1, y.orderId_ = o.orderId_ → y = x)) ∧
      (tradedQuantity trades = o.initialQuantity_ →
        s1.OrderExists o.orderId_ = false ∧
        ∀ y ∈ restingOrders s1, y.orderId_ ≠ o.orderId_) := by
  obtain ⟨hinv, hnf⟩ := h.inv
  have hfresh1 := (OrderExists_eq_false_iff hinv _).mp hfresh
  have hadm := admission_plain s o hq hp hfresh (Or.inl ht)
  rcases AddOrder_spec s hinv hnf o hnew with ⟨hn, _⟩ | ⟨o1, s1, hadm1, hadd, hinv1, _, hc, ho, _⟩
  · rw [hadm] at hn; cases hn
  · rw [hadm, Option.some.injEq] at hadm1
    subst hadm1
    have hsum := (tradedQuantity_mkTrade o _).trans
      (fillLadder_sum (acceptsPrice o) (contraLadder s o.side_) o.remainingQuantity_)
    generalize hA : totalRemaining (acceptableOrders (acceptsPrice o) (contraLadder s o.side_))
      = A at hsum ho
    generalize hT : (fillLadder (acceptsPrice o) o.remainingQuantity_
      (contraLadder s o.side_)).map (mkTrade o) = trades at hsum hadd
    have hrem : o.remainingQuantity_ = o.initialQuantity_ := hnew.1
    have hfak : o.orderType_ ≠ OrderType.FillAndKill := by rw [ht]; simp
    have hnone : ¬ tradedQuantity trades < o.initialQuantity_ →
        ∀ y ∈ restingOrders s1, y.orderId_ ≠ o.orderId_ := by
      intro hge y hy hid
      have h1 := (AddOrder_resting_id hfresh1 hc (hA ▸ ho) y hy hid).1
      rw [hA] at h1
      omega
    have hsome : tradedQuantity trades < o.initialQuantity_ →
        ∃ x, indexFind o.orderId_ s1.orders_ = some x ∧
          x = { o with remainingQuantity_ := o.initialQuantity_ - tradedQuantity trades } ∧
          (∃ lv ∈ ownLadder s1 o.side_, lv.1 = o.price_ ∧ x ∈ lv.2) ∧
          (∀ y ∈ restingOrders s1, y.orderId_ = o.orderId_ → y = x) := by
      intro hlt
      have hAlt : A < o.remainingQuantity_ := by omega
      have hTA : tradedQuantity trades = A := by omega
      rw [if_pos ⟨hAlt, hfak⟩] at ho
      have hmem : o.filled A ∈ restingOrders s1 := by
        rw [mem_restingOrders_side s1 o.side_]
        left
        rw [ho]
        exact (ladderOrders_pushBack_perm _ _ _).mem_iff.mpr (List.mem_cons_self _ _)
      refine ⟨o.filled A, hinv1.indexSync.find_mem hmem, ?_, ?_, ?_⟩
      · rw [hTA]
        simp only [Order.filled, hrem]
      · exact mem_ownLadder_of_resting hinv1 hmem
      · intro y hy hid
        exact List.inj_on_of_nodup_map hinv1.ids hy hmem hid
    refine ⟨trades, s1, hadd, by omega, ?_, hsome, ?_⟩
    · constructor
      · intro he
        by_contra hge
        have := (OrderExists_eq_false_iff hinv1 _).mpr (hnone hge)
        rw [this] at he
        cases he
      · intro hlt
        obtain ⟨x, hx, _⟩ := hsome hlt
        simp [OrderExists, hx]
    · intro heq
      have hge : ¬ tradedQuantity trades < o.initialQuantity_ := by omega
      exact ⟨(OrderExists_eq_false_iff hinv1 _).mpr (hnone hge), hnone hge⟩

/-- C11 at the book with one ask of 300 at 200 and a GoodTillCancel buy of 500 at
200: 300 trade, 200 rest. -/
theorem resting_remainder_witness :
    ∃ trades s1, bookOneAsk.AddOrder (some buyCrossing) = .ok (trades, s1) ∧
      tradedQuantity trades ≤ buyCrossing.initialQuantity_ ∧
      (s1.OrderExists buyCrossing.orderId_ = true ↔
        tradedQuantity trades < buyCrossing.initialQuantity_) ∧
      (tradedQuantity trades < buyCrossing.initialQuantity_ →
        ∃ x, indexFind buyCrossing.orderId_ s1.orders_ = some x ∧
          x = { buyCrossing with
                remainingQuantity_ := buyCrossing.initialQuantity_ - tradedQuantity trades } ∧
          (∃ lv ∈ ownLadder s1 buyCrossing.side_, lv.1 = buyCrossing.price_ ∧ x ∈ lv.2) ∧
          (∀ y ∈ restingOrders s1, y.orderId_ = buyCrossing.orderId_ → y = x)) ∧
      (tradedQuantity trades = buyCrossing.initialQuantity_ →
        s1.OrderExists buyCrossing.orderId_ = false ∧
        ∀ y ∈ restingOrders s1, y.orderId_ ≠ buyCrossing.orderId_) :=
  resting_remainder bookOneAsk (Reachable.afterAdds _ _ Reachable.empty (by decide))
    buyCrossing (by decide) rfl (by decide) (by decide) (by decide!)

/-- Scenario S1 evaluated: one trade of 500 at 100, order 1 rests with 500. -/
theorem scenario_S1_result :
    (bookLoneBuy.AddOrder (some (Order.new OrderType.GoodTillCancel 2 Side.Sell 100 500))).map
        (fun r => (r.1, r.2.Size, r.2.GetOrderInfos))
      = .ok ([{ bidTrade_ := { orderId_ := 1, price_ := 100, quantity_ := 500 },
                askTrade_ := { orderId_ := 2, price_ := 100, quantity_ := 500 } }], 1,
             { bids_ := [{ price_ := 100, quantity_ := 500 }], asks_ := [] }) := by
  decide!

/-- C13 at the book with three buys at 100, cancelling order 2. -/
theorem cancel_removes_exactly_one_witness :
    ∃ s1, bookSameLevel.CancelOrder 2 = .ok s1 ∧
      (bookSameLevel.OrderExists 2 = false → s1 = bookSameLevel) ∧
      (∀ o, indexFind 2 bookSameLevel.orders_ = some o →
        s1.OrderExists 2 = false ∧
        (∀ x ∈ restingOrders s1, x.orderId_ ≠ 2) ∧
        s1.Size + 1 = bookSameLevel.Size ∧
        s1.bids_ = ladderWithout 2 bookSameLevel.bids_ ∧
        s1.asks_ = ladderWithout 2 bookSameLevel.asks_ ∧
        contraLadder s1 o.side_ = contraLadder bookSameLevel o.side_ ∧
        (∀ p, p ≠ o.price_ →
          ladderFind p (ownLadder s1 o.side_) = ladderFind p (ownLadder bookSameLevel o.side_)) ∧
        (∃ level, ladderFind o.price_ (ownLadder bookSameLevel o.side_) = some level ∧
          o ∈ level ∧
          ladderFind o.price_ (ownLadder s1 o.side_) =
            (if level = [o] then none else some (levelWithout 2 level))) ∧
        restingOrders s1
          = (restingOrders bookSameLevel).filter (fun y => decide (y.orderId_ ≠ 2)) ∧
        (∀ x ∈ restingOrders bookSameLevel, x ≠ o → x ∈ restingOrders s1)) :=
  cancel_removes_exactly_one bookSameLevel
    (Reachable.afterAdds _ _ Reachable.empty (by decide)) 2

/-- The tests `CancelOrder` and `CancelNonExistentOrder`, and the cancellation of
the middle order of three at one price. -/
theorem scenario_cancel :
    (bookLoneBuy.CancelOrder 1).map (fun s1 => (s1.Size, s1.GetOrderInfos))
      = .ok (0, { bids_ := [], asks_ := [] }) ∧
    Orderbook.empty.CancelOrder 999 = .ok Orderbook.empty ∧
    (bookSameLevel.CancelOrder 2).map (fun s1 => (s1.Size, s1.bids_))
      = .ok (2, [(100, [Order.new OrderType.GoodTillCancel 1 Side.Buy 100 500,
                        Order.new OrderType.GoodTillCancel 3 Side.Buy 100 200])]) := by
  decide!

/-- C14 at the book with three buys at 100, cancelling order 2 twice. -/
theorem cancel_is_idempotent_witness :
    ∃ s1, bookSameLevel.CancelOrder 2 = .ok s1 ∧ s1.CancelOrder 2 = .ok s1 ∧
      (bookSameLevel.CancelOrder 2 >>= fun s2 => s2.CancelOrder 2)
        = bookSameLevel.CancelOrder 2 :=
  cancel_is_idempotent bookSameLevel (Reachable.afterAdds _ _ Reachable.empty (by decide)) 2

/-- C15 (modify = cancel then add with the original type): from a reachable book,
for a modification whose id is indexed with `existing` (of type `t`),
`ModifyOrder` returns, and its trades and final state are those of `CancelOrder`
of the id followed by `AddOrder` of the order built from `t`, the id and the
side, price and quantity of the modification; both sides are also equal as
results.  Scenario S6: modifying a lone resting buy of 1000 at 100 to price 110 and
quantity 500 returns no trade and leaves the snapshot bids [(110, 500)]. -/
theorem modify_is_cancel_then_add (s : Orderbook) (h : Reachable s) (m : OrderModify)
    (hq : m.quantity_ < quantityModulus) (existing : Order)
    (hf : indexFind m.orderId_ s.orders_ = some existing) :
    (∃ trades s2, s.ModifyOrder m = .ok (trades, s2) ∧
      ∃ s1, s.CancelOrder m.orderId_ = .ok s1 ∧
        s1.AddOrder (some (Order.new existing.orderType_ m.orderId_ m.side_ m.price_
          m.quantity_)) = .ok (trades, s2)) ∧
    s.ModifyOrder m = (s.CancelOrder m.orderId_ >>= fun s1 =>
      s1.AddOrder (some (Order.new existing.orderType_ m.orderId_ m.side_ m.price_
        m.quantity_))) ∧
    (bookLoneBuy.ModifyOrder modifyS6).map (fun r => (r.1, r.2.Size, r.2.GetOrderInfos))
      = .ok ([], 1, { bids_ := [{ price_ := 110, quantity_ := 500 }], asks_ := [] }) := by
  obtain ⟨hinv, hnf⟩ := h.inv
  obtain ⟨s1, hc, hinv1, hnf1⟩ := CancelOrderInternal_inv s hinv hnf m.orderId_
  obtain ⟨trades, s2, ha, _, _⟩ := AddOrder_inv s1 hinv1 hnf1
    (Order.new existing.orderType_ m.orderId_ m.side_ m.price_ m.quantity_) ⟨rfl, hq⟩
  have hm : s.ModifyOrder m = .ok (trades, s2) := by
    simp only [ModifyOrder, OrderModify.GetOrderId, hf, CancelOrder, hc,
      OrderModify.ToOrderPointer, Order.GetOrderType, ha]
  refine ⟨⟨trades, s2, hm, s1, hc, ha⟩, ?_, by decide!⟩
  rw [hm]
  show _ = (s.CancelOrderInternal m.orderId_ >>= _)
  rw [hc]
  exact ha.symm

/-- C15 at scenario S6. -/
theorem modify_is_cancel_then_add_witness :
    (∃ trades s2, bookLoneBuy.ModifyOrder modifyS6 = .ok (trades, s2) ∧
      ∃ s1, bookLoneBuy.CancelOrder modifyS6.orderId_ = .ok s1 ∧
        s1.AddOrder (some (Order.new
          (Order.new OrderType.GoodTillCancel 1 Side.Buy 100 1000).orderType_
          modifyS6.orderId_ modifyS6.side_ modifyS6.price_ modifyS6.quantity_))
          = .ok (trades, s2)) ∧
    bookLoneBuy.ModifyOrder modifyS6 = (bookLoneBuy.CancelOrder modifyS6.orderId_ >>= fun s1 =>
      s1.AddOrder (some (Order.new
        (Order.new OrderType.GoodTillCancel 1 Side.Buy 100 1000).orderType_
        modifyS6.orderId_ modifyS6.side_ modifyS6.price_ modifyS6.quantity_))) ∧
    (bookLoneBuy.ModifyOrder modifyS6).map (fun r => (r.1, r.2.Size, r.2.GetOrderInfos))
      = .ok ([], 1, { bids_ := [{ price_ := 110, quantity_ := 500 }], asks_ := [] }) :=
  modify_is_cancel_then_add bookLoneBuy (Reachable.afterAdds _ _ Reachable.empty (by decide))
    modifyS6 (by decide) (Order.new OrderType.GoodTillCancel 1 Side.Buy 100 1000) (by decide!)

/-! ## Order object contracts, day orders, the RPC handler, trade well-formedness -/

theorem Order.afterFills_spec : ∀ (qs : List Nat) (o : Order),
    o.remainingQuantity_ ≤ o.initialQuantity_ →
    (o.afterFills qs).initialQuantity_ = o.initialQuantity_ ∧
    (o.afterFills qs).remainingQuantity_ ≤ o.remainingQuantity_ ∧
    (o.afterFills qs).remainingQuantity_ + o.successfulFills qs = o.remainingQuantity_
  | [], o, _ => by simp [Order.afterFills, Order.successfulFills]
  | q :: rest, o, hle => by
    by_cases hq : q > o.remainingQuantity_
    · have hF : o.Fill q = .error Fault.overfill := by
        simp [Order.Fill, Order.GetRemainingQuantity, hq]
      have ha : o.afterFill q = o := by simp [Order.afterFill, hF]
      simp only [Order.afterFills, Order.successfulFills, hF, ha]
      exact Order.afterFills_spec rest o hle
    · have hF : o.Fill q = .ok (o.filled q) := Order.Fill_ok o q (by omega)
      have ha : o.afterFill q = o.filled q := by simp [Order.afterFill, hF]
      simp only [Order.afterFills, Order.successfulFills, hF, ha]
      obtain ⟨h1, h2, h3⟩ := Order.afterFills_spec rest (o.filled q)
        (by simp only [Order.filled_remaining, Order.filled_initial]; omega)
      simp only [Order.filled_remaining, Order.filled_initial] at h1 h2 h3
      exact ⟨h1, by omega, by omega⟩

theorem Order.GetFilledQuantity_eq (o : Order) (hle : o.remainingQuantity_ ≤ o.initialQuantity_)
    (hfit : o.initialQuantity_ < quantityModulus) :
    o.GetFilledQuantity = o.initialQuantity_ - o.remainingQuantity_ := by
  unfold Order.GetFilledQuantity Order.GetInitialQuantity Order.GetRemainingQuantity
  have h1 : o.remainingQuantity_ % quantityModulus = o.remainingQuantity_ :=
    Nat.mod_eq_of_lt (by omega)
  rw [h1]
  have h2 : o.initialQuantity_ + (quantityModulus - o.remainingQuantity_)
      = (o.initialQuantity_ - o.remainingQuantity_) + quantityModulus := by omega
  rw [h2, Nat.add_mod_right]
  exact Nat.mod_eq_of_lt (by omega)

/-- C25 (`Order::Fill`): the call throws exactly when the requested quantity
exceeds the remaining quantity, and then the object is unchanged; otherwise the
remaining quantity decreases by exactly the requested quantity and id, side,
type, price and initial quantity are unchanged; `IsFilled` holds exactly when
the remaining quantity is 0; for an order built by the constructor (with a
quantity that fits `Quantity`) and any sequence of `Fill` calls,
`GetFilledQuantity` is initial minus remaining and equals the sum of the calls
that did not throw. -/
theorem fill_contract (o : Order) (q : Nat) :
    ((∃ e, o.Fill q = .error e) ↔ q > o.remainingQuantity_) ∧
    (q > o.remainingQuantity_ → o.Fill q = .error Fault.overfill ∧ o.afterFill q = o) ∧
    (q ≤ o.remainingQuantity_ →
      ∃ o1, o.Fill q = .ok o1 ∧ o.afterFill q = o1 ∧
        o1.remainingQuantity_ + q = o.remainingQuantity_ ∧
        o1.orderId_ = o.orderId_ ∧ o1.side_ = o.side_ ∧ o1.orderType_ = o.orderType_ ∧
        o1.price_ = o.price_ ∧ o1.initialQuantity_ = o.initialQuantity_) ∧
    (o.IsFilled = true ↔ o.remainingQuantity_ = 0) ∧
    (∀ (t : OrderType) (id : Nat) (side : Side) (price : Int) (quantity : Nat) (qs : List Nat),
      quantity < quantityModulus →
      ((Order.new t id side price quantity).afterFills qs).GetFilledQuantity
        = ((Order.new t id side price quantity).afterFills qs).initialQuantity_
          - ((Order.new t id side price quantity).afterFills qs).remainingQuantity_ ∧
      ((Order.new t id side price quantity).afterFills qs).GetFilledQuantity
        = (Order.new t id side price quantity).successfulFills qs) := by
  have hthrow : q > o.remainingQuantity_ → o.Fill q = .error Fault.overfill := by
    intro h
    simp [Order.Fill, Order.GetRemainingQuantity, h]
  refine ⟨?_, ?_, ?_, Order.isFilled_iff o, ?_⟩
  · constructor
    · rintro ⟨e, he⟩
      by_contra hle
      rw [Order.Fill_ok o q (by omega)] at he
      cases he
    · intro h
      exact ⟨_, hthrow h⟩
  · intro h
    exact ⟨hthrow h, by simp [Order.afterFill, hthrow h]⟩
  · intro h
    refine ⟨o.filled q, Order.Fill_ok o q h, by simp [Order.afterFill, Order.Fill_ok o q h], ?_,
      rfl, rfl, rfl, rfl, rfl⟩
    simp only [Order.filled_remaining]
    omega
  · intro t id side price quantity qs hfit
    obtain ⟨h1, h2, h3⟩ := Order.afterFills_spec qs (Order.new t id side price quantity)
      (Nat.le_refl _)
    have hinit : (Order.new t id side price quantity).initialQuantity_ = quantity := rfl
    have hrem : (Order.new t id side price quantity).remainingQuantity_ = quantity := rfl
    rw [hinit] at h1
    rw [hrem] at h2 h3
    have hgf := Order.GetFilledQuantity_eq ((Order.new t id side price quantity).afterFills qs)
      (by omega) (by omega)
    refine ⟨hgf, ?_⟩
    rw [hgf]
    omega

/-- The tests `FillOrder`, `FillOrderThrowsOnOverfill` and `QuantityBehavior`. -/
theorem scenario_fill_tests :
    ((Order.new OrderType.GoodTillCancel 789 Side.Buy 50 1000).afterFills [300]).remainingQuantity_
      = 700 ∧
    ((Order.new OrderType.GoodTillCancel 789 Side.Buy 50 1000).afterFills [300]).GetFilledQuantity
      = 300 ∧
    ((Order.new OrderType.GoodTillCancel 789 Side.Buy 50 1000).afterFills [300]).IsFilled = false ∧
    ((Order.new OrderType.GoodTillCancel 789 Side.Buy 50 1000).afterFills
      [300, 700]).GetFilledQuantity = 1000 ∧
    ((Order.new OrderType.GoodTillCancel 789 Side.Buy 50 1000).afterFills [300, 700]).IsFilled
      = true ∧
    (Order.new OrderType.GoodTillCancel 999 Side.Buy 50 100).Fill 150 = .error Fault.overfill ∧
    ((Order.new OrderType.GoodTillCancel 1 Side.Buy 100 1000).afterFills
      [250, 100]).GetFilledQuantity = 350 := by
  decide

/-- C26 (`Order::ToGoodTillCancel`): the call throws exactly when the type is not
Market, and then the object is unchanged; on a Market order it sets the price to
the given price and the type to GoodTillCancel and leaves id, side, initial and
remaining quantity as they were; after a call that did not throw every further
call throws, so the call can succeed at most once per order. -/
theorem to_good_till_cancel_contract (o : Order) (p : Int) :
    ((∃ e, o.ToGoodTillCancel p = .error e) ↔ o.orderType_ ≠ OrderType.Market) ∧
    (o.orderType_ ≠ OrderType.Market →
      o.ToGoodTillCancel p = .error Fault.notMarket ∧ o.afterToGoodTillCancel p = o) ∧
    (o.orderType_ = OrderType.Market →
      ∃ o1, o.ToGoodTillCancel p = .ok o1 ∧ o.afterToGoodTillCancel p = o1 ∧
        o1.price_ = p ∧ o1.orderType_ = OrderType.GoodTillCancel ∧
        o1.orderId_ = o.orderId_ ∧ o1.side_ = o.side_ ∧
        o1.initialQuantity_ = o.initialQuantity_ ∧
        o1.remainingQuantity_ = o.remainingQuantity_) ∧
    (∀ o1 p2, o.ToGoodTillCancel p = .ok o1 →
      o1.ToGoodTillCancel p2 = .error Fault.notMarket ∧
      (o1.afterToGoodTillCancel p2).afterToGoodTillCancel p2 = o1) := by
  have hthrow : ∀ (x : Order) (r : Int), x.orderType_ ≠ OrderType.Market →
      x.ToGoodTillCancel r = .error Fault.notMarket := by
    intro x r h
    simp [Order.ToGoodTillCancel, Order.GetOrderType, h]
  have hok : ∀ (x : Order) (r : Int), x.orderType_ = OrderType.Market →
      x.ToGoodTillCancel r
        = .ok { x with price_ := r, orderType_ := OrderType.GoodTillCancel } := by
    intro x r h
    simp [Order.ToGoodTillCancel, Order.GetOrderType, h]
  refine ⟨?_, ?_, ?_, ?_⟩
  · constructor
    · rintro ⟨e, he⟩ hm
      rw [hok o p hm] at he
      cases he
    · intro h
      exact ⟨_, hthrow o p h⟩
  · intro h
    exact ⟨hthrow o p h, by simp [Order.afterToGoodTillCancel, hthrow o p h]⟩
  · intro h
    exact ⟨_, hok o p h, by simp [Order.afterToGoodTillCancel, hok o p h], rfl, rfl, rfl, rfl,
      rfl, rfl⟩
  · intro o1 p2 h1
    have hm : o.orderType_ = OrderType.Market := by
      by_contra hne
      rw [hthrow o p hne] at h1
      cases h1
    rw [hok o p hm, Except.ok.injEq] at h1
    have ht : o1.orderType_ ≠ OrderType.Market := by
      rw [← h1]; simp
    have h2 := hthrow o1 p2 ht
    exact ⟨h2, by simp [Order.afterToGoodTillCancel, h2]⟩

/-- The test `ConvertToGoodTillCancel`. -/
theorem scenario_convert_test :
    (Order.new OrderType.Market 111 Side.Buy (-1) 200).ToGoodTillCancel 75
      = .ok (Order.new OrderType.GoodTillCancel 111 Side.Buy 75 200) := by
  decide

/-- C22 (day-order set) at its failing input: after a GoodForDay buy was filled
completely in matching, the book is reachable, no order is indexed or resting,
and the day-order set still holds the id of the filled order. -/
theorem day_order_set_keeps_filled_order :
    Reachable bookDayFilled ∧
    bookDayFilled.orders_ = [] ∧ bookDayFilled.bids_ = [] ∧ bookDayFilled.asks_ = [] ∧
    bookDayFilled.OrderExists 1 = false ∧
    bookDayFilled.goodForDayOrders_ = [1] ∧
    (Orderbook.empty.AddOrder (some (Order.new OrderType.GoodForDay 1 Side.Buy 100 100))).map
        (fun r => r.2.goodForDayOrders_) = .ok [1] ∧
    ((afterAdds Orderbook.empty [Order.new OrderType.GoodForDay 1 Side.Buy 100 100]).CancelOrder
        1).map (fun s1 => s1.goodForDayOrders_) = .ok [] :=
  ⟨Reachable.afterAdds _ _ Reachable.empty (by decide), by decide!, by decide!, by decide!,
    by decide!, by decide!, by decide!, by decide!⟩

/-- C23 (day-order expiry) at its failing input: the id 1 of a GoodForDay order
filled in matching stays in the day-order set; a later GoodTillCancel order with
the id 1 rests; the expiry burst cancels it although it is not a GoodForDay
order. -/
theorem expiry_cancels_good_till_cancel_order :
    Reachable bookDayReused ∧
    restingOrders bookDayReused = [Order.new OrderType.GoodTillCancel 1 Side.Buy 90 50] ∧
    bookDayReused.goodForDayOrders_ = [1] ∧
    bookDayReused.expireGoodForDay.map restingOrders = .ok [] ∧
    bookDayReused.expireGoodForDay.map (fun s1 => s1.Size) = .ok 0 :=
  ⟨Reachable.afterAdds _ _ Reachable.empty (by decide), by decide!, by decide!, by decide!,
    by decide!⟩

/-- C27 (no operation raises): in every reachable book every price level stored
in a ladder is non-empty, and `AddOrder` (of a null pointer, or of an order object
as the constructor builds it), `CancelOrder` and `ModifyOrder` (with a quantity
that fits `Quantity`) return a result: none of the faults (over-fill,
non-market re-pricing, failed `at` lookup, dangling iterator, front of an empty
level, exhausted loop bound) is reached, and the book they leave is reachable
again. -/
theorem operations_never_raise (s : Orderbook) (h : Reachable s) :
    (∀ lv ∈ s.bids_ ++ s.asks_, lv.2 ≠ []) ∧
    s.AddOrder none = .ok ([], s) ∧
    (∀ o : Order, o.IsNew →
      ∃ trades s1, s.AddOrder (some o) = .ok (trades, s1) ∧ Reachable s1) ∧
    (∀ id : Nat, ∃ s1, s.CancelOrder id = .ok s1 ∧ Reachable s1) ∧
    (∀ m : OrderModify, m.quantity_ < quantityModulus →
      ∃ trades s1, s.ModifyOrder m = .ok (trades, s1) ∧ Reachable s1) := by
  obtain ⟨hinv, hnf⟩ := h.inv
  refine ⟨?_, rfl, ?_, ?_, ?_⟩
  · intro lv hlv
    rcases List.mem_append.mp hlv with h1 | h1
    · exact hinv.bids.nonempty lv h1
    · exact hinv.asks.nonempty lv h1
  · intro o hnew
    obtain ⟨trades, s1, ha, _, _⟩ := AddOrder_inv s hinv hnf o hnew
    exact ⟨trades, s1, ha, Reachable.add s s1 o trades h hnew ha⟩
  · intro id
    obtain ⟨s1, hc, _, _⟩ := CancelOrderInternal_inv s hinv hnf id
    exact ⟨s1, hc, Reachable.cancel s s1 id h hc⟩
  · intro m hq
    obtain ⟨trades, s1, hm, _, _⟩ := ModifyOrder_inv s hinv hnf m hq
    exact ⟨trades, s1, hm, Reachable.modify s s1 m trades h hq hm⟩

/-- C27 at the book left by scenario S1. -/
theorem operations_never_raise_witness :
    (∀ lv ∈ bookS1.bids_ ++ bookS1.asks_, lv.2 ≠ []) ∧
    bookS1.AddOrder none = .ok ([], bookS1) ∧
    (∀ o : Order, o.IsNew →
      ∃ trades s1, bookS1.AddOrder (some o) = .ok (trades, s1) ∧ Reachable s1) ∧
    (∀ id : Nat, ∃ s1, bookS1.CancelOrder id = .ok s1 ∧ Reachable s1) ∧
    (∀ m : OrderModify, m.quantity_ < quantityModulus →
      ∃ trades s1, bookS1.ModifyOrder m = .ok (trades, s1) ∧ Reachable s1) :=
  operations_never_raise bookS1 (Reachable.afterAdds _ _ Reachable.empty (by decide))

theorem levelTotal_pushBack {R : Int → Int → Prop} {bf : Int → Int → Bool}
    (hbf : ∀ a b, bf a b = true ↔ R a b) (hirr : ∀ a, ¬ R a a)
    (htrans : ∀ a b c, R a b → R b c → R a c) (q : Int) (o : Order) (l : Ladder)
    (hs : l.Pairwise (fun x y => R x.1 y.1)) (p : Int) :
    levelTotal p l ≤ levelTotal p (ladderPushBack bf q o l) := by
  unfold levelTotal
  by_cases hp : p = q
  · subst hp
    rw [ladderFind_pushBack_self hbf hirr htrans p o l hs, Option.getD_some]
    simp [totalRemaining]
  · rw [ladderFind_pushBack_other q o p hp l]

/-- One `AddOrder` of a non-crossing order that is not a market order: no trade,
and no level total shrinks. -/
theorem AddOrder_nonCrossing_totals (s : Orderbook) (hinv : Inv s) (hnf : NoFillAndKill s)
    (o : Order) (hnew : o.IsNew) (hm : o.orderType_ ≠ OrderType.Market)
    (hnc : s.CanMatch o.side_ o.price_ = false) :
    ∃ s1, s.AddOrder (some o) = .ok ([], s1) ∧
      ∀ p, levelTotal p s.bids_ ≤ levelTotal p s1.bids_ ∧
        levelTotal p s.asks_ ≤ levelTotal p s1.asks_ := by
  cases hadm : admission s o with
  | none =>
    refine ⟨s, ?_, fun p => ⟨Nat.le_refl _, Nat.le_refl _⟩⟩
    rw [AddOrder_eq, hadm]
  | some o1 =>
    obtain ⟨_, _, _, _, _, _, _, _, _, hsame, _, hfak, _⟩ := admission_some hadm
    have : o1 = o := hsame hm
    subst this
    have hnf1 : o1.orderType_ ≠ OrderType.FillAndKill := by
      intro ht
      rw [hfak ht] at hnc
      cases hnc
    obtain ⟨s1, hadd, _, hc, ho⟩ := AddOrder_not_crossing s hinv hnf o1 hnew hadm hnf1 hnc
    obtain ⟨R, hbf, hirr, htrans, hsorted⟩ := hinv.own_sorted o1.side_
    refine ⟨s1, hadd, fun p => ?_⟩
    have hown : levelTotal p (ownLadder s o1.side_) ≤ levelTotal p (ownLadder s1 o1.side_) := by
      rw [ho]; exact levelTotal_pushBack hbf hirr htrans _ _ _ hsorted p
    cases hside : o1.side_ with
    | Buy =>
      rw [hside] at hown hc
      simp only [ownLadder, contraLadder] at hown hc
      exact ⟨hown, by rw [hc]⟩
    | Sell =>
      rw [hside] at hown hc
      simp only [ownLadder, contraLadder] at hown hc
      exact ⟨by rw [hc], hown⟩

/-- A sequence of non-crossing adds: no level total shrinks. -/
theorem afterAdds_nonCrossing_totals : ∀ (os : List Order) (s : Orderbook), Reachable s →
    (∀ o ∈ os, o.IsNew) → nonCrossingSeq s os = true →
    ∀ p, levelTotal p s.bids_ ≤ levelTotal p (afterAdds s os).bids_ ∧
      levelTotal p s.asks_ ≤ levelTotal p (afterAdds s os).asks_
  | [], s, _, _, _ => fun p => ⟨Nat.le_refl _, Nat.le_refl _⟩
  | o :: os, s, h, hnew, hseq => by
    intro p
    obtain ⟨hinv, hnf⟩ := h.inv
    simp only [nonCrossingSeq, Bool.and_eq_true, decide_eq_true_eq, Bool.not_eq_true'] at hseq
    obtain ⟨⟨hm, hnc⟩, hrest⟩ := hseq
    have ho := hnew o (List.mem_cons_self _ _)
    obtain ⟨s1, hadd, htot⟩ := AddOrder_nonCrossing_totals s hinv hnf o ho hm hnc
    rw [hadd] at hrest
    simp only at hrest
    have h1 : Reachable s1 := Reachable.add s s1 o [] h ho hadd
    have ih := afterAdds_nonCrossing_totals os s1 h1
      (fun x hx => hnew x (List.mem_cons_of_mem _ hx)) hrest p
    have hafter : afterAdds s (o :: os) = afterAdds s1 os := by
      simp only [afterAdds, hadd]
    rw [hafter]
    exact ⟨(htot p).1.trans ih.1, (htot p).2.trans ih.2⟩

theorem quantityAt_bids (s : Orderbook) (p : Int) :
    quantityAt p s.GetOrderInfos.GetBids = levelTotal p s.bids_ % quantityModulus :=
  quantityAt_snapshot p s.bids_

theorem quantityAt_asks (s : Orderbook) (p : Int) :
    quantityAt p s.GetOrderInfos.GetAsks = levelTotal p s.asks_ % quantityModulus :=
  quantityAt_snapshot p s.asks_

/-- C21 (snapshot monotonicity, amended): from a reachable book, after a sequence
of `AddOrder` calls with fresh order objects each of which is a non-crossing
order when it is added, the total resting at each price of each ladder is at
least what it was; the snapshot reports that total reduced modulo 2^32, and the
quantity it reports at a price is at least what it reported before whenever the
total at that price after the sequence is below 2^32. -/
theorem snapshot_monotone (s : Orderbook) (h : Reachable s) (os : List Order)
    (hnew : ∀ o ∈ os, o.IsNew) (hseq : nonCrossingSeq s os = true) (p : Int) :
    levelTotal p s.bids_ ≤ levelTotal p (afterAdds s os).bids_ ∧
    levelTotal p s.asks_ ≤ levelTotal p (afterAdds s os).asks_ ∧
    quantityAt p (afterAdds s os).GetOrderInfos.GetBids
      = levelTotal p (afterAdds s os).bids_ % quantityModulus ∧
    quantityAt p (afterAdds s os).GetOrderInfos.GetAsks
      = levelTotal p (afterAdds s os).asks_ % quantityModulus ∧
    (levelTotal p (afterAdds s os).bids_ < quantityModulus →
      quantityAt p s.GetOrderInfos.GetBids
        ≤ quantityAt p (afterAdds s os).GetOrderInfos.GetBids) ∧
    (levelTotal p (afterAdds s os).asks_ < quantityModulus →
      quantityAt p s.GetOrderInfos.GetAsks
        ≤ quantityAt p (afterAdds s os).GetOrderInfos.GetAsks) := by
  obtain ⟨hb, ha⟩ := afterAdds_nonCrossing_totals os s h hnew hseq p
  refine ⟨hb, ha, quantityAt_bids _ p, quantityAt_asks _ p, ?_, ?_⟩
  · intro hlt
    rw [quantityAt_bids, quantityAt_bids, Nat.mod_eq_of_lt hlt,
      Nat.mod_eq_of_lt (Nat.lt_of_le_of_lt hb hlt)]
    exact hb
  · intro hlt
    rw [quantityAt_asks, quantityAt_asks, Nat.mod_eq_of_lt hlt,
      Nat.mod_eq_of_lt (Nat.lt_of_le_of_lt ha hlt)]
    exact ha

/-- C21 at the book with one bid at 100 and one ask at 110, after a buy of 300 at
100 and a sell of 200 at 120, at the price 100. -/
theorem snapshot_monotone_witness :
    levelTotal 100 bookSpread.bids_
      ≤ levelTotal 100 (afterAdds bookSpread
          [Order.new OrderType.GoodTillCancel 3 Side.Buy 100 300,
           Order.new OrderType.GoodTillCancel 4 Side.Sell 120 200]).bids_ ∧
    levelTotal 100 bookSpread.asks_
      ≤ levelTotal 100 (afterAdds bookSpread
          [Order.new OrderType.GoodTillCancel 3 Side.Buy 100 300,
           Order.new OrderType.GoodTillCancel 4 Side.Sell 120 200]).asks_ ∧
    quantityAt 100 (afterAdds bookSpread
        [Order.new OrderType.GoodTillCancel 3 Side.Buy 100 300,
         Order.new OrderType.GoodTillCancel 4 Side.Sell 120 200]).GetOrderInfos.GetBids
      = levelTotal 100 (afterAdds bookSpread
          [Order.new OrderType.GoodTillCancel 3 Side.Buy 100 300,
           Order.new OrderType.GoodTillCancel 4 Side.Sell 120 200]).bids_ % quantityModulus ∧
    quantityAt 100 (afterAdds bookSpread
        [Order.new OrderType.GoodTillCancel 3 Side.Buy 100 300,
         Order.new OrderType.GoodTillCancel 4 Side.Sell 120 200]).GetOrderInfos.GetAsks
      = levelTotal 100 (afterAdds bookSpread
          [Order.new OrderType.GoodTillCancel 3 Side.Buy 100 300,
           Order.new OrderType.GoodTillCancel 4 Side.Sell 120 200]).asks_ % quantityModulus ∧
    (levelTotal 100 (afterAdds bookSpread
        [Order.new OrderType.GoodTillCancel 3 Side.Buy 100 300,
         Order.new OrderType.GoodTillCancel 4 Side.Sell 120 200]).bids_ < quantityModulus →
      quantityAt 100 bookSpread.GetOrderInfos.GetBids
        ≤ quantityAt 100 (afterAdds bookSpread
            [Order.new OrderType.GoodTillCancel 3 Side.Buy 100 300,
             Order.new OrderType.GoodTillCancel 4 Side.Sell 120 200]).GetOrderInfos.GetBids) ∧
    (levelTotal 100 (afterAdds bookSpread
        [Order.new OrderType.GoodTillCancel 3 Side.Buy 100 300,
         Order.new OrderType.GoodTillCancel 4 Side.Sell 120 200]).asks_ < quantityModulus →
      quantityAt 100 bookSpread.GetOrderInfos.GetAsks
        ≤ quantityAt 100 (afterAdds bookSpread
            [Order.new OrderType.GoodTillCancel 3 Side.Buy 100 300,
             Order.new OrderType.GoodTillCancel 4 Side.Sell 120 200]).GetOrderInfos.GetAsks) :=
  snapshot_monotone bookSpread (Reachable.afterAdds _ _ Reachable.empty (by decide))
    [Order.new OrderType.GoodTillCancel 3 Side.Buy 100 300,
     Order.new OrderType.GoodTillCancel 4 Side.Sell 120 200] (by decide) (by decide!) 100

/-- C21 as stated fails: on the reachable book with one buy of 4294967295 units
at 100, the one-element sequence adding a non-crossing buy of 1 unit at 100 takes
the quantity the snapshot reports at 100 from 4294967295 down to 0. -/
theorem snapshot_not_monotone :
    Reachable bookFull ∧
    (∀ o ∈ [Order.new OrderType.GoodTillCancel 2 Side.Buy 100 1], o.IsNew) ∧
    nonCrossingSeq bookFull [Order.new OrderType.GoodTillCancel 2 Side.Buy 100 1] = true ∧
    quantityAt 100 bookFull.GetOrderInfos.GetBids = 4294967295 ∧
    quantityAt 100 (afterAdds bookFull
      [Order.new OrderType.GoodTillCancel 2 Side.Buy 100 1]).GetOrderInfos.GetBids = 0 ∧
    ¬ (quantityAt 100 bookFull.GetOrderInfos.GetBids
        ≤ quantityAt 100 (afterAdds bookFull
            [Order.new OrderType.GoodTillCancel 2 Side.Buy 100 1]).GetOrderInfos.GetBids) :=
  ⟨Reachable.afterAdds _ _ Reachable.empty (by decide), by decide, by decide!, by decide!,
    by decide!, by decide!⟩

theorem tradeRecords_length : ∀ (trades : Trades),
    (tradeRecords trades).length = 2 * trades.length
  | [] => rfl
  | t :: rest => by
    simp only [tradeRecords, List.length_cons, tradeRecords_length rest]
    omega

theorem tradeRecords_get : ∀ (trades : Trades) (i : Nat) (t : Trade), trades[i]? = some t →
    (tradeRecords trades)[2 * i]? = some (bidRecord t) ∧
    (tradeRecords trades)[2 * i + 1]? = some (askRecord t)
  | [], i, t, h => by simp at h
  | x :: rest, 0, t, h => by
    simp only [List.getElem?_cons_zero, Option.some.injEq] at h
    subst h
    simp [tradeRecords]
  | x :: rest, i + 1, t, h => by
    simp only [List.getElem?_cons_succ] at h
    obtain ⟨h1, h2⟩ := tradeRecords_get rest i t h
    have e1 : 2 * (i + 1) = (2 * i + 1) + 1 := by omega
    simp only [tradeRecords]
    rw [e1]
    simp only [List.getElem?_cons_succ]
    exact ⟨h1, h2⟩

/-- The status convention of the RPC `AddOrder` as the handler implements it: for
every reachable book and every request with a quantity that fits `Quantity`, the
engine returns and the handler answers on the book the engine left.  When the
engine returns n > 0 trades the status is FILLED and the response carries exactly
2n records: for the i-th trade the bid-side record (id, price, quantity) at
position 2i and the ask-side record at position 2i + 1.  When the engine returns
no trade the status is ACCEPTED with no record, whether the order was admitted or
silently rejected. -/
theorem add_order_status_convention (s : Orderbook) (h : Reachable s) (request : OrderRequest)
    (hq : request.quantity < quantityModulus) :
    ∃ trades s1 response,
      s.AddOrder (some request.toOrder) = .ok (trades, s1) ∧
      TradingEngineServer.AddOrder s request = .ok (response, s1) ∧
      (trades ≠ [] →
        response.status = OrderStatus.FILLED ∧
        response.trades.length = 2 * trades.length ∧
        response.trades = tradeRecords trades ∧
        ∀ i t, trades[i]? = some t →
          response.trades[2 * i]? = some
            { order_id := t.bidTrade_.orderId_, price := t.bidTrade_.price_,
              quantity := t.bidTrade_.quantity_ } ∧
          response.trades[2 * i + 1]? = some
            { order_id := t.askTrade_.orderId_, price := t.askTrade_.price_,
              quantity := t.askTrade_.quantity_ }) ∧
      (trades = [] → response.status = OrderStatus.ACCEPTED ∧ response.trades = []) := by
  obtain ⟨hinv, hnf⟩ := h.inv
  obtain ⟨trades, s1, ha, _, _⟩ := AddOrder_inv s hinv hnf request.toOrder ⟨rfl, hq⟩
  cases htr : trades with
  | nil =>
    subst htr
    refine ⟨[], s1, { status := OrderStatus.ACCEPTED, trades := [] }, ha, ?_, ?_, ?_⟩
    · simp [TradingEngineServer.AddOrder, ha]
    · intro hne; exact absurd rfl hne
    · intro _; exact ⟨rfl, rfl⟩
  | cons t rest =>
    subst htr
    refine ⟨t :: rest, s1, { status := OrderStatus.FILLED, trades := tradeRecords (t :: rest) },
      ha, ?_, ?_, ?_⟩
    · simp [TradingEngineServer.AddOrder, ha]
    · intro _
      exact ⟨rfl, tradeRecords_length _, rfl, fun i x hx => tradeRecords_get _ i x hx⟩
    · intro hnil; cases hnil

/-- The status convention at the test `AddOrderWithMatching`. -/
theorem add_order_status_convention_witness :
    ∃ trades s1 response,
      bookLoneBuy.AddOrder (some requestSell.toOrder) = .ok (trades, s1) ∧
      TradingEngineServer.AddOrder bookLoneBuy requestSell = .ok (response, s1) ∧
      (trades ≠ [] →
        response.status = OrderStatus.FILLED ∧
        response.trades.length = 2 * trades.length ∧
        response.trades = tradeRecords trades ∧
        ∀ i t, trades[i]? = some t →
          response.trades[2 * i]? = some
            { order_id := t.bidTrade_.orderId_, price := t.bidTrade_.price_,
              quantity := t.bidTrade_.quantity_ } ∧
          response.trades[2 * i + 1]? = some
            { order_id := t.askTrade_.orderId_, price := t.askTrade_.price_,
              quantity := t.askTrade_.quantity_ }) ∧
      (trades = [] → response.status = OrderStatus.ACCEPTED ∧ response.trades = []) :=
  add_order_status_convention bookLoneBuy (Reachable.afterAdds _ _ Reachable.empty (by decide))
    requestSell (by decide)

/-- The tests `AddOrderSuccess` and `AddOrderWithMatching` of the server. -/
theorem scenario_server_add :
    (TradingEngineServer.AddOrder Orderbook.empty
        { order_type := OrderType.GoodTillCancel, order_id := 1, side := Side.Buy, price := 100,
          quantity := 1000 }).map (fun r => (r.1, r.2.Size))
      = .ok ({ status := OrderStatus.ACCEPTED, trades := [] }, 1) ∧
    (TradingEngineServer.AddOrder bookLoneBuy requestSell).map Prod.fst
      = .ok { status := OrderStatus.FILLED,
              trades := [{ order_id := 1, price := 100, quantity := 500 },
                         { order_id := 2, price := 100, quantity := 500 }] } := by
  decide!

/-- C28 (status convention of the RPC `AddOrder`) at its failing inputs: ACCEPTED
is also reported for orders that were not admitted.  On the empty book a request
with quantity 0 is rejected (no trade, book unchanged, id not indexed) and
answered ACCEPTED; on the book holding order 1 a second request with the id 1 is
rejected and answered ACCEPTED. -/
theorem accepted_although_rejected :
    Reachable Orderbook.empty ∧ requestZero.quantity < quantityModulus ∧
    admission Orderbook.empty requestZero.toOrder = none ∧
    TradingEngineServer.AddOrder Orderbook.empty requestZero
      = .ok ({ status := OrderStatus.ACCEPTED, trades := [] }, Orderbook.empty) ∧
    Orderbook.empty.OrderExists requestZero.order_id = false ∧
    Reachable bookLoneBuy ∧
    admission bookLoneBuy
      (Order.new OrderType.GoodTillCancel 1 Side.Sell 200 300) = none ∧
    TradingEngineServer.AddOrder bookLoneBuy
        { order_type := OrderType.GoodTillCancel, order_id := 1, side := Side.Sell, price := 200,
          quantity := 300 }
      = .ok ({ status := OrderStatus.ACCEPTED, trades := [] }, bookLoneBuy) :=
  ⟨Reachable.empty, by decide, by decide, by decide!, by decide,
    Reachable.afterAdds _ _ Reachable.empty (by decide), by decide!, by decide!⟩

theorem FillsFrom.append : ∀ (l1 l2 : List (Order × Nat)) (r : Nat), FillsFrom r l1 →
    FillsFrom (r - (l1.map Prod.snd).sum) l2 → FillsFrom r (l1 ++ l2)
  | [], l2, r, _, h2 => by simpa using h2
  | f :: rest, l2, r, h1, h2 => by
    obtain ⟨hq, hpos, hrest⟩ := h1
    refine ⟨hq, hpos, FillsFrom.append rest l2 _ hrest ?_⟩
    simp only [List.map_cons, List.sum_cons] at h2
    rw [Nat.sub_sub]
    exact h2

theorem FillsFrom.pos : ∀ (l : List (Order × Nat)) (r : Nat), FillsFrom r l →
    ∀ f ∈ l, 0 < f.2
  | [], _, _, f, hf => by simp at hf
  | x :: rest, r, h, f, hf => by
    rcases List.mem_cons.mp hf with rfl | h1
    · exact h.2.1
    · exact FillsFrom.pos rest _ h.2.2 f h1

theorem fillList_fillsFrom : ∀ (l : List Order) (r : Nat),
    (∀ a ∈ l, 0 < a.remainingQuantity_) → FillsFrom r (fillList r l)
  | [], _, _ => by simp [fillList, FillsFrom]
  | a :: l, r, hl => by
    have ha := hl a (List.mem_cons_self _ _)
    simp only [fillList]
    split
    · trivial
    · rename_i hr
      split
      · rename_i hlt
        exact ⟨by simp only; omega, by simp only; omega, trivial⟩
      · rename_i hge
        refine ⟨by simp only; omega, ha, ?_⟩
        exact fillList_fillsFrom l _ (fun x hx => hl x (List.mem_cons_of_mem _ hx))

theorem fillLadder_fillsFrom (accept : Int → Bool) : ∀ (A : Ladder) (r : Nat),
    (∀ lv ∈ A, ∀ a ∈ lv.2, 0 < a.remainingQuantity_) → FillsFrom r (fillLadder accept r A)
  | [], _, _ => by simp [fillLadder, FillsFrom]
  | (p, os) :: A, r, hA => by
    simp only [fillLadder]
    split
    · trivial
    · refine FillsFrom.append _ _ r
        (fillList_fillsFrom os r (hA (p, os) (List.mem_cons_self _ _))) ?_
      rw [fillList_sum]
      have : r - min r (totalRemaining os) = r - totalRemaining os := by omega
      rw [this]
      exact fillLadder_fillsFrom accept A _ (fun lv hlv => hA lv (List.mem_cons_of_mem _ hlv))

/-- Every fill of a sweep is taken from a level whose price is acceptable. -/
theorem fillLadder_accept (accept : Int → Bool) : ∀ (A : Ladder) (r : Nat),
    ∀ f ∈ fillLadder accept r A, ∃ lv ∈ A, f.1 ∈ lv.2 ∧ accept lv.1 = true
  | [], _, f, hf => by simp [fillLadder] at hf
  | (p, os) :: A, r, f, hf => by
    simp only [fillLadder] at hf
    split at hf
    · simp at hf
    · rename_i hcond
      rcases List.mem_append.mp hf with h1 | h1
      · refine ⟨(p, os), List.mem_cons_self _ _, ?_, ?_⟩
        · obtain ⟨k, hk⟩ := fillList_take os r
          have : f.1 ∈ (fillList r os).map Prod.fst := List.mem_map_of_mem _ h1
          rw [hk] at this
          exact List.mem_of_mem_take this
        · simp only [not_or] at hcond
          simpa using hcond.2
      · obtain ⟨lv, hlv, h2, h3⟩ := fillLadder_accept accept A _ f h1
        exact ⟨lv, List.mem_cons_of_mem _ hlv, h2, h3⟩

theorem CrossesFrom.of_fills (s : Orderbook) (o : Order) : ∀ (fills : List (Order × Nat))
    (r : Nat), FillsFrom r fills →
    (∀ f ∈ fills, indexFind f.1.orderId_ s.orders_ = some f.1) →
    CrossesFrom s o.side_ r (fills.map (mkTrade o))
  | [], _, _, _ => trivial
  | f :: rest, r, h, hidx => by
    have hq : (mkTrade o f).bidTrade_.quantity_ = f.2 := by
      cases hs : o.side_ <;> simp [mkTrade, hs]
    refine ⟨⟨f.1, ?_, ?_⟩, ?_⟩
    · rw [contraId_mkTrade]; exact hidx f (List.mem_cons_self _ _)
    · rw [hq]; exact h.1
    · rw [hq]
      exact CrossesFrom.of_fills s o rest _ h.2.2 (fun x hx => hidx x (List.mem_cons_of_mem _ hx))

/-- The trades of `AddOrder` from a book that satisfies the invariant. -/
theorem AddOrder_trades (s : Orderbook) (hinv : Inv s) (hnf : NoFillAndKill s) (o : Order)
    (hnew : o.IsNew) :
    ∃ trades s1, s.AddOrder (some o) = .ok (trades, s1) ∧
      (∀ t ∈ trades, t.bidTrade_.quantity_ = t.askTrade_.quantity_ ∧
        0 < t.bidTrade_.quantity_ ∧ t.askTrade_.price_ ≤ t.bidTrade_.price_) ∧
      CrossesFrom s o.side_ o.remainingQuantity_ trades := by
  rcases AddOrder_spec s hinv hnf o hnew with ⟨_, hadd⟩ | ⟨o1, s1, hadm, hadd, _, _, _, _, _⟩
  · exact ⟨[], s, hadd, by simp, trivial⟩
  · obtain ⟨_, _, _, _, _, hside, _, hrem, _⟩ := admission_some hadm
    have hfills := fillLadder_fillsFrom (acceptsPrice o1) (contraLadder s o1.side_)
      o1.remainingQuantity_ (fun lv hlv => (hinv.contra_pos o1.side_ lv hlv).2)
    refine ⟨_, s1, hadd, ?_, ?_⟩
    · intro t ht
      obtain ⟨f, hf, rfl⟩ := List.mem_map.mp ht
      have hpos := FillsFrom.pos _ _ hfills f hf
      obtain ⟨lv, hlv, hm, hacc⟩ := fillLadder_accept _ _ _ f hf
      have hp : f.1.price_ = lv.1 := ((hinv.contra_orders o1.side_ lv hlv).2 f.1 hm).1
      cases hs : o1.side_ with
      | Buy =>
        rw [acceptsPrice_buy hs] at hacc
        simp only [decide_eq_true_eq] at hacc
        simp only [mkTrade, hs]
        exact ⟨trivial, hpos, by omega⟩
      | Sell =>
        rw [acceptsPrice_sell hs] at hacc
        simp only [decide_eq_true_eq] at hacc
        simp only [mkTrade, hs]
        exact ⟨trivial, hpos, by omega⟩
    · rw [← hside, ← hrem]
      refine CrossesFrom.of_fills s o1 _ _ hfills ?_
      intro f hf
      refine hinv.indexSync.find_mem ?_
      rw [mem_restingOrders_side s o1.side_]
      exact Or.inr (fillLadder_mem _ _ _ f hf)

/-- C30 (trade well-formedness): from a reachable book, `AddOrder` of a fresh order
object and `ModifyOrder` (with a quantity that fits `Quantity`) return, and every
trade they return carries the same quantity on its bid side and its ask side, a
strictly positive one, and a bid-side price that is at least its ask-side price;
along the returned list each trade's quantity is the minimum of what the incoming
order has left just before that cross (its quantity minus the earlier trades) and
of the remaining quantity of the resting order it crosses, the order indexed under
the trade's contra id in the book the incoming order is added to (for
`ModifyOrder` the book after the cancellation). -/
theorem trade_well_formedness (s : Orderbook) (h : Reachable s) :
    (∀ o : Order, o.IsNew →
      ∃ trades s1, s.AddOrder (some o) = .ok (trades, s1) ∧
        (∀ t ∈ trades, t.bidTrade_.quantity_ = t.askTrade_.quantity_ ∧
          0 < t.bidTrade_.quantity_ ∧ t.askTrade_.price_ ≤ t.bidTrade_.price_) ∧
        CrossesFrom s o.side_ o.remainingQuantity_ trades) ∧
    (∀ m : OrderModify, m.quantity_ < quantityModulus →
      ∃ trades s2 s1, s.ModifyOrder m = .ok (trades, s2) ∧
        s.CancelOrder m.orderId_ = .ok s1 ∧
        (∀ t ∈ trades, t.bidTrade_.quantity_ = t.askTrade_.quantity_ ∧
          0 < t.bidTrade_.quantity_ ∧ t.askTrade_.price_ ≤ t.bidTrade_.price_) ∧
        CrossesFrom s1 m.side_ m.quantity_ trades) := by
  obtain ⟨hinv, hnf⟩ := h.inv
  refine ⟨fun o hnew => AddOrder_trades s hinv hnf o hnew, ?_⟩
  intro m hq
  cases hf : indexFind m.orderId_ s.orders_ with
  | none =>
    refine ⟨[], s, s, ?_, ?_, by simp, trivial⟩
    · simp only [ModifyOrder, OrderModify.GetOrderId, hf]
    · simp only [CancelOrder, CancelOrderInternal, hf]
  | some existing =>
    obtain ⟨s1, hc, hinv1, hnf1⟩ := CancelOrderInternal_inv s hinv hnf m.orderId_
    obtain ⟨trades, s2, ha, hwf, hcr⟩ := AddOrder_trades s1 hinv1 hnf1
      (Order.new existing.orderType_ m.orderId_ m.side_ m.price_ m.quantity_) ⟨rfl, hq⟩
    refine ⟨trades, s2, s1, ?_, hc, hwf, hcr⟩
    simp only [ModifyOrder, OrderModify.GetOrderId, hf, CancelOrder, hc,
      OrderModify.ToOrderPointer, Order.GetOrderType, ha]

/-- C30 at the book with three resting bids (scenario S2). -/
theorem trade_well_formedness_witness :
    (∀ o : Order, o.IsNew →
      ∃ trades s1, bookThreeBids.AddOrder (some o) = .ok (trades, s1) ∧
        (∀ t ∈ trades, t.bidTrade_.quantity_ = t.askTrade_.quantity_ ∧
          0 < t.bidTrade_.quantity_ ∧ t.askTrade_.price_ ≤ t.bidTrade_.price_) ∧
        CrossesFrom bookThreeBids o.side_ o.remainingQuantity_ trades) ∧
    (∀ m : OrderModify, m.quantity_ < quantityModulus →
      ∃ trades s2 s1, bookThreeBids.ModifyOrder m = .ok (trades, s2) ∧
        bookThreeBids.CancelOrder m.orderId_ = .ok s1 ∧
        (∀ t ∈ trades, t.bidTrade_.quantity_ = t.askTrade_.quantity_ ∧
          0 < t.bidTrade_.quantity_ ∧ t.askTrade_.price_ ≤ t.bidTrade_.price_) ∧
        CrossesFrom s1 m.side_ m.quantity_ trades) :=
  trade_well_formedness bookThreeBids (Reachable.afterAdds _ _ Reachable.empty (by decide))

/-- A sell of 1200 at 95 against the three resting bids of scenario S2 crosses
order 2 for 500 at 110 and order 1 for 700 at 100 (each trade carries each side's
own price). -/
theorem scenario_two_crosses :
    (bookThreeBids.AddOrder (some (Order.new OrderType.GoodTillCancel 4 Side.Sell 95 1200))).map
        Prod.fst
      = .ok [{ bidTrade_ := { orderId_ := 2, price_ := 110, quantity_ := 500 },
               askTrade_ := { orderId_ := 4, price_ := 95, quantity_ := 500 } },
             { bidTrade_ := { orderId_ := 1, price_ := 100, quantity_ := 700 },
               askTrade_ := { orderId_ := 4, price_ := 95, quantity_ := 700 } }] := by
  decide!

theorem retypeDay_typeOnly (id : Nat) : TypeOnly (retypeDay id) where
  orderId x := by unfold retypeDay; split <;> rfl
  price x := by unfold retypeDay; split <;> rfl
  remaining x := by unfold retypeDay; split <;> rfl
  filled x q := by
    unfold retypeDay
    simp only [Order.filled_orderId]
    split <;> rfl
  fillAndKill x := by
    unfold retypeDay
    split
    · intro h; cases h
    · exact fun h => h

theorem indexErase_map (f : Order → Order) (id : Nat) (idx : OrderIndex) :
    indexErase id (idx.map (fun e => (e.1, f e.2)))
      = (indexErase id idx).map (fun e => (e.1, f e.2)) := by
  induction idx with
  | nil => rfl
  | cons e rest ih =>
    by_cases he : e.1 = id
    · simp only [indexErase, List.map_cons, List.filter, he, ne_eq, not_true_eq_false,
        decide_False] at ih ⊢
      exact ih
    · simp only [indexErase, List.map_cons, List.filter, he, ne_eq, not_false_eq_true,
        decide_True, List.cons.injEq, true_and] at ih ⊢
      exact ih

theorem indexWrite_map (f : Order → Order) (hid : ∀ x, (f x).orderId_ = x.orderId_)
    (b : Order) (idx : OrderIndex) :
    indexWrite (f b) (idx.map (fun e => (e.1, f e.2)))
      = (indexWrite b idx).map (fun e => (e.1, f e.2)) := by
  simp only [indexWrite, List.map_map, hid]
  refine List.map_congr_left ?_
  intro e _
  simp only [Function.comp]
  split <;> rfl

theorem isFilled_map (f : Order → Order) (hf : TypeOnly f) (x : Order) :
    (f x).IsFilled = x.IsFilled := by
  simp only [Order.IsFilled, Order.GetRemainingQuantity, hf.remaining]

/-- The inner matching loop does not look at the stored type. -/
theorem matchLevel_map (f : Order → Order) (hf : TypeOnly f) : ∀ (fuel : Nat) (m : LevelMatch),
    matchLevel fuel (mapLevelMatch f m) = (matchLevel fuel m).map (mapLevelMatch f)
  | fuel, ⟨[], asks, idx, data, T⟩ => by
    rw [matchLevel_bids_nil _ _ rfl, matchLevel_bids_nil _ _ (by rfl)]
    rfl
  | fuel, ⟨b0 :: bt, [], idx, data, T⟩ => by
    rw [matchLevel_asks_nil _ _ rfl, matchLevel_asks_nil _ _ (by rfl)]
    rfl
  | 0, ⟨b0 :: bt, a0 :: at_, idx, data, T⟩ => by
    simp [matchLevel, mapLevelMatch, Except.map]
  | fuel + 1, ⟨b0 :: bt, a0 :: at_, idx, data, T⟩ => by
    have hl : mapLevelMatch f ⟨b0 :: bt, a0 :: at_, idx, data, T⟩
        = ⟨f b0 :: bt.map f, f a0 :: at_.map f, idx.map (fun e => (e.1, f e.2)), data, T⟩ := rfl
    rw [hl, matchLevel_step, matchLevel_step]
    simp only [hf.remaining, ← hf.filled, isFilled_map f hf, hf.orderId, hf.price]
    rw [← matchLevel_map f hf fuel]
    congr 1
    by_cases hb : (b0.filled (min b0.remainingQuantity_ a0.remainingQuantity_)).IsFilled = true
    · by_cases ha : (a0.filled (min b0.remainingQuantity_ a0.remainingQuantity_)).IsFilled = true
      · simp only [hb, ha, if_true, mapLevelMatch, indexErase_map]
      · simp only [hb, ha, if_true, if_false, mapLevelMatch, indexErase_map,
          indexWrite_map f hf.orderId, List.map_cons, Bool.false_eq_true]
    · by_cases ha : (a0.filled (min b0.remainingQuantity_ a0.remainingQuantity_)).IsFilled = true
      · simp only [hb, ha, if_true, if_false, mapLevelMatch, indexErase_map,
          indexWrite_map f hf.orderId, List.map_cons, Bool.false_eq_true]
      · simp only [hb, ha, if_false, mapLevelMatch, indexWrite_map f hf.orderId, List.map_cons,
          Bool.false_eq_true]

theorem matchLoop_error (fuel : Nat) (s : Orderbook) (T : Trades) (bp ap : Int)
    (bl al : List Order) (B A : Ladder) (e : Fault)
    (hb : s.bids_ = (bp, bl) :: B) (ha : s.asks_ = (ap, al) :: A) (hc : ¬ bp < ap)
    (hm : matchLevel (bl.length + al.length)
      { bids := bl, asks := al, orders_ := s.orders_, data_ := s.data_, trades := T }
        = .error e) :
    matchLoop (fuel + 1) s T = .error e := by
  conv => lhs; unfold matchLoop
  simp only [hb, ha, hc, if_false, hm]

theorem matchLoop_no_fuel (s : Orderbook) (T : Trades) (bp ap : Int)
    (bl al : List Order) (B A : Ladder)
    (hb : s.bids_ = (bp, bl) :: B) (ha : s.asks_ = (ap, al) :: A) (hc : ¬ bp < ap) :
    matchLoop 0 s T = .error Fault.outOfFuel := by
  conv => lhs; unfold matchLoop
  simp only [hb, ha, hc, if_false]

/-- The outer matching loop does not look at the stored type nor at the
day-order set. -/
theorem matchLoop_map (f : Order → Order) (hf : TypeOnly f) (gfd : List Nat) :
    ∀ (fuel : Nat) (s : Orderbook) (T : Trades),
      matchLoop fuel (mapOrders f gfd s) T
        = (matchLoop fuel s T).map (fun r => (mapOrders f gfd r.1, r.2))
  | fuel, s, T => by
    cases hb : s.bids_ with
    | nil =>
      rw [matchLoop_bids_nil _ _ _ hb, matchLoop_bids_nil _ _ _ (by simp [mapOrders, hb])]
      rfl
    | cons b B =>
      obtain ⟨bp, bl⟩ := b
      cases ha : s.asks_ with
      | nil =>
        rw [matchLoop_asks_nil _ _ _ ha, matchLoop_asks_nil _ _ _ (by simp [mapOrders, ha])]
        rfl
      | cons a A =>
        obtain ⟨ap, al⟩ := a
        have hmb : (mapOrders f gfd s).bids_
            = (bp, bl.map f) :: B.map (fun lv => (lv.1, lv.2.map f)) := by
          simp [mapOrders, hb]
        have hma : (mapOrders f gfd s).asks_
            = (ap, al.map f) :: A.map (fun lv => (lv.1, lv.2.map f)) := by
          simp [mapOrders, ha]
        by_cases hc : bp < ap
        · rw [matchLoop_nocross _ s _ (by simp [hb, ha, hc]),
            matchLoop_nocross _ (mapOrders f gfd s) _ (by simp [hmb, hma, hc])]
          rfl
        · cases fuel with
          | zero =>
            rw [matchLoop_no_fuel s T bp ap bl al B A hb ha hc,
              matchLoop_no_fuel (mapOrders f gfd s) T bp ap _ _ _ _ hmb hma hc]
            rfl
          | succ fuel =>
            have hlv := matchLevel_map f hf (bl.length + al.length)
              { bids := bl, asks := al, orders_ := s.orders_, data_ := s.data_, trades := T }
            have hlen : (bl.map f).length + (al.map f).length = bl.length + al.length := by
              simp
            cases hm : matchLevel (bl.length + al.length)
              { bids := bl, asks := al, orders_ := s.orders_, data_ := s.data_, trades := T } with
            | error e =>
              rw [hm] at hlv
              rw [matchLoop_error fuel s T bp ap bl al B A e hb ha hc hm,
                matchLoop_error fuel (mapOrders f gfd s) T bp ap _ _ _ _ e hmb hma hc
                  (by rw [hlen]; exact hlv)]
              rfl
            | ok m =>
              rw [hm] at hlv
              rw [matchLoop_step fuel s T bp ap bl al B A m hb ha hc hm,
                matchLoop_step fuel (mapOrders f gfd s) T bp ap _ _ _ _ (mapLevelMatch f m)
                  hmb hma hc (by rw [hlen]; exact hlv)]
              rw [← matchLoop_map f hf gfd fuel]
              congr 1
              cases hmb1 : m.bids <;> cases hma1 : m.asks <;>
                simp [mapOrders, mapLevelMatch, hmb1, hma1]

theorem matchLevel_pred (P : Order → Prop) (hP : ∀ x q, P x → P (x.filled q)) :
    ∀ (fuel : Nat) (m m1 : LevelMatch), matchLevel fuel m = .ok m1 →
      (∀ x ∈ m.bids, P x) → (∀ x ∈ m.asks, P x) →
      (∀ x ∈ m1.bids, P x) ∧ (∀ x ∈ m1.asks, P x)
  | fuel, ⟨[], asks, idx, data, T⟩, m1, h, hb, ha => by
    rw [matchLevel_bids_nil _ _ rfl, Except.ok.injEq] at h
    subst h
    exact ⟨hb, ha⟩
  | fuel, ⟨b0 :: bt, [], idx, data, T⟩, m1, h, hb, ha => by
    rw [matchLevel_asks_nil _ _ rfl, Except.ok.injEq] at h
    subst h
    exact ⟨hb, ha⟩
  | 0, ⟨b0 :: bt, a0 :: at_, idx, data, T⟩, m1, h, _, _ => by
    simp [matchLevel] at h
  | fuel + 1, ⟨b0 :: bt, a0 :: at_, idx, data, T⟩, m1, h, hb, ha => by
    rw [matchLevel_step] at h
    refine matchLevel_pred P hP fuel _ m1 h ?_ ?_
    · intro x hx
      simp only at hx
      split at hx
      · exact hb x (List.mem_cons_of_mem _ hx)
      · rcases List.mem_cons.mp hx with rfl | h1
        · exact hP _ _ (hb b0 (List.mem_cons_self _ _))
        · exact hb x (List.mem_cons_of_mem _ h1)
    · intro x hx
      simp only at hx
      split at hx
      · exact ha x (List.mem_cons_of_mem _ hx)
      · rcases List.mem_cons.mp hx with rfl | h1
        · exact hP _ _ (ha a0 (List.mem_cons_self _ _))
        · exact ha x (List.mem_cons_of_mem _ h1)

/-- A property of order objects that `Fill` preserves holds of every order in the
ladders after the outer matching loop when it held before. -/
theorem matchLoop_pred (P : Order → Prop) (hP : ∀ x q, P x → P (x.filled q)) :
    ∀ (fuel : Nat) (s : Orderbook) (T : Trades) (s1 : Orderbook) (T1 : Trades),
      matchLoop fuel s T = .ok (s1, T1) →
      (∀ x ∈ ladderOrders s.bids_, P x) → (∀ x ∈ ladderOrders s.asks_, P x) →
      (∀ x ∈ ladderOrders s1.bids_, P x) ∧ (∀ x ∈ ladderOrders s1.asks_, P x)
  | fuel, s, T, s1, T1, h, hbP, haP => by
    cases hb : s.bids_ with
    | nil =>
      rw [matchLoop_bids_nil _ _ _ hb, Except.ok.injEq, Prod.mk.injEq] at h
      rw [← h.1]; exact ⟨hbP, haP⟩
    | cons b B =>
      obtain ⟨bp, bl⟩ := b
      cases ha : s.asks_ with
      | nil =>
        rw [matchLoop_asks_nil _ _ _ ha, Except.ok.injEq, Prod.mk.injEq] at h
        rw [← h.1]; exact ⟨hbP, haP⟩
      | cons a A =>
        obtain ⟨ap, al⟩ := a
        by_cases hc : bp < ap
        · rw [matchLoop_nocross _ s _ (by simp [hb, ha, hc]), Except.ok.injEq,
            Prod.mk.injEq] at h
          rw [← h.1]; exact ⟨hbP, haP⟩
        · cases fuel with
          | zero =>
            rw [matchLoop_no_fuel s T bp ap bl al B A hb ha hc] at h
            cases h
          | succ fuel =>
            rw [hb] at hbP
            rw [ha] at haP
            simp only [ladderOrders, List.mem_append] at hbP haP
            cases hm : matchLevel (bl.length + al.length)
              { bids := bl, asks := al, orders_ := s.orders_, data_ := s.data_, trades := T } with
            | error e =>
              rw [matchLoop_error fuel s T bp ap bl al B A e hb ha hc hm] at h
              cases h
            | ok m =>
              obtain ⟨hmb, hma⟩ := matchLevel_pred P hP _ _ m hm
                (fun x hx => hbP x (Or.inl hx)) (fun x hx => haP x (Or.inl hx))
              rw [matchLoop_step fuel s T bp ap bl al B A m hb ha hc hm] at h
              refine matchLoop_pred P hP fuel _ _ s1 T1 h ?_ ?_
              · intro x hx
                simp only at hx
                split at hx
                · exact hbP x (Or.inr hx)
                · simp only [ladderOrders, List.mem_append] at hx
                  rcases hx with h1 | h1
                  · exact hmb x h1
                  · exact hbP x (Or.inr h1)
              · intro x hx
                simp only at hx
                split at hx
                · exact haP x (Or.inr hx)
                · simp only [ladderOrders, List.mem_append] at hx
                  rcases hx with h1 | h1
                  · exact hma x h1
                  · exact haP x (Or.inr h1)

/-- A tail block of `MatchOrders` on a ladder without FillAndKill orders: it
returns the book unchanged or stops at an empty level, and it does the same on
the book with replaced order objects. -/
theorem cancelFillAndKillHead_map (f : Order → Order) (hf : TypeOnly f) (gfd : List Nat)
    (s : Orderbook) (l : Ladder)
    (hno : ∀ x ∈ ladderOrders l, x.orderType_ ≠ OrderType.FillAndKill) :
    (cancelFillAndKillHead s l = .ok s ∧
      cancelFillAndKillHead (mapOrders f gfd s) (l.map (fun lv => (lv.1, lv.2.map f)))
        = .ok (mapOrders f gfd s)) ∨
    (cancelFillAndKillHead s l = .error Fault.emptyLevel ∧
      cancelFillAndKillHead (mapOrders f gfd s) (l.map (fun lv => (lv.1, lv.2.map f)))
        = .error Fault.emptyLevel) := by
  match l, hno with
  | [], _ => exact Or.inl ⟨rfl, rfl⟩
  | (p, []) :: rest, _ => exact Or.inr ⟨rfl, rfl⟩
  | (p, x :: xs) :: rest, hno =>
    have hx : x.orderType_ ≠ OrderType.FillAndKill := hno x (by simp [ladderOrders])
    have hfx : (f x).orderType_ ≠ OrderType.FillAndKill := fun h => hx (hf.fillAndKill x h)
    left
    constructor
    · simp [cancelFillAndKillHead, Order.GetOrderType, hx]
    · simp [cancelFillAndKillHead, Order.GetOrderType, hfx]

/-- `MatchOrders` on a book without FillAndKill orders does not look at the
stored type nor at the day-order set. -/
theorem MatchOrders_map (f : Order → Order) (hf : TypeOnly f) (gfd : List Nat) (s : Orderbook)
    (hnb : ∀ x ∈ ladderOrders s.bids_, x.orderType_ ≠ OrderType.FillAndKill)
    (hna : ∀ x ∈ ladderOrders s.asks_, x.orderType_ ≠ OrderType.FillAndKill) :
    MatchOrders (mapOrders f gfd s)
      = (MatchOrders s).map (fun r => (r.1, mapOrders f gfd r.2)) := by
  have hlen : (mapOrders f gfd s).bids_.length + (mapOrders f gfd s).asks_.length
      = s.bids_.length + s.asks_.length := by simp [mapOrders]
  unfold MatchOrders
  rw [hlen, matchLoop_map f hf gfd]
  cases hm : matchLoop (s.bids_.length + s.asks_.length) s [] with
  | error e => rfl
  | ok r =>
    obtain ⟨s1, T⟩ := r
    obtain ⟨hb1, ha1⟩ := matchLoop_pred (fun x => x.orderType_ ≠ OrderType.FillAndKill)
      (fun x q h => h) _ s [] s1 T hm hnb hna
    simp only [Except.map]
    have hbm : (mapOrders f gfd s1).bids_ = s1.bids_.map (fun lv => (lv.1, lv.2.map f)) := rfl
    have ham : (mapOrders f gfd s1).asks_ = s1.asks_.map (fun lv => (lv.1, lv.2.map f)) := rfl
    rw [hbm]
    rcases cancelFillAndKillHead_map f hf gfd s1 s1.bids_ hb1 with ⟨h1, h2⟩ | ⟨h1, h2⟩
    · rw [h1, h2]
      simp only
      rw [ham]
      rcases cancelFillAndKillHead_map f hf gfd s1 s1.asks_ ha1 with ⟨h3, h4⟩ | ⟨h3, h4⟩
      · rw [h3, h4]
      · rw [h3, h4]
    · rw [h1, h2]

theorem map_retypeDay_of_fresh (id : Nat) : ∀ (l : List Order), (∀ x ∈ l, x.orderId_ ≠ id) →
    l.map (retypeDay id) = l
  | [], _ => rfl
  | x :: rest, h => by
    have hx : retypeDay id x = x := by
      simp [retypeDay, h x (List.mem_cons_self _ _)]
    rw [List.map_cons, hx,
      map_retypeDay_of_fresh id rest (fun y hy => h y (List.mem_cons_of_mem _ hy))]

theorem ladder_retypeDay_of_fresh (id : Nat) : ∀ (l : Ladder),
    (∀ x ∈ ladderOrders l, x.orderId_ ≠ id) →
    l.map (fun lv => (lv.1, lv.2.map (retypeDay id))) = l
  | [], _ => rfl
  | (p, os) :: rest, h => by
    rw [List.map_cons,
      ladder_retypeDay_of_fresh id rest (fun y hy => h y (by simp [ladderOrders, hy]))]
    simp only
    rw [map_retypeDay_of_fresh id os (fun y hy => h y (by simp [ladderOrders, hy]))]

theorem index_retypeDay_of_fresh (id : Nat) : ∀ (idx : OrderIndex),
    (∀ e ∈ idx, e.2.orderId_ ≠ id) → idx.map (fun e => (e.1, retypeDay id e.2)) = idx
  | [], _ => rfl
  | e :: rest, h => by
    have he : retypeDay id e.2 = e.2 := by
      simp [retypeDay, h e (List.mem_cons_self _ _)]
    rw [List.map_cons, he,
      index_retypeDay_of_fresh id rest (fun y hy => h y (List.mem_cons_of_mem _ hy))]

theorem ladderPushBack_map (f : Order → Order) (bf : Int → Int → Bool) (p : Int) (o : Order) :
    ∀ (l : Ladder),
      (ladderPushBack bf p o l).map (fun lv => (lv.1, lv.2.map f))
        = ladderPushBack bf p (f o) (l.map (fun lv => (lv.1, lv.2.map f)))
  | [] => rfl
  | (k, x) :: rest => by
    simp only [ladderPushBack, List.map_cons]
    split
    · simp
    · split
      · simp
      · simp only [List.map_cons, ladderPushBack_map f bf p o rest]

theorem indexFind_map (f : Order → Order) (k : Nat) : ∀ (idx : OrderIndex),
    indexFind k (idx.map (fun e => (e.1, f e.2))) = (indexFind k idx).map f
  | [] => rfl
  | e :: rest => by
    simp only [List.map_cons, indexFind]
    split
    · rfl
    · exact indexFind_map f k rest

/-- The book after the admission steps of a GoodForDay order is the book after
the admission steps of the GoodTillCancel order with the same id, side, price
and quantity, with that order retyped and the id added to the day-order set. -/
theorem pushed_day (s : Orderbook) (hinv : Inv s) (id : Nat) (side : Side) (price : Int)
    (quantity : Nat) (hfresh : ∀ x ∈ restingOrders s, x.orderId_ ≠ id) :
    pushed s (Order.new OrderType.GoodForDay id side price quantity)
      = mapOrders (retypeDay id) (setInsert id s.goodForDayOrders_)
          (pushed s (Order.new OrderType.GoodTillCancel id side price quantity)) := by
  have hg : retypeDay id (Order.new OrderType.GoodTillCancel id side price quantity)
      = Order.new OrderType.GoodForDay id side price quantity := by
    simp [retypeDay, Order.new]
  have hb := ladder_retypeDay_of_fresh id s.bids_
    (fun x hx => hfresh x (by simp [restingOrders, hx]))
  have ha := ladder_retypeDay_of_fresh id s.asks_
    (fun x hx => hfresh x (by simp [restingOrders, hx]))
  have hi := index_retypeDay_of_fresh id s.orders_ (by
    intro e he
    have := hinv.index.mem_iff.mp he
    obtain ⟨o, ho, rfl⟩ := List.mem_map.mp this
    exact hfresh o ho)
  cases side with
  | Buy =>
    simp only [pushed, mapOrders, Order.new, if_true, List.map_cons]
    rw [ladderPushBack_map, hb, ha, hi]
    simp [retypeDay, OnOrderAdded, Order.GetPrice, Order.GetInitialQuantity]
  | Sell =>
    have hne : ¬ (Side.Sell = Side.Buy) := by decide
    simp only [pushed, mapOrders, Order.new, List.map_cons, hne, if_false]
    rw [ladderPushBack_map, hb, ha, hi]
    simp [retypeDay, OnOrderAdded, Order.GetPrice, Order.GetInitialQuantity]

theorem admission_day (s : Orderbook) (id : Nat) (side : Side) (price : Int) (quantity : Nat) :
    (admission s (Order.new OrderType.GoodTillCancel id side price quantity) = none ∧
      admission s (Order.new OrderType.GoodForDay id side price quantity) = none) ∨
    (admission s (Order.new OrderType.GoodTillCancel id side price quantity)
        = some (Order.new OrderType.GoodTillCancel id side price quantity) ∧
      admission s (Order.new OrderType.GoodForDay id side price quantity)
        = some (Order.new OrderType.GoodForDay id side price quantity) ∧
      indexFind id s.orders_ = none) := by
  unfold admission
  simp only [Order.new]
  by_cases hq : quantity = 0
  · left; simp [hq]
  by_cases hp : price < 0 ∨ price > 1000000
  · left; simp [hq, hp]
  cases hf : indexFind id s.orders_ with
  | some o => left; simp [hq, hp]
  | none => right; simp [hq, hp]

/-- C24 (GoodForDay matches like GoodTillCancel): from a reachable book, for every
id, side, price and quantity (a quantity that fits `Quantity`), `AddOrder` of the
GoodTillCancel order and `AddOrder` of the GoodForDay order both return, with the
same trades; the aggregate tables are equal, the same ids are indexed, and `Size`
is the same; the GoodTillCancel call leaves the day-order set as it was.  Either
both orders are rejected and both calls leave the book as it was, or the id was
not resting before and the book left by the GoodForDay call is the book left by
the GoodTillCancel call with the order of that id stored (in its ladder and in
the index) with the type GoodForDay, and with the id inserted in the day-order
set: nothing else differs. -/
theorem good_for_day_matches_like_good_till_cancel (s : Orderbook) (h : Reachable s) (id : Nat)
    (side : Side) (price : Int) (quantity : Nat) (hq : quantity < quantityModulus) :
    ∃ trades sG sD,
      s.AddOrder (some (Order.new OrderType.GoodTillCancel id side price quantity))
        = .ok (trades, sG) ∧
      s.AddOrder (some (Order.new OrderType.GoodForDay id side price quantity))
        = .ok (trades, sD) ∧
      sD.data_ = sG.data_ ∧
      (∀ k, sD.OrderExists k = sG.OrderExists k) ∧
      sD.Size = sG.Size ∧
      sG.goodForDayOrders_ = s.goodForDayOrders_ ∧
      ((sG = s ∧ sD = s) ∨
       ((∀ x ∈ restingOrders s, x.orderId_ ≠ id) ∧
        sD.bids_ = sG.bids_.map (fun lv => (lv.1, lv.2.map (retypeDay id))) ∧
        sD.asks_ = sG.asks_.map (fun lv => (lv.1, lv.2.map (retypeDay id))) ∧
        sD.orders_ = sG.orders_.map (fun e => (e.1, retypeDay id e.2)) ∧
        sD.goodForDayOrders_ = setInsert id s.goodForDayOrders_)) := by
  obtain ⟨hinv, hnf⟩ := h.inv
  rcases admission_day s id side price quantity with ⟨hg, hd⟩ | ⟨hg, hd, hfind⟩
  · refine ⟨[], s, s, ?_, ?_, rfl, fun _ => rfl, rfl, rfl, Or.inl ⟨rfl, rfl⟩⟩
    · rw [AddOrder_eq, hg]
    · rw [AddOrder_eq, hd]
  · have hfresh : ∀ x ∈ restingOrders s, x.orderId_ ≠ id :=
      (hinv.indexSync.find_none id).mp hfind
    rcases AddOrder_spec s hinv hnf (Order.new OrderType.GoodTillCancel id side price quantity)
      ⟨rfl, hq⟩ with ⟨hn, _⟩ | ⟨o1, sG, hadm, hadd, _, _, _, _, hgfd⟩
    · rw [hg] at hn; cases hn
    · rw [hg, Option.some.injEq] at hadm
      subst hadm
      generalize hT : (fillLadder
        (acceptsPrice (Order.new OrderType.GoodTillCancel id side price quantity))
        (Order.new OrderType.GoodTillCancel id side price quantity).remainingQuantity_
        (contraLadder s (Order.new OrderType.GoodTillCancel id side price quantity).side_)).map
        (mkTrade (Order.new OrderType.GoodTillCancel id side price quantity)) = trades at hadd
      have hmatch : MatchOrders (pushed s (Order.new OrderType.GoodTillCancel id side price
          quantity)) = .ok (trades, sG) := by
        rw [← hadd, AddOrder_eq, hg]
      have hnb : ∀ x ∈ ladderOrders
          (pushed s (Order.new OrderType.GoodTillCancel id side price quantity)).bids_,
          x.orderType_ ≠ OrderType.FillAndKill := by
        intro x hx
        simp only [pushed] at hx
        split at hx
        · rcases List.mem_cons.mp ((ladderOrders_pushBack_perm _ _ _).mem_iff.mp hx) with rfl | h1
          · simp [Order.new]
          · exact hnf.bids x h1
        · exact hnf.bids x hx
      have hna : ∀ x ∈ ladderOrders
          (pushed s (Order.new OrderType.GoodTillCancel id side price quantity)).asks_,
          x.orderType_ ≠ OrderType.FillAndKill := by
        intro x hx
        simp only [pushed] at hx
        split at hx
        · exact hnf.asks x hx
        · rcases List.mem_cons.mp ((ladderOrders_pushBack_perm _ _ _).mem_iff.mp hx) with rfl | h1
          · simp [Order.new]
          · exact hnf.asks x h1
      have hday : s.AddOrder (some (Order.new OrderType.GoodForDay id side price quantity))
          = .ok (trades, mapOrders (retypeDay id) (setInsert id s.goodForDayOrders_) sG) := by
        rw [AddOrder_eq, hd]
        simp only
        rw [pushed_day s hinv id side price quantity hfresh,
          MatchOrders_map (retypeDay id) (retypeDay_typeOnly id) _ _ hnb hna, hmatch]
        rfl
      have hgfd1 : sG.goodForDayOrders_ = s.goodForDayOrders_ := by
        rw [hgfd]
        simp [pushed, Order.new]
      refine ⟨trades, sG, _, hadd, hday, rfl, ?_, ?_, hgfd1, Or.inr ⟨hfresh, rfl, rfl, rfl, rfl⟩⟩
      · intro k
        simp only [OrderExists, mapOrders, indexFind_map, Option.isSome_map']
      · simp [Size, mapOrders]

/-- C24 at the book with one ask of 300 at 200 and a buy of 500 at 200 (300
trade, 200 rest). -/
theorem good_for_day_matches_like_good_till_cancel_witness :
    ∃ trades sG sD,
      bookOneAsk.AddOrder (some (Order.new OrderType.GoodTillCancel 2 Side.Buy 200 500))
        = .ok (trades, sG) ∧
      bookOneAsk.AddOrder (some (Order.new OrderType.GoodForDay 2 Side.Buy 200 500))
        = .ok (trades, sD) ∧
      sD.data_ = sG.data_ ∧
      (∀ k, sD.OrderExists k = sG.OrderExists k) ∧
      sD.Size = sG.Size ∧
      sG.goodForDayOrders_ = bookOneAsk.goodForDayOrders_ ∧
      ((sG = bookOneAsk ∧ sD = bookOneAsk) ∨
       ((∀ x ∈ restingOrders bookOneAsk, x.orderId_ ≠ 2) ∧
        sD.bids_ = sG.bids_.map (fun lv => (lv.1, lv.2.map (retypeDay 2))) ∧
        sD.asks_ = sG.asks_.map (fun lv => (lv.1, lv.2.map (retypeDay 2))) ∧
        sD.orders_ = sG.orders_.map (fun e => (e.1, retypeDay 2 e.2)) ∧
        sD.goodForDayOrders_ = setInsert 2 bookOneAsk.goodForDayOrders_)) :=
  good_for_day_matches_like_good_till_cancel bookOneAsk
    (Reachable.afterAdds _ _ Reachable.empty (by decide)) 2 Side.Buy 200 500 (by decide)

/-- The two calls of C24 evaluated on the book with one ask of 300 at 200. -/
theorem scenario_day_order :
    (bookOneAsk.AddOrder (some (Order.new OrderType.GoodTillCancel 2 Side.Buy 200 500))).map
        Prod.fst
      = .ok [{ bidTrade_ := { orderId_ := 2, price_ := 200, quantity_ := 300 },
               askTrade_ := { orderId_ := 1, price_ := 200, quantity_ := 300 } }] ∧
    (bookOneAsk.AddOrder (some (Order.new OrderType.GoodTillCancel 2 Side.Buy 200 500))).map
        (fun r => r.2.bids_)
      = .ok [(200, [{ orderType_ := OrderType.GoodTillCancel, orderId_ := 2, side_ := Side.Buy,
                      price_ := 200, initialQuantity_ := 500, remainingQuantity_ := 200 }])] ∧
    (bookOneAsk.AddOrder (some (Order.new OrderType.GoodTillCancel 2 Side.Buy 200 500))).map
        (fun r => r.2.goodForDayOrders_) = .ok [] ∧
    (bookOneAsk.AddOrder (some (Order.new OrderType.GoodForDay 2 Side.Buy 200 500))).map
        Prod.fst
      = .ok [{ bidTrade_ := { orderId_ := 2, price_ := 200, quantity_ := 300 },
               askTrade_ := { orderId_ := 1, price_ := 200, quantity_ := 300 } }] ∧
    (bookOneAsk.AddOrder (some (Order.new OrderType.GoodForDay 2 Side.Buy 200 500))).map
        (fun r => r.2.bids_)
      = .ok [(200, [{ orderType_ := OrderType.GoodForDay, orderId_ := 2, side_ := Side.Buy,
                      price_ := 200, initialQuantity_ := 500, remainingQuantity_ := 200 }])] ∧
    (bookOneAsk.AddOrder (some (Order.new OrderType.GoodForDay 2 Side.Buy 200 500))).map
        (fun r => r.2.goodForDayOrders_) = .ok [2] := by
  decide!

/-! ## The day-order set and the expiry burst -/

theorem mem_setInsert (k id : Nat) (l : List Nat) : k ∈ setInsert id l ↔ k = id ∨ k ∈ l := by
  unfold setInsert
  split
  · rename_i h
    constructor
    · exact Or.inr
    · rintro (rfl | h1)
      · exact h
      · exact h1
  · simp

theorem mem_setErase (k id : Nat) (l : List Nat) : k ∈ setErase id l ↔ k ∈ l ∧ k ≠ id := by
  simp [setErase]

theorem AddOrder_dayCovers (s : Orderbook) (hinv : Inv s) (hnf : NoFillAndKill s)
    (hd : DayCovers s) (o : Order) (hnew : o.IsNew) (trades : Trades) (s1 : Orderbook)
    (ha : s.AddOrder (some o) = .ok (trades, s1)) : DayCovers s1 := by
  rcases AddOrder_spec s hinv hnf o hnew with ⟨_, hadd⟩ | ⟨o1, s2, _, hadd, _, _, hc, ho, hg⟩
  · rw [hadd, Except.ok.injEq, Prod.mk.injEq] at ha
    rw [← ha.2]; exact hd
  · rw [hadd, Except.ok.injEq, Prod.mk.injEq] at ha
    obtain ⟨_, rfl⟩ := ha
    have hsub : ∀ k, k ∈ s.goodForDayOrders_ → k ∈ s2.goodForDayOrders_ := by
      intro k hk
      rw [hg]
      simp only [pushed]
      split
      · exact (mem_setInsert _ _ _).mpr (Or.inr hk)
      · exact hk
    intro x hx hty
    rw [mem_restingOrders_side s2 o1.side_] at hx
    rcases hx with h1 | h1
    · rw [ho] at h1
      split at h1
      · rcases List.mem_cons.mp ((ladderOrders_pushBack_perm _ _ _).mem_iff.mp h1) with rfl | h2
        · rw [hg]
          simp only [pushed, Order.filled_type] at hty ⊢
          rw [if_pos hty]
          exact (mem_setInsert _ _ _).mpr (Or.inl rfl)
        · exact hsub _ (hd x ((mem_restingOrders_side s o1.side_ x).mpr (Or.inl h2)) hty)
      · exact hsub _ (hd x ((mem_restingOrders_side s o1.side_ x).mpr (Or.inl h1)) hty)
    · rw [hc] at h1
      obtain ⟨a, ha1, ht, hid⟩ := restLadder_orders _ _ _ x h1
      rw [hid]
      exact hsub _ (hd a ((mem_restingOrders_side s o1.side_ a).mpr (Or.inr ha1)) (ht ▸ hty))

theorem CancelOrderInternal_dayCovers (s : Orderbook) (hinv : Inv s) (hd : DayCovers s)
    (id : Nat) (s1 : Orderbook) (hc : s.CancelOrderInternal id = .ok s1) : DayCovers s1 := by
  obtain ⟨s2, h2, _, hb, ha, _, _, _, hsame⟩ := CancelOrderInternal_spec s hinv id
  rw [hc, Except.ok.injEq] at h2
  subst h2
  cases hf : indexFind id s.orders_ with
  | none => rw [hsame hf]; exact hd
  | some o =>
    have heq := CancelOrderInternal_eq s hinv id o hf
    rw [hc, Except.ok.injEq] at heq
    intro x hx hty
    have hx0 : x ∈ restingOrders s ∧ x.orderId_ ≠ id := by
      simp only [restingOrders, hb, ha, List.mem_append, List.mem_filter, ne_eq,
        decide_eq_true_eq] at hx ⊢
      rcases hx with h | h
      · exact ⟨Or.inl h.1, h.2⟩
      · exact ⟨Or.inr h.1, h.2⟩
    have hin := hd x hx0.1 hty
    rw [heq]
    simp only
    split
    · exact (mem_setErase _ _ _).mpr ⟨hin, hx0.2⟩
    · exact hin

theorem CancelOrders_dayCovers : ∀ (ids : List Nat) (s : Orderbook), Inv s →
    NoFillAndKill s → DayCovers s → ∀ s1, s.CancelOrders ids = .ok s1 → DayCovers s1
  | [], s, _, _, hd, s1, h => by
    simp only [CancelOrders, Except.ok.injEq] at h
    rw [← h]; exact hd
  | id :: ids, s, hinv, hnf, hd, s1, h => by
    obtain ⟨s2, hc, hinv2, hnf2⟩ := CancelOrderInternal_inv s hinv hnf id
    simp only [CancelOrders, hc] at h
    exact CancelOrders_dayCovers ids s2 hinv2 hnf2
      (CancelOrderInternal_dayCovers s hinv hd id s2 hc) s1 h

/-- In every reachable book every resting GoodForDay order has its id in the
day-order set. -/
theorem Reachable.dayCovers {s : Orderbook} (h : Reachable s) : DayCovers s := by
  induction h with
  | empty => intro x hx; simp [restingOrders, Orderbook.empty, ladderOrders] at hx
  | add s s1 o trades hs hnew ha ih =>
    exact AddOrder_dayCovers s hs.inv.1 hs.inv.2 ih o hnew trades s1 ha
  | cancel s s1 id hs hc ih =>
    exact CancelOrderInternal_dayCovers s hs.inv.1 ih id s1 hc
  | modify s s1 m trades hs hq hm ih =>
    obtain ⟨hinv, hnf⟩ := hs.inv
    cases hf : indexFind m.orderId_ s.orders_ with
    | none =>
      simp only [ModifyOrder, OrderModify.GetOrderId, hf, Except.ok.injEq, Prod.mk.injEq] at hm
      rw [← hm.2]; exact ih
    | some existing =>
      obtain ⟨s2, hc, hinv2, hnf2⟩ := CancelOrderInternal_inv s hinv hnf m.orderId_
      simp only [ModifyOrder, OrderModify.GetOrderId, hf, CancelOrder, hc] at hm
      exact AddOrder_dayCovers s2 hinv2 hnf2
        (CancelOrderInternal_dayCovers s hinv ih m.orderId_ s2 hc) _ ⟨rfl, hq⟩ trades s1 hm
  | expire s s1 hs he ih =>
    exact CancelOrders_dayCovers _ s hs.inv.1 hs.inv.2 ih s1 he

/-- `CancelOrders` on a book that satisfies the invariant returns, and the orders
left are the former resting orders whose id is not in the list, in their former
order. -/
theorem CancelOrders_resting : ∀ (ids : List Nat) (s : Orderbook), Inv s → NoFillAndKill s →
    ∃ s1, s.CancelOrders ids = .ok s1 ∧
      restingOrders s1 = (restingOrders s).filter (fun y => decide (y.orderId_ ∉ ids))
  | [], s, _, _ => ⟨s, rfl, by simp⟩
  | id :: ids, s, hinv, hnf => by
    obtain ⟨s2, hc, hinv2, hb, ha, _⟩ := CancelOrderInternal_spec s hinv id
    obtain ⟨_, hc1, _, hnf2⟩ := CancelOrderInternal_inv s hinv hnf id
    rw [hc, Except.ok.injEq] at hc1
    subst hc1
    obtain ⟨s1, h1, hr⟩ := CancelOrders_resting ids s2 hinv2 hnf2
    refine ⟨s1, by simp only [CancelOrders, hc]; exact h1, ?_⟩
    rw [hr]
    simp only [restingOrders, hb, ha, List.filter_append, List.filter_filter]
    congr 1 <;>
    · refine List.filter_congr ?_
      intro y _
      simp only [List.mem_cons, not_or, ne_eq, Bool.and_eq_true, decide_eq_true_eq,
        Bool.decide_and, Bool.decide_eq_true]
      by_cases h1 : y.orderId_ = id <;> by_cases h2 : y.orderId_ ∈ ids <;> simp [h1, h2]

/-- The expiry burst on a reachable book: it returns; the orders left are the
former resting orders whose id is not in the day-order set, in their former
order (each one the same object); no GoodForDay order is left; and when no id of
the day-order set belongs to a resting order of another type, the orders left are
exactly the former resting orders whose type is not GoodForDay. -/
theorem expireGoodForDay_spec (s : Orderbook) (h : Reachable s) :
    ∃ s1, s.expireGoodForDay = .ok s1 ∧
      restingOrders s1
        = (restingOrders s).filter (fun y => decide (y.orderId_ ∉ s.goodForDayOrders_)) ∧
      (∀ x ∈ restingOrders s1, x.orderType_ ≠ OrderType.GoodForDay) ∧
      ((∀ y ∈ restingOrders s, y.orderId_ ∈ s.goodForDayOrders_ →
          y.orderType_ = OrderType.GoodForDay) →
        restingOrders s1
          = (restingOrders s).filter (fun y => decide (y.orderType_ ≠ OrderType.GoodForDay))) := by
  obtain ⟨hinv, hnf⟩ := h.inv
  have hd := h.dayCovers
  obtain ⟨s1, h1, hr⟩ := CancelOrders_resting s.goodForDayOrders_ s hinv hnf
  refine ⟨s1, h1, hr, ?_, ?_⟩
  · intro x hx hty
    rw [hr] at hx
    obtain ⟨hx1, hx2⟩ := List.mem_filter.mp hx
    simp only [decide_eq_true_eq] at hx2
    exact hx2 (hd x hx1 hty)
  · intro hstale
    rw [hr]
    refine List.filter_congr ?_
    intro y hy
    by_cases hty : y.orderType_ = OrderType.GoodForDay
    · simp [hty, hd y hy hty]
    · have : y.orderId_ ∉ s.goodForDayOrders_ := fun hin => hty (hstale y hy hin)
      simp [hty, this]

/-- C31 (only the incoming order trades): from a reachable book, `AddOrder` of a
fresh order object with an id that is not indexed returns, and every returned
trade carries the incoming order's id on the incoming order's own side (the bid
side for a buy, the ask side for a sell) and, on the other side, the id of an
order that rested on the opposite ladder; that id differs from the incoming id,
and no trade has previously resting orders on both of its sides. -/
theorem only_incoming_order_trades (s : Orderbook) (h : Reachable s) (o : Order)
    (hnew : o.IsNew) (hfresh : s.OrderExists o.orderId_ = false) :
    ∃ trades s1, s.AddOrder (some o) = .ok (trades, s1) ∧
      ∀ t ∈ trades,
        (ownTrade o.side_ t).orderId_ = o.orderId_ ∧
        (∃ a ∈ ladderOrders (contraLadder s o.side_),
          (contraTrade o.side_ t).orderId_ = a.orderId_) ∧
        (contraTrade o.side_ t).orderId_ ≠ o.orderId_ ∧
        ¬ ((∃ b ∈ restingOrders s, t.bidTrade_.orderId_ = b.orderId_) ∧
           (∃ a ∈ restingOrders s, t.askTrade_.orderId_ = a.orderId_)) := by
  obtain ⟨hinv, hnf⟩ := h.inv
  have hfresh1 := (OrderExists_eq_false_iff hinv _).mp hfresh
  rcases AddOrder_spec s hinv hnf o hnew with ⟨_, hadd⟩ | ⟨o1, s1, hadm, hadd, _, _, _, _, _⟩
  · exact ⟨[], s, hadd, by simp⟩
  · obtain ⟨_, _, _, _, hid, hside, _⟩ := admission_some hadm
    refine ⟨_, s1, hadd, ?_⟩
    intro t ht
    obtain ⟨f, hf, rfl⟩ := List.mem_map.mp ht
    have hmem : f.1 ∈ ladderOrders (contraLadder s o.side_) := by
      rw [← hside]; exact fillLadder_mem _ _ _ f hf
    have hrest : f.1 ∈ restingOrders s :=
      (mem_restingOrders_side s o.side_ f.1).mpr (Or.inr hmem)
    have hown : (ownTrade o.side_ (mkTrade o1 f)).orderId_ = o.orderId_ := by
      rw [← hside, ownTrade_mkTrade]; exact hid
    have hcontra : (contraTrade o.side_ (mkTrade o1 f)).orderId_ = f.1.orderId_ := by
      rw [← hside, contraTrade_mkTrade]
    refine ⟨hown, ⟨f.1, hmem, hcontra⟩, ?_, ?_⟩
    · rw [hcontra]; exact hfresh1 f.1 hrest
    · rintro ⟨⟨b, hb, hbe⟩, ⟨a, ha, hae⟩⟩
      cases hs : o.side_ with
      | Buy =>
        rw [hs] at hown
        simp only [ownTrade] at hown
        exact hfresh1 b hb (hbe ▸ hown)
      | Sell =>
        rw [hs] at hown
        simp only [ownTrade] at hown
        exact hfresh1 a ha (hae ▸ hown)

/-- C31 at the three resting bids of scenario S2 and a sell of 1200 at 95. -/
theorem only_incoming_order_trades_witness :
    ∃ trades s1, bookThreeBids.AddOrder (some sellSweep) = .ok (trades, s1) ∧
      ∀ t ∈ trades,
        (ownTrade sellSweep.side_ t).orderId_ = sellSweep.orderId_ ∧
        (∃ a ∈ ladderOrders (contraLadder bookThreeBids sellSweep.side_),
          (contraTrade sellSweep.side_ t).orderId_ = a.orderId_) ∧
        (contraTrade sellSweep.side_ t).orderId_ ≠ sellSweep.orderId_ ∧
        ¬ ((∃ b ∈ restingOrders bookThreeBids, t.bidTrade_.orderId_ = b.orderId_) ∧
           (∃ a ∈ restingOrders bookThreeBids, t.askTrade_.orderId_ = a.orderId_)) :=
  only_incoming_order_trades bookThreeBids (Reachable.afterAdds _ _ Reachable.empty (by decide))
    sellSweep (by decide) (by decide!)

/-- C34 (modify with parameters that `AddOrder` rejects): from a reachable book,
`ModifyOrder` of an indexed id with quantity 0 or with a price below 0 or above
1000000 returns an empty trade list; the book it leaves is the book after
`CancelOrder` of the id: the id is not indexed, no resting order carries it, and
`Size` is one less. -/
theorem modify_with_rejected_parameters (s : Orderbook) (h : Reachable s) (m : OrderModify)
    (existing : Order) (hf : indexFind m.orderId_ s.orders_ = some existing)
    (hbad : m.quantity_ = 0 ∨ m.price_ < 0 ∨ m.price_ > 1000000) :
    ∃ s1, s.ModifyOrder m = .ok ([], s1) ∧
      s.CancelOrder m.orderId_ = .ok s1 ∧
      s1.OrderExists m.orderId_ = false ∧
      (∀ x ∈ restingOrders s1, x.orderId_ ≠ m.orderId_) ∧
      s1.Size + 1 = s.Size := by
  obtain ⟨hinv, _⟩ := h.inv
  have hsync := hinv.indexSync
  obtain ⟨s1, hc, hinv1, _, _, hidx, _, _, _⟩ := CancelOrderInternal_spec s hinv m.orderId_
  obtain ⟨hoL, hoid⟩ := hsync.mem_of_find hf
  have hrej : admission s1 (Order.new existing.orderType_ m.orderId_ m.side_ m.price_
      m.quantity_) = none := by
    refine admission_none_of_rejected s1 _ ?_
    rcases hbad with h1 | h1 | h1
    · exact Or.inl h1
    · exact Or.inr (Or.inl h1)
    · exact Or.inr (Or.inr (Or.inl h1))
  have hm : s.ModifyOrder m = .ok ([], s1) := by
    simp only [ModifyOrder, OrderModify.GetOrderId, hf, CancelOrder, hc,
      OrderModify.ToOrderPointer, Order.GetOrderType]
    rw [AddOrder_eq, hrej]
  have hgone : s1.OrderExists m.orderId_ = false := by
    rw [OrderExists_eq_false_iff_find, hidx]
    exact indexFind_indexErase_self _ _
  refine ⟨s1, hm, hc, hgone, (OrderExists_eq_false_iff hinv1 _).mp hgone, ?_⟩
  have hp := (indexErase_perm m.orderId_ hsync.1).length_eq
  have hq := hsync.1.length_eq
  rw [List.length_map] at hp hq
  have := filter_id_length (restingOrders s) existing hoL hsync.2
  rw [hoid] at this
  simp only [Size, hidx]
  omega

/-- C34 at the lone resting buy of scenario S6, modified to quantity 0. -/
theorem modify_with_rejected_parameters_witness :
    ∃ s1, bookLoneBuy.ModifyOrder modifyZero = .ok ([], s1) ∧
      bookLoneBuy.CancelOrder modifyZero.orderId_ = .ok s1 ∧
      s1.OrderExists modifyZero.orderId_ = false ∧
      (∀ x ∈ restingOrders s1, x.orderId_ ≠ modifyZero.orderId_) ∧
      s1.Size + 1 = bookLoneBuy.Size :=
  modify_with_rejected_parameters bookLoneBuy
    (Reachable.afterAdds _ _ Reachable.empty (by decide)) modifyZero
    (Order.new OrderType.GoodTillCancel 1 Side.Buy 100 1000) (by decide!) (Or.inl rfl)

/-- The three rejected modifications evaluated on the lone resting buy: no
trade, and the book is empty afterwards. -/
theorem scenario_modify_rejected :
    (bookLoneBuy.ModifyOrder modifyZero).map (fun r => (r.1, r.2.Size))
      = .ok ([], 0) ∧
    (bookLoneBuy.ModifyOrder
        { orderId_ := 1, side_ := Side.Buy, price_ := -5, quantity_ := 500 }).map
        (fun r => (r.1, r.2.Size)) = .ok ([], 0) ∧
    (bookLoneBuy.ModifyOrder
        { orderId_ := 1, side_ := Side.Buy, price_ := 1000001, quantity_ := 500 }).map
        (fun r => (r.1, r.2.Size)) = .ok ([], 0) := by
  decide!

theorem filled_min_isFilled (b0 a0 : Order) :
    (b0.filled (min b0.remainingQuantity_ a0.remainingQuantity_)).IsFilled = true ∨
    (a0.filled (min b0.remainingQuantity_ a0.remainingQuantity_)).IsFilled = true := by
  simp only [Order.isFilled_iff, Order.filled_remaining]
  omega

/-- One iteration of the inner loop removes the head of at least one of the two
levels, so the two levels together hold fewer orders afterwards. -/
theorem matchLevel_iteration (fuel : Nat) (b0 a0 : Order) (bt at_ : List Order)
    (idx : OrderIndex) (data : LevelDataMap) (T : Trades) :
    ∃ m1 : LevelMatch,
      matchLevel (fuel + 1)
        { bids := b0 :: bt, asks := a0 :: at_, orders_ := idx, data_ := data, trades := T }
        = matchLevel fuel m1 ∧
      (m1.bids = bt ∨ m1.asks = at_) ∧
      m1.bids.length ≤ (b0 :: bt).length ∧ m1.asks.length ≤ (a0 :: at_).length ∧
      m1.bids.length + m1.asks.length < (b0 :: bt).length + (a0 :: at_).length ∧
      m1.trades.length = T.length + 1 := by
  refine ⟨_, matchLevel_step fuel b0 a0 bt at_ idx data T, ?_⟩
  simp only
  by_cases hb : (b0.filled (min b0.remainingQuantity_ a0.remainingQuantity_)).IsFilled = true
  · by_cases ha : (a0.filled (min b0.remainingQuantity_ a0.remainingQuantity_)).IsFilled = true
    · simp [hb, ha]; omega
    · simp [hb, ha]
  · have ha := (filled_min_isFilled b0 a0).resolve_left hb
    simp [hb, ha]

/-- The inner loop returns within its bound, whatever the two levels hold, and
leaves one of the two levels empty. -/
theorem matchLevel_total : ∀ (fuel : Nat) (m : LevelMatch),
    m.bids.length + m.asks.length ≤ fuel →
    ∃ m1, matchLevel fuel m = .ok m1 ∧ (m1.bids = [] ∨ m1.asks = []) ∧
      m1.bids.length ≤ m.bids.length ∧ m1.asks.length ≤ m.asks.length
  | fuel, ⟨[], asks, idx, data, T⟩, _ =>
    ⟨_, matchLevel_bids_nil _ _ rfl, Or.inl rfl, Nat.le_refl _, Nat.le_refl _⟩
  | fuel, ⟨b0 :: bt, [], idx, data, T⟩, _ =>
    ⟨_, matchLevel_asks_nil _ _ rfl, Or.inr rfl, Nat.le_refl _, Nat.le_refl _⟩
  | 0, ⟨b0 :: bt, a0 :: at_, idx, data, T⟩, h => by
    simp at h
  | fuel + 1, ⟨b0 :: bt, a0 :: at_, idx, data, T⟩, h => by
    obtain ⟨m1, hstep, _, hb, ha, hlt, _⟩ := matchLevel_iteration fuel b0 a0 bt at_ idx data T
    simp only [List.length_cons] at h hb ha hlt
    obtain ⟨m2, hm2, hend, hb2, ha2⟩ := matchLevel_total fuel m1 (by omega)
    refine ⟨m2, by rw [hstep]; exact hm2, hend, ?_, ?_⟩
    · simp only [List.length_cons]; omega
    · simp only [List.length_cons]; omega

/-- The outer loop returns within its bound, whatever the book holds. -/
theorem matchLoop_total : ∀ (fuel : Nat) (s : Orderbook) (T : Trades),
    s.bids_.length + s.asks_.length ≤ fuel → ∃ r, matchLoop fuel s T = .ok r
  | fuel, s, T, hfuel => by
    cases hb : s.bids_ with
    | nil => exact ⟨_, matchLoop_bids_nil _ _ _ hb⟩
    | cons b B =>
      obtain ⟨bp, bl⟩ := b
      cases ha : s.asks_ with
      | nil => exact ⟨_, matchLoop_asks_nil _ _ _ ha⟩
      | cons a A =>
        obtain ⟨ap, al⟩ := a
        by_cases hc : bp < ap
        · exact ⟨_, matchLoop_nocross _ s _ (by simp [hb, ha, hc])⟩
        · rw [hb, ha] at hfuel
          simp only [List.length_cons] at hfuel
          cases fuel with
          | zero => omega
          | succ fuel =>
            obtain ⟨m, hm, hend, _, _⟩ := matchLevel_total (bl.length + al.length)
              { bids := bl, asks := al, orders_ := s.orders_, data_ := s.data_, trades := T }
              (Nat.le_refl _)
            rw [matchLoop_step fuel s T bp ap bl al B A m hb ha hc hm]
            refine matchLoop_total fuel _ _ ?_
            simp only
            rcases hend with h1 | h1
            · simp only [h1, List.isEmpty_nil, if_true]
              split <;> (try simp only [List.length_cons]) <;> omega
            · simp only [h1, List.isEmpty_nil, if_true]
              split <;> (try simp only [List.length_cons]) <;> omega

theorem ladderCancel_fuel (l : Ladder) (p : Int) (id : Nat) :
    ladderCancel l p id ≠ .error Fault.outOfFuel := by
  unfold ladderCancel
  cases ladderFind p l with
  | none => simp
  | some orders =>
    simp only
    split
    · split <;> simp
    · simp

theorem CancelOrderInternal_fuel (s : Orderbook) (id : Nat) :
    s.CancelOrderInternal id ≠ .error Fault.outOfFuel := by
  unfold CancelOrderInternal
  cases indexFind id s.orders_ with
  | none => simp
  | some o =>
    simp only
    split
    · cases h : ladderCancel s.asks_ o.GetPrice id with
      | error e =>
        simp only [ne_eq, Except.error.injEq]
        intro he
        exact ladderCancel_fuel _ _ _ (he ▸ h)
      | ok l => simp
    · cases h : ladderCancel s.bids_ o.GetPrice id with
      | error e =>
        simp only [ne_eq, Except.error.injEq]
        intro he
        exact ladderCancel_fuel _ _ _ (he ▸ h)
      | ok l => simp

theorem cancelFillAndKillHead_fuel (s : Orderbook) (l : Ladder) :
    cancelFillAndKillHead s l ≠ .error Fault.outOfFuel := by
  match l with
  | [] => simp [cancelFillAndKillHead]
  | (_, []) :: _ => simp [cancelFillAndKillHead]
  | (_, x :: _) :: _ =>
    simp only [cancelFillAndKillHead]
    split
    · exact CancelOrderInternal_fuel _ _
    · simp

/-- `MatchOrders` never stops at the loop bound of the embedding, whatever the
book holds. -/
theorem MatchOrders_fuel (s : Orderbook) : MatchOrders s ≠ .error Fault.outOfFuel := by
  obtain ⟨r, hr⟩ := matchLoop_total (s.bids_.length + s.asks_.length) s [] (Nat.le_refl _)
  unfold MatchOrders
  rw [hr]
  simp only
  cases h1 : cancelFillAndKillHead r.1 r.1.bids_ with
  | error e =>
    simp only [ne_eq, Except.error.injEq]
    intro he
    exact cancelFillAndKillHead_fuel _ _ (he ▸ h1)
  | ok s2 =>
    simp only
    cases h2 : cancelFillAndKillHead s2 s2.asks_ with
    | error e =>
      simp only [ne_eq, Except.error.injEq]
      intro he
      exact cancelFillAndKillHead_fuel _ _ (he ▸ h2)
    | ok s3 => simp

/-- `MatchOrders` on a book that satisfies the invariant: nothing crosses, no
trade, the book is unchanged. -/
theorem MatchOrders_inv (s : Orderbook) (hinv : Inv s) (hnf : NoFillAndKill s) :
    MatchOrders s = .ok ([], s) := by
  have hloop : matchLoop (s.bids_.length + s.asks_.length) s [] = .ok (s, []) := by
    refine matchLoop_nocross _ s _ ?_
    intro b hb a ha
    exact hinv.nocross b (List.mem_of_mem_head? hb) a (List.mem_of_mem_head? ha)
  unfold MatchOrders
  rw [hloop]
  simp only
  rw [cancelFillAndKillHead_noop s s.bids_ hinv.bids.nonempty hnf.bids]
  simp only
  rw [cancelFillAndKillHead_noop s s.asks_ hinv.asks.nonempty hnf.asks]

/-- C33 (matching terminates with a bounded number of trades): the outer loop of
`MatchOrders` returns within the loop bound of the embedding on every book,
reachable or not, and `MatchOrders` never stops at that bound; one iteration of
the inner loop removes the head of at least one of the two levels, so the two
levels together hold strictly fewer orders, and adds one trade; on a reachable
book `MatchOrders` returns (no trade, book unchanged); `AddOrder` of a fresh order
object from a reachable book returns, its call of `MatchOrders` on the book with
the admitted order pushed returns those trades, and the number of trades is at
most the number of orders resting on the opposite ladder before the call. -/
theorem matching_terminates (s : Orderbook) (h : Reachable s) :
    (∀ b : Orderbook, ∃ r, matchLoop (b.bids_.length + b.asks_.length) b [] = .ok r) ∧
    (∀ b : Orderbook, MatchOrders b ≠ .error Fault.outOfFuel) ∧
    (∀ (fuel : Nat) (b0 a0 : Order) (bt at_ : List Order) (idx : OrderIndex)
        (data : LevelDataMap) (T : Trades),
      ∃ m1 : LevelMatch,
        matchLevel (fuel + 1)
          { bids := b0 :: bt, asks := a0 :: at_, orders_ := idx, data_ := data, trades := T }
          = matchLevel fuel m1 ∧
        (m1.bids = bt ∨ m1.asks = at_) ∧
        m1.bids.length + m1.asks.length < (b0 :: bt).length + (a0 :: at_).length ∧
        m1.trades.length = T.length + 1) ∧
    MatchOrders s = .ok ([], s) ∧
    (∀ o : Order, o.IsNew →
      ∃ trades s1, s.AddOrder (some o) = .ok (trades, s1) ∧
        (∀ o1, admission s o = some o1 → MatchOrders (pushed s o1) = .ok (trades, s1)) ∧
        trades.length ≤ (ladderOrders (contraLadder s o.side_)).length) := by
  obtain ⟨hinv, hnf⟩ := h.inv
  refine ⟨fun b => matchLoop_total _ b [] (Nat.le_refl _), MatchOrders_fuel, ?_,
    MatchOrders_inv s hinv hnf, ?_⟩
  · intro fuel b0 a0 bt at_ idx data T
    obtain ⟨m1, h1, h2, _, _, h3, h4⟩ := matchLevel_iteration fuel b0 a0 bt at_ idx data T
    exact ⟨m1, h1, h2, h3, h4⟩
  · intro o hnew
    rcases AddOrder_spec s hinv hnf o hnew with ⟨hn, hadd⟩ | ⟨o1, s1, hadm, hadd, _, _, _, _, _⟩
    · refine ⟨[], s, hadd, ?_, Nat.zero_le _⟩
      intro o1 h1
      rw [hn] at h1
      cases h1
    · obtain ⟨_, _, _, _, _, hside, _⟩ := admission_some hadm
      refine ⟨_, s1, hadd, ?_, ?_⟩
      · intro o2 h2
        rw [hadm, Option.some.injEq] at h2
        subst h2
        rw [← hadd, AddOrder_eq, hadm]
      · obtain ⟨k, hk⟩ := fillLadder_take (acceptsPrice o1) (contraLadder s o1.side_)
          o1.remainingQuantity_
        have hlen := congrArg List.length hk
        rw [List.length_map, List.length_take] at hlen
        rw [List.length_map, hlen, ← hside]
        exact Nat.min_le_right _ _

/-- C33 at the three resting bids of scenario S2. -/
theorem matching_terminates_witness :
    (∀ b : Orderbook, ∃ r, matchLoop (b.bids_.length + b.asks_.length) b [] = .ok r) ∧
    (∀ b : Orderbook, MatchOrders b ≠ .error Fault.outOfFuel) ∧
    (∀ (fuel : Nat) (b0 a0 : Order) (bt at_ : List Order) (idx : OrderIndex)
        (data : LevelDataMap) (T : Trades),
      ∃ m1 : LevelMatch,
        matchLevel (fuel + 1)
          { bids := b0 :: bt, asks := a0 :: at_, orders_ := idx, data_ := data, trades := T }
          = matchLevel fuel m1 ∧
        (m1.bids = bt ∨ m1.asks = at_) ∧
        m1.bids.length + m1.asks.length < (b0 :: bt).length + (a0 :: at_).length ∧
        m1.trades.length = T.length + 1) ∧
    MatchOrders bookThreeBids = .ok ([], bookThreeBids) ∧
    (∀ o : Order, o.IsNew →
      ∃ trades s1, bookThreeBids.AddOrder (some o) = .ok (trades, s1) ∧
        (∀ o1, admission bookThreeBids o = some o1 →
          MatchOrders (pushed bookThreeBids o1) = .ok (trades, s1)) ∧
        trades.length ≤ (ladderOrders (contraLadder bookThreeBids o.side_)).length) :=
  matching_terminates bookThreeBids (Reachable.afterAdds _ _ Reachable.empty (by decide))

/-- A sell of 5000 at 0 against the three resting bids of scenario S2: three
trades, one per resting bid. -/
theorem scenario_three_trades :
    (bookThreeBids.AddOrder (some (Order.new OrderType.GoodTillCancel 4 Side.Sell 0 5000))).map
        (fun r => r.1.length) = .ok 3 ∧
    (ladderOrders bookThreeBids.bids_).length = 3 := by
  decide!

theorem remainingWhere_nil (P : Order → Bool) : remainingWhere P [] = 0 := rfl

theorem remainingWhere_cons (P : Order → Bool) (a : Order) (L : List Order) :
    remainingWhere P (a :: L)
      = (if P a = true then a.remainingQuantity_ else 0) + remainingWhere P L := by
  unfold remainingWhere
  by_cases h : P a = true
  · simp [List.filter_cons, h]
  · simp [List.filter_cons, h]

theorem remainingWhere_append (P : Order → Bool) (L M : List Order) :
    remainingWhere P (L ++ M) = remainingWhere P L + remainingWhere P M := by
  simp [remainingWhere, List.filter_append]

theorem takenWhere_nil (P : Order → Bool) : takenWhere P [] = 0 := rfl

theorem takenWhere_cons (P : Order → Bool) (f : Order × Nat) (fills : List (Order × Nat)) :
    takenWhere P (f :: fills) = (if P f.1 = true then f.2 else 0) + takenWhere P fills := by
  unfold takenWhere
  by_cases h : P f.1 = true
  · simp [List.filter_cons, h]
  · simp [List.filter_cons, h]

theorem takenWhere_append (P : Order → Bool) (L M : List (Order × Nat)) :
    takenWhere P (L ++ M) = takenWhere P L + takenWhere P M := by
  simp [takenWhere, List.filter_append]

/-- What a sweep leaves in a level plus what it takes from it is what was there,
for every selection of orders that `Fill` does not change. -/
theorem restList_fillList_where (P : Order → Bool) (hP : ∀ a q, P (a.filled q) = P a) :
    ∀ (l : List Order) (r : Nat),
      remainingWhere P (restList r l) + takenWhere P (fillList r l) = remainingWhere P l
  | [], _ => by simp [restList, fillList, remainingWhere, takenWhere]
  | a :: l, r => by
    simp only [restList, fillList]
    split
    · simp [takenWhere_nil]
    · split
      · rename_i hlt
        simp only [remainingWhere_cons, takenWhere_cons, takenWhere_nil, hP,
          Order.filled_remaining]
        split <;> omega
      · simp only [remainingWhere_cons, takenWhere_cons]
        have ih := restList_fillList_where P hP l (r - a.remainingQuantity_)
        split <;> omega

/-- What a sweep leaves in a ladder plus what it takes from it is what was
there. -/
theorem restLadder_fillLadder_where (P : Order → Bool) (hP : ∀ a q, P (a.filled q) = P a)
    (accept : Int → Bool) : ∀ (A : Ladder) (r : Nat),
      (∀ lv ∈ A, ∀ a ∈ lv.2, 0 < a.remainingQuantity_) →
      remainingWhere P (ladderOrders (restLadder accept r A))
          + takenWhere P (fillLadder accept r A)
        = remainingWhere P (ladderOrders A)
  | [], _, _ => by simp [restLadder, fillLadder, ladderOrders, remainingWhere, takenWhere]
  | (p, os) :: A, r, hA => by
    have hos := hA (p, os) (List.mem_cons_self _ _)
    have hlevel := restList_fillList_where P hP os r
    simp only [restLadder, fillLadder]
    split
    · simp [takenWhere_nil]
    · split
      · rename_i hlt
        have h0 : r - totalRemaining os = 0 := by omega
        rw [h0, fillLadder_zero, List.append_nil]
        simp only [ladderOrders, remainingWhere_append]
        omega
      · rename_i hge
        have hnil : restList r os = [] := restList_eq_nil os r hos (by omega)
        rw [hnil, remainingWhere_nil, Nat.zero_add] at hlevel
        have ih := restLadder_fillLadder_where P hP accept A (r - totalRemaining os)
          (fun lv hlv => hA lv (List.mem_cons_of_mem _ hlv))
        simp only [ladderOrders, remainingWhere_append, takenWhere_append]
        omega

theorem remainingWhere_true (L : List Order) :
    remainingWhere (fun _ => true) L = totalRemaining L := by
  simp [remainingWhere, totalRemaining]

theorem takenWhere_true (fills : List (Order × Nat)) :
    takenWhere (fun _ => true) fills = (fills.map Prod.snd).sum := by
  simp [takenWhere]

theorem remainingWhere_id_none (id : Nat) (L : List Order) (h : ∀ y ∈ L, y.orderId_ ≠ id) :
    remainingWhere (fun x => decide (x.orderId_ = id)) L = 0 := by
  induction L with
  | nil => rfl
  | cons a L ih =>
    rw [remainingWhere_cons, ih (fun y hy => h y (List.mem_cons_of_mem _ hy))]
    simp [h a (List.mem_cons_self _ _)]

theorem remainingWhere_id_mem : ∀ (L : List Order) (x : Order), x ∈ L →
    (L.map Order.orderId_).Nodup →
    remainingWhere (fun y => decide (y.orderId_ = x.orderId_)) L = x.remainingQuantity_
  | [], _, h, _ => by simp at h
  | a :: L, x, h, hn => by
    rw [List.map_cons, List.nodup_cons] at hn
    rw [remainingWhere_cons]
    rcases List.mem_cons.mp h with rfl | h1
    · rw [remainingWhere_id_none _ L (fun y hy he => hn.1 (by
        rw [← he]; exact List.mem_map_of_mem _ hy))]
      simp
    · have hne : a.orderId_ ≠ x.orderId_ := fun he => hn.1 (he ▸ List.mem_map_of_mem _ h1)
      rw [remainingWhere_id_mem L x h1 hn.2]
      simp [hne]

theorem remainingWhere_perm (P : Order → Bool) {L M : List Order} (h : L.Perm M) :
    remainingWhere P L = remainingWhere P M :=
  ((h.filter P).map _).sum_eq

theorem remainingIndexed_eq {s : Orderbook} (hinv : Inv s) (id : Nat) :
    remainingIndexed s id
      = remainingWhere (fun x => decide (x.orderId_ = id)) (restingOrders s) := by
  have hsync := hinv.indexSync
  unfold remainingIndexed
  cases hf : indexFind id s.orders_ with
  | none =>
    simp only
    rw [remainingWhere_id_none id _ ((hsync.find_none id).mp hf)]
  | some x =>
    obtain ⟨hx, hid⟩ := hsync.mem_of_find hf
    simp only
    rw [← hid, remainingWhere_id_mem _ x hx hsync.2]

theorem tradedWith_mkTrade (o : Order) (id : Nat) : ∀ (fills : List (Order × Nat)),
    tradedWith o.side_ id (fills.map (mkTrade o))
      = takenWhere (fun x => decide (x.orderId_ = id)) fills
  | [] => rfl
  | f :: fills => by
    have ih := tradedWith_mkTrade o id fills
    have hq : (mkTrade o f).bidTrade_.quantity_ = f.2 := by
      cases hs : o.side_ <;> simp [mkTrade, hs]
    unfold tradedWith at ih ⊢
    rw [takenWhere_cons, List.map_cons, List.filter_cons, contraId_mkTrade]
    by_cases h : f.1.orderId_ = id
    · simp only [h, decide_True, if_true, List.map_cons, List.sum_cons, hq, ih]
    · simp only [h, decide_False, Bool.false_eq_true, if_false, ih, Nat.zero_add]

theorem Inv.own_contra_ids {s : Orderbook} (hinv : Inv s) (side : Side) :
    ∀ x ∈ ladderOrders (ownLadder s side), ∀ a ∈ ladderOrders (contraLadder s side),
      x.orderId_ ≠ a.orderId_ := by
  have hnd := List.nodup_append.mp (by simpa [restingOrders] using hinv.ids :
    ((ladderOrders s.bids_).map Order.orderId_ ++ (ladderOrders s.asks_).map Order.orderId_).Nodup)
  intro x hx a ha he
  cases side with
  | Buy =>
    simp only [ownLadder, contraLadder] at hx ha
    exact hnd.2.2 (List.mem_map_of_mem _ hx) (he ▸ List.mem_map_of_mem _ ha)
  | Sell =>
    simp only [ownLadder, contraLadder] at hx ha
    exact hnd.2.2 (List.mem_map_of_mem _ ha) (he ▸ List.mem_map_of_mem _ hx)

/-- C32 (quantity conservation): from a reachable book, `AddOrder` of a fresh
GoodTillCancel or GoodForDay order with an id that is not indexed, a positive
quantity q and an in-range price returns; the total remaining quantity of all
resting orders afterwards is the total before plus q minus twice the sum of the
trade quantities; and for each order that rested on the opposite ladder, its
remaining quantity afterwards (that of the order indexed under its id, 0 when
the id is no longer indexed) plus the sum of the trade quantities that name it is
its remaining quantity before. -/
theorem quantity_conservation (s : Orderbook) (h : Reachable s) (o : Order) (hnew : o.IsNew)
    (ht : o.orderType_ = OrderType.GoodTillCancel ∨ o.orderType_ = OrderType.GoodForDay)
    (hq : o.initialQuantity_ ≠ 0) (hp : 0 ≤ o.price_ ∧ o.price_ ≤ 1000000)
    (hfresh : s.OrderExists o.orderId_ = false) :
    ∃ trades s1, s.AddOrder (some o) = .ok (trades, s1) ∧
      totalRemaining (restingOrders s1) + 2 * tradedQuantity trades
        = totalRemaining (restingOrders s) + o.initialQuantity_ ∧
      totalRemaining (restingOrders s1)
        = totalRemaining (restingOrders s) + o.initialQuantity_ - 2 * tradedQuantity trades ∧
      (∀ a ∈ ladderOrders (contraLadder s o.side_),
        remainingIndexed s1 a.orderId_ + tradedWith o.side_ a.orderId_ trades
          = a.remainingQuantity_) := by
  obtain ⟨hinv, hnf⟩ := h.inv
  have hfresh1 := (OrderExists_eq_false_iff hinv _).mp hfresh
  have hadm := admission_plain s o hq hp hfresh ht
  have hfak : o.orderType_ ≠ OrderType.FillAndKill := by
    rcases ht with h1 | h1 <;> rw [h1] <;> simp
  rcases AddOrder_spec s hinv hnf o hnew with ⟨hn, _⟩ | ⟨o1, s1, hadm1, hadd, hinv1, _, hc, ho, _⟩
  · rw [hadm] at hn; cases hn
  · rw [hadm, Option.some.injEq] at hadm1
    subst hadm1
    have hpos : ∀ lv ∈ contraLadder s o.side_, ∀ a ∈ lv.2, 0 < a.remainingQuantity_ :=
      fun lv hlv => (hinv.contra_pos o.side_ lv hlv).2
    have hsum := (tradedQuantity_mkTrade o _).trans
      (fillLadder_sum (acceptsPrice o) (contraLadder s o.side_) o.remainingQuantity_)
    have hwhere := fun P hP => restLadder_fillLadder_where P hP (acceptsPrice o)
      (contraLadder s o.side_) o.remainingQuantity_ hpos
    -- the own ladder afterwards, as a list of orders up to order
    have hown : ∀ P : Order → Bool, (∀ a q, P (a.filled q) = P a) →
        remainingWhere P (ladderOrders (ownLadder s1 o.side_))
          = (if totalRemaining (acceptableOrders (acceptsPrice o) (contraLadder s o.side_))
                < o.remainingQuantity_ ∧ P o = true
             then o.remainingQuantity_
               - totalRemaining (acceptableOrders (acceptsPrice o) (contraLadder s o.side_))
             else 0)
            + remainingWhere P (ladderOrders (ownLadder s o.side_)) := by
      intro P hP
      rw [ho]
      by_cases hlt : totalRemaining (acceptableOrders (acceptsPrice o) (contraLadder s o.side_))
          < o.remainingQuantity_
      · rw [if_pos ⟨hlt, hfak⟩, remainingWhere_perm P (ladderOrders_pushBack_perm _ _ _),
          remainingWhere_cons, hP]
        by_cases hPo : P o = true
        · simp [hlt, hPo]
        · simp [hPo]
      · rw [if_neg (fun hh => hlt hh.1), if_neg (fun hh => hlt hh.1), Nat.zero_add]
    have hsplit : ∀ (P : Order → Bool) (b : Orderbook),
        remainingWhere P (restingOrders b)
          = remainingWhere P (ladderOrders (ownLadder b o.side_))
            + remainingWhere P (ladderOrders (contraLadder b o.side_)) := by
      intro P b
      rw [remainingWhere_perm P (restingOrders_perm_side b o.side_), remainingWhere_append]
    refine ⟨_, s1, hadd, ?_, ?_, ?_⟩
    · -- the total
      have h1 := hwhere (fun _ => true) (fun _ _ => rfl)
      have h2 := hown (fun _ => true) (fun _ _ => rfl)
      have h3 := hsplit (fun _ => true) s1
      have h4 := hsplit (fun _ => true) s
      rw [hc] at h3
      rw [takenWhere_true] at h1
      rw [← remainingWhere_true, ← remainingWhere_true, hsum, h3, h4, h2]
      rw [fillLadder_sum] at h1
      have hr : o.remainingQuantity_ = o.initialQuantity_ := hnew.1
      simp only [and_true]
      split <;> omega
    · have h1 := hwhere (fun _ => true) (fun _ _ => rfl)
      have h2 := hown (fun _ => true) (fun _ _ => rfl)
      have h3 := hsplit (fun _ => true) s1
      have h4 := hsplit (fun _ => true) s
      rw [hc] at h3
      rw [takenWhere_true] at h1
      rw [← remainingWhere_true, ← remainingWhere_true, hsum, h3, h4, h2]
      rw [fillLadder_sum] at h1
      have hr : o.remainingQuantity_ = o.initialQuantity_ := hnew.1
      simp only [and_true]
      split <;> omega
    · -- each contra order
      intro a ha
      have hPid : ∀ (x : Order) (q : Nat),
          (fun y : Order => decide (y.orderId_ = a.orderId_)) (x.filled q)
            = (fun y : Order => decide (y.orderId_ = a.orderId_)) x := fun _ _ => rfl
      have h1 := hwhere (fun y => decide (y.orderId_ = a.orderId_)) hPid
      have h2 := hown (fun y => decide (y.orderId_ = a.orderId_)) hPid
      have h3 := hsplit (fun y => decide (y.orderId_ = a.orderId_)) s1
      rw [hc] at h3
      have hne : o.orderId_ ≠ a.orderId_ := fun he =>
        hfresh1 a ((mem_restingOrders_side s o.side_ a).mpr (Or.inr ha)) he.symm
      have hown0 : remainingWhere (fun y => decide (y.orderId_ = a.orderId_))
          (ladderOrders (ownLadder s o.side_)) = 0 :=
        remainingWhere_id_none _ _ (fun x hx => hinv.own_contra_ids o.side_ x hx a ha)
      have hbefore := remainingWhere_id_mem _ a ha (hinv.contra_ids_nodup o.side_)
      rw [remainingIndexed_eq hinv1, tradedWith_mkTrade, h3, h2, hown0]
      simp only [hne, decide_False, Bool.false_eq_true, and_false, if_false, Nat.zero_add,
        Nat.add_zero]
      omega

/-- C32 at the three resting bids of scenario S2 and a sell of 1200 at 95 (500
and 700 trade: 2300 + 1200 - 2 * 1200 = 1100 rest). -/
theorem quantity_conservation_witness :
    ∃ trades s1, bookThreeBids.AddOrder (some sellSweep) = .ok (trades, s1) ∧
      totalRemaining (restingOrders s1) + 2 * tradedQuantity trades
        = totalRemaining (restingOrders bookThreeBids) + sellSweep.initialQuantity_ ∧
      totalRemaining (restingOrders s1)
        = totalRemaining (restingOrders bookThreeBids) + sellSweep.initialQuantity_
          - 2 * tradedQuantity trades ∧
      (∀ a ∈ ladderOrders (contraLadder bookThreeBids sellSweep.side_),
        remainingIndexed s1 a.orderId_ + tradedWith sellSweep.side_ a.orderId_ trades
          = a.remainingQuantity_) :=
  quantity_conservation bookThreeBids (Reachable.afterAdds _ _ Reachable.empty (by decide))
    sellSweep (by decide) (Or.inl rfl) (by decide) (by decide) (by decide!)

/-- The sell of 1200 at 95 against the three resting bids evaluated: 2300 rest
before, 1100 after, 1200 traded; order 2 is gone, order 1 keeps 300. -/
theorem scenario_conservation :
    totalRemaining (restingOrders bookThreeBids) = 2300 ∧
    (bookThreeBids.AddOrder (some sellSweep)).map
        (fun r => totalRemaining (restingOrders r.2)) = .ok 1100 ∧
    (bookThreeBids.AddOrder (some sellSweep)).map (fun r => tradedQuantity r.1) = .ok 1200 ∧
    (bookThreeBids.AddOrder (some sellSweep)).map (fun r => remainingIndexed r.2 2) = .ok 0 ∧
    (bookThreeBids.AddOrder (some sellSweep)).map (fun r => remainingIndexed r.2 1) = .ok 300 ∧
    (bookThreeBids.AddOrder (some sellSweep)).map (fun r => tradedWith Side.Sell 1 r.1)
      = .ok 700 := by
  decide!

theorem canMatch_true_iff (s : Orderbook) (o : Order) :
    s.CanMatch o.side_ o.price_ = true ↔
      contraLadder s o.side_ ≠ [] ∧
      ∀ lv ∈ (contraLadder s o.side_).head?, acceptsPrice o lv.1 = true := by
  cases hside : o.side_ with
  | Buy =>
    simp only [CanMatch, contraLadder, acceptsPrice, hside]
    cases s.asks_ with
    | nil => simp
    | cons a rest => simp
  | Sell =>
    simp only [CanMatch, contraLadder, acceptsPrice, hside]
    cases s.bids_ with
    | nil => simp
    | cons a rest => simp

/-- A valid FillAndKill order with an id that is not indexed is admitted exactly
when it can match. -/
theorem admission_fillAndKill (s : Orderbook) (o : Order)
    (ht : o.orderType_ = OrderType.FillAndKill) (hq : o.initialQuantity_ ≠ 0)
    (hp : 0 ≤ o.price_ ∧ o.price_ ≤ 1000000) (hfresh : s.OrderExists o.orderId_ = false) :
    admission s o = if s.CanMatch o.side_ o.price_ then some o else none := by
  have hp1 : ¬ (o.price_ < 0 ∨ o.price_ > 1000000) := by omega
  have hf : indexFind o.orderId_ s.orders_ = none :=
    (OrderExists_eq_false_iff_find s _).mp hfresh
  unfold admission
  simp [hq, hp1, hf, ht]

/-- The acceptable contra quantity is positive when the best contra level is
acceptable. -/
theorem acceptable_pos (accept : Int → Bool) (A : Ladder) (hA : A ≠ [])
    (hacc : ∀ lv ∈ A.head?, accept lv.1 = true)
    (hne : ∀ lv ∈ A, lv.2 ≠ [] ∧ ∀ a ∈ lv.2, 0 < a.remainingQuantity_) :
    0 < totalRemaining (acceptableOrders accept A) := by
  cases A with
  | nil => exact absurd rfl hA
  | cons lv A =>
    obtain ⟨p, os⟩ := lv
    have h1 := hacc (p, os) (by simp)
    obtain ⟨h2, h3⟩ := hne (p, os) (List.mem_cons_self _ _)
    simp only at h1 h2 h3
    cases os with
    | nil => exact absurd rfl h2
    | cons a os =>
      have := h3 a (List.mem_cons_self _ _)
      simp only [acceptableOrders, h1, Bool.true_eq_false, if_false, List.cons_append,
        totalRemaining_cons]
      omega

/-- C5 (FillAndKill remainder never rests): from a reachable book, `AddOrder` of a
fresh FillAndKill order with an id that is not indexed returns, and afterwards the
id is not indexed, no resting order carries it and the ladder of its own side is
as before; the traded quantity is at most the initial quantity, and whenever there
is a trade it equals the minimum of the initial quantity and the contra quantity
resting at acceptable prices. When the order crosses (positive quantity, price
within the bounds, `CanMatch` true: the opposite ladder is not empty and its best
price is acceptable) there is a trade, the traded quantity is positive and is
that minimum, and the opposite ladder loses exactly the traded quantity; when it
does not cross (or fails validation) there is no trade and the book is
unchanged. -/
theorem fill_and_kill_never_rests (s : Orderbook) (h : Reachable s) (o : Order)
    (hnew : o.IsNew) (ht : o.orderType_ = OrderType.FillAndKill)
    (hfresh : s.OrderExists o.orderId_ = false) :
    ∃ trades s1, s.AddOrder (some o) = .ok (trades, s1) ∧
      s1.OrderExists o.orderId_ = false ∧
      (∀ x ∈ restingOrders s1, x.orderId_ ≠ o.orderId_) ∧
      ownLadder s1 o.side_ = ownLadder s o.side_ ∧
      tradedQuantity trades ≤ o.initialQuantity_ ∧
      (trades ≠ [] → tradedQuantity trades =
        min o.initialQuantity_
          (totalRemaining (acceptableOrders (acceptsPrice o) (contraLadder s o.side_)))) ∧
      (o.initialQuantity_ ≠ 0 → 0 ≤ o.price_ → o.price_ ≤ 1000000 →
        s.CanMatch o.side_ o.price_ = true →
          trades ≠ [] ∧ 0 < tradedQuantity trades ∧
          tradedQuantity trades =
            min o.initialQuantity_
              (totalRemaining (acceptableOrders (acceptsPrice o) (contraLadder s o.side_))) ∧
          totalRemaining (ladderOrders (contraLadder s1 o.side_)) + tradedQuantity trades
            = totalRemaining (ladderOrders (contraLadder s o.side_))) ∧
      ((o.initialQuantity_ = 0 ∨ o.price_ < 0 ∨ o.price_ > 1000000 ∨
          s.CanMatch o.side_ o.price_ = false) → trades = [] ∧ s1 = s) := by
  obtain ⟨hinv, hnf⟩ := h.inv
  have hfresh1 := (OrderExists_eq_false_iff hinv _).mp hfresh
  rcases AddOrder_spec s hinv hnf o hnew with ⟨hn, hadd⟩ | ⟨o1, s1, hadm, hadd, hinv1, _, hc, ho, _⟩
  · refine ⟨[], s, hadd, hfresh, hfresh1, rfl, by simp [tradedQuantity], by simp, ?_,
      fun _ => ⟨rfl, rfl⟩⟩
    intro hq hp0 hp1 hcm
    rw [admission_fillAndKill s o ht hq ⟨hp0, hp1⟩ hfresh, hcm] at hn
    simp at hn
  · obtain ⟨hq, hp0, hp1, _, _, _, _, _, _, heq, _, hcan, _⟩ := admission_some hadm
    have : o1 = o := heq (by rw [ht]; simp)
    subst this
    have hcm := hcan ht
    have hsum0 := (tradedQuantity_mkTrade o1 _).trans
      (fillLadder_sum (acceptsPrice o1) (contraLadder s o1.side_) o1.remainingQuantity_)
    have hsum := hsum0.trans (by rw [hnew.1] :
      min o1.remainingQuantity_
          (totalRemaining (acceptableOrders (acceptsPrice o1) (contraLadder s o1.side_)))
        = min o1.initialQuantity_
          (totalRemaining (acceptableOrders (acceptsPrice o1) (contraLadder s o1.side_))))
    have hnone : ∀ x ∈ restingOrders s1, x.orderId_ ≠ o1.orderId_ := by
      intro x hx hid
      exact (AddOrder_resting_id hfresh1 hc ho x hx hid).2.1 ht
    have hown : ownLadder s1 o1.side_ = ownLadder s o1.side_ := by
      rw [ho, if_neg (fun hh => hh.2 ht)]
    obtain ⟨hA, hacc⟩ := (canMatch_true_iff s o1).mp hcm
    have hposA := acceptable_pos (acceptsPrice o1) _ hA hacc (hinv.contra_pos o1.side_)
    have hr : o1.remainingQuantity_ ≠ 0 := by rw [hnew.1]; exact hq
    have hne := fillLadder_ne_nil (acceptsPrice o1) _ o1.remainingQuantity_ hr hA hacc
      (fun lv hlv => (hinv.contra_pos o1.side_ lv hlv).1)
    have hrest := restLadder_fillLadder_where (fun _ => true) (fun _ _ => rfl) (acceptsPrice o1)
      (contraLadder s o1.side_) o1.remainingQuantity_
      (fun lv hlv => (hinv.contra_pos o1.side_ lv hlv).2)
    rw [remainingWhere_true, remainingWhere_true, takenWhere_true,
      ← tradedQuantity_mkTrade o1, ← hc] at hrest
    refine ⟨_, s1, hadd, (OrderExists_eq_false_iff hinv1 _).mpr hnone, hnone, hown, ?_,
      fun _ => hsum, fun _ _ _ _ => ⟨?_, ?_, hsum, hrest⟩, ?_⟩
    · rw [hsum]
      exact Nat.min_le_left _ _
    · intro hnil
      exact hne (List.map_eq_nil_iff.mp hnil)
    · rw [hsum]
      have := Nat.pos_of_ne_zero hq
      omega
    · intro hbad
      rcases hbad with hb | hb | hb | hb
      · exact absurd hb hq
      · omega
      · omega
      · rw [hcm] at hb; cases hb

/-- C5 at scenario S3: one resting ask of 300 and a FillAndKill buy of 500. -/
theorem fill_and_kill_never_rests_witness :
    ∃ trades s1, bookOneAsk.AddOrder
        (some (Order.new OrderType.FillAndKill 2 Side.Buy 200 500)) = .ok (trades, s1) ∧
      s1.OrderExists (Order.new OrderType.FillAndKill 2 Side.Buy 200 500).orderId_ = false ∧
      (∀ x ∈ restingOrders s1,
        x.orderId_ ≠ (Order.new OrderType.FillAndKill 2 Side.Buy 200 500).orderId_) ∧
      ownLadder s1 (Order.new OrderType.FillAndKill 2 Side.Buy 200 500).side_
        = ownLadder bookOneAsk (Order.new OrderType.FillAndKill 2 Side.Buy 200 500).side_ ∧
      tradedQuantity trades
        ≤ (Order.new OrderType.FillAndKill 2 Side.Buy 200 500).initialQuantity_ ∧
      (trades ≠ [] → tradedQuantity trades =
        min (Order.new OrderType.FillAndKill 2 Side.Buy 200 500).initialQuantity_
          (totalRemaining (acceptableOrders
            (acceptsPrice (Order.new OrderType.FillAndKill 2 Side.Buy 200 500))
            (contraLadder bookOneAsk
              (Order.new OrderType.FillAndKill 2 Side.Buy 200 500).side_)))) ∧
      ((Order.new OrderType.FillAndKill 2 Side.Buy 200 500).initialQuantity_ ≠ 0 →
        0 ≤ (Order.new OrderType.FillAndKill 2 Side.Buy 200 500).price_ →
        (Order.new OrderType.FillAndKill 2 Side.Buy 200 500).price_ ≤ 1000000 →
        bookOneAsk.CanMatch (Order.new OrderType.FillAndKill 2 Side.Buy 200 500).side_
          (Order.new OrderType.FillAndKill 2 Side.Buy 200 500).price_ = true →
          trades ≠ [] ∧ 0 < tradedQuantity trades ∧
          tradedQuantity trades =
            min (Order.new OrderType.FillAndKill 2 Side.Buy 200 500).initialQuantity_
              (totalRemaining (acceptableOrders
                (acceptsPrice (Order.new OrderType.FillAndKill 2 Side.Buy 200 500))
                (contraLadder bookOneAsk
                  (Order.new OrderType.FillAndKill 2 Side.Buy 200 500).side_))) ∧
          totalRemaining (ladderOrders (contraLadder s1
              (Order.new OrderType.FillAndKill 2 Side.Buy 200 500).side_))
              + tradedQuantity trades
            = totalRemaining (ladderOrders (contraLadder bookOneAsk
                (Order.new OrderType.FillAndKill 2 Side.Buy 200 500).side_))) ∧
      (((Order.new OrderType.FillAndKill 2 Side.Buy 200 500).initialQuantity_ = 0 ∨
          (Order.new OrderType.FillAndKill 2 Side.Buy 200 500).price_ < 0 ∨
          (Order.new OrderType.FillAndKill 2 Side.Buy 200 500).price_ > 1000000 ∨
          bookOneAsk.CanMatch (Order.new OrderType.FillAndKill 2 Side.Buy 200 500).side_
            (Order.new OrderType.FillAndKill 2 Side.Buy 200 500).price_ = false) →
        trades = [] ∧ s1 = bookOneAsk) :=
  fill_and_kill_never_rests bookOneAsk (Reachable.afterAdds _ _ Reachable.empty (by decide))
    (Order.new OrderType.FillAndKill 2 Side.Buy 200 500) (by decide) rfl (by decide!)

/-- The crossing conditions of scenario S3 hold for the FillAndKill buy of 500 at
200 against the resting ask of 300 at 200, and the acceptable quantity is 300. -/
theorem scenario_S3_crosses :
    bookOneAsk.CanMatch Side.Buy 200 = true ∧
    totalRemaining (acceptableOrders
      (acceptsPrice (Order.new OrderType.FillAndKill 2 Side.Buy 200 500))
      (contraLadder bookOneAsk Side.Buy)) = 300 ∧
    (bookOneAsk.AddOrder (some (Order.new OrderType.FillAndKill 2 Side.Buy 200 500))).map
        (fun r => tradedQuantity r.1) = .ok 300 := by
  decide!

/-- With no other thread in between, the three critical sections of `ModifyOrder`
are the sequential `ModifyOrder`. -/
theorem Interleaving.run_modify_alone (s : Orderbook) (order : OrderModify) :
    ((Interleaving.ofModify s order).run [Turn.modify, Turn.modify, Turn.modify]).map
        (fun r => (r.point, r.book))
      = (s.ModifyOrder order).map (fun r => (ModifyPoint.returned r.1, r.2)) := by
  simp only [Interleaving.run, Interleaving.turn, Interleaving.ofModify, ModifyPoint.advance,
    ModifyOrder]
  cases hf : indexFind order.GetOrderId s.orders_ with
  | none => simp [Interleaving.turn, ModifyPoint.advance, Except.map]
  | some existing =>
    simp only
    cases hc : s.CancelOrder order.GetOrderId with
    | error e => simp [Except.map]
    | ok s1 =>
      simp only [Interleaving.turn, ModifyPoint.advance]
      cases ha : s1.AddOrder (some (order.ToOrderPointer existing.GetOrderType)) with
      | error e => simp [Except.map]
      | ok r => obtain ⟨trades, s2⟩ := r; simp [Except.map]

/-- With both loops on the same book, the snapshot is `GetOrderInfos`. -/
theorem GetOrderInfosAcross_self (s : Orderbook) : GetOrderInfosAcross s s = s.GetOrderInfos :=
  rfl

/-- One turn from a reachable book ends and leaves a reachable book. -/
theorem Interleaving.turn_reachable (r : Interleaving) (t : Turn) (h : Reachable r.book)
    (hfit : r.point.Fits) (ht : ∀ o, t = Turn.addOrder o → o.IsNew) :
    ∃ r1, r.turn t = .ok r1 ∧ Reachable r1.book ∧ r1.point.Fits := by
  obtain ⟨hinv, hnf⟩ := h.inv
  cases t with
  | modify =>
    cases hp : r.point with
    | start m =>
      rw [hp] at hfit
      simp only [Interleaving.turn, hp, ModifyPoint.advance]
      cases hf : indexFind m.GetOrderId r.book.orders_ with
      | none => exact ⟨_, rfl, h, trivial⟩
      | some existing => exact ⟨_, rfl, h, hfit⟩
    | beforeCancel m ty =>
      rw [hp] at hfit
      obtain ⟨s1, hc, _, _⟩ := CancelOrderInternal_inv r.book hinv hnf m.GetOrderId
      have hc1 : r.book.CancelOrder m.GetOrderId = .ok s1 := hc
      simp only [Interleaving.turn, hp, ModifyPoint.advance, hc1]
      exact ⟨_, rfl, Reachable.cancel _ _ _ h hc1, hfit⟩
    | beforeAdd m ty =>
      rw [hp] at hfit
      have hnew : (m.ToOrderPointer ty).IsNew := ⟨rfl, hfit⟩
      obtain ⟨trades, s1, ha, _, _⟩ := AddOrder_inv r.book hinv hnf _ hnew
      simp only [Interleaving.turn, hp, ModifyPoint.advance, ha]
      exact ⟨_, rfl, Reachable.add _ _ _ _ h hnew ha, trivial⟩
    | returned trades =>
      simp only [Interleaving.turn, hp, ModifyPoint.advance]
      exact ⟨_, rfl, h, trivial⟩
  | addOrder o =>
    have hnew := ht o rfl
    obtain ⟨trades, s1, ha, _, _⟩ := AddOrder_inv r.book hinv hnf o hnew
    simp only [Interleaving.turn, ha]
    exact ⟨_, rfl, Reachable.add _ _ _ _ h hnew ha, hfit⟩
  | cancelOrder id =>
    obtain ⟨s1, hc, _, _⟩ := CancelOrderInternal_inv r.book hinv hnf id
    have hc1 : r.book.CancelOrder id = .ok s1 := hc
    simp only [Interleaving.turn, hc1]
    exact ⟨_, rfl, Reachable.cancel _ _ _ h hc1, hfit⟩
  | size => exact ⟨_, rfl, h, hfit⟩

/-- Every run of turns from a reachable book, whatever the interleaving, ends and
leaves a reachable book, when the orders passed are fresh order objects and the
modification carries a 32-bit quantity: the invariants of the book do not depend
on `ModifyOrder` being one step. -/
theorem Interleaving.run_reachable : ∀ (turns : List Turn) (r : Interleaving),
    Reachable r.book → r.point.Fits → (∀ o, Turn.addOrder o ∈ turns → o.IsNew) →
    ∃ r1, r.run turns = .ok r1 ∧ Reachable r1.book
  | [], r, h, _, _ => ⟨r, rfl, h⟩
  | t :: rest, r, h, hfit, ht => by
    obtain ⟨r1, h1, hr1, hfit1⟩ := r.turn_reachable t h hfit
      (fun o ho => ht o (by rw [ho]; exact List.mem_cons_self _ _))
    obtain ⟨r2, h2, hr2⟩ := Interleaving.run_reachable rest r1 hr1 hfit1
      (fun o ho => ht o (List.mem_cons_of_mem _ ho))
    exact ⟨r2, by simp only [Interleaving.run, h1, h2], hr2⟩

/-- C29 (one mutex, held for the whole operation): refuted. `ModifyOrder` takes
`ordersMutex_` three times (lookup, `CancelOrder`, `AddOrder`) and `GetOrderInfos`
never. On the book with the lone buy 1 (1000 at 100), with the modification of
order 1 to price 110 and quantity 500: an `AddOrder` of another thread that
reuses the id 1, run between the `CancelOrder` and the `AddOrder` of the
modification, is admitted and makes the re-add fail, so the book ends with the
other thread's sell alone, while both serial orders end with the modified buy
alone; a `Size` call of another thread at that point returns 0, while it returns 1
before and after the modification; and a snapshot whose first loop runs before
and whose second loop runs after an `AddOrder` of a crossing sell shows a bid and
an ask at the same price, which neither the book before nor the book after
shows. -/
theorem modify_not_one_atomic_step :
    Reachable bookLoneBuy ∧
    -- an AddOrder of another thread between CancelOrder and AddOrder of the modification
    (((Interleaving.ofModify bookLoneBuy modifyS6).run
        [Turn.modify, Turn.modify, Turn.addOrder sellReusingId, Turn.modify]).map
        (fun r => (r.point, restingOrders r.book))
      = .ok (ModifyPoint.returned [], [Order.new OrderType.GoodTillCancel 1 Side.Sell 200 300])) ∧
    -- the two serial orders
    (((Interleaving.ofModify bookLoneBuy modifyS6).run
        [Turn.modify, Turn.modify, Turn.modify, Turn.addOrder sellReusingId]).map
        (fun r => (r.point, restingOrders r.book))
      = .ok (ModifyPoint.returned [], [Order.new OrderType.GoodTillCancel 1 Side.Buy 110 500])) ∧
    (((Interleaving.ofModify bookLoneBuy modifyS6).run
        [Turn.addOrder sellReusingId, Turn.modify, Turn.modify, Turn.modify]).map
        (fun r => (r.point, restingOrders r.book))
      = .ok (ModifyPoint.returned [], [Order.new OrderType.GoodTillCancel 1 Side.Buy 110 500])) ∧
    -- what Size returns to another thread before, inside and after the modification
    (((Interleaving.ofModify bookLoneBuy modifyS6).run
        [Turn.size, Turn.modify, Turn.modify, Turn.size, Turn.modify, Turn.size]).map
        (fun r => r.sizes.reverse) = .ok [1, 0, 1]) ∧
    -- the snapshot across an AddOrder of a crossing sell
    ((bookLoneBuy.AddOrder (some sellThrough)).map
        (fun r => (GetOrderInfosAcross bookLoneBuy r.2, bookLoneBuy.GetOrderInfos,
          r.2.GetOrderInfos))
      = .ok ({ bids_ := [{ price_ := 100, quantity_ := 1000 }],
               asks_ := [{ price_ := 100, quantity_ := 500 }] },
             { bids_ := [{ price_ := 100, quantity_ := 1000 }], asks_ := [] },
             { bids_ := [], asks_ := [{ price_ := 100, quantity_ := 500 }] })) := by
  refine ⟨Reachable.afterAdds _ _ Reachable.empty (by decide), ?_, ?_, ?_, ?_, ?_⟩ <;> decide!

end TradingEngine
